import Mathlib

/-!
# Cuthill–McKee reordering (`exp/apps/cuthill/cuthill.cpp`)

A shallow embedding of the three phases of `CutHillUnordered::go`:

* `bfsFn`        – lock-free breadth-first distance assignment,
* `count_levels` – level histogram and offset tables,
* `placeFn`      – level-by-level placement into `perm`.

The placement is embedded twice: as the loops of a worker that runs alone
(`placeFn_op`, `placeStep`), and as the steps of all the workers that
`Galois::on_each` starts, taken in any order on the state they share (`workerStep`,
`ParStep`).

Nodes are the indices `0 .. G.length - 1` of the adjacency structure, node data
(`SNode`) is a map from node ids, the global vectors (`level_count`,
`read_offset`, `write_offset`, `perm`) are lists with checked indexing, and
`unsigned int` arithmetic is arithmetic modulo `UINT_MOD`.
-/

namespace Cuthill


/-! ## Machine integers -/

/-- Modulus of `unsigned int` arithmetic. -/
def UINT_MOD : Nat := 4294967296

/-- `static const unsigned int DIST_INFINITY = numeric_limits<unsigned int>::max() - 1`. -/
def DIST_INFINITY : Nat := (UINT_MOD - 1) - 1

/-- Result of an `unsigned int` operation whose mathematical value is `x`. -/
def wrap (x : Nat) : Nat := x % UINT_MOD

/-! ## Graph and node data -/

/-- `struct SNode`. -/
structure SNode where
  dist : Nat
  degree : Nat
  done : Bool
deriving DecidableEq, Repr

/-- Topology of the `LC_Linear_Graph`: entry `n` is the edge list of node `n`, in
iteration order of `edge_begin(n) .. edge_end(n)`. -/
abbrev Graph := List (List Nat)

/-- Destinations of the edges `edge_begin(n) .. edge_end(n)`. -/
def edges (G : Graph) (n : Nat) : List Nat := G.getD n []

/-- Every edge destination is a node of the graph. -/
def WF (G : Graph) : Prop := ∀ l ∈ G, ∀ m ∈ l, m < G.length

instance (G : Graph) : Decidable (WF G) := by
  unfold WF; infer_instance

/-- Node data of the whole graph (`graph.getData`). -/
abbrev NodeData := Nat → SNode

/-- Assignment `graph.getData(n).dist = d`. -/
def setDist (data : NodeData) (n d : Nat) : NodeData :=
  fun m => if m = n then { data m with dist := d } else data m

/-- Assignment `graph.getData(n).done = true`. -/
def setDone (data : NodeData) (n : Nat) : NodeData :=
  fun m => if m = n then { data m with done := true } else data m

/-- Function `initNode`, as the data it stores for node `n`. -/
def initNode (G : Graph) (n : Nat) : SNode :=
  { dist := DIST_INFINITY, done := false, degree := (edges G n).length }

/-- Node data after `Galois::do_all(graph.begin(), graph.end(), initNode)`. -/
def initGraph (G : Graph) : NodeData := fun n => initNode G n

/-! ## Phase 1: `bfsFn` -/

/-- One pass of the inner `while (true)` loop of `bfsFn::operator()` for the edge
to `dst`, taken at its linearisation point: either the load sees
`oldDist <= newDist`, or the compare-and-swap succeeds and `dst` is pushed. -/
def relaxEdge (newDist : Nat) (s : NodeData × List Nat) (dst : Nat) : NodeData × List Nat :=
  if (s.1 dst).dist ≤ newDist then s
  else (setDist s.1 dst newDist, s.2 ++ [dst])

/-- The value `newDist = data.dist + 1` read at the start of `bfsFn::operator()`. -/
def newDistOf (data : NodeData) (n : Nat) : Nat := wrap ((data n).dist + 1)

/-- Whole `bfsFn::operator()(n, ctx)` run without interference; the second
component is the work list receiving `ctx.push`. -/
def bfsFn_op (G : Graph) (n : Nat) (s : NodeData × List Nat) : NodeData × List Nat :=
  (edges G n).foldl (relaxEdge (newDistOf s.1 n)) s

/-- An invocation of `bfsFn::operator()` in flight: the `newDist` it read and the
edges it still has to visit. -/
structure BfsTask where
  newDist : Nat
  rest : List Nat
deriving DecidableEq, Repr

/-- State of `Galois::for_each(source, bfsFn())`. -/
structure BfsState where
  data : NodeData
  wl : List Nat
  active : List BfsTask

/-- State after `graph.getData(source).dist = 0` with the work list seeded with
`source`. -/
def bfsInit (G : Graph) (source : Nat) : BfsState :=
  { data := setDist (initGraph G) source 0, wl := [source], active := [] }

/-- Steps of the parallel loop: some worker dequeues any queued node, some worker
relaxes the next edge of its invocation, or an invocation with no edges left
returns. -/
inductive BfsStep (G : Graph) : BfsState → BfsState → Prop
  | dequeue (s : BfsState) (pre post : List Nat) (n : Nat) :
      s.wl = pre ++ n :: post →
      BfsStep G s { s with wl := pre ++ post,
                           active := ⟨newDistOf s.data n, edges G n⟩ :: s.active }
  | relax (s : BfsState) (pre post : List BfsTask) (nd dst : Nat) (rest : List Nat) :
      s.active = pre ++ ⟨nd, dst :: rest⟩ :: post →
      BfsStep G s { data := (relaxEdge nd (s.data, s.wl) dst).1,
                    wl := (relaxEdge nd (s.data, s.wl) dst).2,
                    active := pre ++ ⟨nd, rest⟩ :: post }
  | finish (s : BfsState) (pre post : List BfsTask) (nd : Nat) :
      s.active = pre ++ ⟨nd, []⟩ :: post →
      BfsStep G s { s with active := pre ++ post }

/-- States the loop can be in. -/
def BfsReach (G : Graph) (source : Nat) (s : BfsState) : Prop :=
  Relation.ReflTransGen (BfsStep G) (bfsInit G source) s

/-- The work list has drained and every invocation has returned. -/
def BfsDrained (s : BfsState) : Prop := s.wl = [] ∧ s.active = []

/-- A final state of `bfsFn::go(source)` under some schedule. -/
def BfsFinal (G : Graph) (source : Nat) (s : BfsState) : Prop :=
  BfsReach G source s ∧ BfsDrained s

/-- Single-worker FIFO schedule of the loop: `fuel` bounds the number of
invocations. -/
def bfsRun (G : Graph) : Nat → NodeData × List Nat → Option NodeData
  | _, (data, []) => some data
  | 0, (_, _ :: _) => none
  | fuel + 1, (data, n :: wl) => bfsRun G fuel (bfsFn_op G n (data, wl))

/-- Function `bfsFn::go(source)` under the single-worker FIFO schedule. -/
def bfsFn_go (G : Graph) (fuel : Nat) (source : Nat) : Option NodeData :=
  bfsRun G fuel (setDist (initGraph G) source 0, [source])

/-! ## Phase 2: `count_levels` -/

/-- `struct count_levels`. -/
structure count_levels where
  counts : List Nat
  lmaxdist : Nat
deriving DecidableEq, Repr

/-- `std::vector<unsigned>::resize(k)`. -/
def resize (l : List Nat) (k : Nat) : List Nat :=
  l.take k ++ List.replicate (k - l.length) 0

/-- `count_levels::operator()(n)`. -/
def count_levels.op (data : NodeData) (cl : count_levels) (n : Nat) : count_levels :=
  let d := (data n).dist
  let counts := if cl.counts.length ≤ d then resize cl.counts (wrap (d + 1)) else cl.counts
  let lmaxdist := if cl.lmaxdist < d then d else cl.lmaxdist
  { counts := counts.set d (wrap (counts.getD d 0 + 1)), lmaxdist := lmaxdist }

/-- `std::transform(src.begin(), src.end(), dest.begin(), dest.begin(), plus)`. -/
def transformPlus : List Nat → List Nat → List Nat
  | [], dest => dest
  | _ :: _, [] => []
  | x :: src, y :: dest => wrap (x + y) :: transformPlus src dest

/-- `count_levels::reduce(dest, src)`, returning the new `dest`. -/
def count_levels.reduce (dest src : count_levels) : count_levels :=
  let counts := if dest.counts.length < src.counts.length
                then resize dest.counts src.counts.length else dest.counts
  { counts := transformPlus src.counts counts,
    lmaxdist := max src.lmaxdist dest.lmaxdist }

/-- The running sums of `std::partial_sum` over `l`, continued from the running
value `acc`. -/
def partial_sum_from : Nat → List Nat → List Nat
  | _, [] => []
  | acc, x :: l => wrap (acc + x) :: partial_sum_from (wrap (acc + x)) l

/-- `std::partial_sum(level_count.begin(), level_count.end(), ...)`. -/
def partial_sum (l : List Nat) : List Nat := partial_sum_from 0 l

/-- The global tables written by `count_levels::go`. -/
structure Tables where
  max_dist : Nat
  level_count : List Nat
  read_offset : List Nat
  write_offset : List Nat
deriving DecidableEq, Repr

/-- Function `count_levels::go`: the reduction over all nodes run by one worker over
`graph.begin() .. graph.end()`, then the offset tables (all global tables start
empty). -/
def count_levels_go (G : Graph) (data : NodeData) : Tables :=
  let cl := (List.range G.length).foldl (count_levels.op data) { counts := [], lmaxdist := 0 }
  let read_offset := 0 :: partial_sum cl.counts
  { max_dist := cl.lmaxdist, level_count := cl.counts,
    read_offset := read_offset, write_offset := read_offset }

/-! ## Phase 3: `placeFn` -/

/-- `struct sortDegFn`: compares the numbers of outgoing edges. -/
def sortDegFn (G : Graph) (lhs rhs : Nat) : Bool :=
  decide ((edges G lhs).length < (edges G rhs).length)

/-- Contract of `std::sort(first, last, comp)` for the comparison `comp`: the range
is rearranged so that no element is `comp`-less than an earlier one. -/
def SortsBy (comp : Nat → Nat → Bool) (srt : List Nat → List Nat) : Prop :=
  ∀ l, (srt l).Perm l ∧ (srt l).Pairwise (fun a b => comp b a = false)

/-- A reference `std::sort`: insertion sort. -/
def insertSort (comp : Nat → Nat → Bool) (l : List Nat) : List Nat :=
  l.insertionSort (fun a b => comp b a = false)

/-- Ways in which a run does not return. -/
inductive Fault where
  /-- an index outside its vector (undefined behaviour) -/
  | oob
  /-- the busy-wait loop `while (start == (cend = *endp))` can never exit -/
  | spin
  /-- the step budget of the model ran out -/
  | nofuel
deriving DecidableEq, Repr

/-- Mutable state of the placement phase. The flag `past_end` is not a variable of the
program: it records that an index expression `perm[i]` with `i >= perm.size()` has been
evaluated to form an address (the arguments of `std::sort`), which the run survives. -/
structure PlaceState where
  data : NodeData
  perm : List Nat
  write_offset : List Nat
  past_end : Bool := false

/-- Checked read `v[i]`. -/
def readAt (v : List Nat) (i : Nat) : Except Fault Nat :=
  match v[i]? with
  | some x => .ok x
  | none => .error .oob

/-- Checked write `v[i] = x`. -/
def writeAt (v : List Nat) (i x : Nat) : Except Fault (List Nat) :=
  if i < v.length then .ok (v.set i x) else .error .oob

/-- Body of the neighbour loop of `placeFn::operator()` for the edge to `dst` at
level `n`; the second component is the local `t_wo`. -/
def scanEdge (n : Nat) (s : PlaceState × Nat) (dst : Nat) : Except Fault (PlaceState × Nat) :=
  if (!(s.1.data dst).done) && ((s.1.data dst).dist == wrap (n + 1)) then do
    let perm ← writeAt s.1.perm s.2 dst
    pure ({ s.1 with data := setDone s.1.data dst, perm := perm }, wrap (s.2 + 1))
  else pure s

/-- The neighbour loop over the edges of `next`. -/
def scanEdges (n : Nat) (s : PlaceState × Nat) : List Nat → Except Fault (PlaceState × Nat)
  | [] => pure s
  | dst :: rest => do
    let s ← scanEdge n s dst
    scanEdges n s rest

/-- The index expressions `perm[t_worig]` and `perm[t_wo]` in the arguments of
`std::sort(&perm[t_worig], &perm[t_wo], sortDegFn())`, as the checked accesses they are
for `operator[]`. -/
def sortArgs (perm : List Nat) (t_worig t_wo : Nat) : Except Fault Unit := do
  let _ ← readAt perm t_worig
  let _ ← readAt perm t_wo
  pure ()

/-- Whether one of the index expressions of `sortArgs` is outside `perm`. -/
def sortPastEnd (perm : List Nat) (t_worig t_wo : Nat) : Bool :=
  match sortArgs perm t_worig t_wo with
  | .ok _ => false
  | .error _ => true

/-- The effect of `std::sort(&perm[t_worig], &perm[t_wo], sortDegFn())` on `perm`: the
slots `t_worig .. t_wo - 1` are rearranged. Only the addresses of `perm[t_worig]` and
`perm[t_wo]` are used, so an index equal to `perm.size()` yields the one-past-the-end
address and the call goes on; that the index is outside the vector is recorded by
`sortPastEnd` where the call is made (`consume`, `workerStep`). -/
def sortSlice (srt : List Nat → List Nat) (perm : List Nat) (t_worig t_wo : Nat) : List Nat :=
  perm.take t_worig ++ srt ((perm.drop t_worig).take (t_wo - t_worig)) ++ perm.drop t_wo

/-- Body of `while (start != cend)`: consume `perm[start]`, append and sort its
batch, publish `write_offset[n+1]`. Returns the state and the new `t_wo`. The two index
expressions in the arguments of `std::sort` are checked and a miss is kept in
`past_end`. -/
def consume (G : Graph) (srt : List Nat → List Nat) (n start t_wo : Nat) (s : PlaceState) :
    Except Fault (PlaceState × Nat) := do
  let next ← readAt s.perm start
  let (s1, t_wo1) ← scanEdges n (s, t_wo) (edges G next)
  let perm := sortSlice srt s1.perm t_wo t_wo1
  let past := s1.past_end || sortPastEnd s1.perm t_wo t_wo1
  let wo ← writeAt s1.write_offset (wrap (n + 1)) t_wo1
  pure ({ s1 with perm := perm, write_offset := wo, past_end := past }, t_wo1)

/-- Locals of `placeFn::operator()` inside a level. -/
structure Locals where
  start : Nat
  t_wo : Nat
  todo : Nat
deriving DecidableEq, Repr

/-- Loop `while (start != cend)`; `k` bounds the iterations. -/
def innerLoop (G : Graph) (srt : List Nat → List Nat) (n cend : Nat) :
    Nat → Locals → PlaceState → Except Fault (PlaceState × Locals)
  | k, l, s =>
    if l.start = cend then pure (s, l)
    else match k with
      | 0 => .error .nofuel
      | k + 1 => do
        let (s1, t_wo1) ← consume G srt n l.start l.t_wo s
        innerLoop G srt n cend k
          { start := wrap (l.start + 1), t_wo := t_wo1, todo := wrap (l.todo + (UINT_MOD - 1)) } s1

/-- Loop `while (todo)` run by a worker that is alone: the busy-wait loop re-reads
`write_offset[n]`, which nobody else changes, so it exits at once or never.
`fuel` bounds the inner loop, `k` the iterations of this one. -/
def todoLoop (G : Graph) (srt : List Nat → List Nat) (fuel n : Nat) :
    Nat → Locals → PlaceState → Except Fault (PlaceState × Locals)
  | k, l, s =>
    if l.todo = 0 then pure (s, l)
    else match k with
      | 0 => .error .nofuel
      | k + 1 => do
        let cend ← readAt s.write_offset n
        if l.start = cend then .error .spin
        else do
          let (s1, l1) ← innerLoop G srt n cend fuel l s
          todoLoop G srt fuel n k l1 s1

/-- Loop `while (n < max_dist + 1)` of `placeFn::operator()(me, tot)`, entered with
the current `n`; `k` bounds the iterations. -/
def levelLoop (G : Graph) (srt : List Nat → List Nat) (T : Tables) (fuel tot : Nat) :
    Nat → Nat → PlaceState → Except Fault PlaceState
  | k, n, s =>
    if n < wrap (T.max_dist + 1) then
      match k with
      | 0 => .error .nofuel
      | k + 1 => do
        let start ← readAt T.read_offset n
        let t_wo ← readAt s.write_offset (wrap (n + 1))
        let todo ← readAt T.level_count n
        let (s1, _) ← todoLoop G srt fuel n fuel { start := start, t_wo := t_wo, todo := todo } s
        levelLoop G srt T fuel tot k (wrap (n + tot)) s1
    else pure s

/-- `placeFn::operator()(me, tot)`. -/
def placeFn_op (G : Graph) (srt : List Nat → List Nat) (T : Tables) (fuel me tot : Nat)
    (s : PlaceState) : Except Fault PlaceState :=
  levelLoop G srt T fuel tot fuel me s

/-- Function `placeFn::go(source)` with `Galois::on_each` running one worker
(`me = 0`, `tot = 1`), as a function with a step budget: on one worker a busy-wait that
finds nothing published can never end. The run with any number of workers is the
relation `ParStep` below. -/
def placeFn_go (G : Graph) (srt : List Nat → List Nat) (T : Tables) (fuel source : Nat)
    (data : NodeData) (perm : List Nat) : Except Fault PlaceState := do
  let perm ← writeAt perm 0 source
  let wo ← writeAt T.write_offset 0 1
  placeFn_op G srt T fuel 0 1 { data := data, perm := perm, write_offset := wo }

/-- The part of `CutHillUnordered::go(source)` after `bfsFn::go`: `count_levels::go`
then `placeFn::go`, on the node data `data` left by the distance assignment and the
vector `perm` as sized by `main`. -/
def reorder (G : Graph) (srt : List Nat → List Nat) (fuel source : Nat) (data : NodeData)
    (perm : List Nat) : Except Fault PlaceState :=
  placeFn_go G srt (count_levels_go G data) fuel source data perm

/-- `perm.resize(std::distance(graph.begin(), graph.end()))` on the empty global. -/
def permInit (G : Graph) : List Nat := List.replicate G.length 0

/-- Function `main` after the graph is loaded, under the single-worker FIFO schedule
of the distance assignment: `initNode` on every node, `perm.resize`, then
`CutHillUnordered::go(*graph.begin())`. -/
def main (G : Graph) (srt : List Nat → List Nat) (fuel : Nat) : Except Fault PlaceState :=
  match bfsFn_go G fuel 0 with
  | none => .error .nofuel
  | some data => reorder G srt fuel 0 data (permInit G)

/-! ## `placeFn::operator()` from loop test to loop test -/

/-- The loop test at which the worker stands in `placeFn::operator()`: the test of
`while (n < max_dist + 1)`, of `while (todo)` or of `while (start != cend)`, with the
values of its local variables, or the return. -/
inductive Pc where
  | level (n : Nat) : Pc
  | todo (n : Nat) (l : Locals) : Pc
  | inner (n cend : Nat) (l : Locals) : Pc
  | exit : Pc
  deriving DecidableEq, Repr

/-- The seeding of `placeFn::go`: `perm[0] = source; write_offset[0].data = 1`. -/
def placeSeed (T : Tables) (source : Nat) (data : NodeData) (perm : List Nat) :
    Except Fault PlaceState := do
  let perm ← writeAt perm 0 source
  let wo ← writeAt T.write_offset 0 1
  pure { data := data, perm := perm, write_offset := wo }

/-- A worker of stride `tot` that runs alone, from one loop test to the next. A pass of
the consume loop ends with the publication `write_offset[n+1].data = t_wo`; a busy-wait
that no write of this worker can end is the fault `spin`. The workers of
`Galois::on_each` running together are stepped by `workerStep` and `ParStep` below. -/
def placeStep (G : Graph) (srt : List Nat → List Nat) (T : Tables) (tot : Nat) :
    Pc × PlaceState → Except Fault (Pc × PlaceState)
  | (.level n, s) =>
    if n < wrap (T.max_dist + 1) then do
      let start ← readAt T.read_offset n
      let t_wo ← readAt s.write_offset (wrap (n + 1))
      let todo ← readAt T.level_count n
      pure (.todo n { start := start, t_wo := t_wo, todo := todo }, s)
    else pure (.exit, s)
  | (.todo n l, s) =>
    if l.todo = 0 then pure (.level (wrap (n + tot)), s)
    else do
      let cend ← readAt s.write_offset n
      if l.start = cend then .error .spin else pure (.inner n cend l, s)
  | (.inner n cend l, s) =>
    if l.start = cend then pure (.todo n l, s)
    else do
      let (s1, t_wo1) ← consume G srt n l.start l.t_wo s
      pure (.inner n cend { start := wrap (l.start + 1), t_wo := t_wo1,
                            todo := wrap (l.todo + (UINT_MOD - 1)) }, s1)
  | (.exit, s) => pure (.exit, s)

/-- The header of the level loop of `placeFn::operator()(me, tot)`:
`n = me; while (n < max_dist + 1) { ...; n += tot; }`. The list holds the values of `n`
with which the body is entered, as long as every body returns; `M` is `max_dist` and the
first argument bounds the number of passes. -/
def levelsVisited (M tot : Nat) : Nat → Nat → List Nat
  | 0, _ => []
  | k + 1, n => if n < wrap (M + 1) then n :: levelsVisited M tot k (wrap (n + tot)) else []

/-! ## `placeFn::go` with every worker of `Galois::on_each` -/

/-- The statement at which a worker stands in `placeFn::operator()(me, tot)`, with the
values of its local variables: the test of `while (n < max_dist + 1)`, of `while (todo)`
or of `while (start != cend)`; the neighbour loop `for (ii = edge_begin(next) ...)` with
the edges it has still to visit, `t_worig` and in `l.t_wo` the running `t_wo`; the
publication after `std::sort`; or the return. -/
inductive WPc where
  | level (n : Nat) : WPc
  | todo (n : Nat) (l : Locals) : WPc
  | inner (n cend : Nat) (l : Locals) : WPc
  | scan (n cend : Nat) (l : Locals) (t_worig : Nat) (rest : List Nat) : WPc
  | sorted (n cend : Nat) (l : Locals) : WPc
  | exit : WPc
  deriving DecidableEq, Repr

/-- One step of a worker of `placeFn::operator()(me, tot)` on the shared state. The steps
are: entering a level (the reads of `read_offset[n]`, `write_offset[n+1]`,
`level_count[n]`); the test of `while (todo)` with one evaluation of the busy-wait
condition `start == (cend = *endp)`, which leaves the worker where it is when nothing
new is published (`asmPause`, then the same test again); the test of
`while (start != cend)` with the read `next = perm[start]`; the body of the neighbour
loop for one edge; `std::sort` of the appended slice; and the publication
`write_offset[n+1].data = t_wo; ++start; --todo`. A step reads and writes the shared
state as it is when the step is taken; what the other workers do between two steps of
this one is left to `ParStep`. Of the cells a step touches, other workers write only
`write_offset[n]`, read once in a step of its own, and marks `done` of nodes with
`dist != n + 1`, for which the test of the neighbour loop fails whatever the mark. -/
def workerStep (G : Graph) (srt : List Nat → List Nat) (T : Tables) (tot : Nat) :
    WPc × PlaceState → Except Fault (WPc × PlaceState)
  | (.level n, s) =>
    if n < wrap (T.max_dist + 1) then do
      let start ← readAt T.read_offset n
      let t_wo ← readAt s.write_offset (wrap (n + 1))
      let todo ← readAt T.level_count n
      pure (.todo n { start := start, t_wo := t_wo, todo := todo }, s)
    else pure (.exit, s)
  | (.todo n l, s) =>
    if l.todo = 0 then pure (.level (wrap (n + tot)), s)
    else do
      let cend ← readAt s.write_offset n
      if l.start = cend then pure (.todo n l, s) else pure (.inner n cend l, s)
  | (.inner n cend l, s) =>
    if l.start = cend then pure (.todo n l, s)
    else do
      let next ← readAt s.perm l.start
      pure (.scan n cend l l.t_wo (edges G next), s)
  | (.scan n cend l t_worig (dst :: rest), s) => do
    let (s1, t_wo1) ← scanEdge n (s, l.t_wo) dst
    pure (.scan n cend { l with t_wo := t_wo1 } t_worig rest, s1)
  | (.scan n cend l t_worig [], s) =>
    pure (.sorted n cend l,
      { s with perm := sortSlice srt s.perm t_worig l.t_wo,
               past_end := s.past_end || sortPastEnd s.perm t_worig l.t_wo })
  | (.sorted n cend l, s) => do
    let wo ← writeAt s.write_offset (wrap (n + 1)) l.t_wo
    pure (.inner n cend { start := wrap (l.start + 1), t_wo := l.t_wo,
                          todo := wrap (l.todo + (UINT_MOD - 1)) },
          { s with write_offset := wo })
  | (.exit, s) => pure (.exit, s)

/-- State of `Galois::on_each(placeFn(), "place")`: where each worker stands (worker
`me` is entry `me` of `pcs`) and the state they share. -/
structure ParState where
  pcs : List WPc
  mem : PlaceState

/-- The state in which `placeFn::go` starts its `tot` workers, after the seeding: worker
`me` is about to test `while (n < max_dist + 1)` with `n = me`. -/
def parInit (tot : Nat) (s : PlaceState) : ParState :=
  { pcs := (List.range tot).map WPc.level, mem := s }

/-- Steps of the placement run by `tot` workers: any worker `me` takes its next step of
`placeFn::operator()(me, tot)` on the shared state. `Galois::on_each` is a function of
the runtime; it calls the operator once on every worker with the worker's number and
the number of workers, and the workers run concurrently: their steps are taken one at a
time, in any order, and each step sees the writes of the steps before it. -/
inductive ParStep (G : Graph) (srt : List Nat → List Nat) (T : Tables) (tot : Nat) :
    ParState → ParState → Prop
  | step (c : ParState) (me : Nat) (pc pc1 : WPc) (s1 : PlaceState) :
      c.pcs[me]? = some pc →
      workerStep G srt T tot (pc, c.mem) = .ok (pc1, s1) →
      ParStep G srt T tot c { pcs := c.pcs.set me pc1, mem := s1 }

/-- States the placement can be in when `tot` workers start from `c`. -/
def ParReach (G : Graph) (srt : List Nat → List Nat) (T : Tables) (tot : Nat)
    (c c1 : ParState) : Prop :=
  Relation.ReflTransGen (ParStep G srt T tot) c c1

/-- Every worker has returned from `placeFn::operator()`. -/
def ParFinal (c : ParState) : Prop := ∀ pc ∈ c.pcs, pc = WPc.exit

/-- The part of `CutHillUnordered::go(source)` after `bfsFn::go`, with `tot` workers:
`count_levels::go()`, then `placeFn::go(source)`, whose seeding and worker steps have
led to the state `c`; `data` is the node data left by the distance assignment and `perm`
the vector as sized by `main`. -/
def GoReach (G : Graph) (srt : List Nat → List Nat) (tot source : Nat) (data : NodeData)
    (perm : List Nat) (c : ParState) : Prop :=
  ∃ s0, placeSeed (count_levels_go G data) source data perm = .ok s0 ∧
    ParReach G srt (count_levels_go G data) tot (parInit tot s0) c

/-! ## Specification: walks, counts, invariants, example inputs -/

/-- `Walk G source v k`: there is a sequence of `k` edges leading from `source` to `v`. -/
inductive Walk (G : Graph) (source : Nat) : Nat → Nat → Prop
  | nil : Walk G source source 0
  | snoc {u v k : Nat} : Walk G source u k → v ∈ edges G u → Walk G source v (k + 1)

/-- Node `v` is reachable from `source`. -/
def Reachable (G : Graph) (source v : Nat) : Prop := ∃ k, Walk G source v k

/-- `d` is the shortest-path hop count from `source` to `v`. -/
def IsHopCount (G : Graph) (source v d : Nat) : Prop :=
  Walk G source v d ∧ ∀ k, Walk G source v k → d ≤ k

/-- Invariant of every state of the parallel loop. -/
structure BfsInv (G : Graph) (source : Nat) (s : BfsState) : Prop where
  le_inf : ∀ v, (s.data v).dist ≤ DIST_INFINITY
  src : (s.data source).dist = 0
  walk : ∀ v, (s.data v).dist < DIST_INFINITY → Walk G source v (s.data v).dist
  task : ∀ t ∈ s.active, ∃ u k, t.newDist = k + 1 ∧ Walk G source u k ∧
    ∀ x ∈ t.rest, x ∈ edges G u
  queued : ∀ n ∈ s.wl, (s.data n).dist < DIST_INFINITY
  pending : ∀ u, (s.data u).dist < DIST_INFINITY →
    u ∈ s.wl ∨
    (∃ t ∈ s.active, t.newDist = (s.data u).dist + 1 ∧
      ∀ v ∈ edges G u, v ∈ t.rest ∨ (s.data v).dist ≤ (s.data u).dist + 1) ∨
    (∀ v ∈ edges G u, (s.data v).dist ≤ (s.data u).dist + 1)
  notdone : ∀ v, (s.data v).done = false

/-- What every final state of the distance assignment satisfies. -/
structure BfsPost (G : Graph) (source : Nat) (data : NodeData) : Prop where
  le_inf : ∀ v, (data v).dist ≤ DIST_INFINITY
  src : (data source).dist = 0
  walk : ∀ v, (data v).dist < DIST_INFINITY → Walk G source v (data v).dist
  relaxed : ∀ u, (data u).dist < DIST_INFINITY →
    ∀ v ∈ edges G u, (data v).dist ≤ (data u).dist + 1
  notdone : ∀ v, (data v).done = false

/-- Node data left by the single-worker FIFO schedule (the initial data if `fuel` is
too small). -/
def bfsResult (G : Graph) (fuel source : Nat) : NodeData :=
  (bfsFn_go G fuel source).getD (initGraph G)

/-- Number of nodes of the graph whose `dist` is `k`. -/
def cntEq (G : Graph) (data : NodeData) (k : Nat) : Nat :=
  (List.range G.length).countP (fun v => decide ((data v).dist = k))

/-- Number of nodes of the graph whose `dist` is below `k`. -/
def cntLt (G : Graph) (data : NodeData) (k : Nat) : Nat :=
  (List.range G.length).countP (fun v => decide ((data v).dist < k))

/-- State of the accumulator after the nodes `ns` have been counted. -/
structure CountInv (data : NodeData) (ns : List Nat) (cl : count_levels) : Prop where
  counts : ∀ k, cl.counts.getD k 0 = ns.countP (fun v => decide ((data v).dist = k))
  len : ns ≠ [] → cl.counts.length = cl.lmaxdist + 1
  empty : ns = [] → cl.counts = [] ∧ cl.lmaxdist = 0
  max_ge : ∀ v ∈ ns, (data v).dist ≤ cl.lmaxdist
  max_at : ns ≠ [] → ∃ v ∈ ns, (data v).dist = cl.lmaxdist

/-- What `count_levels::go` leaves in the global tables. -/
structure TablesOk (G : Graph) (data : NodeData) (T : Tables) : Prop where
  level_count_len : T.level_count.length = T.max_dist + 1
  level_count : ∀ k, T.level_count.getD k 0 = cntEq G data k
  read_offset_len : T.read_offset.length = T.max_dist + 2
  read_offset : ∀ k, k ≤ T.max_dist + 1 → T.read_offset[k]? = some (cntLt G data k)
  write_offset : T.write_offset = T.read_offset
  max_ge : ∀ v, v < G.length → (data v).dist ≤ T.max_dist
  max_at : ∃ v, v < G.length ∧ (data v).dist = T.max_dist

/-- What the placement phase needs of the distances it starts from. -/
structure Levelled (G : Graph) (source : Nat) (data0 : NodeData) : Prop where
  wf : WF G
  size : G.length < UINT_MOD
  src_lt : source < G.length
  zero_iff : ∀ v, (data0 v).dist = 0 ↔ v = source
  pred : ∀ v j, v < G.length → (data0 v).dist = j + 1 →
    ∃ u, u < G.length ∧ (data0 u).dist = j ∧ v ∈ edges G u
  relaxed : ∀ u v, v ∈ edges G u → (data0 v).dist ≤ (data0 u).dist + 1
  lt_len : ∀ v, v < G.length → (data0 v).dist < G.length
  notdone : ∀ v, (data0 v).done = false

/-- Invariant of the placement while level `n` is consumed: `start` is the next slot
to consume and `t_wo` the next slot to write. -/
structure Core (G : Graph) (data0 : NodeData) (n start t_wo : Nat) (s : PlaceState) : Prop where
  dist_eq : ∀ v, (s.data v).dist = (data0 v).dist
  perm_len : s.perm.length = G.length
  t_wo_le : t_wo ≤ G.length
  base_le : cntLt G data0 (n + 1) ≤ t_wo
  nodup : (s.perm.take t_wo).Nodup
  mem : ∀ v, v ∈ s.perm.take t_wo ↔
    v < G.length ∧ ((data0 v).dist ≤ n ∨ ((data0 v).dist = n + 1 ∧ (s.data v).done = true))
  low : ∀ k, k ≤ n + 1 → ∀ v, v ∈ s.perm.take (cntLt G data0 k) ↔
    v < G.length ∧ (data0 v).dist < k
  fresh : ∀ v, n + 1 < (data0 v).dist → (s.data v).done = false
  seen : ∀ j b, cntLt G data0 n ≤ j → j < start → s.perm[j]? = some b →
    ∀ v ∈ edges G b, (data0 v).dist = n + 1 → (s.data v).done = true
  parent : ∀ i a, 0 < i → i < t_wo → s.perm[i]? = some a →
    ∃ j b, j < i ∧ s.perm[j]? = some b ∧ a ∈ edges G b
  marked : ∀ v, v < G.length → 0 < (data0 v).dist → (data0 v).dist ≤ n →
    (s.data v).done = true
  unmarked : ∀ v, (data0 v).dist = 0 → (s.data v).done = false

/-- The batches already appended and sorted: the batch of the node consumed at slot
`i` is the slice `cut i .. cut (i+1)` of `perm`. -/
structure Cuts (G : Graph) (start : Nat) (cut : Nat → Nat) (perm : List Nat) : Prop where
  zero : cut 0 = 1
  mono : ∀ i j, i ≤ j → j ≤ start → cut i ≤ cut j
  batch : ∀ i j a, i < start → cut i ≤ j → j < cut (i + 1) → perm[j]? = some a →
    ∃ b, perm[i]? = some b ∧ a ∈ edges G b ∧
      ∀ i' b', i' < i → perm[i']? = some b' → a ∉ edges G b'
  sorted : ∀ i j1 j2 a1 a2, i < start → cut i ≤ j1 → j1 < j2 → j2 < cut (i + 1) →
    perm[j1]? = some a1 → perm[j2]? = some a2 →
    (edges G a1).length ≤ (edges G a2).length

/-- The batch being appended while the node `next` at slot `start` is scanned. -/
structure Prog (G : Graph) (start t_worig t_wo next : Nat) (perm : List Nat) : Prop where
  le : t_worig ≤ t_wo
  batch : ∀ j a, t_worig ≤ j → j < t_wo → perm[j]? = some a →
    a ∈ edges G next ∧ ∀ i' b', i' < start → perm[i']? = some b' → a ∉ edges G b'

/-- State of `write_offset` while level `n` is consumed, `M` being `max_dist`. -/
structure WInv (G : Graph) (data0 : NodeData) (M n t_wo : Nat) (s : PlaceState) : Prop where
  len : s.write_offset.length = M + 2
  above : ∀ k, n + 1 < k → k ≤ M + 1 → s.write_offset[k]? = some (cntLt G data0 k)
  here : s.write_offset[n]? = some (cntLt G data0 (n + 1))
  next : s.write_offset[n + 1]? = some t_wo

/-- State of `write_offset` when the worker enters level `n`. -/
structure LInv (G : Graph) (data0 : NodeData) (M n : Nat) (s : PlaceState) : Prop where
  len : s.write_offset.length = M + 2
  above : ∀ k, n < k → k ≤ M + 1 → s.write_offset[k]? = some (cntLt G data0 k)
  here : n ≤ M → s.write_offset[n]? = some (cntLt G data0 (n + 1))

/-- What the placement phase leaves behind. -/
structure Placed (G : Graph) (source : Nat) (data0 : NodeData) (p : PlaceState) : Prop where
  dist_eq : ∀ v, (p.data v).dist = (data0 v).dist
  perm_len : p.perm.length = G.length
  nodup : p.perm.Nodup
  mem : ∀ v, v ∈ p.perm ↔ v < G.length
  low : ∀ k v, v ∈ p.perm.take (cntLt G data0 k) ↔ v < G.length ∧ (data0 v).dist < k
  parent : ∀ i a, 0 < i → p.perm[i]? = some a →
    ∃ j b, j < i ∧ p.perm[j]? = some b ∧ a ∈ edges G b
  cuts : ∃ cut, Cuts G G.length cut p.perm ∧ cut G.length = G.length
  marked : ∀ v, v < G.length → v ≠ source → (p.data v).done = true
  unmarked : (p.data source).done = false

/-- What the neighbour loop does to the vectors, whatever the node data: it leaves
`write_offset` and the slots below `t_wo` alone. -/
structure ScanFrame (s s' : PlaceState) (t t' : Nat) : Prop where
  wo : s'.write_offset = s.write_offset
  len : s'.perm.length = s.perm.length
  low : ∀ j, j < t → s'.perm[j]? = s.perm[j]?
  le : t ≤ t'
  bound : t ≤ s.perm.length → t' ≤ s.perm.length
  same : s.perm.length < t → s'.perm = s.perm ∧ t' = t

/-- What one pass of `while (start != cend)` does to the vectors. -/
structure StepFrame (n : Nat) (s s' : PlaceState) (t t' : Nat) : Prop where
  wo : s'.write_offset = s.write_offset.set (wrap (n + 1)) t'
  len : s'.perm.length = s.perm.length
  low : ∀ j, j < t → j < s.perm.length → s'.perm[j]? = s.perm[j]?
  le : t ≤ t'
  bound : t ≤ s.perm.length → t' ≤ s.perm.length

/-- What the loops of one level do to the vectors. -/
structure LevelFrame (n : Nat) (s s' : PlaceState) : Prop where
  wo_len : s'.write_offset.length = s.write_offset.length
  wo : ∀ j, j ≠ wrap (n + 1) → s'.write_offset[j]? = s.write_offset[j]?
  len : s'.perm.length = s.perm.length

/-- Slot `0` of `perm` holds the source and every write cursor but the first is past it. -/
structure FirstInv (source : Nat) (s : PlaceState) : Prop where
  pos : 0 < s.perm.length
  lt : s.perm.length < UINT_MOD
  first : s.perm[0]? = some source
  wo : ∀ k x, 1 ≤ k → s.write_offset[k]? = some x → 1 ≤ x

/-- A small connected symmetric graph: a triangle `0 1 2` with a pendant node `3`. -/
def kiteGraph : Graph := [[1, 2], [0, 2, 3], [0, 1], [1]]

/-- Source `0` has the neighbours `1` (five edges) and `2` (two edges), listed in that
order. -/
def degreeGraph : Graph := [[1, 2], [0, 3, 4, 5, 6], [0, 3], [1, 2], [1], [1], [1]]

/-- Two disjoint triangles `0 1 2` and `3 4 5`. -/
def twoTriangles : Graph := [[1, 2], [0, 2], [0, 1], [4, 5], [3, 5], [3, 4]]

/-- Two nodes and no edge. -/
def twoIsolated : Graph := [[], []]

/-- One node and no edge. -/
def singleNode : Graph := [[]]

/-- The reference sort with the comparison of `sortDegFn`. -/
def degSort (G : Graph) : List Nat → List Nat := insertSort (sortDegFn G)

/-- A single-worker schedule of the loop that dequeues the entry at position `pick wl`
(modulo the length) of the work list `wl`. -/
def bfsRunBy (G : Graph) (pick : List Nat → Nat) : Nat → NodeData × List Nat → Option NodeData
  | _, (data, []) => some data
  | 0, (_, _ :: _) => none
  | fuel + 1, (data, n :: wl) =>
    bfsRunBy G pick fuel
      (bfsFn_op G ((n :: wl).getD (pick (n :: wl) % (wl.length + 1)) n)
        (data, (n :: wl).eraseIdx (pick (n :: wl) % (wl.length + 1))))

/-- Node data left by the schedule `pick` (the initial data if `fuel` is too small). -/
def bfsResultBy (G : Graph) (pick : List Nat → Nat) (fuel source : Nat) : NodeData :=
  (bfsRunBy G pick fuel (setDist (initGraph G) source 0, [source])).getD (initGraph G)

/-- The schedule that always dequeues the entry pushed last. -/
def pickLast (wl : List Nat) : Nat := wl.length - 1

/-- A run of `do_all_impl` over the node range, as seen by `count_levels`: a worker
accumulates a chunk of nodes with `operator()` into a value-initialised `count_levels`, and
two partial results are merged by `reduce(dest, src)`. -/
inductive Merge where
  | chunk (ns : List Nat) : Merge
  | join (dest src : Merge) : Merge

/-- The nodes a reduction tree hands to `operator()`, chunk by chunk. -/
def Merge.nodes : Merge → List Nat
  | .chunk ns => ns
  | .join dest src => dest.nodes ++ src.nodes

/-- The partial result of a reduction tree. -/
def Merge.eval (data : NodeData) : Merge → count_levels
  | .chunk ns => ns.foldl (count_levels.op data) { counts := [], lmaxdist := 0 }
  | .join dest src => count_levels.reduce (dest.eval data) (src.eval data)

/-- The tail of `count_levels::go`: the tables built from the reduced `count_levels`. -/
def tablesOf (cl : count_levels) : Tables :=
  { max_dist := cl.lmaxdist, level_count := cl.counts,
    read_offset := 0 :: partial_sum cl.counts,
    write_offset := 0 :: partial_sum cl.counts }

/-- The star with centre `0` and leaves `1`, `2`, `3`. -/
def starGraph : Graph := [[1, 2, 3], [0], [0], [0]]

/-- The symmetric path graph on the nodes `0 .. k-1` with the edges `i - (i+1)`. -/
def pathGraph (k : Nat) : Graph :=
  (List.range k).map (fun i =>
    (if 0 < i then [i - 1] else []) ++ (if i + 1 < k then [i + 1] else []))

/-- `BfsSteps G k s t`: an execution of `k` steps of the work-list loop leads from `s`
to `t`. -/
inductive BfsSteps (G : Graph) : Nat → BfsState → BfsState → Prop
  | refl (s : BfsState) : BfsSteps G 0 s s
  | step {k : Nat} {s t u : BfsState} : BfsStep G s t → BfsSteps G k t u → BfsSteps G (k + 1) s u

/-- The longest adjacency list. -/
def maxDeg (G : Graph) : Nat := (G.map List.length).foldr max 0

/-- The sum of the `dist` fields of the nodes of the graph. -/
def distSum (G : Graph) (data : NodeData) : Nat :=
  ((List.range G.length).map (fun v => (data v).dist)).sum

/-- The work left in a state: every unit of `dist` still to lose pays for one push, every
queued node for one dequeue and the scan of its adjacency list, every call in flight for
its remaining edges and its return. -/
def bfsMeasure (G : Graph) (s : BfsState) : Nat :=
  distSum G s.data * (maxDeg G + 3) + s.wl.length * (maxDeg G + 2) +
    (s.active.map (fun t => t.rest.length + 1)).sum

/-- `PlaceReach G srt T tot c c'`: the worker gets from `c` to `c'`. -/
def PlaceReach (G : Graph) (srt : List Nat → List Nat) (T : Tables) (tot : Nat)
    (c c' : Pc × PlaceState) : Prop :=
  Relation.ReflTransGen (fun a b => placeStep G srt T tot a = .ok b) c c'

/-- The number of slots of `perm` the single worker has consumed when it stands at a
loop test: it consumes the slots in increasing order. -/
def cursor (T : Tables) : Pc → Nat
  | .level n => T.read_offset.getD n 0
  | .todo _ l => l.start
  | .inner _ _ l => l.start
  | .exit => T.read_offset.getD (T.max_dist + 1) 0

/-- The worker `(0, 1)` inside level `n`, `M` being `max_dist`. -/
structure Mid (G : Graph) (data0 : NodeData) (M n : Nat) (l : Locals) (s : PlaceState) :
    Prop where
  lo : cntLt G data0 n ≤ l.start
  hi : l.start ≤ cntLt G data0 (n + 1)
  todo : l.todo = cntLt G data0 (n + 1) - l.start
  core : Core G data0 n l.start l.t_wo s
  cuts : ∃ cut, Cuts G l.start cut s.perm ∧ cut l.start = l.t_wo
  wo : WInv G data0 M n l.t_wo s
  below : ∀ k, k ≤ n → s.write_offset[k]? = some (cntLt G data0 (k + 1))

/-- The worker `(0, 1)` at the test of the level loop with `n`. -/
structure AtLevel (G : Graph) (data0 : NodeData) (M n : Nat) (s : PlaceState) : Prop where
  core : Core G data0 n (cntLt G data0 n) (cntLt G data0 (n + 1)) s
  cuts : ∃ cut, Cuts G (cntLt G data0 n) cut s.perm ∧
    cut (cntLt G data0 n) = cntLt G data0 (n + 1)
  len : s.write_offset.length = M + 2
  above : ∀ k, n < k → k ≤ M + 1 → s.write_offset[k]? = some (cntLt G data0 k)
  below : ∀ k, k ≤ n → k ≤ M + 1 → s.write_offset[k]? = some (cntLt G data0 (k + 1))

/-- The invariant of the single worker on a graph all of whose nodes are reachable. -/
def PlaceInv (G : Graph) (data0 : NodeData) (M : Nat) : Pc × PlaceState → Prop
  | (.level n, s) => n ≤ M + 1 ∧ AtLevel G data0 M n s
  | (.todo n l, s) => n ≤ M ∧ Mid G data0 M n l s
  | (.inner n cend l, s) => n ≤ M ∧ cend = cntLt G data0 (n + 1) ∧ Mid G data0 M n l s
  | (.exit, s) => AtLevel G data0 M (M + 1) s

/-- The slots `a .. b-1` of `perm`. -/
def slots (perm : List Nat) (a b : Nat) : List Nat := (perm.drop a).take (b - a)

/-- The slots of level `k` written so far, `w` being the write cursor of the level: they
hold distinct marked nodes of level `k`. -/
structure Slot (G : Graph) (data0 : NodeData) (k w : Nat) (s : PlaceState) : Prop where
  lo : cntLt G data0 k ≤ w
  hi : w ≤ G.length
  nodup : (slots s.perm (cntLt G data0 k) w).Nodup
  mem : ∀ v ∈ slots s.perm (cntLt G data0 k) w,
    v < G.length ∧ (data0 v).dist = k ∧ (s.data v).done = true

/-- The levels `1 .. M+1` with their write cursors `W`. -/
structure BoundW (G : Graph) (data0 : NodeData) (M : Nat) (W : Nat → Nat) (s : PlaceState) :
    Prop where
  dist_eq : ∀ v, (s.data v).dist = (data0 v).dist
  perm_len : s.perm.length = G.length
  slot : ∀ k, 1 ≤ k → k ≤ M + 1 → Slot G data0 k (W k) s

/-- What holds at every loop test of a worker, whatever its stride: the published cursors
are the write cursors of `BoundW`, and inside level `n` the local `t_wo` is the published
`write_offset[n+1]`. -/
def BoundAt (G : Graph) (data0 : NodeData) (M : Nat) : Pc × PlaceState → Prop
  | (pc, s) =>
    (∃ W, BoundW G data0 M W s ∧
      ∀ k, 1 ≤ k → k ≤ M + 1 → s.write_offset[k]? = some (W k)) ∧
    s.write_offset.length = M + 2 ∧ s.write_offset[0]? = some 1 ∧
    match pc with
    | .todo n l => n ≤ M ∧ s.write_offset[n + 1]? = some l.t_wo
    | .inner n _ l => n ≤ M ∧ s.write_offset[n + 1]? = some l.t_wo
    | _ => True

/-- The level whose slots the worker is consuming, if it is inside a level. -/
def levelOf : Pc → Option Nat
  | .todo n _ => some n
  | .inner n _ _ => some n
  | _ => none

/-- Where a worker of stride `tot` that started with level `me` can stand. -/
def Striped (M me tot : Nat) : Pc → Prop
  | .level n => n % tot = me ∧ n ≤ M + tot
  | .todo n _ => n % tot = me ∧ n ≤ M
  | .inner n _ _ => n % tot = me ∧ n ≤ M
  | .exit => True

/-- The number of slots of `perm` written when the single worker stands at a loop test:
the newest cursor, published (`write_offset`) or local (`t_wo`). -/
def written (T : Tables) : Pc × PlaceState → Nat
  | (.level n, s) => s.write_offset.getD n 0
  | (.todo _ l, _) => l.t_wo
  | (.inner _ _ l, _) => l.t_wo
  | (.exit, s) => s.write_offset.getD (T.max_dist + 1) 0

/-- Refinement reference, from the words of the claim: the classical algorithm scans the
adjacency list of the node it has taken and appends the entries not yet visited, in
adjacency order, marking each as it is appended. The result is the appended batch and the
visited nodes after the scan. -/
def cmScan : List Nat → List Nat → List Nat × List Nat
  | visited, [] => ([], visited)
  | visited, x :: rest =>
    if x ∈ visited then cmScan visited rest
    else (x :: (cmScan (x :: visited) rest).1, (cmScan (x :: visited) rest).2)

/-- Refinement reference, from the words of the claim: the classical single-queue loop.
With `out` the output so far and `i` the index of the next node to take: take `out[i]`,
append the batch of its unvisited adjacency entries sorted by `srt`, go on with `i + 1`;
stop when the output is exhausted. The first argument bounds the number of passes. -/
def cmLoop (G : Graph) (srt : List Nat → List Nat) :
    Nat → Nat → List Nat → List Nat → List Nat
  | 0, _, out, _ => out
  | k + 1, i, out, visited =>
    match out[i]? with
    | none => out
    | some next =>
      cmLoop G srt k (i + 1) (out ++ srt (cmScan visited (edges G next)).1)
        (cmScan visited (edges G next)).2

/-- Refinement reference, from the words of the claim: classical Cuthill-McKee from
`source`: start with `[source]` marked visited and run the single-queue loop; a graph of
`G.length` nodes needs at most `G.length` passes. -/
def cuthillMcKee (G : Graph) (srt : List Nat → List Nat) (source : Nat) : List Nat :=
  cmLoop G srt G.length 0 [source] [source]

/-- The simulation of the classical algorithm by the placement: with `I` slots consumed
and `W` slots written, the classical loop continued from the written slots ends with the
classical order. -/
def Sim (G : Graph) (srt : List Nat → List Nat) (source I W : Nat) (perm : List Nat) : Prop :=
  ∃ vis, (∀ v, v ∈ vis ↔ v ∈ perm.take W) ∧
    cmLoop G srt (G.length - I) I (perm.take W) vis = cuthillMcKee G srt source

/-- The simulation at the loop tests of the single worker. -/
def RefAt (G : Graph) (srt : List Nat → List Nat) (source : Nat) (data0 : NodeData) :
    Pc × PlaceState → Prop
  | (.level n, s) => Sim G srt source (cntLt G data0 n) (cntLt G data0 (n + 1)) s.perm
  | (.todo _ l, s) => Sim G srt source l.start l.t_wo s.perm
  | (.inner _ _ l, s) => Sim G srt source l.start l.t_wo s.perm
  | (.exit, s) => Sim G srt source G.length G.length s.perm

/-- The single worker, started from the seeded state `s0`, stands at the test of
`while (start != cend)` in level `k` with the locals `l` and the state `s`. -/
def SeqAt (G : Graph) (srt : List Nat → List Nat) (T : Tables) (s0 : PlaceState)
    (k : Nat) (l : Locals) (s : PlaceState) : Prop :=
  ∃ cend, PlaceReach G srt T 1 (.level 0, s0) (.inner k cend l, s)

/-- What the worker owning level `k` is doing about that level: it has not entered it
(`idle false`), it has left it (`idle true`), or it stands inside it. -/
inductive Stage where
  | idle (fin : Bool) : Stage
  | todo (l : Locals) : Stage
  | inner (cend : Nat) (l : Locals) : Stage
  | scan (cend : Nat) (l : Locals) (t_worig : Nat) (rest : List Nat) : Stage
  | sorted (cend : Nat) (l : Locals) : Stage

/-- The stage of level `k` for a worker standing at `pc`. -/
def stageOf (k : Nat) : WPc → Stage
  | .level n => .idle (decide (k < n))
  | .todo n l => if n = k then .todo l else .idle (decide (k < n))
  | .inner n cend l => if n = k then .inner cend l else .idle (decide (k < n))
  | .scan n cend l t rest => if n = k then .scan cend l t rest else .idle (decide (k < n))
  | .sorted n cend l => if n = k then .sorted cend l else .idle (decide (k < n))
  | .exit => .idle true

/-- The level in which a worker stands, and a bound on the levels it may still test. -/
def Owned (M tot me : Nat) : WPc → Prop
  | .level n => n % tot = me ∧ n ≤ M + tot
  | .todo n _ => n % tot = me ∧ n ≤ M
  | .inner n _ _ => n % tot = me ∧ n ≤ M
  | .scan n _ _ _ _ => n % tot = me ∧ n ≤ M
  | .sorted n _ _ => n % tot = me ∧ n ≤ M
  | .exit => True

/-- The shared state `S` and the state `s` of the single worker agree on what the
consumer of level `k` owns: the slots of level `k + 1` below the cursor `t` and the marks
of the nodes of level `k + 1`. -/
structure Agree (G : Graph) (data0 : NodeData) (k t : Nat) (S s : PlaceState) : Prop where
  perm : ∀ j, cntLt G data0 (k + 1) ≤ j → j < t → S.perm[j]? = s.perm[j]?
  done : ∀ v, v < G.length → (data0 v).dist = k + 1 → (S.data v).done = (s.data v).done

/-- Level `k` in the shared state `S`, by the stage of its owner: the owner has done to
its part of the state exactly what the single worker has done at the same point of
level `k`. -/
def LevelOk (G : Graph) (srt : List Nat → List Nat) (T : Tables) (s0 : PlaceState)
    (data0 : NodeData) (k : Nat) (S : PlaceState) : Stage → Prop
  | .idle fin => ∃ l s, SeqAt G srt T s0 k l s ∧
      l.start = (if fin then cntLt G data0 (k + 1) else cntLt G data0 k) ∧
      S.write_offset[k + 1]? = some l.t_wo ∧ Agree G data0 k l.t_wo S s
  | .todo l => ∃ s, SeqAt G srt T s0 k l s ∧
      S.write_offset[k + 1]? = some l.t_wo ∧ Agree G data0 k l.t_wo S s ∧
      ∃ w, S.write_offset[k]? = some w ∧ l.start ≤ w
  | .inner cend l => ∃ s, SeqAt G srt T s0 k l s ∧
      S.write_offset[k + 1]? = some l.t_wo ∧ Agree G data0 k l.t_wo S s ∧
      l.start ≤ cend ∧ ∃ w, S.write_offset[k]? = some w ∧ cend ≤ w
  | .scan cend l tw rest => ∃ s s1 pre next,
      SeqAt G srt T s0 k { start := l.start, t_wo := tw, todo := l.todo } s ∧
      l.start < cntLt G data0 (k + 1) ∧ l.start < cend ∧
      (∃ w, S.write_offset[k]? = some w ∧ cend ≤ w) ∧
      s.perm[l.start]? = some next ∧ edges G next = pre ++ rest ∧
      scanEdges k (s, tw) pre = .ok (s1, l.t_wo) ∧
      S.write_offset[k + 1]? = some tw ∧ tw ≤ l.t_wo ∧ l.t_wo ≤ cntLt G data0 (k + 2) ∧
      Agree G data0 k l.t_wo S s1
  | .sorted cend l => ∃ s s1 tw,
      SeqAt G srt T s0 k { start := l.start, t_wo := tw, todo := l.todo } s ∧
      l.start < cntLt G data0 (k + 1) ∧ l.start < cend ∧
      (∃ w, S.write_offset[k]? = some w ∧ cend ≤ w) ∧
      consume G srt k l.start tw s = .ok (s1, l.t_wo) ∧
      S.write_offset[k + 1]? = some tw ∧ tw ≤ l.t_wo ∧ l.t_wo ≤ cntLt G data0 (k + 2) ∧
      Agree G data0 k l.t_wo S s1

/-- What a step of the consumer of level `n` leaves alone: the slots outside level
`n + 1`, the marks of the nodes of other levels, and `write_offset` but for the cursor
`write_offset[n+1]`, which does not decrease. -/
structure Frame (G : Graph) (data0 : NodeData) (n : Nat) (S S' : PlaceState) : Prop where
  perm : ∀ j, (j < cntLt G data0 (n + 1) ∨ cntLt G data0 (n + 2) ≤ j) →
    S'.perm[j]? = S.perm[j]?
  done : ∀ v, v < G.length → (data0 v).dist ≠ n + 1 → (S'.data v).done = (S.data v).done
  wo : ∀ j, j ≠ n + 1 → S'.write_offset[j]? = S.write_offset[j]?
  wo_mono : ∀ w, S.write_offset[n + 1]? = some w →
    ∃ w', S'.write_offset[n + 1]? = some w' ∧ w ≤ w'

/-- The run of the single worker that the workers are compared with: distances that
level the graph, the tables of `count_levels::go`, the seeded state `s0` and the state
`p` in which the single worker returns. -/
structure SeqCtx (G : Graph) (srt : List Nat → List Nat) (source : Nat) (data0 : NodeData)
    (T : Tables) (s0 p : PlaceState) : Prop where
  lev : Levelled G source data0
  sorts : SortsBy (sortDegFn G) srt
  tab : TablesOk G data0 T
  init : PlaceInv G data0 T.max_dist (.level 0, s0)
  fin : PlaceReach G srt T 1 (.level 0, s0) (.exit, p)

/-- The invariant of the placement run by `tot` workers on a graph all of whose nodes are
reachable: every level is in the state in which the single worker has it at the same
point of that level. -/
structure ParInv (G : Graph) (srt : List Nat → List Nat) (source : Nat) (data0 : NodeData)
    (T : Tables) (s0 : PlaceState) (tot : Nat) (c : ParState) : Prop where
  pcs_len : c.pcs.length = tot
  perm_len : c.mem.perm.length = G.length
  wo_len : c.mem.write_offset.length = T.max_dist + 2
  dist_eq : ∀ v, (c.mem.data v).dist = (data0 v).dist
  wo_zero : c.mem.write_offset[0]? = some 1
  first : c.mem.perm[0]? = some source
  unmarked : (c.mem.data source).done = false
  owned : ∀ me pc, c.pcs[me]? = some pc → Owned T.max_dist tot me pc
  levels : ∀ k, k ≤ T.max_dist → ∀ pc, c.pcs[k % tot]? = some pc →
    LevelOk G srt T s0 data0 k c.mem (stageOf k pc)

/-- The slots of level `k` below the published cursor `write_offset[k]` hold the order in
which the single worker returns them. -/
def PubOk (G : Graph) (data0 : NodeData) (p : PlaceState) (k : Nat) (S : PlaceState) : Prop :=
  ∃ w, S.write_offset[k]? = some w ∧ cntLt G data0 k ≤ w ∧ w ≤ cntLt G data0 (k + 1) ∧
    ∀ j, cntLt G data0 k ≤ j → j < w → S.perm[j]? = p.perm[j]?

/-- A bound on the number of steps a worker standing at `pc` can still take, not
counting the evaluations of the busy-wait that find nothing published. -/
def wMeasure (G : Graph) (T : Tables) : WPc → Nat
  | .exit => 0
  | .level n => (T.max_dist + 2 - n) * (G.length * (maxDeg G + 6) + 4) + 1
  | .todo n l =>
    (T.max_dist + 1 - n) * (G.length * (maxDeg G + 6) + 4) + l.todo * (maxDeg G + 6) + 3
  | .inner n cend l =>
    (T.max_dist + 1 - n) * (G.length * (maxDeg G + 6) + 4) + l.todo * (maxDeg G + 6) +
      (if l.start = cend then 4 else 2)
  | .scan n _ l _ rest =>
    (T.max_dist + 1 - n) * (G.length * (maxDeg G + 6) + 4) + (l.todo - 1) * (maxDeg G + 6) +
      rest.length + 6
  | .sorted n _ l =>
    (T.max_dist + 1 - n) * (G.length * (maxDeg G + 6) + 4) + (l.todo - 1) * (maxDeg G + 6) + 5

/-- The bound for all workers together. -/
def parMeasure (G : Graph) (T : Tables) (c : ParState) : Nat :=
  (c.pcs.map (wMeasure G T)).sum

/-- The level in which a worker stands, if it has not returned. -/
def wlevel : WPc → Option Nat
  | .level n => some n
  | .todo n _ => some n
  | .inner n _ _ => some n
  | .scan n _ _ _ _ => some n
  | .sorted n _ _ => some n
  | .exit => none

/-- Number of nodes of the graph with `dist == k` whose `done` flag is set. -/
def doneCnt (G : Graph) (data : NodeData) (k : Nat) : Nat :=
  (List.range G.length).countP (fun v => decide ((data v).dist = k) && (data v).done)

/-- The write cursor a worker holds in its local `t_wo`: it is at least `1`, and it has
advanced from the first slot of its level by no more than the number of marked nodes of
that level. -/
def LocalOk (G : Graph) (data0 : NodeData) (M : Nat) (S : PlaceState) : WPc → Prop
  | .level _ => True
  | .todo n l =>
    n ≤ M ∧ 1 ≤ l.t_wo ∧ l.t_wo ≤ cntLt G data0 (n + 1) + doneCnt G S.data (n + 1)
  | .inner n _ l =>
    n ≤ M ∧ 1 ≤ l.t_wo ∧ l.t_wo ≤ cntLt G data0 (n + 1) + doneCnt G S.data (n + 1)
  | .scan n _ l tw rest =>
    n ≤ M ∧ 1 ≤ tw ∧ tw ≤ l.t_wo ∧
      l.t_wo ≤ cntLt G data0 (n + 1) + doneCnt G S.data (n + 1) ∧ ∀ d ∈ rest, d < G.length
  | .sorted n _ l =>
    n ≤ M ∧ 1 ≤ l.t_wo ∧ l.t_wo ≤ cntLt G data0 (n + 1) + doneCnt G S.data (n + 1)
  | .exit => True

/-- What holds in every state of the workers, on every graph and for every number of
workers: the vectors keep their lengths, slot `0` and `write_offset[0]` keep their seeds,
and no write cursor, published or local, leaves the slots of its level. -/
structure GenInv (G : Graph) (source : Nat) (data0 : NodeData) (M : Nat) (c : ParState) :
    Prop where
  perm_len : c.mem.perm.length = G.length
  wo_len : c.mem.write_offset.length = M + 2
  dist_eq : ∀ v, (c.mem.data v).dist = (data0 v).dist
  first : c.mem.perm[0]? = some source
  wo_zero : c.mem.write_offset[0]? = some 1
  cursors : ∀ k w, 1 ≤ k → c.mem.write_offset[k]? = some w →
    1 ≤ w ∧ w ≤ cntLt G data0 k + doneCnt G c.mem.data k
  locals : ∀ pc, pc ∈ c.pcs → LocalOk G data0 M c.mem pc

/-- The write cursor of level `k + 1` at a stage of level `k`: the local `t_wo` of the
owner standing in the level, else the published `write_offset[k+1]`. -/
def stageCursor (k : Nat) (S : PlaceState) : Stage → Nat
  | .idle _ => S.write_offset.getD (k + 1) 0
  | .todo l => l.t_wo
  | .inner _ l => l.t_wo
  | .scan _ l _ _ => l.t_wo
  | .sorted _ l => l.t_wo

/-- The level into whose slots a worker writes, with its local write cursor. -/
def wcursor : WPc → Option (Nat × Nat)
  | .todo n l => some (n + 1, l.t_wo)
  | .inner n _ l => some (n + 1, l.t_wo)
  | .scan n _ l _ _ => some (n + 1, l.t_wo)
  | .sorted n _ l => some (n + 1, l.t_wo)
  | .level _ => none
  | .exit => none

/-- Slot `j` of `perm` has been written: it is a slot of some level `k`, from
`read_offset[k]` on, below the published cursor `write_offset[k]` or below the local
`t_wo` of a worker that writes into level `k`. -/
def ParWritten (T : Tables) (c : ParState) (j : Nat) : Prop :=
  ∃ k, T.read_offset.getD k 0 ≤ j ∧
    (j < c.mem.write_offset.getD k 0 ∨
      ∃ pc t, pc ∈ c.pcs ∧ wcursor pc = some (k, t) ∧ j < t)

/-- The first slot of level `k` that a worker standing at `pc` has not consumed, if it is
the worker that consumes level `k`. -/
def levelCursor (T : Tables) (k : Nat) (pc : WPc) : Nat :=
  match stageOf k pc with
  | .idle false => T.read_offset.getD k 0
  | .idle true => T.read_offset.getD (k + 1) 0
  | .todo l => l.start
  | .inner _ l => l.start
  | .scan _ l _ _ => l.start
  | .sorted _ l => l.start

/-- The placement `placeFn::go` on `data` and `perm`, run by `tot` workers, ends in states
that satisfy `P`, however the steps of the workers interleave: some run ends; in every
state the workers reach, every worker can take its next step (no access of that step
misses its vector), a step either changes nothing (an evaluation of the busy-wait that
finds nothing published, or a step of a worker that has returned) or lowers the bound
`parMeasure` on the steps left, some step that lowers it is possible as long as a
worker has not returned, and so all the workers can still return; and in every state in
which all the workers have returned the shared state satisfies `P`. -/
def GoEnds (G : Graph) (srt : List Nat → List Nat) (tot source : Nat) (data : NodeData)
    (perm : List Nat) (P : PlaceState → Prop) : Prop :=
  (∃ c, GoReach G srt tot source data perm c ∧ ParFinal c) ∧
  (∀ c, GoReach G srt tot source data perm c →
    (∀ (me : Nat) (pc : WPc), c.pcs[me]? = some pc →
      ∃ r, workerStep G srt (count_levels_go G data) tot (pc, c.mem) = .ok r) ∧
    (∀ c', ParStep G srt (count_levels_go G data) tot c c' →
      c' = c ∨ parMeasure G (count_levels_go G data) c' <
        parMeasure G (count_levels_go G data) c) ∧
    (¬ ParFinal c → ∃ c', ParStep G srt (count_levels_go G data) tot c c' ∧
      parMeasure G (count_levels_go G data) c' < parMeasure G (count_levels_go G data) c) ∧
    ∃ c', ParReach G srt (count_levels_go G data) tot c c' ∧ ParFinal c') ∧
  ∀ c, GoReach G srt tot source data perm c → ParFinal c → P c.mem

/-- Before the worker that consumes the last level `M` (whose first slot is `R`) has
made its first call of `std::sort` in that level, or with the record `past_end` set. -/
def PastDue (M R : Nat) (S : PlaceState) : WPc → Prop
  | .level n => n ≤ M ∨ S.past_end = true
  | .todo n l => n < M ∨ (n = M ∧ l.start = R) ∨ S.past_end = true
  | .inner n _ l => n < M ∨ (n = M ∧ l.start = R) ∨ S.past_end = true
  | .scan _ _ _ _ _ => True
  | .sorted n _ _ => n < M ∨ S.past_end = true
  | .exit => S.past_end = true

/-- No worker at `pc` is on its way to the publication `write_offset[D].data = t_wo`: a
worker inside a level `n` has `n <= D`, and with `n + 1 == D` it has nothing to do. -/
def NoPublish (D : Nat) : WPc → Prop
  | .level _ => True
  | .todo n l => n ≤ D ∧ (n + 1 = D → l.todo = 0)
  | .inner n _ _ => n ≤ D ∧ n + 1 ≠ D
  | .scan n _ _ _ _ => n ≤ D ∧ n + 1 ≠ D
  | .sorted n _ _ => n ≤ D ∧ n + 1 ≠ D
  | .exit => True

/-- The worker that owns level `D` has not got past the busy-wait of that level: it is
in a level below `D`, or it waits in level `D` with `start` at the first slot `R` of the
level and `todo != 0`. -/
def Stuck (D R tot : Nat) : WPc → Prop
  | .level n => n ≤ D ∧ n % tot = D % tot
  | .todo n l => n % tot = D % tot ∧ (n < D ∨ (n = D ∧ l.start = R ∧ l.todo ≠ 0))
  | .inner n _ _ => n % tot = D % tot ∧ n < D
  | .scan n _ _ _ _ => n % tot = D % tot ∧ n < D
  | .sorted n _ _ => n % tot = D % tot ∧ n < D
  | .exit => False

/-- Level `D` is never fed: its cursor `write_offset[D]` stays at the first slot `R` of
the level, no worker is about to move it, and the owner of the level waits. -/
structure HangAt (D R tot : Nat) (c : ParState) : Prop where
  pcs_len : c.pcs.length = tot
  cursor : c.mem.write_offset[D]? = some R
  nopub : ∀ pc, pc ∈ c.pcs → NoPublish D pc
  stuck : ∀ pc, c.pcs[D % tot]? = some pc → Stuck D R tot pc

/-! # Theorems -/

/-! ## Basic facts -/

theorem wrap_of_lt {x : Nat} (h : x < UINT_MOD) : wrap x = x := Nat.mod_eq_of_lt h

theorem dist_infinity_val : DIST_INFINITY = 4294967294 := by decide

theorem uint_mod_val : UINT_MOD = 4294967296 := rfl

@[simp] theorem setDist_dist (data : NodeData) (n d m : Nat) :
    (setDist data n d m).dist = if m = n then d else (data m).dist := by
  unfold setDist; split <;> rfl

@[simp] theorem setDist_done (data : NodeData) (n d m : Nat) :
    (setDist data n d m).done = (data m).done := by
  unfold setDist; split <;> rfl

@[simp] theorem setDone_dist (data : NodeData) (n m : Nat) :
    (setDone data n m).dist = (data m).dist := by
  unfold setDone; split <;> rfl

@[simp] theorem setDone_done (data : NodeData) (n m : Nat) :
    (setDone data n m).done = if m = n then true else (data m).done := by
  unfold setDone; split <;> rfl

theorem edges_lt {G : Graph} (hwf : WF G) {u v : Nat} (h : v ∈ edges G u) : v < G.length := by
  unfold edges at h
  rw [List.getD_eq_getElem?_getD] at h
  by_cases hu : u < G.length
  · rw [List.getElem?_eq_getElem hu] at h
    exact hwf _ (List.getElem_mem hu) _ h
  · rw [List.getElem?_eq_none (by omega)] at h
    simp at h

theorem edges_src_lt {G : Graph} {u v : Nat} (h : v ∈ edges G u) : u < G.length := by
  unfold edges at h
  rw [List.getD_eq_getElem?_getD] at h
  by_contra hu
  rw [List.getElem?_eq_none (by omega)] at h
  simp at h

/-! ## Walks and hop counts -/

theorem Walk.lt {G : Graph} (hwf : WF G) {source : Nat} (hs : source < G.length) {v k : Nat}
    (h : Walk G source v k) : v < G.length := by
  cases h with
  | nil => exact hs
  | snoc _ he => exact edges_lt hwf he

theorem walk_zero {G : Graph} {source v : Nat} (h : Walk G source v 0) : v = source := by
  cases h; rfl

theorem walk_succ {G : Graph} {source v k : Nat} (h : Walk G source v (k + 1)) :
    ∃ u, Walk G source u k ∧ v ∈ edges G u := by
  cases h with
  | snoc hw he => exact ⟨_, hw, he⟩

/-! ## Invariant of the distance assignment -/

theorem bfsInv_init (G : Graph) (source : Nat) : BfsInv G source (bfsInit G source) := by
  refine ⟨?_, ?_, ?_, ?_, ?_, ?_, ?_⟩
  · intro v
    simp only [bfsInit, setDist_dist, initGraph, initNode]
    split <;> simp
  · simp [bfsInit]
  · intro v hv
    simp only [bfsInit, setDist_dist, initGraph, initNode] at hv ⊢
    by_cases h : v = source
    · subst h; simp; exact Walk.nil
    · simp [h] at hv
  · intro t ht; simp [bfsInit] at ht
  · intro n hn
    simp only [bfsInit, List.mem_singleton] at hn
    subst hn
    simp [bfsInit, dist_infinity_val]
  · intro u hu
    simp only [bfsInit, setDist_dist, initGraph, initNode] at hu
    by_cases h : u = source
    · left; simp [bfsInit, h]
    · simp [h] at hu
  · intro v; simp [bfsInit, initGraph, initNode]

theorem bfsInv_step {G : Graph} {source : Nat} {s s' : BfsState}
    (hinv : BfsInv G source s) (hstep : BfsStep G s s') : BfsInv G source s' := by
  cases hstep with
  | dequeue pre post n hwl =>
    have hn : (s.data n).dist < DIST_INFINITY := hinv.queued n (by simp [hwl])
    have hnd : newDistOf s.data n = (s.data n).dist + 1 := by
      unfold newDistOf
      apply wrap_of_lt
      rw [dist_infinity_val] at hn; rw [uint_mod_val]; omega
    refine ⟨hinv.le_inf, hinv.src, hinv.walk, ?_, ?_, ?_, hinv.notdone⟩
    · intro t ht
      simp only [List.mem_cons] at ht
      rcases ht with rfl | ht
      · exact ⟨n, (s.data n).dist, hnd, hinv.walk n hn, fun x hx => hx⟩
      · exact hinv.task t ht
    · intro m hm
      apply hinv.queued
      simp only [List.mem_append] at hm
      rw [hwl]; simp only [List.mem_append, List.mem_cons]; tauto
    · intro u hu
      rcases hinv.pending u hu with h | ⟨t, ht, h1, h2⟩ | h
      · rw [hwl] at h
        simp only [List.mem_append, List.mem_cons] at h
        by_cases hun : u = n
        · subst hun
          right; left
          exact ⟨_, List.mem_cons_self _ _, hnd, fun v hv => Or.inl hv⟩
        · left
          simp only [List.mem_append]; tauto
      · right; left
        exact ⟨t, List.mem_cons_of_mem _ ht, h1, h2⟩
      · right; right; exact h
  | relax pre post nd dst rest hact =>
    have htask := hinv.task ⟨nd, dst :: rest⟩ (by simp [hact])
    obtain ⟨u0, k0, hk0, hw0, hrest0⟩ := htask
    simp only at hk0 hrest0
    by_cases hle : (s.data dst).dist ≤ nd
    · -- the load sees `oldDist <= newDist`
      have hrel : relaxEdge nd (s.data, s.wl) dst = (s.data, s.wl) := by
        simp [relaxEdge, hle]
      simp only [hrel]
      refine ⟨hinv.le_inf, hinv.src, hinv.walk, ?_, hinv.queued, ?_, hinv.notdone⟩
      · intro t ht
        simp only [List.mem_append, List.mem_cons] at ht
        rcases ht with ht | rfl | ht
        · exact hinv.task t (by simp [hact, ht])
        · exact ⟨u0, k0, hk0, hw0, fun x hx => hrest0 x (List.mem_cons_of_mem _ hx)⟩
        · exact hinv.task t (by simp [hact, ht])
      · intro u hu
        rcases hinv.pending u hu with h | ⟨t, ht, h1, h2⟩ | h
        · left; exact h
        · right; left
          rw [hact] at ht
          simp only [List.mem_append, List.mem_cons] at ht
          rcases ht with ht | rfl | ht
          · exact ⟨t, by simp [ht], h1, h2⟩
          · refine ⟨⟨nd, rest⟩, by simp, h1, ?_⟩
            intro v hv
            rcases h2 v hv with h3 | h3
            · simp only [List.mem_cons] at h3
              rcases h3 with rfl | h3
              · right; simp only at h1
                show (s.data v).dist ≤ (s.data u).dist + 1
                omega
              · left; exact h3
            · right; exact h3
          · exact ⟨t, by simp [ht], h1, h2⟩
        · right; right; exact h
    · -- the compare-and-swap succeeds
      have hrel : relaxEdge nd (s.data, s.wl) dst = (setDist s.data dst nd, s.wl ++ [dst]) := by
        simp [relaxEdge, hle]
      simp only [hrel]
      have hlt : nd < (s.data dst).dist := by omega
      have hdinf := hinv.le_inf dst
      have hsrc_ne : dst ≠ source := by
        intro h; subst h; rw [hinv.src] at hlt; omega
      refine ⟨?_, ?_, ?_, ?_, ?_, ?_, ?_⟩
      · intro v
        simp only [setDist_dist]
        split
        · omega
        · exact hinv.le_inf v
      · simp only [setDist_dist]
        rw [if_neg (Ne.symm hsrc_ne)]
        exact hinv.src
      · intro v hv
        simp only [setDist_dist] at hv ⊢
        by_cases hvd : v = dst
        · subst hvd
          simp only [if_true]
          rw [hk0]
          exact Walk.snoc hw0 (hrest0 _ (List.mem_cons_self _ _))
        · simp only [hvd, if_false] at hv ⊢
          exact hinv.walk v hv
      · intro t ht
        simp only [List.mem_append, List.mem_cons] at ht
        rcases ht with ht | rfl | ht
        · exact hinv.task t (by simp [hact, ht])
        · exact ⟨u0, k0, hk0, hw0, fun x hx => hrest0 x (List.mem_cons_of_mem _ hx)⟩
        · exact hinv.task t (by simp [hact, ht])
      · intro m hm
        simp only [List.mem_append, List.mem_singleton] at hm
        simp only [setDist_dist]
        split
        · omega
        · rcases hm with hm | hm
          · exact hinv.queued m hm
          · contradiction
      · intro u hu
        simp only [setDist_dist] at hu ⊢
        by_cases hud : u = dst
        · left; simp [hud]
        · simp only [hud, if_false] at hu ⊢
          -- distances of other nodes only went down
          have hmono : ∀ v b, (s.data v).dist ≤ b → (if v = dst then nd else (s.data v).dist) ≤ b := by
            intro v b hb
            split
            · subst_vars; omega
            · exact hb
          rcases hinv.pending u hu with h | ⟨t, ht, h1, h2⟩ | h
          · left; simp [h]
          · right; left
            rw [hact] at ht
            simp only [List.mem_append, List.mem_cons] at ht
            rcases ht with ht | rfl | ht
            · refine ⟨t, by simp [ht], h1, fun v hv => ?_⟩
              rcases h2 v hv with h3 | h3
              · left; exact h3
              · right; exact hmono v _ h3
            · refine ⟨⟨nd, rest⟩, by simp, h1, fun v hv => ?_⟩
              rcases h2 v hv with h3 | h3
              · simp only [List.mem_cons] at h3
                rcases h3 with rfl | h3
                · right; simp only at h1; simp; omega
                · left; exact h3
              · right; exact hmono v _ h3
            · refine ⟨t, by simp [ht], h1, fun v hv => ?_⟩
              rcases h2 v hv with h3 | h3
              · left; exact h3
              · right; exact hmono v _ h3
          · right; right
            intro v hv
            exact hmono v _ (h v hv)
      · intro v; simp only [setDist_done]; exact hinv.notdone v
  | finish pre post nd hact =>
    refine ⟨hinv.le_inf, hinv.src, hinv.walk, ?_, hinv.queued, ?_, hinv.notdone⟩
    · intro t ht
      simp only [List.mem_append] at ht
      apply hinv.task t
      rw [hact]; simp only [List.mem_append, List.mem_cons]; tauto
    · intro u hu
      rcases hinv.pending u hu with h | ⟨t, ht, h1, h2⟩ | h
      · left; exact h
      · rw [hact] at ht
        simp only [List.mem_append, List.mem_cons] at ht
        rcases ht with ht | rfl | ht
        · right; left; exact ⟨t, by simp [ht], h1, h2⟩
        · right; right
          intro v hv
          rcases h2 v hv with h3 | h3
          · simp at h3
          · exact h3
        · right; left; exact ⟨t, by simp [ht], h1, h2⟩
      · right; right; exact h

theorem bfsInv_reach {G : Graph} {source : Nat} {s : BfsState}
    (h : BfsReach G source s) : BfsInv G source s := by
  unfold BfsReach at h
  induction h with
  | refl => exact bfsInv_init G source
  | tail _ hstep ih => exact bfsInv_step ih hstep

/-! ## Distances left by the distance assignment -/

theorem bfsPost_of_final {G : Graph} {source : Nat} {s : BfsState}
    (h : BfsFinal G source s) : BfsPost G source s.data := by
  obtain ⟨hreach, hwl, hact⟩ := h
  have hinv := bfsInv_reach hreach
  refine ⟨hinv.le_inf, hinv.src, hinv.walk, ?_, hinv.notdone⟩
  intro u hu
  rcases hinv.pending u hu with h | ⟨t, ht, _, _⟩ | h
  · rw [hwl] at h; simp at h
  · rw [hact] at ht; simp at ht
  · exact h

namespace BfsPost

variable {G : Graph} {source : Nat} {data : NodeData}

theorem dist_le_walk (h : BfsPost G source data) {v k : Nat} (hw : Walk G source v k) :
    (data v).dist ≤ k := by
  induction hw with
  | nil => rw [h.src]
  | snoc hw he ih =>
    rename_i u v k
    by_cases hu : (data u).dist < DIST_INFINITY
    · have := h.relaxed u hu v he
      omega
    · have := h.le_inf v
      omega

theorem pred (h : BfsPost G source data) {v j : Nat} (hv : (data v).dist = j + 1)
    (hfin : (data v).dist < DIST_INFINITY) :
    ∃ u, u < G.length ∧ (data u).dist = j ∧ v ∈ edges G u := by
  have hw := h.walk v hfin
  rw [hv] at hw
  obtain ⟨u, hwu, he⟩ := walk_succ hw
  have h1 := h.dist_le_walk hwu
  have h2 := h.relaxed u (by omega) v he
  exact ⟨u, edges_src_lt he, by omega, he⟩

theorem zero_iff (h : BfsPost G source data) (v : Nat) :
    (data v).dist = 0 ↔ v = source := by
  constructor
  · intro hv
    have hw := h.walk v (by rw [hv, dist_infinity_val]; omega)
    rw [hv] at hw
    exact walk_zero hw
  · rintro rfl; exact h.src

theorem populated (h : BfsPost G source data) (hs : source < G.length) :
    ∀ j v, (data v).dist = j → j < DIST_INFINITY → v < G.length →
      ∀ i, i ≤ j → ∃ x, x < G.length ∧ (data x).dist = i := by
  intro j
  induction j with
  | zero =>
    intro v _ _ _ i hi
    exact ⟨source, hs, by rw [h.src]; omega⟩
  | succ j ih =>
    intro v hv hj hvN i hi
    by_cases hij : i = j + 1
    · exact ⟨v, hvN, by omega⟩
    · obtain ⟨u, hu, hdu, _⟩ := h.pred hv (by omega)
      exact ih u hdu (by omega) hu i (by omega)

/-- A finite distance is smaller than the number of nodes. -/
theorem finite_lt_length (h : BfsPost G source data) (hs : source < G.length) {v : Nat}
    (hv : v < G.length) (hfin : (data v).dist < DIST_INFINITY) :
    (data v).dist < G.length := by
  have hp := h.populated hs _ v rfl hfin hv
  choose f hf using hp
  let g : Nat → Nat := fun i => if hi : i ≤ (data v).dist then f i hi else 0
  have hcard := Finset.card_le_card_of_injOn (s := Finset.range ((data v).dist + 1))
    (t := Finset.range G.length) g ?_ ?_
  · simpa using hcard
  · intro i hi
    have hi' : i ≤ (data v).dist := by
      have := Finset.mem_range.mp hi; omega
    simp only [g, dif_pos hi']
    exact Finset.mem_range.mpr (hf i hi').1
  · intro i hi j hj hij
    have hi' : i ≤ (data v).dist := by
      have := Finset.mem_range.mp hi; omega
    have hj' : j ≤ (data v).dist := by
      have := Finset.mem_range.mp hj; omega
    simp only [g, dif_pos hi', dif_pos hj'] at hij
    have h1 := (hf i hi').2
    have h2 := (hf j hj').2
    rw [hij] at h1
    omega

/-- With fewer than `DIST_INFINITY` nodes, every reachable node gets a finite distance. -/
theorem finite_of_walk (h : BfsPost G source data) (hwf : WF G) (hs : source < G.length)
    (hsize : G.length < DIST_INFINITY) {v k : Nat} (hw : Walk G source v k) :
    (data v).dist < DIST_INFINITY := by
  induction hw with
  | nil => rw [h.src, dist_infinity_val]; omega
  | snoc hw he ih =>
    rename_i u v k
    have h1 := h.relaxed u ih v he
    have h2 := h.finite_lt_length hs (hw.lt hwf hs) ih
    omega

theorem isHopCount (h : BfsPost G source data) (hwf : WF G) (hs : source < G.length)
    (hsize : G.length < DIST_INFINITY) {v : Nat} (hr : Reachable G source v) :
    IsHopCount G source v (data v).dist := by
  obtain ⟨k, hw⟩ := hr
  exact ⟨h.walk v (h.finite_of_walk hwf hs hsize hw), fun k hk => h.dist_le_walk hk⟩

theorem infinite_of_unreachable (h : BfsPost G source data) {v : Nat}
    (hr : ¬ Reachable G source v) : (data v).dist = DIST_INFINITY := by
  by_contra hne
  have := h.le_inf v
  exact hr ⟨_, h.walk v (by omega)⟩

end BfsPost

theorem isHopCount_unique {G : Graph} {source v d d' : Nat}
    (h : IsHopCount G source v d) (h' : IsHopCount G source v d') : d = d' :=
  Nat.le_antisymm (h.2 _ h'.1) (h'.2 _ h.1)

/-! ## The FIFO schedule is one of the schedules -/

theorem bfsStep_relax_all (G : Graph) (nd : Nat) :
    ∀ (es : List Nat) (data : NodeData) (wl : List Nat),
      Relation.ReflTransGen (BfsStep G) ⟨data, wl, [⟨nd, es⟩]⟩
        ⟨(es.foldl (relaxEdge nd) (data, wl)).1, (es.foldl (relaxEdge nd) (data, wl)).2,
          [⟨nd, []⟩]⟩ := by
  intro es
  induction es with
  | nil => intro data wl; exact Relation.ReflTransGen.refl
  | cons e es ih =>
    intro data wl
    have h1 : BfsStep G ⟨data, wl, [⟨nd, e :: es⟩]⟩ _ :=
      BfsStep.relax ⟨data, wl, [⟨nd, e :: es⟩]⟩ [] [] nd e es rfl
    refine Relation.ReflTransGen.head h1 ?_
    simpa using ih (relaxEdge nd (data, wl) e).1 (relaxEdge nd (data, wl) e).2

theorem bfsStep_op (G : Graph) (data : NodeData) (n : Nat) (wl : List Nat) :
    Relation.ReflTransGen (BfsStep G) ⟨data, n :: wl, []⟩
      ⟨(bfsFn_op G n (data, wl)).1, (bfsFn_op G n (data, wl)).2, []⟩ := by
  have h1 : BfsStep G ⟨data, n :: wl, []⟩ _ :=
    BfsStep.dequeue ⟨data, n :: wl, []⟩ [] wl n rfl
  refine Relation.ReflTransGen.head h1 ?_
  refine Relation.ReflTransGen.trans
    (by simpa using bfsStep_relax_all G (newDistOf data n) (edges G n) data wl) ?_
  have h2 : BfsStep G ⟨(bfsFn_op G n (data, wl)).1, (bfsFn_op G n (data, wl)).2,
      [⟨newDistOf data n, []⟩]⟩ _ :=
    BfsStep.finish _ [] [] (newDistOf data n) rfl
  exact Relation.ReflTransGen.single h2

theorem bfsRun_steps (G : Graph) :
    ∀ (fuel : Nat) (data : NodeData) (wl : List Nat) (d : NodeData),
      bfsRun G fuel (data, wl) = some d →
      Relation.ReflTransGen (BfsStep G) ⟨data, wl, []⟩ ⟨d, [], []⟩ := by
  intro fuel
  induction fuel with
  | zero =>
    intro data wl d h
    cases wl with
    | nil => simp [bfsRun] at h; subst h; exact Relation.ReflTransGen.refl
    | cons n wl => simp [bfsRun] at h
  | succ fuel ih =>
    intro data wl d h
    cases wl with
    | nil => simp [bfsRun] at h; subst h; exact Relation.ReflTransGen.refl
    | cons n wl =>
      simp only [bfsRun] at h
      refine Relation.ReflTransGen.trans (bfsStep_op G data n wl) ?_
      exact ih _ _ d h

theorem bfsFinal_of_run {G : Graph} {fuel source : Nat}
    (h : (bfsFn_go G fuel source).isSome = true) :
    BfsFinal G source ⟨bfsResult G fuel source, [], []⟩ := by
  obtain ⟨d, hd⟩ := Option.isSome_iff_exists.mp h
  have hres : bfsResult G fuel source = d := by simp [bfsResult, hd]
  rw [hres]
  exact ⟨bfsRun_steps G fuel _ _ d hd, rfl, rfl⟩

/-! ## The level histogram -/

theorem countP_lt_succ (δ : Nat → Nat) (l : List Nat) (k : Nat) :
    l.countP (fun v => decide (δ v < k + 1)) =
      l.countP (fun v => decide (δ v < k)) + l.countP (fun v => decide (δ v = k)) := by
  induction l with
  | nil => simp
  | cons a l ih =>
    simp only [List.countP_cons, ih]
    by_cases h1 : δ a < k
    · have h2 : δ a < k + 1 := by omega
      have h3 : ¬ δ a = k := by omega
      simp [h1, h2, h3]; omega
    · by_cases h3 : δ a = k
      · have h2 : δ a < k + 1 := by omega
        simp [h1, h2, h3]; omega
      · have h2 : ¬ δ a < k + 1 := by omega
        simp [h1, h2, h3]

theorem cntLt_succ (G : Graph) (data : NodeData) (k : Nat) :
    cntLt G data (k + 1) = cntLt G data k + cntEq G data k :=
  countP_lt_succ (fun v => (data v).dist) _ k

theorem cntLt_zero (G : Graph) (data : NodeData) : cntLt G data 0 = 0 := by
  simp [cntLt]

theorem cntLt_le (G : Graph) (data : NodeData) (k : Nat) : cntLt G data k ≤ G.length := by
  unfold cntLt
  simpa using List.countP_le_length (l := List.range G.length)
    (fun v => decide ((data v).dist < k))

theorem cntEq_le (G : Graph) (data : NodeData) (k : Nat) : cntEq G data k ≤ G.length := by
  unfold cntEq
  simpa using List.countP_le_length (l := List.range G.length)
    (fun v => decide ((data v).dist = k))

theorem cntLt_mono (G : Graph) (data : NodeData) {j k : Nat} (h : j ≤ k) :
    cntLt G data j ≤ cntLt G data k := by
  induction h with
  | refl => exact Nat.le_refl _
  | step _ ih => rw [cntLt_succ]; omega

theorem cntEq_pos {G : Graph} {data : NodeData} {v : Nat} (hv : v < G.length) :
    0 < cntEq G data (data v).dist := by
  unfold cntEq
  rw [List.countP_pos_iff]
  exact ⟨v, List.mem_range.mpr hv, by simp⟩

theorem cntEq_eq_zero {G : Graph} {data : NodeData} {k : Nat}
    (h : ∀ v, v < G.length → (data v).dist ≠ k) : cntEq G data k = 0 := by
  unfold cntEq
  rw [List.countP_eq_zero]
  intro v hv
  simpa using h v (List.mem_range.mp hv)

theorem cntLt_eq_length {G : Graph} {data : NodeData} {k : Nat}
    (h : ∀ v, v < G.length → (data v).dist < k) : cntLt G data k = G.length := by
  unfold cntLt
  rw [List.countP_eq_length.mpr]
  · simp
  · intro v hv
    simpa using h v (List.mem_range.mp hv)

/-! ### `resize`, indexing -/

theorem length_resize (l : List Nat) (k : Nat) : (resize l k).length = k := by
  simp [resize]; omega

theorem getD_resize (l : List Nat) (k i : Nat) (h : l.length ≤ k) :
    (resize l k).getD i 0 = l.getD i 0 := by
  unfold resize
  rw [List.take_of_length_le h]
  simp only [List.getD_eq_getElem?_getD]
  by_cases hi : i < l.length
  · rw [List.getElem?_append_left hi]
  · rw [List.getElem?_append_right (by omega), List.getElem?_eq_none (l := l) (by omega),
      List.getElem?_replicate]
    split <;> rfl

theorem getD_set_nat (l : List Nat) (i j x : Nat) (hi : i < l.length) :
    (l.set i x).getD j 0 = if j = i then x else l.getD j 0 := by
  simp only [List.getD_eq_getElem?_getD, List.getElem?_set]
  by_cases h : i = j
  · subst h; simp [hi]
  · have h' : ¬ j = i := fun e => h e.symm
    simp [h, h']

/-! ### The reduction over the nodes -/

theorem countInv_nil (data : NodeData) : CountInv data [] { counts := [], lmaxdist := 0 } := by
  refine ⟨?_, ?_, ?_, ?_, ?_⟩ <;> simp

theorem countInv_op {data : NodeData} (hle : ∀ v, (data v).dist ≤ DIST_INFINITY)
    {ns : List Nat} {cl : count_levels} (hinv : CountInv data ns cl) (n : Nat)
    (hlen : ns.length + 1 < UINT_MOD) :
    CountInv data (ns ++ [n]) (count_levels.op data cl n) := by
  have hd := hle n
  have hw : wrap ((data n).dist + 1) = (data n).dist + 1 := by
    apply wrap_of_lt; rw [dist_infinity_val] at hd; rw [uint_mod_val]; omega
  -- the vector after the conditional `resize`
  obtain ⟨c1, hc1, hc1len, hc1get⟩ : ∃ c1,
      (if cl.counts.length ≤ (data n).dist then resize cl.counts (wrap ((data n).dist + 1))
        else cl.counts) = c1 ∧ c1.length = max cl.counts.length ((data n).dist + 1) ∧
      ∀ k, c1.getD k 0 = cl.counts.getD k 0 := by
    refine ⟨_, rfl, ?_, ?_⟩
    · split
      · rw [hw, length_resize]; omega
      · omega
    · intro k
      split
      · rw [hw, getD_resize _ _ _ (by omega)]
      · rfl
  have hcnt : ns.countP (fun v => decide ((data v).dist = (data n).dist)) ≤ ns.length :=
    List.countP_le_length _
  have hw2 : wrap (c1.getD (data n).dist 0 + 1) = c1.getD (data n).dist 0 + 1 := by
    apply wrap_of_lt
    rw [hc1get, hinv.counts]; omega
  have hop : count_levels.op data cl n =
      { counts := c1.set (data n).dist (c1.getD (data n).dist 0 + 1),
        lmaxdist := if cl.lmaxdist < (data n).dist then (data n).dist else cl.lmaxdist } := by
    simp only [count_levels.op, hc1, hw2]
  rw [hop]
  have hne : ns ++ [n] ≠ [] := by simp
  by_cases hns : ns = []
  · obtain ⟨he1, he2⟩ := hinv.empty hns
    refine ⟨?_, ?_, ?_, ?_, ?_⟩
    · intro k
      simp only
      rw [getD_set_nat _ _ _ _ (by omega)]
      simp only [hc1get, hinv.counts, List.countP_append]
      by_cases hk : k = (data n).dist
      · subst hk; simp
      · have hk' : ¬ (data n).dist = k := fun e => hk e.symm
        simp [hk, hk']
    · intro _
      simp only [List.length_set, hc1len, he1, he2, List.length_nil]
      split <;> omega
    · intro h; exact absurd h hne
    · intro v hv
      simp only [hns, List.nil_append, List.mem_singleton] at hv
      subst hv
      simp only [he2]; split <;> omega
    · intro _
      refine ⟨n, by simp, ?_⟩
      simp only [he2]; split <;> omega
  · have hl := hinv.len hns
    refine ⟨?_, ?_, ?_, ?_, ?_⟩
    · intro k
      simp only
      rw [getD_set_nat _ _ _ _ (by omega)]
      simp only [hc1get, hinv.counts, List.countP_append]
      by_cases hk : k = (data n).dist
      · subst hk; simp
      · have hk' : ¬ (data n).dist = k := fun e => hk e.symm
        simp [hk, hk']
    · intro _
      simp only [List.length_set, hc1len, hl]
      split <;> omega
    · intro h; exact absurd h hne
    · intro v hv
      simp only [List.mem_append, List.mem_singleton] at hv
      rcases hv with hv | rfl
      · have := hinv.max_ge v hv
        simp only; split <;> omega
      · simp only; split <;> omega
    · intro _
      obtain ⟨v, hv, hvd⟩ := hinv.max_at hns
      by_cases hlt : cl.lmaxdist < (data n).dist
      · exact ⟨n, by simp, by simp [hlt]⟩
      · exact ⟨v, by simp [hv], by simp [hlt, hvd]⟩

theorem countInv_foldl {data : NodeData} (hle : ∀ v, (data v).dist ≤ DIST_INFINITY) :
    ∀ (ns pre : List Nat) (cl : count_levels), CountInv data pre cl →
      pre.length + ns.length < UINT_MOD →
      CountInv data (pre ++ ns) (ns.foldl (count_levels.op data) cl) := by
  intro ns
  induction ns with
  | nil => intro pre cl h _; simpa using h
  | cons n ns ih =>
    intro pre cl h hlen
    simp only [List.length_cons] at hlen
    have h1 := countInv_op hle h n (by omega)
    have h2 := ih (pre ++ [n]) _ h1 (by simp; omega)
    simpa using h2

/-! ### The offset tables -/

theorem length_partial_sum_from (acc : Nat) (l : List Nat) :
    (partial_sum_from acc l).length = l.length := by
  induction l generalizing acc with
  | nil => rfl
  | cons x l ih => simp [partial_sum_from, ih]

theorem getElem?_partial_sum_from :
    ∀ (l : List Nat) (acc k : Nat), acc + l.sum < UINT_MOD → k < l.length →
      (partial_sum_from acc l)[k]? = some (acc + (l.take (k + 1)).sum) := by
  intro l
  induction l with
  | nil => intro acc k _ hk; simp at hk
  | cons x l ih =>
    intro acc k hsum hk
    simp only [List.sum_cons] at hsum
    have hw : wrap (acc + x) = acc + x := wrap_of_lt (by omega)
    simp only [partial_sum_from, hw]
    cases k with
    | zero => simp
    | succ k =>
      simp only [List.length_cons] at hk
      rw [List.getElem?_cons_succ, ih (acc + x) k (by omega) (by omega)]
      simp [List.take_succ_cons, Nat.add_assoc]

theorem sum_take_succ (l : List Nat) (k : Nat) :
    (l.take (k + 1)).sum = (l.take k).sum + l.getD k 0 := by
  induction l generalizing k with
  | nil => simp
  | cons x l ih =>
    cases k with
    | zero => simp
    | succ k =>
      simp only [List.take_succ_cons, List.sum_cons, ih k, List.getD_cons_succ]
      omega

theorem sum_take_counts {G : Graph} {data : NodeData} {l : List Nat}
    (h : ∀ k, l.getD k 0 = cntEq G data k) (k : Nat) :
    (l.take k).sum = cntLt G data k := by
  induction k with
  | zero => simp [cntLt_zero]
  | succ k ih => rw [sum_take_succ, ih, h, cntLt_succ]

theorem tablesOk_go {G : Graph} {data : NodeData} (hpos : 0 < G.length)
    (hsize : G.length < UINT_MOD) (hle : ∀ v, (data v).dist ≤ DIST_INFINITY) :
    TablesOk G data (count_levels_go G data) := by
  have hinv := countInv_foldl hle (List.range G.length) [] _ (countInv_nil data)
    (by simpa using hsize)
  simp only [List.nil_append] at hinv
  have hne : List.range G.length ≠ [] := by
    intro h
    have h0 : G.length = 0 := by simpa using congrArg List.length h
    omega
  generalize hcl : (List.range G.length).foldl (count_levels.op data)
    { counts := [], lmaxdist := 0 } = cl at hinv
  have hcounts : ∀ k, cl.counts.getD k 0 = cntEq G data k := hinv.counts
  have hlen := hinv.len hne
  have hT : count_levels_go G data =
      { max_dist := cl.lmaxdist, level_count := cl.counts,
        read_offset := 0 :: partial_sum cl.counts,
        write_offset := 0 :: partial_sum cl.counts } := by
    simp only [count_levels_go, hcl]
  rw [hT]
  refine ⟨?_, ?_, ?_, ?_, ?_, ?_, ?_⟩
  · exact hlen
  · exact hcounts
  · simp only [List.length_cons, partial_sum, length_partial_sum_from, hlen]
  · intro k hk
    simp only at hk ⊢
    cases k with
    | zero => simp [cntLt_zero]
    | succ k =>
      rw [List.getElem?_cons_succ, partial_sum, getElem?_partial_sum_from _ _ _ ?_ (by omega)]
      · rw [sum_take_counts hcounts]; simp
      · have h1 := sum_take_counts hcounts cl.counts.length
        rw [List.take_length] at h1
        have h2 := cntLt_le G data cl.counts.length
        omega
  · rfl
  · intro v hv
    exact hinv.max_ge v (List.mem_range.mpr hv)
  · obtain ⟨v, hv, hvd⟩ := hinv.max_at hne
    exact ⟨v, List.mem_range.mp hv, hvd⟩

/-! ## Vectors as lists -/

theorem mem_take_iff {l : List Nat} {m a : Nat} :
    a ∈ l.take m ↔ ∃ j, j < m ∧ l[j]? = some a := by
  constructor
  · intro h
    obtain ⟨j, hj, rfl⟩ := List.getElem_of_mem h
    have hj' : j < m ∧ j < l.length := by simpa [List.length_take] using hj
    refine ⟨j, hj'.1, ?_⟩
    rw [List.getElem_take, List.getElem?_eq_getElem hj'.2]
  · rintro ⟨j, hj, hja⟩
    have hjl : j < l.length := by
      by_contra hc
      rw [List.getElem?_eq_none (by omega)] at hja
      cases hja
    rw [List.getElem?_eq_getElem hjl] at hja
    cases hja
    have : j < (l.take m).length := by simp [List.length_take]; omega
    have h2 := List.getElem_mem (l := l.take m) this
    rwa [List.getElem_take] at h2

theorem take_set_of_le (l : List Nat) {m i : Nat} (x : Nat) (h : m ≤ i) :
    (l.set i x).take m = l.take m := by
  apply List.ext_getElem?
  intro j
  simp only [List.getElem?_take]
  split
  · rw [List.getElem?_set_ne (by omega)]
  · rfl

theorem take_succ_set (l : List Nat) {i : Nat} (x : Nat) (h : i < l.length) :
    (l.set i x).take (i + 1) = l.take i ++ [x] := by
  rw [List.take_succ, take_set_of_le l x (Nat.le_refl i), List.getElem?_set_self h]
  rfl

theorem length_take_of_le' {l : List Nat} {m : Nat} (h : m ≤ l.length) :
    (l.take m).length = m := by
  simp [List.length_take]; omega

theorem nodup_length_le {l : List Nat} {N : Nat} (hnd : l.Nodup) (hlt : ∀ v ∈ l, v < N) :
    l.length ≤ N := by
  have hsub : l ⊆ List.range N := fun v hv => List.mem_range.mpr (hlt v hv)
  have := (List.subperm_of_subset hnd hsub).length_le
  simpa using this

theorem nodup_length_eq_countP {l : List Nat} {N : Nat} {P : Nat → Bool} (hnd : l.Nodup)
    (hmem : ∀ v, v ∈ l ↔ v < N ∧ P v = true) : l.length = (List.range N).countP P := by
  rw [List.countP_eq_length_filter]
  apply List.Perm.length_eq
  rw [List.perm_ext_iff_of_nodup hnd ((List.nodup_range N).filter _)]
  intro v
  rw [hmem, List.mem_filter, List.mem_range]

theorem nodup_perm_range {l : List Nat} {N : Nat} (hnd : l.Nodup)
    (hmem : ∀ v, v ∈ l ↔ v < N) : l.Perm (List.range N) := by
  rw [List.perm_ext_iff_of_nodup hnd (List.nodup_range N)]
  intro v
  rw [hmem, List.mem_range]

/-! ### `sortSlice` -/

section sortSlice

variable {srt : List Nat → List Nat} (hsrt : ∀ l, (srt l).Perm l)
variable {l : List Nat} {a b : Nat}

theorem slice_split (l : List Nat) {a b : Nat} (hab : a ≤ b) :
    l.take b = l.take a ++ (l.drop a).take (b - a) := by
  have h := List.take_add l a (b - a)
  rwa [Nat.add_sub_cancel' hab] at h

include hsrt in
theorem length_srt (x : List Nat) : (srt x).length = x.length := (hsrt x).length_eq

include hsrt in
theorem length_sortSlice (hab : a ≤ b) (hb : b ≤ l.length) :
    (sortSlice srt l a b).length = l.length := by
  simp only [sortSlice, List.length_append, length_srt hsrt, List.length_take, List.length_drop]
  omega

include hsrt in
theorem sortSlice_take (hab : a ≤ b) (hb : b ≤ l.length) :
    (sortSlice srt l a b).take b = l.take a ++ srt ((l.drop a).take (b - a)) := by
  have hlen : (l.take a ++ srt ((l.drop a).take (b - a))).length = b := by
    simp only [List.length_append, length_srt hsrt, List.length_take, List.length_drop]
    omega
  unfold sortSlice
  rw [List.take_append_eq_append_take, hlen]
  simp [List.take_of_length_le (Nat.le_of_eq hlen)]

include hsrt in
theorem sortSlice_take_perm (hab : a ≤ b) (hb : b ≤ l.length) :
    ((sortSlice srt l a b).take b).Perm (l.take b) := by
  rw [sortSlice_take hsrt hab hb, slice_split l hab]
  exact List.Perm.append_left _ (hsrt _)

theorem sortSlice_take_le (ha : a ≤ l.length) {m : Nat} (hm : m ≤ a) :
    (sortSlice srt l a b).take m = l.take m := by
  unfold sortSlice
  rw [List.append_assoc, List.take_append_of_le_length (by simp [List.length_take]; omega)]
  rw [List.take_take, Nat.min_eq_left hm]

theorem sortSlice_getElem?_lt (ha : a ≤ l.length) {i : Nat} (hi : i < a) :
    (sortSlice srt l a b)[i]? = l[i]? := by
  have h1 : (sortSlice srt l a b).take a = l.take a := sortSlice_take_le ha (Nat.le_refl a)
  have h2 : ((sortSlice srt l a b).take a)[i]? = (l.take a)[i]? := by rw [h1]
  simpa [List.getElem?_take, hi] using h2

include hsrt in
theorem sortSlice_drop_take (hab : a ≤ b) (hb : b ≤ l.length) :
    ((sortSlice srt l a b).drop a).take (b - a) = srt ((l.drop a).take (b - a)) := by
  have hla : (l.take a).length = a := length_take_of_le' (by omega)
  have hls : (srt ((l.drop a).take (b - a))).length = b - a := by
    rw [length_srt hsrt]; simp [List.length_take, List.length_drop]; omega
  unfold sortSlice
  rw [List.append_assoc, List.drop_append_eq_append_drop, hla]
  simp only [Nat.sub_self, List.drop_zero]
  rw [List.drop_of_length_le (Nat.le_of_eq hla), List.nil_append,
    List.take_append_of_le_length (Nat.le_of_eq hls.symm), List.take_of_length_le (Nat.le_of_eq hls)]

theorem getElem?_drop_take {l : List Nat} {a c i x : Nat}
    (h : ((l.drop a).take c)[i]? = some x) : i < c ∧ l[a + i]? = some x := by
  rw [List.getElem?_take] at h
  split at h
  · rename_i hi
    rw [List.getElem?_drop] at h
    exact ⟨hi, h⟩
  · cases h

theorem mem_drop_take {l : List Nat} {a c x : Nat} :
    x ∈ (l.drop a).take c ↔ ∃ j, a ≤ j ∧ j < a + c ∧ l[j]? = some x := by
  rw [mem_take_iff]
  constructor
  · rintro ⟨i, hi, h⟩
    rw [List.getElem?_drop] at h
    exact ⟨a + i, by omega, by omega, h⟩
  · rintro ⟨j, h1, h2, h⟩
    refine ⟨j - a, by omega, ?_⟩
    rw [List.getElem?_drop, Nat.add_sub_cancel' h1]
    exact h

include hsrt in
theorem sortSlice_getElem?_mid (hab : a ≤ b) (hb : b ≤ l.length) {i x : Nat}
    (h1 : a ≤ i) (h2 : i < b) (h : (sortSlice srt l a b)[i]? = some x) :
    ∃ j, a ≤ j ∧ j < b ∧ l[j]? = some x := by
  have hx : x ∈ ((sortSlice srt l a b).drop a).take (b - a) :=
    mem_drop_take.mpr ⟨i, h1, by omega, h⟩
  rw [sortSlice_drop_take hsrt hab hb] at hx
  have hx' := (hsrt _).mem_iff.mp hx
  obtain ⟨j, hj1, hj2, hj⟩ := mem_drop_take.mp hx'
  exact ⟨j, hj1, by omega, hj⟩

end sortSlice

/-! ## Placement: invariants -/

theorem Cuts.frame {G : Graph} {start : Nat} {cut : Nat → Nat} {perm perm' : List Nat}
    (h : Cuts G start cut perm) (hs : start ≤ cut start)
    (hf : ∀ j, j < cut start → perm'[j]? = perm[j]?) : Cuts G start cut perm' := by
  refine ⟨h.zero, h.mono, ?_, ?_⟩
  · intro i j a hi h1 h2 hja
    have hc : cut (i + 1) ≤ cut start := h.mono _ _ (by omega) (Nat.le_refl _)
    rw [hf j (by omega)] at hja
    obtain ⟨b, hb, he, hfirst⟩ := h.batch i j a hi h1 h2 hja
    refine ⟨b, by rw [hf i (by omega)]; exact hb, he, ?_⟩
    intro i' b' hi' hb'
    rw [hf i' (by omega)] at hb'
    exact hfirst i' b' hi' hb'
  · intro i j1 j2 a1 a2 hi h1 h12 h2 ha1 ha2
    have hc : cut (i + 1) ≤ cut start := h.mono _ _ (by omega) (Nat.le_refl _)
    rw [hf j1 (by omega)] at ha1
    rw [hf j2 (by omega)] at ha2
    exact h.sorted i j1 j2 a1 a2 hi h1 h12 h2 ha1 ha2

/-! ## Placement: the neighbour loop -/

theorem scanEdge_miss {n : Nat} {s : PlaceState × Nat} {dst : Nat}
    (h : ((!(s.1.data dst).done) && ((s.1.data dst).dist == wrap (n + 1))) = false) :
    scanEdge n s dst = .ok s := by
  simp only [scanEdge, h]; rfl

theorem scanEdge_hit {n : Nat} {s : PlaceState × Nat} {dst : Nat}
    (h : ((!(s.1.data dst).done) && ((s.1.data dst).dist == wrap (n + 1))) = true)
    (hlt : s.2 < s.1.perm.length) :
    scanEdge n s dst =
      .ok ({ s.1 with data := setDone s.1.data dst, perm := s.1.perm.set s.2 dst },
        wrap (s.2 + 1)) := by
  simp only [scanEdge, h, writeAt, hlt]; rfl

section scan

variable {G : Graph} {source : Nat} {data0 : NodeData}

/-- One edge of the neighbour loop keeps the invariants. -/
theorem scanEdge_inv (hL : Levelled G source data0) {n start t_worig t_wo next dst : Nat}
    {cut : Nat → Nat} {s : PlaceState}
    (hn : n + 1 < UINT_MOD)
    (hcore : Core G data0 n start t_wo s) (hcuts : Cuts G start cut s.perm)
    (hprog : Prog G start t_worig t_wo next s.perm)
    (hcut : cut start = t_worig) (hbase : cntLt G data0 (n + 1) ≤ t_worig)
    (hstart : start < cntLt G data0 (n + 1))
    (hnext : s.perm[start]? = some next) (hdst : dst ∈ edges G next) :
    ∃ s' t_wo', scanEdge n (s, t_wo) dst = .ok (s', t_wo') ∧
      Core G data0 n start t_wo' s' ∧ Cuts G start cut s'.perm ∧
      Prog G start t_worig t_wo' next s'.perm ∧
      s'.perm[start]? = some next ∧ s'.write_offset = s.write_offset ∧
      (∀ v, (s.data v).done = true → (s'.data v).done = true) ∧
      ((data0 dst).dist = n + 1 → (s'.data dst).done = true) := by
  have hw : wrap (n + 1) = n + 1 := wrap_of_lt hn
  have hdstN : dst < G.length := edges_lt hL.wf hdst
  by_cases hc : ((!(s.data dst).done) && ((s.data dst).dist == wrap (n + 1))) = true
  · -- `dst` is appended
    have hc' : (s.data dst).done = false ∧ (data0 dst).dist = n + 1 := by
      simpa [hw, hcore.dist_eq] using hc
    obtain ⟨hdone, hdist⟩ := hc'
    have hnotin : dst ∉ s.perm.take t_wo := by
      intro hin
      rcases (hcore.mem dst).mp hin with ⟨_, h | ⟨_, h⟩⟩
      · omega
      · rw [hdone] at h; cases h
    have hlen_take : (s.perm.take t_wo).length = t_wo :=
      length_take_of_le' (by rw [hcore.perm_len]; exact hcore.t_wo_le)
    have hnd' : (s.perm.take t_wo ++ [dst]).Nodup := by
      rw [List.nodup_append]
      refine ⟨hcore.nodup, List.nodup_singleton _, ?_⟩
      intro a ha hb
      simp only [List.mem_singleton] at hb
      subst hb; exact hnotin ha
    have hlt : t_wo < G.length := by
      have := nodup_length_le (N := G.length) hnd' (by
        intro v hv
        simp only [List.mem_append, List.mem_singleton] at hv
        rcases hv with hv | rfl
        · exact ((hcore.mem v).mp hv).1
        · exact hdstN)
      simp only [List.length_append, hlen_take, List.length_singleton] at this
      omega
    have hlt' : t_wo < s.perm.length := by rw [hcore.perm_len]; exact hlt
    have hw2 : wrap (t_wo + 1) = t_wo + 1 := wrap_of_lt (by have := hL.size; omega)
    have htake : (s.perm.set t_wo dst).take (t_wo + 1) = s.perm.take t_wo ++ [dst] :=
      take_succ_set _ _ hlt'
    have hframe : ∀ j, j < t_wo → (s.perm.set t_wo dst)[j]? = s.perm[j]? := by
      intro j hj
      rw [List.getElem?_set_ne (by omega)]
    refine ⟨_, _, scanEdge_hit (s := (s, t_wo)) hc hlt', ?_, ?_, ?_, ?_, rfl, ?_, ?_⟩
    · rw [hw2]
      refine ⟨?_, ?_, ?_, ?_, ?_, ?_, ?_, ?_, ?_, ?_, ?_, ?_⟩
      · intro v; simp only [setDone_dist]; exact hcore.dist_eq v
      · simp only [List.length_set]; exact hcore.perm_len
      · omega
      · have := hcore.base_le; omega
      · simp only [htake]; exact hnd'
      · intro v
        simp only [htake, List.mem_append, List.mem_singleton, setDone_done, hcore.mem v]
        by_cases hv : v = dst
        · subst hv; simp [hdist, hdstN]
        · simp [hv]
      · intro k hk v
        have hle : cntLt G data0 k ≤ t_wo :=
          Nat.le_trans (cntLt_mono G data0 hk) hcore.base_le
        simp only [take_set_of_le _ _ hle]
        exact hcore.low k hk v
      · intro v hv
        simp only [setDone_done]
        have hne : v ≠ dst := by intro h; subst h; omega
        simp only [hne, if_false]
        exact hcore.fresh v hv
      · intro j b h1 h2 hjb v hv hvd
        simp only at hjb
        rw [hframe j (by have := hcore.base_le; omega)] at hjb
        simp only [setDone_done]
        split
        · rfl
        · exact hcore.seen j b h1 h2 hjb v hv hvd
      · intro i a hi0 hi hia
        simp only at hia
        by_cases hit : i < t_wo
        · rw [hframe i hit] at hia
          obtain ⟨j, b, hj, hjb, he⟩ := hcore.parent i a hi0 hit hia
          exact ⟨j, b, hj, by simp only; rw [hframe j (by omega)]; exact hjb, he⟩
        · have hieq : i = t_wo := by omega
          subst hieq
          rw [List.getElem?_set_self hlt'] at hia
          cases hia
          have hst : start < i := by have := hcore.base_le; omega
          exact ⟨start, next, hst, by simp only; rw [hframe start hst]; exact hnext, hdst⟩
      · intro v hv h0 hvn
        simp only [setDone_done]
        split
        · rfl
        · exact hcore.marked v hv h0 hvn
      · intro v hv
        simp only [setDone_done]
        have hne : v ≠ dst := by intro h; subst h; omega
        simp only [hne, if_false]
        exact hcore.unmarked v hv
    · exact hcuts.frame (by omega) (fun j hj => hframe j (by have := hprog.le; omega))
    · rw [hw2]
      refine ⟨by have := hprog.le; omega, ?_⟩
      intro j a h1 h2 hja
      simp only at hja
      have hfirst : ∀ i' b', i' < start → s.perm[i']? = some b' → dst ∉ edges G b' := by
        intro i' b' hi' hb' hmem
        by_cases hlow : cntLt G data0 n ≤ i'
        · have := hcore.seen i' b' hlow hi' hb' dst hmem hdist
          rw [hdone] at this; cases this
        · have hb'mem : b' ∈ s.perm.take (cntLt G data0 n) :=
            mem_take_iff.mpr ⟨i', by omega, hb'⟩
          have := ((hcore.low n (by omega) b').mp hb'mem).2
          have := hL.relaxed b' dst hmem
          omega
      by_cases hjt : j < t_wo
      · rw [hframe j hjt] at hja
        obtain ⟨he, hf⟩ := hprog.batch j a h1 hjt hja
        refine ⟨he, ?_⟩
        intro i' b' hi' hb'
        rw [hframe i' (by have := hcore.base_le; omega)] at hb'
        exact hf i' b' hi' hb'
      · have hjeq : j = t_wo := by omega
        subst hjeq
        rw [List.getElem?_set_self hlt'] at hja
        cases hja
        refine ⟨hdst, ?_⟩
        intro i' b' hi' hb'
        rw [hframe i' (by have := hcore.base_le; omega)] at hb'
        exact hfirst i' b' hi' hb'
    · simp only
      rw [hframe start (by have := hcore.base_le; omega)]
      exact hnext
    · intro v hv
      simp only [setDone_done]
      split
      · rfl
      · exact hv
    · intro _
      simp [setDone_done]
  · -- `dst` is skipped
    have hc2 : ((!(s.data dst).done) && ((s.data dst).dist == wrap (n + 1))) = false := by
      simpa using hc
    refine ⟨s, t_wo, scanEdge_miss (s := (s, t_wo)) hc2, hcore, hcuts, hprog, hnext, rfl,
      fun _ h => h, ?_⟩
    intro hd
    have : (s.data dst).dist = n + 1 := by rw [hcore.dist_eq]; exact hd
    simp only [this, hw, beq_self_eq_true, Bool.and_true, Bool.not_eq_false'] at hc2
    exact hc2

end scan

theorem pairwise_getElem? {R : Nat → Nat → Prop} {l : List Nat} (h : l.Pairwise R)
    {i j a b : Nat} (hij : i < j) (hi : l[i]? = some a) (hj : l[j]? = some b) : R a b := by
  have hjl : j < l.length := by
    by_contra hc
    rw [List.getElem?_eq_none (by omega)] at hj
    cases hj
  have hil : i < l.length := by omega
  rw [List.getElem?_eq_getElem hil] at hi
  rw [List.getElem?_eq_getElem hjl] at hj
  cases hi; cases hj
  exact List.pairwise_iff_getElem.mp h i j hil hjl hij

theorem getElem?_of_lt_length {l : List Nat} {i : Nat} (h : i < l.length) :
    ∃ a, l[i]? = some a := ⟨l[i], List.getElem?_eq_getElem h⟩

theorem lt_length_of_getElem? {l : List Nat} {i a : Nat} (h : l[i]? = some a) :
    i < l.length := by
  by_contra hc
  rw [List.getElem?_eq_none (by omega)] at h
  cases h

section scan

variable {G : Graph} {source : Nat} {data0 : NodeData}

/-- The neighbour loop keeps the invariants and marks every level-`n+1` neighbour. -/
theorem scanEdges_inv (hL : Levelled G source data0) {n start t_worig next : Nat}
    {cut : Nat → Nat} (hn : n + 1 < UINT_MOD)
    (hcut : cut start = t_worig) (hbase : cntLt G data0 (n + 1) ≤ t_worig)
    (hstart : start < cntLt G data0 (n + 1)) :
    ∀ (es : List Nat) (s : PlaceState) (t_wo : Nat),
      (∀ e ∈ es, e ∈ edges G next) →
      Core G data0 n start t_wo s → Cuts G start cut s.perm →
      Prog G start t_worig t_wo next s.perm → s.perm[start]? = some next →
      ∃ s' t_wo', scanEdges n (s, t_wo) es = .ok (s', t_wo') ∧
        Core G data0 n start t_wo' s' ∧ Cuts G start cut s'.perm ∧
        Prog G start t_worig t_wo' next s'.perm ∧
        s'.perm[start]? = some next ∧ s'.write_offset = s.write_offset ∧
        (∀ v, (s.data v).done = true → (s'.data v).done = true) ∧
        (∀ v ∈ es, (data0 v).dist = n + 1 → (s'.data v).done = true) := by
  intro es
  induction es with
  | nil =>
    intro s t_wo _ hcore hcuts hprog hnext
    exact ⟨s, t_wo, rfl, hcore, hcuts, hprog, hnext, rfl, fun _ h => h, by simp⟩
  | cons e es ih =>
    intro s t_wo hes hcore hcuts hprog hnext
    obtain ⟨s1, t1, h1, hcore1, hcuts1, hprog1, hnext1, hwo1, hmono1, hdone1⟩ :=
      scanEdge_inv hL hn hcore hcuts hprog hcut hbase hstart hnext
        (hes e (List.mem_cons_self _ _))
    obtain ⟨s2, t2, h2, hcore2, hcuts2, hprog2, hnext2, hwo2, hmono2, hdone2⟩ :=
      ih s1 t1 (fun x hx => hes x (List.mem_cons_of_mem _ hx)) hcore1 hcuts1 hprog1 hnext1
    refine ⟨s2, t2, ?_, hcore2, hcuts2, hprog2, hnext2, by rw [hwo2, hwo1],
      fun v hv => hmono2 v (hmono1 v hv), ?_⟩
    · simp only [scanEdges, h1, bind, Except.bind]
      exact h2
    · intro v hv hd
      simp only [List.mem_cons] at hv
      rcases hv with rfl | hv
      · exact hmono2 _ (hdone1 hd)
      · exact hdone2 v hv hd

/-- Consuming one slot keeps the invariants, closes the batch of that slot and publishes
the write cursor. -/
theorem consume_inv (hL : Levelled G source data0) {srt : List Nat → List Nat}
    (hsrt : SortsBy (sortDegFn G) srt) {n start t_wo : Nat} {cut : Nat → Nat}
    {s : PlaceState} (hn : n + 1 < UINT_MOD)
    (hcore : Core G data0 n start t_wo s) (hcuts : Cuts G start cut s.perm)
    (hcut : cut start = t_wo) (hstart : start < cntLt G data0 (n + 1))
    (hwo : n + 1 < s.write_offset.length) :
    ∃ s' t_wo', consume G srt n start t_wo s = .ok (s', t_wo') ∧
      Core G data0 n (start + 1) t_wo' s' ∧
      Cuts G (start + 1) (Function.update cut (start + 1) t_wo') s'.perm ∧
      s'.write_offset = s.write_offset.set (n + 1) t_wo' := by
  have hbase := hcore.base_le
  have hstartlt : start < s.perm.length := by
    rw [hcore.perm_len]; have := hcore.t_wo_le; omega
  obtain ⟨next, hnext⟩ := getElem?_of_lt_length hstartlt
  have hprog0 : Prog G start t_wo t_wo next s.perm :=
    ⟨Nat.le_refl _, fun j a h1 h2 => by omega⟩
  obtain ⟨s1, t1, hscan, hcore1, hcuts1, hprog1, hnext1, hwo1, _, hdone1⟩ :=
    scanEdges_inv hL hn hcut hbase hstart (edges G next) s t_wo (fun e he => he)
      hcore hcuts hprog0 hnext
  have hperm : ∀ l, (srt l).Perm l := fun l => (hsrt l).1
  have hle : t_wo ≤ t1 := hprog1.le
  have ht1 : t1 ≤ s1.perm.length := by rw [hcore1.perm_len]; exact hcore1.t_wo_le
  have hta : t_wo ≤ s1.perm.length := by omega
  have hframe : ∀ j, j < t_wo → (sortSlice srt s1.perm t_wo t1)[j]? = s1.perm[j]? :=
    fun j hj => sortSlice_getElem?_lt hta hj
  have hw : wrap (n + 1) = n + 1 := wrap_of_lt hn
  have hwo' : n + 1 < s1.write_offset.length := by rw [hwo1]; exact hwo
  refine ⟨{ s1 with perm := sortSlice srt s1.perm t_wo t1,
                    write_offset := s1.write_offset.set (n + 1) t1,
                    past_end := s1.past_end || sortPastEnd s1.perm t_wo t1 },
    t1, ?_, ?_, ?_, ?_⟩
  · simp only [consume, readAt, hnext, hscan, bind, Except.bind, writeAt, hw, hwo', if_true]
    rfl
  · refine ⟨hcore1.dist_eq, ?_, hcore1.t_wo_le, hcore1.base_le, ?_, ?_, ?_, hcore1.fresh,
      ?_, ?_, hcore1.marked, hcore1.unmarked⟩
    · simp only [length_sortSlice hperm hle ht1]; exact hcore1.perm_len
    · exact (sortSlice_take_perm hperm hle ht1).nodup_iff.mpr hcore1.nodup
    · intro v
      simp only [(sortSlice_take_perm hperm hle ht1).mem_iff]
      exact hcore1.mem v
    · intro k hk v
      have hkle : cntLt G data0 k ≤ t_wo := Nat.le_trans (cntLt_mono G data0 hk) hbase
      simp only [sortSlice_take_le hta hkle]
      exact hcore1.low k hk v
    · intro j b h1 h2 hjb v hv hvd
      simp only at hjb ⊢
      rw [hframe j (by omega)] at hjb
      by_cases hjs : j < start
      · exact hcore1.seen j b h1 hjs hjb v hv hvd
      · have hjeq : j = start := by omega
        subst hjeq
        rw [hnext1] at hjb
        cases hjb
        exact hdone1 v hv hvd
    · intro i a hi0 hi hia
      simp only at hia ⊢
      by_cases hit : i < t_wo
      · rw [hframe i hit] at hia
        obtain ⟨j, b, hj, hjb, he⟩ := hcore1.parent i a hi0 (by omega) hia
        exact ⟨j, b, hj, by rw [hframe j (by omega)]; exact hjb, he⟩
      · obtain ⟨j', hj1, hj2, hj'⟩ :=
          sortSlice_getElem?_mid hperm hle ht1 (by omega) hi hia
        have := (hprog1.batch j' a hj1 hj2 hj').1
        exact ⟨start, next, by omega, by rw [hframe start (by omega)]; exact hnext1, this⟩
  · have hcutne : ∀ i, i ≤ start → Function.update cut (start + 1) t1 i = cut i := by
      intro i hi
      rw [Function.update_noteq (by omega)]
    have hcuteq : Function.update cut (start + 1) t1 (start + 1) = t1 :=
      Function.update_same _ _ _
    have hcuts1' : Cuts G start cut (sortSlice srt s1.perm t_wo t1) :=
      hcuts1.frame (by omega) (fun j hj => hframe j (by omega))
    refine ⟨?_, ?_, ?_, ?_⟩
    · rw [hcutne 0 (by omega)]; exact hcuts.zero
    · intro i j hij hj
      by_cases hjs : j ≤ start
      · rw [hcutne i (by omega), hcutne j hjs]
        exact hcuts.mono i j hij hjs
      · have hjeq : j = start + 1 := by omega
        subst hjeq
        rw [hcuteq]
        by_cases his : i ≤ start
        · rw [hcutne i his]
          have := hcuts.mono i start his (Nat.le_refl _)
          omega
        · have hieq : i = start + 1 := by omega
          subst hieq
          rw [hcuteq]
    · intro i j a hi h1 h2 hja
      simp only at hja ⊢
      by_cases his : i < start
      · rw [hcutne i (by omega)] at h1
        rw [hcutne (i + 1) (by omega)] at h2
        exact hcuts1'.batch i j a his h1 h2 hja
      · have hieq : i = start := by omega
        subst hieq
        rw [hcutne i (Nat.le_refl _), hcut] at h1
        rw [hcuteq] at h2
        obtain ⟨j', hj1, hj2, hj'⟩ := sortSlice_getElem?_mid hperm hle ht1 h1 h2 hja
        obtain ⟨he, hfirst⟩ := hprog1.batch j' a hj1 hj2 hj'
        refine ⟨next, by rw [hframe i (by omega)]; exact hnext1, he, ?_⟩
        intro i' b' hi' hb'
        rw [hframe i' (by omega)] at hb'
        exact hfirst i' b' hi' hb'
    · intro i j1 j2 a1 a2 hi h1 h12 h2 ha1 ha2
      simp only at ha1 ha2
      by_cases his : i < start
      · rw [hcutne i (by omega)] at h1
        rw [hcutne (i + 1) (by omega)] at h2
        exact hcuts1'.sorted i j1 j2 a1 a2 his h1 h12 h2 ha1 ha2
      · have hieq : i = start := by omega
        subst hieq
        rw [hcutne i (Nat.le_refl _), hcut] at h1
        rw [hcuteq] at h2
        have hpw := (hsrt ((s1.perm.drop t_wo).take (t1 - t_wo))).2
        rw [← sortSlice_drop_take hperm hle ht1] at hpw
        have e1 : (((sortSlice srt s1.perm t_wo t1).drop t_wo).take (t1 - t_wo))[j1 - t_wo]?
            = some a1 := by
          rw [List.getElem?_take, if_pos (by omega), List.getElem?_drop,
            Nat.add_sub_cancel' h1]
          exact ha1
        have e2 : (((sortSlice srt s1.perm t_wo t1).drop t_wo).take (t1 - t_wo))[j2 - t_wo]?
            = some a2 := by
          rw [List.getElem?_take, if_pos (by omega), List.getElem?_drop,
            Nat.add_sub_cancel' (by omega)]
          exact ha2
        have := pairwise_getElem? hpw (by omega) e1 e2
        simpa [sortDegFn] using this
  · simp only [hwo1]

end scan

theorem wrap_pred {x : Nat} (h1 : 0 < x) (h2 : x < UINT_MOD) :
    wrap (x + (UINT_MOD - 1)) = x - 1 := by
  unfold wrap
  rw [uint_mod_val] at *
  omega

section loops

variable {G : Graph} {source : Nat} {data0 : NodeData}

theorem Levelled.levels_populated (hL : Levelled G source data0) :
    ∀ j v, v < G.length → (data0 v).dist = j → ∀ i, i ≤ j →
      ∃ x, x < G.length ∧ (data0 x).dist = i := by
  intro j
  induction j with
  | zero =>
    intro v hv hd i hi
    exact ⟨v, hv, by omega⟩
  | succ j ih =>
    intro v hv hd i hi
    by_cases hij : i = j + 1
    · exact ⟨v, hv, by omega⟩
    · obtain ⟨u, hu, hdu, _⟩ := hL.pred v j hv hd
      exact ih u hu hdu i (by omega)

/-- The loop `while (start != cend)` consumes the rest of the level. -/
theorem innerLoop_inv (hL : Levelled G source data0) {srt : List Nat → List Nat}
    (hsrt : SortsBy (sortDegFn G) srt) {M n : Nat} (hn : n ≤ M) (hM : M + 1 < UINT_MOD) :
    ∀ (k : Nat) (l : Locals) (s : PlaceState) (cut : Nat → Nat),
      l.start ≤ cntLt G data0 (n + 1) → cntLt G data0 (n + 1) - l.start ≤ k →
      cntLt G data0 (n + 1) - l.start ≤ l.todo → l.todo < UINT_MOD →
      Core G data0 n l.start l.t_wo s → Cuts G l.start cut s.perm → cut l.start = l.t_wo →
      WInv G data0 M n l.t_wo s →
      ∃ s' l' cut', innerLoop G srt n (cntLt G data0 (n + 1)) k l s = .ok (s', l') ∧
        l'.start = cntLt G data0 (n + 1) ∧
        l'.todo = l.todo - (cntLt G data0 (n + 1) - l.start) ∧
        Core G data0 n l'.start l'.t_wo s' ∧ Cuts G l'.start cut' s'.perm ∧
        cut' l'.start = l'.t_wo ∧ WInv G data0 M n l'.t_wo s' := by
  intro k
  induction k with
  | zero =>
    intro l s cut h1 h2 h3 h4 hcore hcuts hcut hw
    have heq : l.start = cntLt G data0 (n + 1) := by omega
    refine ⟨s, l, cut, ?_, heq, by omega, hcore, hcuts, hcut, hw⟩
    unfold innerLoop
    simp only [heq, if_true]; rfl
  | succ k ih =>
    intro l s cut h1 h2 h3 h4 hcore hcuts hcut hw
    by_cases heq : l.start = cntLt G data0 (n + 1)
    · refine ⟨s, l, cut, ?_, heq, by omega, hcore, hcuts, hcut, hw⟩
      unfold innerLoop
      simp only [heq, if_true]; rfl
    · have hlt : l.start < cntLt G data0 (n + 1) := by omega
      have hn1 : n + 1 < UINT_MOD := by omega
      obtain ⟨s1, t1, hcons, hcore1, hcuts1, hwo1⟩ :=
        consume_inv hL hsrt hn1 hcore hcuts hcut hlt (by rw [hw.len]; omega)
      have hN := cntLt_le G data0 (n + 1)
      have hsz := hL.size
      have hws : wrap (l.start + 1) = l.start + 1 := wrap_of_lt (by omega)
      have hwt : wrap (l.todo + (UINT_MOD - 1)) = l.todo - 1 := wrap_pred (by omega) h4
      have hw1 : WInv G data0 M n t1 s1 := by
        refine ⟨?_, ?_, ?_, ?_⟩
        · rw [hwo1, List.length_set]; exact hw.len
        · intro j hj1 hj2
          rw [hwo1, List.getElem?_set_ne (by omega)]
          exact hw.above j hj1 hj2
        · rw [hwo1, List.getElem?_set_ne (by omega)]
          exact hw.here
        · rw [hwo1, List.getElem?_set_self (by rw [hw.len]; omega)]
      obtain ⟨s2, l2, cut2, hrun, hs2, htodo2, hcore2, hcuts2, hcut2, hw2⟩ :=
        ih { start := l.start + 1, t_wo := t1, todo := l.todo - 1 } s1
          (Function.update cut (l.start + 1) t1)
          (by simp only; omega) (by simp only; omega) (by simp only; omega)
          (by simp only; omega) hcore1 hcuts1 (Function.update_same _ _ _) hw1
      refine ⟨s2, l2, cut2, ?_, hs2, ?_, hcore2, hcuts2, hcut2, hw2⟩
      · rw [innerLoop]
        simp only [heq, if_false, hcons, bind, Except.bind, hws, hwt]
        exact hrun
      · simp only at htodo2
        omega

/-- When the level has been consumed, every node of the next level has been placed. -/
theorem core_next_level (hL : Levelled G source data0) {n t_wo : Nat} {s : PlaceState}
    (hcore : Core G data0 n (cntLt G data0 (n + 1)) t_wo s) :
    t_wo = cntLt G data0 (n + 2) ∧
      Core G data0 (n + 1) (cntLt G data0 (n + 1)) (cntLt G data0 (n + 2)) s := by
  have hdone : ∀ v, v < G.length → (data0 v).dist = n + 1 → (s.data v).done = true := by
    intro v hv hd
    obtain ⟨u, hu, hdu, he⟩ := hL.pred v n hv hd
    have hmem : u ∈ s.perm.take (cntLt G data0 (n + 1)) :=
      (hcore.low (n + 1) (Nat.le_refl _) u).mpr ⟨hu, by omega⟩
    obtain ⟨j, hj, hju⟩ := mem_take_iff.mp hmem
    have hjn : cntLt G data0 n ≤ j := by
      by_contra hc
      have hmem' : u ∈ s.perm.take (cntLt G data0 n) := mem_take_iff.mpr ⟨j, by omega, hju⟩
      have := ((hcore.low n (by omega) u).mp hmem').2
      omega
    exact hcore.seen j u hjn hj hju v he hd
  have hmem : ∀ v, v ∈ s.perm.take t_wo ↔
      v < G.length ∧ decide ((data0 v).dist < n + 2) = true := by
    intro v
    rw [hcore.mem v]
    simp only [decide_eq_true_eq]
    constructor
    · rintro ⟨hv, h | ⟨h, _⟩⟩
      · exact ⟨hv, by omega⟩
      · exact ⟨hv, by omega⟩
    · rintro ⟨hv, h⟩
      refine ⟨hv, ?_⟩
      by_cases hd : (data0 v).dist = n + 1
      · exact Or.inr ⟨hd, hdone v hv hd⟩
      · exact Or.inl (by omega)
  have hlen : (s.perm.take t_wo).length = t_wo :=
    length_take_of_le' (by rw [hcore.perm_len]; exact hcore.t_wo_le)
  have ht : t_wo = cntLt G data0 (n + 2) := by
    have := nodup_length_eq_countP (N := G.length)
      (P := fun v => decide ((data0 v).dist < n + 2)) hcore.nodup hmem
    rw [hlen] at this
    exact this
  refine ⟨ht, ?_⟩
  subst ht
  refine ⟨hcore.dist_eq, hcore.perm_len, hcore.t_wo_le, Nat.le_refl _, hcore.nodup, ?_, ?_, ?_,
    ?_, hcore.parent, ?_, hcore.unmarked⟩
  · intro v
    rw [hmem v]
    simp only [decide_eq_true_eq]
    constructor
    · rintro ⟨hv, h⟩; exact ⟨hv, Or.inl (by omega)⟩
    · rintro ⟨hv, h | ⟨h, hd⟩⟩
      · exact ⟨hv, by omega⟩
      · have := hcore.fresh v (by omega)
        rw [this] at hd; cases hd
  · intro k hk v
    by_cases hk' : k ≤ n + 1
    · exact hcore.low k hk' v
    · have hkeq : k = n + 2 := by omega
      subst hkeq
      rw [hmem v]
      simp only [decide_eq_true_eq]
  · intro v hv
    exact hcore.fresh v (by omega)
  · intro j b h1 h2
    omega
  · intro v hv h0 hvn
    by_cases hd : (data0 v).dist = n + 1
    · exact hdone v hv hd
    · exact hcore.marked v hv h0 (by omega)

/-- The loop `while (todo)` of a level whose nodes have all been published: the worker
does not spin, consumes the level and leaves the next level complete. -/
theorem todoLoop_inv (hL : Levelled G source data0) {srt : List Nat → List Nat}
    (hsrt : SortsBy (sortDegFn G) srt) {M n fuel k : Nat} (hn : n ≤ M)
    (hM : M + 1 < UINT_MOD) (hfuel : G.length ≤ fuel) (hk : 0 < k)
    (hpos : 0 < cntEq G data0 n)
    {s : PlaceState} {cut : Nat → Nat}
    (hcore : Core G data0 n (cntLt G data0 n) (cntLt G data0 (n + 1)) s)
    (hcuts : Cuts G (cntLt G data0 n) cut s.perm)
    (hcut : cut (cntLt G data0 n) = cntLt G data0 (n + 1))
    (hw : WInv G data0 M n (cntLt G data0 (n + 1)) s) :
    ∃ s' l' cut', todoLoop G srt fuel n k
        { start := cntLt G data0 n, t_wo := cntLt G data0 (n + 1), todo := cntEq G data0 n } s
        = .ok (s', l') ∧
      Core G data0 (n + 1) (cntLt G data0 (n + 1)) (cntLt G data0 (n + 2)) s' ∧
      Cuts G (cntLt G data0 (n + 1)) cut' s'.perm ∧
      cut' (cntLt G data0 (n + 1)) = cntLt G data0 (n + 2) ∧
      WInv G data0 M n (cntLt G data0 (n + 2)) s' := by
  have hsucc := cntLt_succ G data0 n
  have hN := cntLt_le G data0 (n + 1)
  have hc := cntEq_le G data0 n
  have hsz := hL.size
  obtain ⟨s1, l1, cut1, hrun, hs1, htodo1, hcore1, hcuts1, hcut1, hw1⟩ :=
    innerLoop_inv hL hsrt hn hM fuel
      { start := cntLt G data0 n, t_wo := cntLt G data0 (n + 1), todo := cntEq G data0 n }
      s cut (by simp only; omega) (by simp only; omega) (by simp only; omega)
      (by simp only; omega) hcore hcuts hcut hw
  simp only at htodo1
  have htodo0 : l1.todo = 0 := by omega
  rw [hs1] at hcore1 hcuts1 hcut1
  obtain ⟨ht, hcore2⟩ := core_next_level hL hcore1
  rw [ht] at hcut1 hw1
  refine ⟨s1, l1, cut1, ?_, hcore2, hcuts1, hcut1, hw1⟩
  obtain ⟨k', rfl⟩ : ∃ k', k = k' + 1 := ⟨k - 1, by omega⟩
  rw [todoLoop]
  have hne : ¬ cntEq G data0 n = 0 := by omega
  have hne2 : ¬ cntLt G data0 n = cntLt G data0 (n + 1) := by omega
  simp only [hne, if_false, readAt, hw.here, bind, Except.bind, hne2, hrun]
  rw [todoLoop.eq_def]
  simp only [htodo0, if_true]
  rfl

end loops

theorem getElem?_of_getD {l : List Nat} {i : Nat} (h : i < l.length) :
    l[i]? = some (l.getD i 0) := by
  rw [List.getD_eq_getElem?_getD, List.getElem?_eq_getElem h]; rfl

section levels

variable {G : Graph} {source : Nat} {data0 : NodeData}

theorem Levelled.max_lt {T : Tables} (hL : Levelled G source data0)
    (hT : TablesOk G data0 T) : T.max_dist < G.length := by
  obtain ⟨v, hv, hd⟩ := hT.max_at
  have := hL.lt_len v hv
  omega

theorem Levelled.level_nonempty {T : Tables} (hL : Levelled G source data0)
    (hT : TablesOk G data0 T) {n : Nat} (hn : n ≤ T.max_dist) : 0 < cntEq G data0 n := by
  obtain ⟨v, hv, hd⟩ := hT.max_at
  obtain ⟨x, hx, hxd⟩ := hL.levels_populated _ v hv hd n hn
  rw [← hxd]
  exact Cuthill.cntEq_pos hx

/-- The level loop of the single worker runs every level to completion. -/
theorem levelLoop_inv (hL : Levelled G source data0) {srt : List Nat → List Nat}
    (hsrt : SortsBy (sortDegFn G) srt) {T : Tables} (hT : TablesOk G data0 T)
    {fuel : Nat} (hfuel : G.length ≤ fuel) :
    ∀ (k n : Nat) (s : PlaceState) (cut : Nat → Nat),
      n ≤ T.max_dist + 1 → T.max_dist + 1 - n ≤ k →
      Core G data0 n (cntLt G data0 n) (cntLt G data0 (n + 1)) s →
      Cuts G (cntLt G data0 n) cut s.perm → cut (cntLt G data0 n) = cntLt G data0 (n + 1) →
      LInv G data0 T.max_dist n s →
      ∃ p cut', levelLoop G srt T fuel 1 k n s = .ok p ∧
        Core G data0 (T.max_dist + 1) (cntLt G data0 (T.max_dist + 1))
          (cntLt G data0 (T.max_dist + 2)) p ∧
        Cuts G (cntLt G data0 (T.max_dist + 1)) cut' p.perm ∧
        cut' (cntLt G data0 (T.max_dist + 1)) = cntLt G data0 (T.max_dist + 2) := by
  have hMlt := hL.max_lt hT
  have hsz := hL.size
  have hM : T.max_dist + 1 < UINT_MOD := by omega
  have hwM : wrap (T.max_dist + 1) = T.max_dist + 1 := wrap_of_lt hM
  intro k
  induction k with
  | zero =>
    intro n s cut hn hk hcore hcuts hcut hl
    have heq : n = T.max_dist + 1 := by omega
    subst heq
    refine ⟨s, cut, ?_, hcore, hcuts, hcut⟩
    rw [levelLoop.eq_def]
    simp only [hwM, Nat.lt_irrefl, if_false]
    rfl
  | succ k ih =>
    intro n s cut hn hk hcore hcuts hcut hl
    by_cases heq : n = T.max_dist + 1
    · subst heq
      refine ⟨s, cut, ?_, hcore, hcuts, hcut⟩
      rw [levelLoop.eq_def]
      simp only [hwM, Nat.lt_irrefl, if_false]
      rfl
    · have hnM : n ≤ T.max_dist := by omega
      have hlt : n < T.max_dist + 1 := by omega
      have hw1 : wrap (n + 1) = n + 1 := wrap_of_lt (by omega)
      have hpos := hL.level_nonempty hT hnM
      have hwinv : WInv G data0 T.max_dist n (cntLt G data0 (n + 1)) s :=
        ⟨hl.len, fun j h1 h2 => hl.above j (by omega) h2, hl.here hnM,
          hl.above (n + 1) (by omega) (by omega)⟩
      obtain ⟨s1, l1, cut1, hrun, hcore1, hcuts1, hcut1, hw1'⟩ :=
        todoLoop_inv hL hsrt (k := fuel) hnM hM hfuel (by omega) hpos hcore hcuts hcut hwinv
      have hl1 : LInv G data0 T.max_dist (n + 1) s1 :=
        ⟨hw1'.len, fun j h1 h2 => hw1'.above j h1 h2, fun _ => hw1'.next⟩
      obtain ⟨p, cut2, hrun2, hfin⟩ :=
        ih (n + 1) s1 cut1 (by omega) (by omega) hcore1 hcuts1 hcut1 hl1
      refine ⟨p, cut2, ?_, hfin⟩
      have hlc : T.level_count[n]? = some (cntEq G data0 n) := by
        rw [getElem?_of_getD (by rw [hT.level_count_len]; omega), hT.level_count]
      rw [levelLoop]
      simp only [hwM, hlt, if_true, readAt, hT.read_offset n (by omega), hw1,
        hl.above (n + 1) (by omega) (by omega), hlc, bind, Except.bind, hrun]
      exact hrun2

theorem cntLt_one (hL : Levelled G source data0) : cntLt G data0 1 = 1 := by
  have h := nodup_length_eq_countP (l := [source]) (N := G.length)
    (P := fun v => decide ((data0 v).dist < 1)) (List.nodup_singleton _) (by
      intro v
      simp only [List.mem_singleton, decide_eq_true_eq]
      constructor
      · rintro rfl
        exact ⟨hL.src_lt, by rw [(hL.zero_iff v).mpr rfl]; omega⟩
      · rintro ⟨_, h⟩
        exact (hL.zero_iff v).mp (by omega))
  simpa [cntLt] using h.symm

/-- The placement phase after `count_levels::go`, on distances that level the graph. -/
theorem placeFn_go_placed (hL : Levelled G source data0) {srt : List Nat → List Nat}
    (hsrt : SortsBy (sortDegFn G) srt) {T : Tables} (hT : TablesOk G data0 T)
    {fuel : Nat} (hfuel : G.length ≤ fuel) {perm0 : List Nat} (hperm0 : perm0.length = G.length) :
    ∃ p, placeFn_go G srt T fuel source data0 perm0 = .ok p ∧ Placed G source data0 p := by
  have hMlt := hL.max_lt hT
  have hone := cntLt_one hL
  have hzero := cntLt_zero G data0
  have hN := hL.src_lt
  have hp0 : 0 < perm0.length := by omega
  have hwlen : T.write_offset.length = T.max_dist + 2 := by
    rw [hT.write_offset, hT.read_offset_len]
  have htake : (perm0.set 0 source).take 1 = [source] := by
    have := take_succ_set perm0 source hp0
    simpa using this
  have hcore : Core G data0 0 (cntLt G data0 0) (cntLt G data0 (0 + 1))
      { data := data0, perm := perm0.set 0 source, write_offset := T.write_offset.set 0 1 } := by
    rw [hzero]
    simp only [Nat.zero_add, hone]
    have hmem1 : ∀ v, v ∈ [source] ↔ v < G.length ∧ (data0 v).dist < 1 := by
      intro v
      simp only [List.mem_singleton]
      constructor
      · rintro rfl
        exact ⟨hN, by rw [(hL.zero_iff v).mpr rfl]; omega⟩
      · rintro ⟨_, h⟩
        exact (hL.zero_iff v).mp (by omega)
    have hone' : cntLt G data0 (0 + 1) = 1 := hone
    refine ⟨fun _ => rfl, ?_, by omega, by omega, ?_, ?_, ?_, ?_, ?_, ?_, ?_, ?_⟩
    · simp only [List.length_set]; exact hperm0
    · simp only [htake]; exact List.nodup_singleton _
    · intro v
      simp only [htake, hmem1 v, hL.notdone v]
      constructor
      · rintro ⟨hv, h⟩; exact ⟨hv, Or.inl (by omega)⟩
      · rintro ⟨hv, h | ⟨_, h⟩⟩
        · exact ⟨hv, by omega⟩
        · cases h
    · intro k hk v
      by_cases hk0 : k = 0
      · subst hk0
        simp only [hzero, List.take_zero, List.not_mem_nil, false_iff]
        omega
      · have hk1 : k = 1 := by omega
        subst hk1
        simp only [hone, htake]
        exact hmem1 v
    · intro v _; exact hL.notdone v
    · intro j b _ h2; omega
    · intro i a h1 h2; omega
    · intro v _ h0 hv; omega
    · intro v _; exact hL.notdone v
  have hcuts : Cuts G (cntLt G data0 0) (fun _ => 1) (perm0.set 0 source) := by
    rw [hzero]
    exact ⟨rfl, fun _ _ _ _ => Nat.le_refl _, fun i j a hi => by omega,
      fun i j1 j2 a1 a2 hi => by omega⟩
  have hlinv : LInv G data0 T.max_dist 0
      { data := data0, perm := perm0.set 0 source, write_offset := T.write_offset.set 0 1 } := by
    refine ⟨?_, ?_, ?_⟩
    · simp only [List.length_set]; exact hwlen
    · intro k hk1 hk2
      simp only
      rw [List.getElem?_set_ne (by omega), hT.write_offset]
      exact hT.read_offset k hk2
    · intro _
      simp only [Nat.zero_add, hone]
      rw [List.getElem?_set_self (by omega)]
  obtain ⟨p, cut, hrun, hcoreF, hcutsF, hcutF⟩ :=
    levelLoop_inv hL hsrt hT hfuel fuel 0 _ (fun _ => 1) (by omega) (by omega) hcore hcuts
      (by simp only [Nat.zero_add, hone]) hlinv
  have hall : ∀ k, T.max_dist < k → cntLt G data0 k = G.length := by
    intro k hk
    apply cntLt_eq_length
    intro v hv
    have := hT.max_ge v hv
    omega
  rw [hall _ (by omega), hall _ (by omega)] at hcoreF hcutF
  rw [hall _ (by omega)] at hcutsF
  have hfull : p.perm.take G.length = p.perm :=
    List.take_of_length_le (Nat.le_of_eq hcoreF.perm_len)
  refine ⟨p, ?_, hcoreF.dist_eq, hcoreF.perm_len, ?_, ?_, ?_, ?_, ⟨cut, hcutsF, hcutF⟩, ?_, ?_⟩
  · simp only [placeFn_go, writeAt, hp0, if_true, hwlen, Nat.zero_lt_succ, bind, Except.bind,
      placeFn_op]
    exact hrun
  · have := hcoreF.nodup; rwa [hfull] at this
  · intro v
    have := hcoreF.mem v
    rw [hfull] at this
    rw [this]
    constructor
    · exact fun h => h.1
    · intro hv
      have := hT.max_ge v hv
      exact ⟨hv, Or.inl (by omega)⟩
  · intro k v
    by_cases hk : k ≤ T.max_dist + 1 + 1
    · exact hcoreF.low k hk v
    · rw [hall k (by omega), hfull]
      have := hcoreF.mem v
      rw [hfull] at this
      rw [this]
      constructor
      · intro h
        have := hT.max_ge v h.1
        exact ⟨h.1, by omega⟩
      · intro h
        have := hT.max_ge v h.1
        exact ⟨h.1, Or.inl (by omega)⟩
  · intro i a hi hia
    exact hcoreF.parent i a hi (by
      have := lt_length_of_getElem? hia
      rw [hcoreF.perm_len] at this; exact this) hia
  · intro v hv hne
    have h0 : (data0 v).dist ≠ 0 := fun h => hne ((hL.zero_iff v).mp h)
    have := hT.max_ge v hv
    exact hcoreF.marked v hv (by omega) (by omega)
  · exact hcoreF.unmarked source ((hL.zero_iff source).mpr rfl)

end levels

/-! ## From the distance assignment to the placement -/

theorem levelled_of_bfs {G : Graph} {source : Nat} {data : NodeData}
    (hwf : WF G) (hs : source < G.length) (hsize : G.length < DIST_INFINITY)
    (hreach : ∀ v, v < G.length → Reachable G source v)
    (hpost : BfsPost G source data) : Levelled G source data := by
  have hfin : ∀ v, v < G.length → (data v).dist < DIST_INFINITY := by
    intro v hv
    obtain ⟨k, hw⟩ := hreach v hv
    exact hpost.finite_of_walk hwf hs hsize hw
  refine ⟨hwf, ?_, hs, hpost.zero_iff, ?_, ?_, ?_, hpost.notdone⟩
  · rw [dist_infinity_val] at hsize; rw [uint_mod_val]; omega
  · intro v j hv hd
    exact hpost.pred hd (hfin v hv)
  · intro u v he
    exact hpost.relaxed u (hfin u (edges_src_lt he)) v he
  · intro v hv
    exact hpost.finite_lt_length hs hv (hfin v hv)

/-- The whole of `CutHillUnordered::go` after any schedule of the distance assignment, on
a graph all of whose nodes are reachable. -/
theorem reorder_placed {G : Graph} {srt : List Nat → List Nat} {source : Nat} {s : BfsState}
    (hwf : WF G) (hs : source < G.length) (hsize : G.length < DIST_INFINITY)
    (hsrt : SortsBy (sortDegFn G) srt)
    (hreach : ∀ v, v < G.length → Reachable G source v)
    (hbfs : BfsFinal G source s) {fuel : Nat} (hfuel : G.length ≤ fuel)
    {perm0 : List Nat} (hperm0 : perm0.length = G.length) :
    ∃ p, reorder G srt fuel source s.data perm0 = .ok p ∧ Placed G source s.data p ∧
      Levelled G source s.data := by
  have hpost := bfsPost_of_final hbfs
  have hL := levelled_of_bfs hwf hs hsize hreach hpost
  have hT : TablesOk G s.data (count_levels_go G s.data) :=
    tablesOk_go (by omega) hL.size hpost.le_inf
  obtain ⟨p, hp, hplaced⟩ := placeFn_go_placed hL hsrt hT hfuel hperm0
  exact ⟨p, hp, hplaced, hL⟩

/-! ## Unfolding the loops -/

theorem bind_ok {α β : Type} (a : α) (f : α → Except Fault β) :
    (Except.ok a >>= f) = f a := rfl

theorem bind_error {α β : Type} (e : Fault) (f : α → Except Fault β) :
    ((Except.error e : Except Fault α) >>= f) = Except.error e := rfl

theorem scanEdge_oob {n : Nat} {s : PlaceState × Nat} {dst : Nat}
    (h : ((!(s.1.data dst).done) && ((s.1.data dst).dist == wrap (n + 1))) = true)
    (hlt : ¬ s.2 < s.1.perm.length) : scanEdge n s dst = .error .oob := by
  simp only [scanEdge, h, writeAt, hlt]; rfl

theorem scanEdges_cons (n : Nat) (s : PlaceState × Nat) (dst : Nat) (rest : List Nat) :
    scanEdges n s (dst :: rest) = (scanEdge n s dst >>= fun s1 => scanEdges n s1 rest) := rfl

theorem consume_eq (G : Graph) (srt : List Nat → List Nat) (n start t_wo : Nat)
    (s : PlaceState) :
    consume G srt n start t_wo s =
      (readAt s.perm start >>= fun next =>
        scanEdges n (s, t_wo) (edges G next) >>= fun r =>
          writeAt r.1.write_offset (wrap (n + 1)) r.2 >>= fun wo =>
            pure ({ r.1 with perm := sortSlice srt r.1.perm t_wo r.2, write_offset := wo,
                             past_end := r.1.past_end || sortPastEnd r.1.perm t_wo r.2 },
              r.2)) := rfl

theorem innerLoop_done {G : Graph} {srt : List Nat → List Nat} {n cend k : Nat} {l : Locals}
    {s : PlaceState} (h : l.start = cend) : innerLoop G srt n cend k l s = .ok (s, l) := by
  unfold innerLoop
  simp only [h, if_true]; rfl

theorem innerLoop_zero {G : Graph} {srt : List Nat → List Nat} {n cend : Nat} {l : Locals}
    {s : PlaceState} (h : ¬ l.start = cend) :
    innerLoop G srt n cend 0 l s = .error .nofuel := by
  unfold innerLoop
  simp only [h, if_false]

theorem innerLoop_succ {G : Graph} {srt : List Nat → List Nat} {n cend k : Nat} {l : Locals}
    {s : PlaceState} (h : ¬ l.start = cend) :
    innerLoop G srt n cend (k + 1) l s =
      (consume G srt n l.start l.t_wo s >>= fun r =>
        innerLoop G srt n cend k
          { start := wrap (l.start + 1), t_wo := r.2, todo := wrap (l.todo + (UINT_MOD - 1)) }
          r.1) := by
  rw [innerLoop]
  simp only [h, if_false]

theorem todoLoop_done {G : Graph} {srt : List Nat → List Nat} {fuel n k : Nat} {l : Locals}
    {s : PlaceState} (h : l.todo = 0) : todoLoop G srt fuel n k l s = .ok (s, l) := by
  unfold todoLoop
  simp only [h, if_true]; rfl

theorem todoLoop_zero {G : Graph} {srt : List Nat → List Nat} {fuel n : Nat} {l : Locals}
    {s : PlaceState} (h : ¬ l.todo = 0) :
    todoLoop G srt fuel n 0 l s = .error .nofuel := by
  unfold todoLoop
  simp only [h, if_false]

theorem todoLoop_succ {G : Graph} {srt : List Nat → List Nat} {fuel n k : Nat} {l : Locals}
    {s : PlaceState} (h : ¬ l.todo = 0) :
    todoLoop G srt fuel n (k + 1) l s =
      (readAt s.write_offset n >>= fun cend =>
        if l.start = cend then .error .spin
        else innerLoop G srt n cend fuel l s >>= fun r =>
          todoLoop G srt fuel n k r.2 r.1) := by
  rw [todoLoop]
  simp only [h, if_false]

theorem levelLoop_exit {G : Graph} {srt : List Nat → List Nat} {T : Tables}
    {fuel tot k n : Nat} {s : PlaceState} (h : ¬ n < wrap (T.max_dist + 1)) :
    levelLoop G srt T fuel tot k n s = .ok s := by
  unfold levelLoop
  simp only [h, if_false]; rfl

theorem levelLoop_zero {G : Graph} {srt : List Nat → List Nat} {T : Tables}
    {fuel tot n : Nat} {s : PlaceState} (h : n < wrap (T.max_dist + 1)) :
    levelLoop G srt T fuel tot 0 n s = .error .nofuel := by
  unfold levelLoop
  simp only [h, if_true]

theorem levelLoop_succ {G : Graph} {srt : List Nat → List Nat} {T : Tables}
    {fuel tot k n : Nat} {s : PlaceState} (h : n < wrap (T.max_dist + 1)) :
    levelLoop G srt T fuel tot (k + 1) n s =
      (readAt T.read_offset n >>= fun start =>
        readAt s.write_offset (wrap (n + 1)) >>= fun t_wo =>
          readAt T.level_count n >>= fun todo =>
            todoLoop G srt fuel n fuel { start := start, t_wo := t_wo, todo := todo } s
              >>= fun r => levelLoop G srt T fuel tot k (wrap (n + tot)) r.1) := by
  rw [levelLoop]
  simp only [h, if_true]

theorem readAt_ok {v : List Nat} {i x : Nat} (h : readAt v i = .ok x) : v[i]? = some x := by
  unfold readAt at h
  cases hv : v[i]? with
  | none => rw [hv] at h; cases h
  | some y => rw [hv] at h; cases h; rfl

theorem readAt_eq {v : List Nat} {i x : Nat} (h : v[i]? = some x) : readAt v i = .ok x := by
  unfold readAt; rw [h]

theorem writeAt_ok {v v' : List Nat} {i x : Nat} (h : writeAt v i x = .ok v') :
    i < v.length ∧ v' = v.set i x := by
  unfold writeAt at h
  by_cases hi : i < v.length
  · rw [if_pos hi] at h; cases h; exact ⟨hi, rfl⟩
  · rw [if_neg hi] at h; cases h

/-- Case analysis on a sequenced step that returned. -/
theorem bind_eq_ok {α β : Type} {x : Except Fault α} {f : α → Except Fault β} {b : β}
    (h : (x >>= f) = .ok b) : ∃ a, x = .ok a ∧ f a = .ok b := by
  cases x with
  | error e => cases h
  | ok a => exact ⟨a, rfl, h⟩

/-! ## Facts about every run of the placement -/

theorem scanEdge_ok {n : Nat} {s s' : PlaceState} {t t' dst : Nat}
    (h : scanEdge n (s, t) dst = .ok (s', t')) :
    (s' = s ∧ t' = t) ∨
      (t < s.perm.length ∧ t' = wrap (t + 1) ∧
        s' = { s with data := setDone s.data dst, perm := s.perm.set t dst }) := by
  by_cases hc : ((!(s.data dst).done) && ((s.data dst).dist == wrap (n + 1))) = true
  · by_cases hlt : t < s.perm.length
    · rw [scanEdge_hit (s := (s, t)) hc hlt] at h
      simp only [Except.ok.injEq, Prod.mk.injEq] at h
      exact Or.inr ⟨hlt, h.2.symm, h.1.symm⟩
    · rw [scanEdge_oob (s := (s, t)) hc hlt] at h
      cases h
  · rw [scanEdge_miss (s := (s, t)) (by simpa using hc)] at h
    simp only [Except.ok.injEq, Prod.mk.injEq] at h
    exact Or.inl ⟨h.1.symm, h.2.symm⟩

theorem scanEdge_frame {n : Nat} {s s' : PlaceState} {t t' dst : Nat}
    (hlen : s.perm.length < UINT_MOD)
    (h : scanEdge n (s, t) dst = .ok (s', t')) : ScanFrame s s' t t' := by
  rcases scanEdge_ok h with ⟨rfl, rfl⟩ | ⟨hlt, rfl, rfl⟩
  · exact ⟨rfl, rfl, fun _ _ => rfl, Nat.le_refl _, fun h => h, fun _ => ⟨rfl, rfl⟩⟩
  · have hw : wrap (t + 1) = t + 1 := wrap_of_lt (by omega)
    rw [hw]
    refine ⟨rfl, by simp, ?_, by omega, fun _ => by omega, fun h => by omega⟩
    intro j hj
    simp only
    rw [List.getElem?_set_ne (by omega)]

theorem ScanFrame.andThen {s s1 s2 : PlaceState} {t t1 t2 : Nat}
    (h1 : ScanFrame s s1 t t1) (h2 : ScanFrame s1 s2 t1 t2) : ScanFrame s s2 t t2 := by
  refine ⟨by rw [h2.wo, h1.wo], by rw [h2.len, h1.len], ?_, Nat.le_trans h1.le h2.le, ?_, ?_⟩
  · intro j hj
    rw [h2.low j (Nat.lt_of_lt_of_le hj h1.le), h1.low j hj]
  · intro hb
    have := h1.bound hb
    have := h2.bound (by rw [h1.len]; exact this)
    rw [h1.len] at this; exact this
  · intro hb
    obtain ⟨e1, e2⟩ := h1.same hb
    obtain ⟨e3, e4⟩ := h2.same (by rw [h1.len, e2]; exact hb)
    exact ⟨by rw [e3, e1], by rw [e4, e2]⟩

theorem scanEdges_frame {n : Nat} :
    ∀ (es : List Nat) {s s' : PlaceState} {t t' : Nat}, s.perm.length < UINT_MOD →
      scanEdges n (s, t) es = .ok (s', t') → ScanFrame s s' t t' := by
  intro es
  induction es with
  | nil =>
    intro s s' t t' _ h
    simp only [scanEdges, pure, Except.pure, Except.ok.injEq, Prod.mk.injEq] at h
    obtain ⟨rfl, rfl⟩ := h
    exact ⟨rfl, rfl, fun _ _ => rfl, Nat.le_refl _, fun h => h, fun _ => ⟨rfl, rfl⟩⟩
  | cons e es ih =>
    intro s s' t t' hlen h
    rw [scanEdges_cons] at h
    obtain ⟨⟨s1, t1⟩, hr, h⟩ := bind_eq_ok h
    have h1 := scanEdge_frame hlen hr
    have h2 := ih (by rw [h1.len]; exact hlen) h
    exact h1.andThen h2

theorem sortSlice_same {srt : List Nat → List Nat} (hsrt : ∀ l, (srt l).Perm l)
    {l : List Nat} {a : Nat} : sortSlice srt l a a = l := by
  unfold sortSlice
  have : srt (List.take (a - a) (List.drop a l)) = [] := by
    have h := hsrt (List.take (a - a) (List.drop a l))
    simp only [Nat.sub_self, List.take_zero] at h ⊢
    exact List.Perm.eq_nil h
  rw [this]
  simp

theorem consume_frame {G : Graph} {srt : List Nat → List Nat} (hsrt : ∀ l, (srt l).Perm l)
    {n start t t' : Nat} {s s' : PlaceState} (hlen : s.perm.length < UINT_MOD)
    (h : consume G srt n start t s = .ok (s', t')) : StepFrame n s s' t t' := by
  rw [consume_eq] at h
  obtain ⟨nxt, _, h⟩ := bind_eq_ok h
  obtain ⟨⟨s1, t1⟩, hr, h⟩ := bind_eq_ok h
  obtain ⟨wo, hwo, h⟩ := bind_eq_ok h
  obtain ⟨_, rfl⟩ := writeAt_ok hwo
  simp only [pure, Except.pure, Except.ok.injEq, Prod.mk.injEq] at h
  obtain ⟨rfl, rfl⟩ := h
  have hf := scanEdges_frame _ hlen hr
  by_cases hb : t ≤ s.perm.length
  · have hb1 := hf.bound hb
    have hb1' : t1 ≤ s1.perm.length := by rw [hf.len]; exact hb1
    refine ⟨by simp only [hf.wo], ?_, ?_, hf.le, fun _ => hb1⟩
    · simp only [length_sortSlice hsrt hf.le hb1', hf.len]
    · intro j hj _
      simp only
      rw [sortSlice_getElem?_lt (by rw [hf.len]; exact hb) hj, hf.low j hj]
  · obtain ⟨e1, e2⟩ := hf.same (by omega)
    subst e2
    refine ⟨by simp only [hf.wo], ?_, ?_, Nat.le_refl _, fun h => h⟩
    · simp only [sortSlice_same hsrt, e1]
    · intro j _ _
      simp only [sortSlice_same hsrt, e1]

theorem LevelFrame.refl (n : Nat) (s : PlaceState) : LevelFrame n s s :=
  ⟨rfl, fun _ _ => rfl, rfl⟩

theorem StepFrame.level {n : Nat} {s s' : PlaceState} {t t' : Nat}
    (h : StepFrame n s s' t t') : LevelFrame n s s' := by
  refine ⟨by rw [h.wo, List.length_set], ?_, h.len⟩
  intro j hj
  rw [h.wo, List.getElem?_set_ne (fun e => hj e.symm)]

theorem LevelFrame.chain {n : Nat} {s s1 s2 : PlaceState}
    (h1 : LevelFrame n s s1) (h2 : LevelFrame n s1 s2) : LevelFrame n s s2 :=
  ⟨by rw [h2.wo_len, h1.wo_len], fun j hj => by rw [h2.wo j hj, h1.wo j hj],
    by rw [h2.len, h1.len]⟩

theorem innerLoop_frame {G : Graph} {srt : List Nat → List Nat} (hsrt : ∀ l, (srt l).Perm l)
    {n cend : Nat} :
    ∀ (k : Nat) {l l' : Locals} {s s' : PlaceState}, s.perm.length < UINT_MOD →
      innerLoop G srt n cend k l s = .ok (s', l') → LevelFrame n s s' := by
  intro k
  induction k with
  | zero =>
    intro l l' s s' _ h
    by_cases hc : l.start = cend
    · rw [innerLoop_done hc] at h
      simp only [Except.ok.injEq, Prod.mk.injEq] at h
      rw [← h.1]; exact LevelFrame.refl n s
    · rw [innerLoop_zero hc] at h; cases h
  | succ k ih =>
    intro l l' s s' hlen h
    by_cases hc : l.start = cend
    · rw [innerLoop_done hc] at h
      simp only [Except.ok.injEq, Prod.mk.injEq] at h
      rw [← h.1]; exact LevelFrame.refl n s
    · rw [innerLoop_succ hc] at h
      obtain ⟨⟨s1, t1⟩, hr, h⟩ := bind_eq_ok h
      have h1 := consume_frame hsrt hlen hr
      have h2 := ih (by rw [h1.len]; exact hlen) h
      exact h1.level.chain h2

theorem todoLoop_frame {G : Graph} {srt : List Nat → List Nat} (hsrt : ∀ l, (srt l).Perm l)
    {fuel n : Nat} :
    ∀ (k : Nat) {l l' : Locals} {s s' : PlaceState}, s.perm.length < UINT_MOD →
      todoLoop G srt fuel n k l s = .ok (s', l') → LevelFrame n s s' := by
  intro k
  induction k with
  | zero =>
    intro l l' s s' _ h
    by_cases hc : l.todo = 0
    · rw [todoLoop_done hc] at h
      simp only [Except.ok.injEq, Prod.mk.injEq] at h
      rw [← h.1]; exact LevelFrame.refl n s
    · rw [todoLoop_zero hc] at h; cases h
  | succ k ih =>
    intro l l' s s' hlen h
    by_cases hc : l.todo = 0
    · rw [todoLoop_done hc] at h
      simp only [Except.ok.injEq, Prod.mk.injEq] at h
      rw [← h.1]; exact LevelFrame.refl n s
    · rw [todoLoop_succ hc] at h
      obtain ⟨cend, _, h⟩ := bind_eq_ok h
      by_cases hsp : l.start = cend
      · rw [if_pos hsp] at h; cases h
      · rw [if_neg hsp] at h
        obtain ⟨⟨s1, l1⟩, hr, h⟩ := bind_eq_ok h
        have h1 := innerLoop_frame hsrt fuel hlen hr
        have h2 := ih (by rw [h1.len]; exact hlen) h
        exact h1.chain h2

/-- The placement never changes the length of `perm`. -/
theorem levelLoop_length {G : Graph} {srt : List Nat → List Nat} (hsrt : ∀ l, (srt l).Perm l)
    {T : Tables} {fuel tot : Nat} :
    ∀ (k n : Nat) {s p : PlaceState}, s.perm.length < UINT_MOD →
      levelLoop G srt T fuel tot k n s = .ok p → p.perm.length = s.perm.length := by
  intro k
  induction k with
  | zero =>
    intro n s p _ h
    by_cases hc : n < wrap (T.max_dist + 1)
    · rw [levelLoop_zero hc] at h; cases h
    · rw [levelLoop_exit hc] at h
      simp only [Except.ok.injEq] at h
      rw [← h]
  | succ k ih =>
    intro n s p hlen h
    by_cases hc : n < wrap (T.max_dist + 1)
    · rw [levelLoop_succ hc] at h
      obtain ⟨start, _, h⟩ := bind_eq_ok h
      obtain ⟨t_wo, _, h⟩ := bind_eq_ok h
      obtain ⟨todo, _, h⟩ := bind_eq_ok h
      obtain ⟨⟨s1, l1⟩, hr, h⟩ := bind_eq_ok h
      have h1 := todoLoop_frame hsrt fuel hlen hr
      have h2 := ih _ (by rw [h1.len]; exact hlen) h
      rw [h2, h1.len]
    · rw [levelLoop_exit hc] at h
      simp only [Except.ok.injEq] at h
      rw [← h]

/-! ## The first slot of `perm` -/

theorem consume_first {G : Graph} {srt : List Nat → List Nat} (hsrt : ∀ l, (srt l).Perm l)
    {source n start t t' : Nat} {s s' : PlaceState} (hn : n + 1 < UINT_MOD) (ht : 1 ≤ t)
    (hinv : FirstInv source s) (h : consume G srt n start t s = .ok (s', t')) :
    FirstInv source s' ∧ 1 ≤ t' := by
  have hf := consume_frame hsrt hinv.lt h
  have hw : wrap (n + 1) = n + 1 := wrap_of_lt hn
  have ht' : 1 ≤ t' := Nat.le_trans ht hf.le
  refine ⟨⟨by rw [hf.len]; exact hinv.pos, by rw [hf.len]; exact hinv.lt, ?_, ?_⟩, ht'⟩
  · rw [hf.low 0 (by omega) hinv.pos]; exact hinv.first
  · intro k x hk hx
    rw [hf.wo, hw] at hx
    by_cases hkn : k = n + 1
    · subst hkn
      have hlt : n + 1 < (s.write_offset.set (n + 1) t').length := lt_length_of_getElem? hx
      rw [List.length_set] at hlt
      rw [List.getElem?_set_self hlt] at hx
      cases hx; exact ht'
    · rw [List.getElem?_set_ne (fun e => hkn e.symm)] at hx
      exact hinv.wo k x hk hx

theorem innerLoop_first {G : Graph} {srt : List Nat → List Nat} (hsrt : ∀ l, (srt l).Perm l)
    {source n cend : Nat} (hn : n + 1 < UINT_MOD) :
    ∀ (k : Nat) {l l' : Locals} {s s' : PlaceState}, 1 ≤ l.t_wo → FirstInv source s →
      innerLoop G srt n cend k l s = .ok (s', l') → FirstInv source s' ∧ 1 ≤ l'.t_wo := by
  intro k
  induction k with
  | zero =>
    intro l l' s s' ht hinv h
    by_cases hc : l.start = cend
    · rw [innerLoop_done hc] at h
      simp only [Except.ok.injEq, Prod.mk.injEq] at h
      rw [← h.1, ← h.2]; exact ⟨hinv, ht⟩
    · rw [innerLoop_zero hc] at h; cases h
  | succ k ih =>
    intro l l' s s' ht hinv h
    by_cases hc : l.start = cend
    · rw [innerLoop_done hc] at h
      simp only [Except.ok.injEq, Prod.mk.injEq] at h
      rw [← h.1, ← h.2]; exact ⟨hinv, ht⟩
    · rw [innerLoop_succ hc] at h
      obtain ⟨⟨s1, t1⟩, hr, h⟩ := bind_eq_ok h
      obtain ⟨h1, ht1⟩ := consume_first hsrt hn ht hinv hr
      exact ih ht1 h1 h

theorem todoLoop_first {G : Graph} {srt : List Nat → List Nat} (hsrt : ∀ l, (srt l).Perm l)
    {source fuel n : Nat} (hn : n + 1 < UINT_MOD) :
    ∀ (k : Nat) {l l' : Locals} {s s' : PlaceState}, 1 ≤ l.t_wo → FirstInv source s →
      todoLoop G srt fuel n k l s = .ok (s', l') → FirstInv source s' := by
  intro k
  induction k with
  | zero =>
    intro l l' s s' _ hinv h
    by_cases hc : l.todo = 0
    · rw [todoLoop_done hc] at h
      simp only [Except.ok.injEq, Prod.mk.injEq] at h
      rw [← h.1]; exact hinv
    · rw [todoLoop_zero hc] at h; cases h
  | succ k ih =>
    intro l l' s s' ht hinv h
    by_cases hc : l.todo = 0
    · rw [todoLoop_done hc] at h
      simp only [Except.ok.injEq, Prod.mk.injEq] at h
      rw [← h.1]; exact hinv
    · rw [todoLoop_succ hc] at h
      obtain ⟨cend, _, h⟩ := bind_eq_ok h
      by_cases hsp : l.start = cend
      · rw [if_pos hsp] at h; cases h
      · rw [if_neg hsp] at h
        obtain ⟨⟨s1, l1⟩, hr, h⟩ := bind_eq_ok h
        obtain ⟨h1, ht1⟩ := innerLoop_first hsrt hn fuel ht hinv hr
        exact ih ht1 h1 h

theorem levelLoop_first {G : Graph} {srt : List Nat → List Nat} (hsrt : ∀ l, (srt l).Perm l)
    {T : Tables} {source fuel tot : Nat} :
    ∀ (k n : Nat) {s p : PlaceState}, FirstInv source s →
      levelLoop G srt T fuel tot k n s = .ok p → FirstInv source p := by
  intro k
  induction k with
  | zero =>
    intro n s p hinv h
    by_cases hc : n < wrap (T.max_dist + 1)
    · rw [levelLoop_zero hc] at h; cases h
    · rw [levelLoop_exit hc] at h
      simp only [Except.ok.injEq] at h
      rw [← h]; exact hinv
  | succ k ih =>
    intro n s p hinv h
    by_cases hc : n < wrap (T.max_dist + 1)
    · have hn : n + 1 < UINT_MOD := by
        have : wrap (T.max_dist + 1) < UINT_MOD := Nat.mod_lt _ (by decide)
        omega
      rw [levelLoop_succ hc] at h
      obtain ⟨start, _, h⟩ := bind_eq_ok h
      obtain ⟨t_wo, ht, h⟩ := bind_eq_ok h
      obtain ⟨todo, _, h⟩ := bind_eq_ok h
      obtain ⟨⟨s1, l1⟩, hr, h⟩ := bind_eq_ok h
      have ht1 : 1 ≤ t_wo := by
        have := readAt_ok ht
        rw [wrap_of_lt hn] at this
        exact hinv.wo (n + 1) t_wo (by omega) this
      exact ih _ (todoLoop_first hsrt hn fuel ht1 hinv hr) h
    · rw [levelLoop_exit hc] at h
      simp only [Except.ok.injEq] at h
      rw [← h]; exact hinv

/-- Whenever the placement returns, `perm` has kept its length and `perm[0]` is the
source. -/
theorem placeFn_go_first {G : Graph} {srt : List Nat → List Nat} (hsrt : ∀ l, (srt l).Perm l)
    {data : NodeData} {T : Tables} (hT : TablesOk G data T) {source : Nat}
    (hs : source < G.length) (hsrc : (data source).dist = 0)
    {fuel : Nat} {perm0 : List Nat} (hlen : perm0.length < UINT_MOD) {p : PlaceState}
    (h : placeFn_go G srt T fuel source data perm0 = .ok p) :
    p.perm.length = perm0.length ∧ p.perm[0]? = some source := by
  unfold placeFn_go at h
  obtain ⟨perm1, hp1, h⟩ := bind_eq_ok h
  obtain ⟨wo1, hw1, h⟩ := bind_eq_ok h
  obtain ⟨hp0, rfl⟩ := writeAt_ok hp1
  obtain ⟨hw0, rfl⟩ := writeAt_ok hw1
  have hone : 1 ≤ cntLt G data 1 := by
    unfold cntLt
    rw [Nat.succ_le, List.countP_pos_iff]
    exact ⟨source, List.mem_range.mpr hs, by simp [hsrc]⟩
  have hinv : FirstInv source
      { data := data, perm := perm0.set 0 source, write_offset := T.write_offset.set 0 1 } := by
    refine ⟨by simpa using hp0, by simpa using hlen, ?_, ?_⟩
    · simp only; rw [List.getElem?_set_self hp0]
    · intro k x hk hx
      simp only at hx
      rw [List.getElem?_set_ne (by omega), hT.write_offset] at hx
      have hkl := lt_length_of_getElem? hx
      rw [hT.read_offset_len] at hkl
      rw [hT.read_offset k (by omega)] at hx
      cases hx
      exact Nat.le_trans hone (cntLt_mono G data hk)
  unfold placeFn_op at h
  have h1 := levelLoop_first hsrt _ _ hinv h
  have h2 := levelLoop_length hsrt _ _ (by simpa using hlen) h
  exact ⟨by simpa using h2, h1.first⟩

/-! ## Nodes that the distance assignment did not reach -/

/-- With a node left at `DIST_INFINITY`, the level loop of the single worker never
returns: the worker reaches level `DIST_INFINITY` and waits for a slot nobody fills. -/
theorem levelLoop_hang {G : Graph} {srt : List Nat → List Nat} (hsrt : ∀ l, (srt l).Perm l)
    {data : NodeData} {T : Tables} (hT : TablesOk G data T)
    (hmax : T.max_dist = DIST_INFINITY)
    (hgap : cntEq G data (DIST_INFINITY - 1) = 0) (hinf : 0 < cntEq G data DIST_INFINITY)
    {fuel : Nat} :
    ∀ (k n : Nat) (s p : PlaceState), n ≤ DIST_INFINITY → s.perm.length < UINT_MOD →
      s.write_offset[DIST_INFINITY]? = some (cntLt G data DIST_INFINITY) →
      levelLoop G srt T fuel 1 k n s ≠ .ok p := by
  have hwM : wrap (T.max_dist + 1) = DIST_INFINITY + 1 := by
    rw [hmax]; exact wrap_of_lt (by rw [dist_infinity_val, uint_mod_val]; omega)
  intro k
  induction k with
  | zero =>
    intro n s p hn _ _ h
    rw [levelLoop_zero (by rw [hwM]; omega)] at h
    cases h
  | succ k ih =>
    intro n s p hn hlen hwo h
    have hw1 : wrap (n + 1) = n + 1 :=
      wrap_of_lt (by rw [dist_infinity_val] at hn; rw [uint_mod_val]; omega)
    have hlc : T.level_count[n]? = some (cntEq G data n) := by
      rw [getElem?_of_getD (by rw [hT.level_count_len, hmax]; omega), hT.level_count]
    rw [levelLoop_succ (by rw [hwM]; omega),
      readAt_eq (hT.read_offset n (by rw [hmax]; omega)), bind_ok] at h
    obtain ⟨t_wo, _, h2⟩ := bind_eq_ok h
    rw [readAt_eq hlc, bind_ok] at h2
    obtain ⟨⟨s1, l1⟩, hr, h3⟩ := bind_eq_ok h2
    by_cases hnI : n = DIST_INFINITY
    · subst hnI
      have hne : ¬ cntEq G data DIST_INFINITY = 0 := by omega
      cases fuel with
      | zero => rw [todoLoop_zero hne] at hr; cases hr
      | succ f =>
        rw [todoLoop_succ hne, readAt_eq hwo, bind_ok] at hr
        simp only [if_true] at hr
        cases hr
    · have hframe : s1.perm.length < UINT_MOD ∧
          s1.write_offset[DIST_INFINITY]? = some (cntLt G data DIST_INFINITY) := by
        by_cases hn1 : n + 1 = DIST_INFINITY
        · have hz : cntEq G data n = 0 := by
            have : n = DIST_INFINITY - 1 := by omega
            rw [this]; exact hgap
          rw [todoLoop_done hz] at hr
          simp only [Except.ok.injEq, Prod.mk.injEq] at hr
          rw [← hr.1]; exact ⟨hlen, hwo⟩
        · have hf := todoLoop_frame hsrt fuel hlen hr
          refine ⟨by rw [hf.len]; exact hlen, ?_⟩
          rw [hf.wo DIST_INFINITY (by rw [hw1]; omega)]
          exact hwo
      exact ih (wrap (n + 1)) s1 p (by rw [hw1]; omega) hframe.1 hframe.2 h3

/-! ## The reference sort meets the contract -/

theorem sortsBy_degSort (G : Graph) : SortsBy (sortDegFn G) (degSort G) := by
  intro l
  have htot : IsTotal Nat (fun a b => sortDegFn G b a = false) :=
    ⟨fun a b => by simp only [sortDegFn, decide_eq_false_iff_not]; omega⟩
  have htrans : IsTrans Nat (fun a b => sortDegFn G b a = false) :=
    ⟨fun a b c => by simp only [sortDegFn, decide_eq_false_iff_not]; omega⟩
  exact ⟨List.perm_insertionSort _ l, List.sorted_insertionSort _ l⟩

/-! ## Runs of `main` -/

theorem main_ok {G : Graph} {srt : List Nat → List Nat} {fuel : Nat} {p : PlaceState}
    (h : main G srt fuel = .ok p) :
    ∃ s, BfsFinal G 0 s ∧ reorder G srt fuel 0 s.data (permInit G) = .ok p := by
  unfold main at h
  cases hb : bfsFn_go G fuel 0 with
  | none => rw [hb] at h; cases h
  | some data =>
    rw [hb] at h
    exact ⟨⟨data, [], []⟩, ⟨bfsRun_steps G fuel _ _ data hb, rfl, rfl⟩, h⟩

theorem main_of_run {G : Graph} {srt : List Nat → List Nat} {fuel : Nat}
    (h : (bfsFn_go G fuel 0).isSome = true) :
    main G srt fuel = reorder G srt fuel 0 (bfsResult G fuel 0) (permInit G) := by
  obtain ⟨d, hd⟩ := Option.isSome_iff_exists.mp h
  simp [main, bfsResult, hd]

theorem reachable_of_run (G : Graph) (fuel source : Nat)
    (h : (bfsFn_go G fuel source).isSome = true)
    (hfin : ∀ v, v < G.length → (bfsResult G fuel source v).dist < DIST_INFINITY) :
    ∀ v, v < G.length → Reachable G source v := by
  intro v hv
  have hpost := bfsPost_of_final (bfsFinal_of_run h)
  exact ⟨_, hpost.walk v (hfin v hv)⟩

theorem length_permInit (G : Graph) : (permInit G).length = G.length := by
  simp [permInit]

/-! ## Graphs with a node out of reach -/

/-- On a graph with a node that the source does not reach, the single worker never
returns from the placement. -/
theorem reorder_hang {G : Graph} {srt : List Nat → List Nat} {source : Nat} {s : BfsState}
    (hs : source < G.length) (hsize : G.length < DIST_INFINITY)
    (hsrt : SortsBy (sortDegFn G) srt) (hbfs : BfsFinal G source s)
    {u : Nat} (hu : u < G.length) (hinf : (s.data u).dist = DIST_INFINITY)
    (fuel : Nat) (perm0 : List Nat) (hperm0 : perm0.length = G.length) (p : PlaceState) :
    reorder G srt fuel source s.data perm0 ≠ .ok p := by
  have hpost := bfsPost_of_final hbfs
  have hN : G.length < UINT_MOD := by
    rw [dist_infinity_val] at hsize; rw [uint_mod_val]; omega
  have hT : TablesOk G s.data (count_levels_go G s.data) :=
    tablesOk_go (by omega) hN hpost.le_inf
  have hmax : (count_levels_go G s.data).max_dist = DIST_INFINITY := by
    obtain ⟨v, hv, hvd⟩ := hT.max_at
    have h1 := hT.max_ge u hu
    have h2 := hpost.le_inf v
    omega
  have hgap : cntEq G s.data (DIST_INFINITY - 1) = 0 := by
    apply cntEq_eq_zero
    intro v hv hd
    have hfin : (s.data v).dist < DIST_INFINITY := by
      rw [hd, dist_infinity_val]; omega
    have := hpost.finite_lt_length hs hv hfin
    omega
  have hpos : 0 < cntEq G s.data DIST_INFINITY := by
    rw [← hinf]; exact cntEq_pos hu
  intro h
  unfold reorder placeFn_go at h
  obtain ⟨perm1, hp1, h2⟩ := bind_eq_ok h
  obtain ⟨wo1, hw1, h3⟩ := bind_eq_ok h2
  obtain ⟨_, rfl⟩ := writeAt_ok hp1
  obtain ⟨_, rfl⟩ := writeAt_ok hw1
  unfold placeFn_op at h3
  refine levelLoop_hang (fun l => (hsrt l).1) hT hmax hgap hpos fuel 0 _ p (Nat.zero_le _)
    (by simp only [List.length_set]; omega) ?_ h3
  simp only
  rw [List.getElem?_set_ne (by rw [dist_infinity_val]; omega), hT.write_offset]
  exact hT.read_offset _ (by rw [hmax]; omega)

theorem main_hang {G : Graph} {srt : List Nat → List Nat}
    (hs : 0 < G.length) (hsize : G.length < DIST_INFINITY)
    (hsrt : SortsBy (sortDegFn G) srt)
    {u : Nat} (hu : u < G.length)
    (hinf : ∀ s, BfsFinal G 0 s → (s.data u).dist = DIST_INFINITY) :
    ¬ ∃ fuel p, main G srt fuel = .ok p := by
  rintro ⟨fuel, p, h⟩
  obtain ⟨s, hbfs, hr⟩ := main_ok h
  exact reorder_hang hs hsize hsrt hbfs hu (hinf s hbfs) fuel _ (length_permInit G) p hr

/-- A node left at `DIST_INFINITY` by one schedule is left there by all. -/
theorem infinite_of_run (G : Graph) (fuel source u : Nat)
    (hwf : WF G) (hs : source < G.length) (hsize : G.length < DIST_INFINITY)
    (h : (bfsFn_go G fuel source).isSome = true)
    (hu : (bfsResult G fuel source u).dist = DIST_INFINITY) :
    ¬ Reachable G source u ∧ ∀ s, BfsFinal G source s → (s.data u).dist = DIST_INFINITY := by
  have hpost := bfsPost_of_final (bfsFinal_of_run h)
  have hnr : ¬ Reachable G source u := by
    rintro ⟨k, hw⟩
    have := hpost.finite_of_walk hwf hs hsize hw
    simp only at this
    omega
  exact ⟨hnr, fun s hs => (bfsPost_of_final hs).infinite_of_unreachable hnr⟩

theorem nodup_index_unique {l : List Nat} (h : l.Nodup) {i j a : Nat}
    (hi : l[i]? = some a) (hj : l[j]? = some a) : i = j := by
  have hil := lt_length_of_getElem? hi
  have hjl := lt_length_of_getElem? hj
  rw [List.getElem?_eq_getElem hil] at hi
  rw [List.getElem?_eq_getElem hjl] at hj
  have : l[i] = l[j] := by
    rw [Option.some.injEq] at hi hj
    rw [hi, hj]
  exact (List.Nodup.getElem_inj_iff h).mp this

theorem mem_of_getElem? {l : List Nat} {i a : Nat} (h : l[i]? = some a) : a ∈ l := by
  have hil := lt_length_of_getElem? h
  rw [List.getElem?_eq_getElem hil, Option.some.injEq] at h
  rw [← h]
  exact List.getElem_mem hil

theorem placed_first {G : Graph} {source : Nat} {data0 : NodeData} {p : PlaceState}
    (hL : Levelled G source data0) (hp : Placed G source data0 p) :
    p.perm[0]? = some source := by
  have hmem : source ∈ p.perm.take (cntLt G data0 1) :=
    (hp.low 1 source).mpr ⟨hL.src_lt, by rw [(hL.zero_iff source).mpr rfl]; omega⟩
  rw [cntLt_one hL] at hmem
  obtain ⟨j, hj, hjs⟩ := mem_take_iff.mp hmem
  have : j = 0 := by omega
  subst this
  exact hjs

theorem getElem?_of_mem {l : List Nat} {a : Nat} (h : a ∈ l) :
    ∃ i : Nat, l[i]? = some a := by
  obtain ⟨i, hi, rfl⟩ := List.getElem_of_mem h
  exact ⟨i, List.getElem?_eq_getElem hi⟩

/-- The batches tile the slots after the first: every slot `j ≥ cut 0` below `cut m` lies in
one batch. -/
theorem cuts_tile {cut : Nat → Nat} :
    ∀ (m : Nat), (∀ i j, i ≤ j → j ≤ m → cut i ≤ cut j) →
      ∀ j, cut 0 ≤ j → j < cut m → ∃ i, i < m ∧ cut i ≤ j ∧ j < cut (i + 1) := by
  intro m
  induction m with
  | zero => intro _ j h1 h2; omega
  | succ m ih =>
    intro hmono j h1 h2
    by_cases hj : j < cut m
    · obtain ⟨i, hi, h3, h4⟩ := ih (fun a b hab hb => hmono a b hab (by omega)) j h1 hj
      exact ⟨i, by omega, h3, h4⟩
    · exact ⟨m, by omega, by omega, h2⟩

/-- The batch structure of a finished placement gives the tie-break between two nodes
appended while the same slot was consumed. -/
theorem placed_tie_break {G : Graph} {source : Nat} {data0 : NodeData} {p : PlaceState}
    (hp : Placed G source data0 p) {i b x y jx jy : Nat}
    (hib : p.perm[i]? = some b) (hx : x ∈ edges G b) (hy : y ∈ edges G b)
    (hfirst : ∀ i' b', i' < i → p.perm[i']? = some b' → x ∉ edges G b' ∧ y ∉ edges G b')
    (hjx0 : 0 < jx) (hjx : p.perm[jx]? = some x) (hjy : p.perm[jy]? = some y)
    (hdeg : (edges G y).length < (edges G x).length) : jy < jx := by
  by_cases hjy0 : jy = 0
  · omega
  obtain ⟨cut, hcuts, hcutN⟩ := hp.cuts
  have hlen := hp.perm_len
  -- the batch of a slot is the batch of the first slot with an edge to its node
  have hbatch : ∀ j a, 0 < j → p.perm[j]? = some a → a ∈ edges G b →
      (∀ i' b', i' < i → p.perm[i']? = some b' → a ∉ edges G b') →
      cut i ≤ j ∧ j < cut (i + 1) ∧ i < G.length := by
    intro j a hj0 hja hab hnot
    have hjl : j < G.length := by rw [← hlen]; exact lt_length_of_getElem? hja
    obtain ⟨i1, hi1, h1, h2⟩ := cuts_tile G.length hcuts.mono j
      (by rw [hcuts.zero]; omega) (by rw [hcutN]; exact hjl)
    obtain ⟨b1, hb1, he1, hf1⟩ := hcuts.batch i1 j a hi1 h1 h2 hja
    have hii : i1 = i := by
      rcases Nat.lt_trichotomy i1 i with h | h | h
      · exact absurd he1 (hnot i1 b1 h hb1)
      · exact h
      · exact absurd hab (hf1 i b h hib)
    subst hii
    exact ⟨h1, h2, hi1⟩
  obtain ⟨hx1, hx2, hi⟩ := hbatch jx x hjx0 hjx hx (fun i' b' h1 h2 => (hfirst i' b' h1 h2).1)
  obtain ⟨hy1, hy2, _⟩ := hbatch jy y (by omega) hjy hy
    (fun i' b' h1 h2 => (hfirst i' b' h1 h2).2)
  by_contra hcon
  rcases Nat.lt_or_ge jx jy with h | h
  · have := hcuts.sorted i jx jy x y hi hx1 h hy2 hjx hjy
    omega
  · have hje : jx = jy := by omega
    subst hje
    rw [hjx] at hjy
    cases hjy
    omega

/-! ## Other schedules of the distance assignment -/

theorem bfsStep_op_at (G : Graph) (data : NodeData) (l : List Nat) (i : Nat)
    (hi : i < l.length) (d : Nat) :
    Relation.ReflTransGen (BfsStep G) ⟨data, l, []⟩
      ⟨(bfsFn_op G (l.getD i d) (data, l.eraseIdx i)).1,
        (bfsFn_op G (l.getD i d) (data, l.eraseIdx i)).2, []⟩ := by
  have hget : l.getD i d = l[i] := by
    rw [List.getD_eq_getElem?_getD, List.getElem?_eq_getElem hi]; rfl
  have hsplit : l = l.take i ++ l[i] :: l.drop (i + 1) := by
    rw [← List.drop_eq_getElem_cons hi, List.take_append_drop]
  have herase : l.eraseIdx i = l.take i ++ l.drop (i + 1) := List.eraseIdx_eq_take_drop_succ l i
  rw [hget, herase]
  have h1 : BfsStep G ⟨data, l, []⟩ _ :=
    BfsStep.dequeue ⟨data, l, []⟩ (l.take i) (l.drop (i + 1)) l[i] hsplit
  refine Relation.ReflTransGen.head h1 ?_
  have hmid := bfsStep_relax_all G (newDistOf data l[i]) (edges G l[i]) data
    (l.take i ++ l.drop (i + 1))
  refine Relation.ReflTransGen.trans (by simpa using hmid) ?_
  have h2 : BfsStep G
      ⟨(bfsFn_op G l[i] (data, l.take i ++ l.drop (i + 1))).1,
        (bfsFn_op G l[i] (data, l.take i ++ l.drop (i + 1))).2,
        [⟨newDistOf data l[i], []⟩]⟩ _ :=
    BfsStep.finish _ [] [] (newDistOf data l[i]) rfl
  exact Relation.ReflTransGen.single h2

theorem bfsRunBy_steps (G : Graph) (pick : List Nat → Nat) :
    ∀ (fuel : Nat) (data : NodeData) (wl : List Nat) (d : NodeData),
      bfsRunBy G pick fuel (data, wl) = some d →
      Relation.ReflTransGen (BfsStep G) ⟨data, wl, []⟩ ⟨d, [], []⟩ := by
  intro fuel
  induction fuel with
  | zero =>
    intro data wl d h
    cases wl with
    | nil => simp [bfsRunBy] at h; subst h; exact Relation.ReflTransGen.refl
    | cons n wl => simp [bfsRunBy] at h
  | succ fuel ih =>
    intro data wl d h
    cases wl with
    | nil => simp [bfsRunBy] at h; subst h; exact Relation.ReflTransGen.refl
    | cons n wl =>
      simp only [bfsRunBy] at h
      refine Relation.ReflTransGen.trans
        (bfsStep_op_at G data (n :: wl) (pick (n :: wl) % (wl.length + 1))
          (by simp only [List.length_cons]; exact Nat.mod_lt _ (Nat.succ_pos _)) n) ?_
      exact ih _ _ d h

theorem bfsFinal_of_runBy {G : Graph} {pick : List Nat → Nat} {fuel source : Nat}
    (h : (bfsRunBy G pick fuel (setDist (initGraph G) source 0, [source])).isSome = true) :
    BfsFinal G source ⟨bfsResultBy G pick fuel source, [], []⟩ := by
  obtain ⟨d, hd⟩ := Option.isSome_iff_exists.mp h
  have hres : bfsResultBy G pick fuel source = d := by simp [bfsResultBy, hd]
  rw [hres]
  exact ⟨bfsRunBy_steps G pick fuel _ _ d hd, rfl, rfl⟩

/-! ## A pass of the consume loop sorts its batch -/

theorem consume_sorted {G : Graph} {srt : List Nat → List Nat}
    (hsrt : SortsBy (sortDegFn G) srt) {n start t_wo t_wo' : Nat} {st st' : PlaceState}
    (hlen : st.perm.length < UINT_MOD) (ht : t_wo ≤ st.perm.length)
    (h : consume G srt n start t_wo st = .ok (st', t_wo')) :
    ((st'.perm.drop t_wo).take (t_wo' - t_wo)).Pairwise
      (fun a b => (edges G a).length ≤ (edges G b).length) := by
  rw [consume_eq] at h
  obtain ⟨nxt, _, h2⟩ := bind_eq_ok h
  obtain ⟨⟨s1, t1⟩, hr, h3⟩ := bind_eq_ok h2
  obtain ⟨wo, hwo, h4⟩ := bind_eq_ok h3
  simp only [pure, Except.pure, Except.ok.injEq, Prod.mk.injEq] at h4
  obtain ⟨rfl, rfl⟩ := h4
  have hf := scanEdges_frame _ hlen hr
  have hb : t1 ≤ s1.perm.length := by rw [hf.len]; exact hf.bound ht
  simp only
  rw [sortSlice_drop_take (fun l => (hsrt l).1) hf.le hb]
  refine List.Pairwise.imp ?_ (hsrt _).2
  intro a b hab
  simpa [sortDegFn] using hab

/-! ## The distance assignment under every schedule -/

/-- C6 (schedule independence of the distance assignment). On a graph of fewer than
`DIST_INFINITY` nodes, in every state in which the parallel loop has drained — whatever the
order in which queued nodes were dequeued and their edge relaxations interleaved — every
node reachable from the source has `dist` equal to its shortest-path hop count and every
other node still has `DIST_INFINITY`; so two runs end with the same distances. -/
theorem bfs_schedule_independent (G : Graph) (source : Nat) (s s' : BfsState)
    (hwf : WF G) (hs : source < G.length) (hsize : G.length < DIST_INFINITY)
    (hfin : BfsFinal G source s) (hfin' : BfsFinal G source s') :
    (∀ v, Reachable G source v → IsHopCount G source v (s.data v).dist) ∧
    (∀ v, ¬ Reachable G source v → (s.data v).dist = DIST_INFINITY) ∧
    (∀ v, (s.data v).dist = (s'.data v).dist) := by
  have hpost := bfsPost_of_final hfin
  have hpost' := bfsPost_of_final hfin'
  refine ⟨fun v hr => hpost.isHopCount hwf hs hsize hr,
    fun v hr => hpost.infinite_of_unreachable hr, ?_⟩
  intro v
  by_cases hr : Reachable G source v
  · exact isHopCount_unique (hpost.isHopCount hwf hs hsize hr)
      (hpost'.isHopCount hwf hs hsize hr)
  · rw [hpost.infinite_of_unreachable hr, hpost'.infinite_of_unreachable hr]

/-- The first-in-first-out and the last-in-first-out schedules on `twoTriangles`, where
three nodes are reachable and three are not. -/
theorem bfs_schedule_independent_witness :
    (∀ v, Reachable twoTriangles 0 v →
      IsHopCount twoTriangles 0 v (bfsResult twoTriangles 6 0 v).dist) ∧
    (∀ v, ¬ Reachable twoTriangles 0 v →
      (bfsResult twoTriangles 6 0 v).dist = DIST_INFINITY) ∧
    (∀ v, (bfsResult twoTriangles 6 0 v).dist =
      (bfsResultBy twoTriangles pickLast 8 0 v).dist) :=
  bfs_schedule_independent twoTriangles 0 ⟨bfsResult twoTriangles 6 0, [], []⟩
    ⟨bfsResultBy twoTriangles pickLast 8 0, [], []⟩ (by decide) (by decide) (by decide)
    (bfsFinal_of_run (by decide)) (bfsFinal_of_runBy (by decide))

/-! ## Nodes out of reach in the histogram; the empty graph -/

theorem sum_level_count {G : Graph} {data : NodeData} {T : Tables}
    (hT : TablesOk G data T) : T.level_count.sum = G.length := by
  have h := sum_take_counts hT.level_count T.level_count.length
  rw [List.take_length] at h
  rw [h, hT.level_count_len]
  apply cntLt_eq_length
  intro v hv
  have := hT.max_ge v hv
  omega

theorem walk_of_no_edges {G : Graph} {source v k : Nat} (hiso : edges G source = [])
    (hw : Walk G source v k) : v = source := by
  induction hw with
  | nil => rfl
  | snoc _ he ih =>
    rw [ih, hiso] at he
    cases he

/-- C8, as amended (what `count_levels::go` counts). On every non-empty graph of fewer than
`DIST_INFINITY` nodes and for every schedule of the distance assignment, `count_levels::go`
counts every node, reached or not: `level_count[k]` is the number of nodes with
`dist == k` for every `k`, the counts add up to the node count, and `max_dist` is the
largest `dist` of a node; so with a node out of reach `max_dist` is `DIST_INFINITY` and
`level_count[DIST_INFINITY]` is not zero. -/
theorem count_levels_counts_all (G : Graph) (source : Nat) (s : BfsState)
    (hs : source < G.length) (hsize : G.length < DIST_INFINITY)
    (hbfs : BfsFinal G source s) :
    (∀ k, (count_levels_go G s.data).level_count.getD k 0 = cntEq G s.data k) ∧
    (count_levels_go G s.data).level_count.sum = G.length ∧
    (count_levels_go G s.data).level_count.length = (count_levels_go G s.data).max_dist + 1 ∧
    (∀ v, v < G.length → (s.data v).dist ≤ (count_levels_go G s.data).max_dist) ∧
    (∃ v, v < G.length ∧ (s.data v).dist = (count_levels_go G s.data).max_dist) ∧
    ((∃ u, u < G.length ∧ ¬ Reachable G source u) →
      (count_levels_go G s.data).max_dist = DIST_INFINITY ∧
      0 < (count_levels_go G s.data).level_count.getD DIST_INFINITY 0) := by
  have hpost := bfsPost_of_final hbfs
  have hN : G.length < UINT_MOD := by
    rw [dist_infinity_val] at hsize; rw [uint_mod_val]; omega
  have hT : TablesOk G s.data (count_levels_go G s.data) :=
    tablesOk_go (by omega) hN hpost.le_inf
  refine ⟨hT.level_count, sum_level_count hT, hT.level_count_len, hT.max_ge, hT.max_at, ?_⟩
  rintro ⟨u, hu, hnr⟩
  have hinf := hpost.infinite_of_unreachable hnr
  constructor
  · obtain ⟨v, hv, hvd⟩ := hT.max_at
    have h1 := hT.max_ge u hu
    have h2 := hpost.le_inf v
    omega
  · rw [hT.level_count, ← hinf]
    exact cntEq_pos hu

theorem count_levels_counts_all_witness :
    (∀ k, (count_levels_go twoIsolated (bfsResult twoIsolated 2 0)).level_count.getD k 0
      = cntEq twoIsolated (bfsResult twoIsolated 2 0) k) ∧
    (count_levels_go twoIsolated (bfsResult twoIsolated 2 0)).level_count.sum = 2 ∧
    (count_levels_go twoIsolated (bfsResult twoIsolated 2 0)).level_count.length =
      (count_levels_go twoIsolated (bfsResult twoIsolated 2 0)).max_dist + 1 ∧
    (∀ v, v < 2 → (bfsResult twoIsolated 2 0 v).dist ≤
      (count_levels_go twoIsolated (bfsResult twoIsolated 2 0)).max_dist) ∧
    (∃ v, v < 2 ∧ (bfsResult twoIsolated 2 0 v).dist =
      (count_levels_go twoIsolated (bfsResult twoIsolated 2 0)).max_dist) ∧
    ((∃ u, u < 2 ∧ ¬ Reachable twoIsolated 0 u) →
      (count_levels_go twoIsolated (bfsResult twoIsolated 2 0)).max_dist = DIST_INFINITY ∧
      0 < (count_levels_go twoIsolated
        (bfsResult twoIsolated 2 0)).level_count.getD DIST_INFINITY 0) :=
  count_levels_counts_all twoIsolated 0 ⟨bfsResult twoIsolated 2 0, [], []⟩
    (by decide) (by decide) (bfsFinal_of_run (by decide))

/-- C8 as stated fails on two isolated nodes with source `0`: one node is reachable and the
largest finite distance is `0`, yet `max_dist` is `DIST_INFINITY`, the counts add up to `2`
and `level_count[DIST_INFINITY]` counts the node out of reach. -/
theorem count_levels_counterexample :
    ¬ Reachable twoIsolated 0 1 ∧
    (count_levels_go twoIsolated (bfsResult twoIsolated 2 0)).max_dist = DIST_INFINITY ∧
    (count_levels_go twoIsolated (bfsResult twoIsolated 2 0)).level_count.sum = 2 ∧
    (count_levels_go twoIsolated
      (bfsResult twoIsolated 2 0)).level_count.getD DIST_INFINITY 0 = 1 := by
  have hrun : (bfsFn_go twoIsolated 2 0).isSome = true := by decide
  have hinf := infinite_of_run twoIsolated 2 0 1
    (by decide) (by decide) (by decide) hrun (by decide)
  have hpost := bfsPost_of_final (bfsFinal_of_run hrun)
  have hT : TablesOk twoIsolated (bfsResult twoIsolated 2 0)
      (count_levels_go twoIsolated (bfsResult twoIsolated 2 0)) :=
    tablesOk_go (by decide) (by decide) hpost.le_inf
  refine ⟨hinf.1, ?_, sum_level_count hT, ?_⟩
  · obtain ⟨v, hv, hvd⟩ := hT.max_at
    have h1 := hT.max_ge 1 (by decide)
    have h2 := hpost.le_inf v
    have h3 : (bfsResult twoIsolated 2 0 1).dist = DIST_INFINITY := by decide
    simp only at h2
    omega
  · rw [hT.level_count]
    decide

/-- C9 (empty graph): `main` on the graph without nodes. `perm` is resized to length `0`
and `placeFn::go` writes `perm[0]`: the run ends in an out-of-bounds access, not in an
empty permutation. -/
theorem empty_graph_out_of_bounds (srt : List Nat → List Nat) (fuel : Nat) :
    main [] srt (fuel + 1) = .error Fault.oob := by
  have h1 : bfsFn_go [] (fuel + 1) 0 = some (setDist (initGraph []) 0 0) := by
    cases fuel <;> rfl
  simp only [main, h1]
  rfl

/-! ## One call of `bfsFn::operator()` -/

theorem relaxEdge_dist (nd : Nat) (s : NodeData × List Nat) (dst m : Nat) :
    ((relaxEdge nd s dst).1 m).dist =
      if m = dst then min (s.1 dst).dist nd else (s.1 m).dist := by
  unfold relaxEdge
  by_cases h : (s.1 dst).dist ≤ nd
  · rw [if_pos h]
    by_cases hm : m = dst
    · subst hm; rw [if_pos rfl, Nat.min_eq_left h]
    · rw [if_neg hm]
  · rw [if_neg h]
    simp only [setDist_dist]
    by_cases hm : m = dst
    · rw [if_pos hm, if_pos hm, Nat.min_eq_right (by omega)]
    · rw [if_neg hm, if_neg hm]

theorem relaxEdge_pushed (nd : Nat) (s : NodeData × List Nat) (dst : Nat) :
    (relaxEdge nd s dst).2 = if nd < (s.1 dst).dist then s.2 ++ [dst] else s.2 := by
  unfold relaxEdge
  by_cases h : (s.1 dst).dist ≤ nd
  · rw [if_pos h, if_neg (by omega)]
  · rw [if_neg h, if_pos (by omega)]

theorem relaxEdge_other (nd : Nat) (s : NodeData × List Nat) (dst m : Nat) :
    ((relaxEdge nd s dst).1 m).done = (s.1 m).done ∧
      ((relaxEdge nd s dst).1 m).degree = (s.1 m).degree := by
  unfold relaxEdge
  by_cases h : (s.1 dst).dist ≤ nd
  · rw [if_pos h]; exact ⟨rfl, rfl⟩
  · rw [if_neg h]
    simp only [setDist]
    by_cases hm : m = dst
    · rw [if_pos hm]; exact ⟨rfl, rfl⟩
    · rw [if_neg hm]; exact ⟨rfl, rfl⟩

theorem foldl_relaxEdge (nd : Nat) :
    ∀ (es : List Nat) (s : NodeData × List Nat),
      (∀ m, (((es.foldl (relaxEdge nd) s).1) m).dist =
        if m ∈ es then min (s.1 m).dist nd else (s.1 m).dist) ∧
      (∀ m, (((es.foldl (relaxEdge nd) s).1) m).done = (s.1 m).done ∧
        (((es.foldl (relaxEdge nd) s).1) m).degree = (s.1 m).degree) ∧
      ∃ pushed, (es.foldl (relaxEdge nd) s).2 = s.2 ++ pushed ∧ pushed.Nodup ∧
        ∀ m, m ∈ pushed ↔ m ∈ es ∧ nd < (s.1 m).dist := by
  intro es
  induction es with
  | nil =>
    intro s
    exact ⟨fun m => by simp, fun m => ⟨rfl, rfl⟩, [], by simp, List.nodup_nil, by simp⟩
  | cons e es ih =>
    intro s
    obtain ⟨h1, h2, pushed, h3, h4, h5⟩ := ih (relaxEdge nd s e)
    simp only [List.foldl_cons]
    refine ⟨?_, ?_, ?_⟩
    · intro m
      rw [h1 m, relaxEdge_dist]
      by_cases hme : m = e
      · subst hme
        simp only [if_true, List.mem_cons, true_or]
        split <;> omega
      · simp only [List.mem_cons, hme, false_or, if_false]
    · intro m
      have := relaxEdge_other nd s e m
      exact ⟨by rw [(h2 m).1, this.1], by rw [(h2 m).2, this.2]⟩
    · rw [h3, relaxEdge_pushed]
      by_cases hlt : nd < (s.1 e).dist
      · rw [if_pos hlt]
        refine ⟨e :: pushed, by simp, ?_, ?_⟩
        · rw [List.nodup_cons]
          refine ⟨?_, h4⟩
          intro he
          have := ((h5 e).mp he).2
          rw [relaxEdge_dist, if_pos rfl] at this
          omega
        · intro m
          rw [List.mem_cons, h5 m, relaxEdge_dist, List.mem_cons]
          by_cases hme : m = e
          · subst hme; simp [hlt]
          · simp [hme]
      · rw [if_neg hlt]
        refine ⟨pushed, rfl, h4, ?_⟩
        intro m
        rw [h5 m, relaxEdge_dist, List.mem_cons]
        by_cases hme : m = e
        · subst hme
          simp only [if_true, true_or, true_and]
          constructor
          · rintro ⟨_, h⟩; omega
          · intro h; omega
        · simp [hme]

/-- C18 (relaxation step). One call of `bfsFn::operator()` on node `n`, run without
interference, with `newDist` the value it reads (`dist(n) + 1`, which does not wrap while
`dist(n) <= DIST_INFINITY`): every node of the adjacency list of `n` gets
`min(old dist, newDist)`, no other `dist` and no other field changes, and the nodes pushed
are, each once, the adjacency entries whose `dist` was above `newDist`; edge by edge, the
entry is pushed exactly when its `dist` is above `newDist` when it is examined. -/
theorem relaxation_step (G : Graph) (n : Nat) (data : NodeData) (wl : List Nat) :
    ((data n).dist ≤ DIST_INFINITY → newDistOf data n = (data n).dist + 1) ∧
    (∀ m, ((bfsFn_op G n (data, wl)).1 m).dist =
      if m ∈ edges G n then min (data m).dist (newDistOf data n) else (data m).dist) ∧
    (∀ m, ((bfsFn_op G n (data, wl)).1 m).done = (data m).done ∧
      ((bfsFn_op G n (data, wl)).1 m).degree = (data m).degree) ∧
    (∃ pushed, (bfsFn_op G n (data, wl)).2 = wl ++ pushed ∧ pushed.Nodup ∧
      ∀ m, m ∈ pushed ↔ m ∈ edges G n ∧ newDistOf data n < (data m).dist) ∧
    (∀ (nd dst : Nat) (s : NodeData × List Nat),
      (relaxEdge nd s dst).2 = (if nd < (s.1 dst).dist then s.2 ++ [dst] else s.2) ∧
      ∀ m, ((relaxEdge nd s dst).1 m).dist =
        if m = dst then min (s.1 dst).dist nd else (s.1 m).dist) := by
  obtain ⟨h1, h2, h3⟩ := foldl_relaxEdge (newDistOf data n) (edges G n) (data, wl)
  refine ⟨?_, h1, h2, h3, fun nd dst s => ⟨relaxEdge_pushed nd s dst, relaxEdge_dist nd s dst⟩⟩
  intro hd
  unfold newDistOf
  apply wrap_of_lt
  rw [dist_infinity_val] at hd; rw [uint_mod_val]; omega

/-! ## One call of `count_levels::reduce` -/

theorem transformPlus_spec :
    ∀ (src dest : List Nat), src.length ≤ dest.length →
      (transformPlus src dest).length = dest.length ∧
      ∀ k, (transformPlus src dest).getD k 0 =
        if k < src.length then wrap (src.getD k 0 + dest.getD k 0) else dest.getD k 0 := by
  intro src
  induction src with
  | nil => intro dest _; exact ⟨rfl, fun k => by simp [transformPlus]⟩
  | cons x src ih =>
    intro dest hlen
    cases dest with
    | nil => simp at hlen
    | cons y dest =>
      simp only [List.length_cons] at hlen
      obtain ⟨h1, h2⟩ := ih dest (by omega)
      refine ⟨by simp [transformPlus, h1], ?_⟩
      intro k
      cases k with
      | zero => simp [transformPlus]
      | succ k =>
        simp only [transformPlus, List.getD_cons_succ, h2 k, List.length_cons,
          Nat.add_lt_add_iff_right]

theorem reduce_counts (dest src : count_levels) :
    (count_levels.reduce dest src).counts.length = max dest.counts.length src.counts.length ∧
    ∀ k, (count_levels.reduce dest src).counts.getD k 0 =
      if k < src.counts.length then wrap (src.counts.getD k 0 + dest.counts.getD k 0)
      else dest.counts.getD k 0 := by
  unfold count_levels.reduce
  by_cases h : dest.counts.length < src.counts.length
  · simp only [if_pos h]
    obtain ⟨h1, h2⟩ := transformPlus_spec src.counts (resize dest.counts src.counts.length)
      (by rw [length_resize])
    refine ⟨by rw [h1, length_resize]; omega, ?_⟩
    intro k
    rw [h2 k, getD_resize _ _ _ (by omega)]
  · simp only [if_neg h]
    obtain ⟨h1, h2⟩ := transformPlus_spec src.counts dest.counts (by omega)
    exact ⟨by rw [h1]; omega, h2⟩

theorem getD_of_length_le {l : List Nat} {k : Nat} (h : l.length ≤ k) : l.getD k 0 = 0 := by
  rw [List.getD_eq_getElem?_getD, List.getElem?_eq_none h]; rfl

theorem getD_lt_of_forall {l : List Nat} {B : Nat} (hB : 0 < B) (h : ∀ x ∈ l, x < B) (k : Nat) :
    l.getD k 0 < B := by
  by_cases hk : k < l.length
  · rw [List.getD_eq_getElem?_getD, List.getElem?_eq_getElem hk]
    exact h _ (List.getElem_mem hk)
  · rw [getD_of_length_le (by omega)]; exact hB

/-- C19 (histogram merge step). For all partial results `dest` and `src` holding
`unsigned` values: `count_levels::reduce(dest, src)` leaves `dest.counts` with the longer of
the two lengths, entry `k` being the `unsigned` sum of the old `dest.counts[k]` and
`src.counts[k]` with a missing entry read as `0` — the exact sum when it fits — and
`dest.lmaxdist` the larger of the two maxima. (`src` is an argument that the function
does not return: it is not changed.) -/
theorem reduce_step (dest src : count_levels) (hdest : ∀ x ∈ dest.counts, x < UINT_MOD) :
    (count_levels.reduce dest src).counts.length = max dest.counts.length src.counts.length ∧
    (∀ k, (count_levels.reduce dest src).counts.getD k 0 =
      wrap (dest.counts.getD k 0 + src.counts.getD k 0)) ∧
    (∀ k, dest.counts.getD k 0 + src.counts.getD k 0 < UINT_MOD →
      (count_levels.reduce dest src).counts.getD k 0 =
        dest.counts.getD k 0 + src.counts.getD k 0) ∧
    (count_levels.reduce dest src).lmaxdist = max dest.lmaxdist src.lmaxdist := by
  obtain ⟨h1, h2⟩ := reduce_counts dest src
  have hsum : ∀ k, (count_levels.reduce dest src).counts.getD k 0 =
      wrap (dest.counts.getD k 0 + src.counts.getD k 0) := by
    intro k
    rw [h2 k]
    by_cases hk : k < src.counts.length
    · rw [if_pos hk, Nat.add_comm]
    · rw [if_neg hk, getD_of_length_le (l := src.counts) (by omega), Nat.add_zero,
        wrap_of_lt (getD_lt_of_forall (by decide) hdest k)]
  refine ⟨h1, hsum, ?_, ?_⟩
  · intro k hk
    rw [hsum k, wrap_of_lt hk]
  · simp only [count_levels.reduce]
    exact Nat.max_comm _ _

theorem reduce_step_witness :
    (count_levels.reduce ⟨[1, 2], 1⟩ ⟨[1, 0, 3], 2⟩).counts.length
      = max [1, 2].length [1, 0, 3].length ∧
    (∀ k, (count_levels.reduce ⟨[1, 2], 1⟩ ⟨[1, 0, 3], 2⟩).counts.getD k 0 =
      wrap ([1, 2].getD k 0 + [1, 0, 3].getD k 0)) ∧
    (∀ k, [1, 2].getD k 0 + [1, 0, 3].getD k 0 < UINT_MOD →
      (count_levels.reduce ⟨[1, 2], 1⟩ ⟨[1, 0, 3], 2⟩).counts.getD k 0 =
        [1, 2].getD k 0 + [1, 0, 3].getD k 0) ∧
    (count_levels.reduce ⟨[1, 2], 1⟩ ⟨[1, 0, 3], 2⟩).lmaxdist = max 1 2 :=
  reduce_step ⟨[1, 2], 1⟩ ⟨[1, 0, 3], 2⟩ (by decide)

/-! ## The reduction of the partial histograms -/

theorem count_levels_go_eq (G : Graph) (data : NodeData) :
    count_levels_go G data =
      tablesOf ((List.range G.length).foldl (count_levels.op data)
        { counts := [], lmaxdist := 0 }) := rfl

theorem CountInv.of_perm {data : NodeData} {ns ns' : List Nat} {cl : count_levels}
    (h : CountInv data ns cl) (hp : ns.Perm ns') : CountInv data ns' cl := by
  have hne : ns' ≠ [] → ns ≠ [] := by
    intro h1 h2; subst h2; exact h1 (List.Perm.eq_nil hp.symm)
  have hnil : ns' = [] → ns = [] := by
    intro h1; subst h1; exact List.Perm.eq_nil hp
  refine ⟨?_, ?_, ?_, ?_, ?_⟩
  · intro k; rw [h.counts k]; exact hp.countP_eq _
  · intro h1; exact h.len (hne h1)
  · intro h1; exact h.empty (hnil h1)
  · intro v hv; exact h.max_ge v (hp.mem_iff.mpr hv)
  · intro h1
    obtain ⟨v, hv, hvd⟩ := h.max_at (hne h1)
    exact ⟨v, hp.mem_iff.mp hv, hvd⟩

theorem list_eq_of_getD {a b : List Nat} (hlen : a.length = b.length)
    (h : ∀ k, a.getD k 0 = b.getD k 0) : a = b := by
  apply List.ext_getElem hlen
  intro i h1 h2
  have := h i
  rw [List.getD_eq_getElem _ _ h1, List.getD_eq_getElem _ _ h2] at this
  exact this

theorem CountInv.unique {data : NodeData} {ns : List Nat} {a b : count_levels}
    (ha : CountInv data ns a) (hb : CountInv data ns b) : a = b := by
  by_cases hns : ns = []
  · obtain ⟨h1, h2⟩ := ha.empty hns
    obtain ⟨h3, h4⟩ := hb.empty hns
    cases a; cases b; simp_all
  · have hmax : a.lmaxdist = b.lmaxdist := by
      obtain ⟨v, hv, hvd⟩ := ha.max_at hns
      obtain ⟨w, hw, hwd⟩ := hb.max_at hns
      have h1 := ha.max_ge w hw
      have h2 := hb.max_ge v hv
      omega
    have hcounts : a.counts = b.counts := by
      apply list_eq_of_getD
      · rw [ha.len hns, hb.len hns, hmax]
      · intro k; rw [ha.counts, hb.counts]
    cases a; cases b; simp_all

theorem countInv_reduce {data : NodeData} {ns1 ns2 : List Nat} {d s : count_levels}
    (hd : CountInv data ns1 d) (hs : CountInv data ns2 s)
    (hlen : ns1.length + ns2.length < UINT_MOD) :
    CountInv data (ns1 ++ ns2) (count_levels.reduce d s) := by
  obtain ⟨hl, hg⟩ := reduce_counts d s
  have hmaxeq : (count_levels.reduce d s).lmaxdist = max s.lmaxdist d.lmaxdist := rfl
  refine ⟨?_, ?_, ?_, ?_, ?_⟩
  · intro k
    rw [hg k, List.countP_append, ← hd.counts k, ← hs.counts k]
    by_cases hk : k < s.counts.length
    · rw [if_pos hk, Nat.add_comm]
      apply wrap_of_lt
      have h1 : d.counts.getD k 0 ≤ ns1.length := by
        rw [hd.counts k]; exact List.countP_le_length _
      have h2 : s.counts.getD k 0 ≤ ns2.length := by
        rw [hs.counts k]; exact List.countP_le_length _
      omega
    · rw [if_neg hk, getD_of_length_le (l := s.counts) (by omega), Nat.add_zero]
  · intro hne
    rw [hl, hmaxeq]
    by_cases h1 : ns1 = []
    · obtain ⟨e1, e2⟩ := hd.empty h1
      have h2 : ns2 ≠ [] := by intro h2; apply hne; simp [h1, h2]
      rw [e1, e2, hs.len h2]; simp
    · by_cases h2 : ns2 = []
      · obtain ⟨e1, e2⟩ := hs.empty h2
        rw [e1, e2, hd.len h1]; simp
      · rw [hd.len h1, hs.len h2]; omega
  · intro hnil
    obtain ⟨h1, h2⟩ := List.append_eq_nil.mp hnil
    obtain ⟨e1, e2⟩ := hd.empty h1
    obtain ⟨e3, e4⟩ := hs.empty h2
    constructor
    · apply List.eq_nil_of_length_eq_zero
      rw [hl, e1, e3]; rfl
    · rw [hmaxeq, e2, e4]; rfl
  · intro v hv
    rw [hmaxeq]
    rcases List.mem_append.mp hv with h | h
    · have := hd.max_ge v h; omega
    · have := hs.max_ge v h; omega
  · intro hne
    rw [hmaxeq]
    by_cases h1 : ns1 = []
    · obtain ⟨_, e2⟩ := hd.empty h1
      have h2 : ns2 ≠ [] := by intro h2; apply hne; simp [h1, h2]
      obtain ⟨v, hv, hvd⟩ := hs.max_at h2
      exact ⟨v, List.mem_append.mpr (Or.inr hv), by rw [e2, hvd]; simp⟩
    · obtain ⟨v, hv, hvd⟩ := hd.max_at h1
      by_cases h2 : ns2 = []
      · obtain ⟨_, e4⟩ := hs.empty h2
        exact ⟨v, List.mem_append.mpr (Or.inl hv), by rw [e4, hvd]; simp⟩
      · obtain ⟨w, hw, hwd⟩ := hs.max_at h2
        by_cases hle : s.lmaxdist ≤ d.lmaxdist
        · exact ⟨v, List.mem_append.mpr (Or.inl hv), by rw [hvd]; omega⟩
        · exact ⟨w, List.mem_append.mpr (Or.inr hw), by rw [hwd]; omega⟩

theorem countInv_eval {data : NodeData} (hle : ∀ v, (data v).dist ≤ DIST_INFINITY) :
    ∀ m : Merge, m.nodes.length < UINT_MOD → CountInv data m.nodes (m.eval data) := by
  intro m
  induction m with
  | chunk ns =>
    intro hlen
    have := countInv_foldl hle ns [] _ (countInv_nil data) (by simpa using hlen)
    simpa [Merge.nodes, Merge.eval] using this
  | join dest src ihd ihs =>
    intro hlen
    simp only [Merge.nodes, List.length_append] at hlen
    exact countInv_reduce (ihd (by omega)) (ihs (by omega)) hlen

/-- C12 (histogram for every partition). On a non-empty graph of fewer than
`DIST_INFINITY` nodes, after any schedule of the distance assignment: however the node
range is split into chunks, each accumulated by `count_levels::operator()` from a
value-initialised `count_levels`, and in whatever order the partial results are merged by
`count_levels::reduce`, the reduced value is the one of the sequential pass over the node
range, so `count_levels::go` builds the same tables; `level_count` has length
`max_dist + 1`, `level_count[k]` is the number of nodes with `dist == k`, and `max_dist`
is the largest `dist` of a node. -/
theorem histogram_partition_independent (G : Graph) (source : Nat) (s : BfsState) (m : Merge)
    (hs : source < G.length) (hsize : G.length < DIST_INFINITY)
    (hbfs : BfsFinal G source s) (hm : m.nodes.Perm (List.range G.length)) :
    m.eval s.data =
      (List.range G.length).foldl (count_levels.op s.data) { counts := [], lmaxdist := 0 } ∧
    tablesOf (m.eval s.data) = count_levels_go G s.data ∧
    (tablesOf (m.eval s.data)).level_count.length = (tablesOf (m.eval s.data)).max_dist + 1 ∧
    (∀ k, (tablesOf (m.eval s.data)).level_count.getD k 0 = cntEq G s.data k) ∧
    (∀ v, v < G.length → (s.data v).dist ≤ (tablesOf (m.eval s.data)).max_dist) ∧
    (∃ v, v < G.length ∧ (s.data v).dist = (tablesOf (m.eval s.data)).max_dist) := by
  have hpost := bfsPost_of_final hbfs
  have hN : G.length < UINT_MOD := by
    rw [dist_infinity_val] at hsize; rw [uint_mod_val]; omega
  have hlen : m.nodes.length < UINT_MOD := by rw [hm.length_eq]; simpa using hN
  have h1 := (countInv_eval hpost.le_inf m hlen).of_perm hm
  have h2 := countInv_foldl hpost.le_inf (List.range G.length) [] _ (countInv_nil s.data)
    (by simpa using hN)
  simp only [List.nil_append] at h2
  have heq := h1.unique h2
  have hT : TablesOk G s.data (count_levels_go G s.data) :=
    tablesOk_go (by omega) hN hpost.le_inf
  have htab : tablesOf (m.eval s.data) = count_levels_go G s.data := by
    rw [heq, count_levels_go_eq]
  refine ⟨heq, htab, ?_, ?_, ?_, ?_⟩
  · rw [htab]; exact hT.level_count_len
  · rw [htab]; exact hT.level_count
  · rw [htab]; exact hT.max_ge
  · rw [htab]; exact hT.max_at

theorem histogram_partition_independent_witness :
    (Merge.join (.chunk [3, 0]) (.join (.chunk []) (.chunk [2, 1]))).eval
        (bfsResult kiteGraph 4 0) =
      (List.range kiteGraph.length).foldl (count_levels.op (bfsResult kiteGraph 4 0))
        { counts := [], lmaxdist := 0 } ∧
    tablesOf ((Merge.join (.chunk [3, 0]) (.join (.chunk []) (.chunk [2, 1]))).eval
        (bfsResult kiteGraph 4 0)) = count_levels_go kiteGraph (bfsResult kiteGraph 4 0) ∧
    (tablesOf ((Merge.join (.chunk [3, 0]) (.join (.chunk []) (.chunk [2, 1]))).eval
        (bfsResult kiteGraph 4 0))).level_count.length =
      (tablesOf ((Merge.join (.chunk [3, 0]) (.join (.chunk []) (.chunk [2, 1]))).eval
        (bfsResult kiteGraph 4 0))).max_dist + 1 ∧
    (∀ k, (tablesOf ((Merge.join (.chunk [3, 0]) (.join (.chunk []) (.chunk [2, 1]))).eval
        (bfsResult kiteGraph 4 0))).level_count.getD k 0 =
      cntEq kiteGraph (bfsResult kiteGraph 4 0) k) ∧
    (∀ v, v < kiteGraph.length → (bfsResult kiteGraph 4 0 v).dist ≤
      (tablesOf ((Merge.join (.chunk [3, 0]) (.join (.chunk []) (.chunk [2, 1]))).eval
        (bfsResult kiteGraph 4 0))).max_dist) ∧
    (∃ v, v < kiteGraph.length ∧ (bfsResult kiteGraph 4 0 v).dist =
      (tablesOf ((Merge.join (.chunk [3, 0]) (.join (.chunk []) (.chunk [2, 1]))).eval
        (bfsResult kiteGraph 4 0))).max_dist) :=
  histogram_partition_independent kiteGraph 0 ⟨bfsResult kiteGraph 4 0, [], []⟩
    (.join (.chunk [3, 0]) (.join (.chunk []) (.chunk [2, 1])))
    (by decide) (by decide) (bfsFinal_of_run (by decide)) (by decide)

theorem getLast?_eq_of_getElem? {l : List Nat} {k x : Nat} (hlen : l.length = k + 1)
    (h : l[k]? = some x) : l.getLast? = some x := by
  rw [List.getLast?_eq_getElem?, hlen]
  simpa using h

/-- C13 (read offsets). On every graph of fewer than `DIST_INFINITY` nodes, after any
schedule of the distance assignment, `count_levels::go` (started with an empty
`read_offset`) leaves `read_offset` one entry longer than `level_count`, with
`read_offset[0] == 0` and `read_offset[k] == level_count[0] + ... + level_count[k-1]` for
every `k` up to `level_count.size()`; the entries do not decrease, and the last one is the
sum of all counts, the number of nodes. -/
theorem read_offset_prefix_sum (G : Graph) (source : Nat) (s : BfsState)
    (hsize : G.length < DIST_INFINITY) (hbfs : BfsFinal G source s) :
    (count_levels_go G s.data).read_offset.length =
      (count_levels_go G s.data).level_count.length + 1 ∧
    (count_levels_go G s.data).read_offset[0]? = some 0 ∧
    (∀ k, k ≤ (count_levels_go G s.data).level_count.length →
      (count_levels_go G s.data).read_offset[k]? =
        some (((count_levels_go G s.data).level_count.take k).sum)) ∧
    (∀ k, k < (count_levels_go G s.data).level_count.length →
      (count_levels_go G s.data).read_offset.getD k 0 ≤
        (count_levels_go G s.data).read_offset.getD (k + 1) 0) ∧
    (count_levels_go G s.data).read_offset.getLast? =
      some (count_levels_go G s.data).level_count.sum ∧
    (count_levels_go G s.data).level_count.sum = G.length := by
  have hpost := bfsPost_of_final hbfs
  have hN : G.length < UINT_MOD := by
    rw [dist_infinity_val] at hsize; rw [uint_mod_val]; omega
  by_cases hpos : 0 < G.length
  · have hT : TablesOk G s.data (count_levels_go G s.data) :=
      tablesOk_go hpos hN hpost.le_inf
    have hsum : ∀ k, ((count_levels_go G s.data).level_count.take k).sum
        = cntLt G s.data k := sum_take_counts hT.level_count
    have hro : ∀ k, k ≤ (count_levels_go G s.data).level_count.length →
        (count_levels_go G s.data).read_offset[k]? =
          some (((count_levels_go G s.data).level_count.take k).sum) := by
      intro k hk
      rw [hsum k]
      exact hT.read_offset k (by rw [hT.level_count_len] at hk; exact hk)
    have htot : (count_levels_go G s.data).level_count.sum = G.length := sum_level_count hT
    refine ⟨?_, ?_, hro, ?_, ?_, htot⟩
    · rw [hT.read_offset_len, hT.level_count_len]
    · have := hro 0 (Nat.zero_le _)
      simpa using this
    · intro k hk
      have h1 := hro k (by omega)
      have h2 := hro (k + 1) (by omega)
      rw [List.getD_eq_getElem?_getD, List.getD_eq_getElem?_getD, h1, h2, hsum, hsum]
      exact cntLt_mono G s.data (by omega)
    · have h1 := hro _ (Nat.le_refl _)
      rw [List.take_length] at h1
      exact getLast?_eq_of_getElem? (by rw [hT.read_offset_len, hT.level_count_len]) h1
  · have h0 : G = [] := List.eq_nil_of_length_eq_zero (by omega)
    subst h0
    have hT : count_levels_go [] s.data =
        { max_dist := 0, level_count := [], read_offset := [0], write_offset := [0] } := rfl
    rw [hT]
    refine ⟨rfl, rfl, ?_, ?_, rfl, rfl⟩
    · intro k hk
      have : k = 0 := by simpa using hk
      subst this; rfl
    · intro k hk; simp at hk

theorem read_offset_prefix_sum_witness :
    (count_levels_go kiteGraph (bfsResult kiteGraph 4 0)).read_offset.length =
      (count_levels_go kiteGraph (bfsResult kiteGraph 4 0)).level_count.length + 1 ∧
    (count_levels_go kiteGraph (bfsResult kiteGraph 4 0)).read_offset[0]? = some 0 ∧
    (∀ k, k ≤ (count_levels_go kiteGraph (bfsResult kiteGraph 4 0)).level_count.length →
      (count_levels_go kiteGraph (bfsResult kiteGraph 4 0)).read_offset[k]? =
        some (((count_levels_go kiteGraph (bfsResult kiteGraph 4 0)).level_count.take k).sum)) ∧
    (∀ k, k < (count_levels_go kiteGraph (bfsResult kiteGraph 4 0)).level_count.length →
      (count_levels_go kiteGraph (bfsResult kiteGraph 4 0)).read_offset.getD k 0 ≤
        (count_levels_go kiteGraph (bfsResult kiteGraph 4 0)).read_offset.getD (k + 1) 0) ∧
    (count_levels_go kiteGraph (bfsResult kiteGraph 4 0)).read_offset.getLast? =
      some (count_levels_go kiteGraph (bfsResult kiteGraph 4 0)).level_count.sum ∧
    (count_levels_go kiteGraph (bfsResult kiteGraph 4 0)).level_count.sum = kiteGraph.length :=
  read_offset_prefix_sum kiteGraph 0 ⟨bfsResult kiteGraph 4 0, [], []⟩
    (by decide) (bfsFinal_of_run (by decide))

/-! ## Level slices of the finished permutation -/

theorem placed_monotone {G : Graph} {source : Nat} {data0 : NodeData} {p : PlaceState}
    (hplaced : Placed G source data0 p) {i j a b : Nat} (hij : i ≤ j)
    (hia : p.perm[i]? = some a) (hjb : p.perm[j]? = some b) :
    (data0 a).dist ≤ (data0 b).dist := by
  have hbN : b < G.length := (hplaced.mem b).mp (mem_of_getElem? hjb)
  have hbmem : b ∈ p.perm.take (cntLt G data0 ((data0 b).dist + 1)) :=
    (hplaced.low _ b).mpr ⟨hbN, by omega⟩
  obtain ⟨j', hj', hj'b⟩ := mem_take_iff.mp hbmem
  have hjj : j' = j := nodup_index_unique hplaced.nodup hj'b hjb
  subst hjj
  have hamem : a ∈ p.perm.take (cntLt G data0 ((data0 b).dist + 1)) :=
    mem_take_iff.mpr ⟨i, by omega, hia⟩
  have := ((hplaced.low _ a).mp hamem).2
  omega

theorem placed_slice {G : Graph} {source : Nat} {data0 : NodeData} {p : PlaceState}
    (hplaced : Placed G source data0 p) (n : Nat) :
    ((p.perm.drop (cntLt G data0 n)).take (cntEq G data0 n)).Nodup ∧
    (∀ v, v ∈ (p.perm.drop (cntLt G data0 n)).take (cntEq G data0 n) ↔
      v < G.length ∧ (data0 v).dist = n) ∧
    (∀ (i a : Nat), p.perm[i]? = some a →
      ((data0 a).dist = n ↔ cntLt G data0 n ≤ i ∧ i < cntLt G data0 n + cntEq G data0 n)) := by
  have hsplit : p.perm.take (cntLt G data0 (n + 1)) =
      p.perm.take (cntLt G data0 n) ++ (p.perm.drop (cntLt G data0 n)).take (cntEq G data0 n) := by
    have := slice_split p.perm (a := cntLt G data0 n) (b := cntLt G data0 (n + 1))
      (cntLt_mono G data0 (by omega))
    rw [cntLt_succ] at this ⊢
    rwa [Nat.add_sub_cancel_left] at this
  have hnd : (p.perm.take (cntLt G data0 (n + 1))).Nodup :=
    hplaced.nodup.sublist (List.take_sublist _ _)
  rw [hsplit] at hnd
  have hmem : ∀ v, v ∈ (p.perm.drop (cntLt G data0 n)).take (cntEq G data0 n) ↔
      v < G.length ∧ (data0 v).dist = n := by
    intro v
    constructor
    · intro hv
      have h1 : v ∈ p.perm.take (cntLt G data0 (n + 1)) := by
        rw [hsplit]; exact List.mem_append.mpr (Or.inr hv)
      obtain ⟨hvN, hvd⟩ := (hplaced.low _ v).mp h1
      refine ⟨hvN, ?_⟩
      by_contra hne
      have h2 : v ∈ p.perm.take (cntLt G data0 n) := (hplaced.low _ v).mpr ⟨hvN, by omega⟩
      exact (List.disjoint_of_nodup_append hnd) h2 hv
    · rintro ⟨hvN, hvd⟩
      have h1 : v ∈ p.perm.take (cntLt G data0 (n + 1)) :=
        (hplaced.low _ v).mpr ⟨hvN, by omega⟩
      rw [hsplit] at h1
      rcases List.mem_append.mp h1 with h | h
      · have := ((hplaced.low _ v).mp h).2; omega
      · exact h
  refine ⟨(List.nodup_append.mp hnd).2.1, hmem, ?_⟩
  intro i a hia
  constructor
  · intro hd
    have haN : a < G.length := (hplaced.mem a).mp (mem_of_getElem? hia)
    obtain ⟨j, h1, h2, hj⟩ := mem_drop_take.mp ((hmem a).mpr ⟨haN, hd⟩)
    have := nodup_index_unique hplaced.nodup hj hia
    omega
  · rintro ⟨h1, h2⟩
    exact ((hmem a).mp (mem_drop_take.mpr ⟨i, h1, h2, hia⟩)).2

/-! ## The path graph -/

theorem length_pathGraph (k : Nat) : (pathGraph k).length = k := by
  simp [pathGraph]

theorem edges_pathGraph (k i : Nat) :
    edges (pathGraph k) i =
      if i < k then (if 0 < i then [i - 1] else []) ++ (if i + 1 < k then [i + 1] else [])
      else [] := by
  unfold edges pathGraph
  rw [List.getD_eq_getElem?_getD, List.getElem?_map]
  by_cases h : i < k
  · rw [List.getElem?_range h, if_pos h]; rfl
  · rw [List.getElem?_eq_none (by simpa using h), if_neg h]; rfl

theorem mem_edges_pathGraph {k i m : Nat} :
    m ∈ edges (pathGraph k) i ↔ i < k ∧ m < k ∧ (m + 1 = i ∨ i + 1 = m) := by
  rw [edges_pathGraph]
  by_cases h : i < k
  · rw [if_pos h, List.mem_append]
    by_cases h0 : 0 < i <;> by_cases h1 : i + 1 < k <;> simp [h0, h1] <;> omega
  · rw [if_neg h]; simp [h]

theorem wf_pathGraph (k : Nat) : WF (pathGraph k) := by
  intro l hl m hm
  rw [length_pathGraph]
  obtain ⟨i, hi, rfl⟩ := List.getElem_of_mem hl
  rw [length_pathGraph] at hi
  have hm' : m ∈ edges (pathGraph k) i := by
    unfold edges
    rw [List.getD_eq_getElem?_getD, List.getElem?_eq_getElem (by rw [length_pathGraph]; exact hi)]
    exact hm
  exact (mem_edges_pathGraph.mp hm').2.1

theorem walk_pathGraph (k : Nat) : ∀ i, i < k → Walk (pathGraph k) 0 i i := by
  intro i
  induction i with
  | zero => intro _; exact Walk.nil
  | succ i ih =>
    intro hi
    exact Walk.snoc (ih (by omega)) (mem_edges_pathGraph.mpr ⟨by omega, hi, Or.inr rfl⟩)

theorem walk_pathGraph_le {k v d : Nat} (h : Walk (pathGraph k) 0 v d) : v ≤ d := by
  induction h with
  | nil => exact Nat.le_refl _
  | snoc _ he ih =>
    have := mem_edges_pathGraph.mp he
    omega

theorem isHopCount_pathGraph {k i : Nat} (hi : i < k) : IsHopCount (pathGraph k) 0 i i :=
  ⟨walk_pathGraph k i hi, fun _ hw => walk_pathGraph_le hw⟩

theorem sorted_perm_range {l : List Nat} {k : Nat} (hp : l.Perm (List.range k))
    (hs : ∀ (i j a b : Nat), i ≤ j → l[i]? = some a → l[j]? = some b → a ≤ b) :
    l = List.range k := by
  apply List.eq_of_perm_of_sorted (r := LE.le) hp
  · rw [List.Sorted, List.pairwise_iff_getElem]
    intro i j hi hj hij
    exact hs i j _ _ (by omega) (List.getElem?_eq_getElem hi) (List.getElem?_eq_getElem hj)
  · exact List.sorted_le_range k

/-! ## Termination of the distance assignment -/

theorem maxDeg_bound (lens : List Nat) : ∀ d, d ∈ lens → d ≤ lens.foldr max 0 := by
  induction lens with
  | nil => intro d hd; cases hd
  | cons y ys ih =>
    intro d hd
    rw [List.foldr_cons]
    rcases List.mem_cons.mp hd with rfl | hd'
    · exact Nat.le_max_left _ _
    · exact Nat.le_trans (ih d hd') (Nat.le_max_right _ _)

theorem length_edges_le (G : Graph) (n : Nat) : (edges G n).length ≤ maxDeg G := by
  unfold edges
  rw [List.getD_eq_getElem?_getD]
  by_cases h : n < G.length
  · rw [List.getElem?_eq_getElem h]
    exact maxDeg_bound _ _ (List.mem_map.mpr ⟨G[n], List.getElem_mem h, rfl⟩)
  · rw [List.getElem?_eq_none (by omega)]
    exact Nat.zero_le _

theorem sum_map_update (f : Nat → Nat) (dst nd : Nat) :
    ∀ l : List Nat, l.Nodup →
      (l.map (fun v => if v = dst then nd else f v)).sum + (if dst ∈ l then f dst else 0) =
        (l.map f).sum + (if dst ∈ l then nd else 0) := by
  intro l
  induction l with
  | nil => intro _; simp
  | cons x l ih =>
    intro hnd
    obtain ⟨hx, hl⟩ := List.nodup_cons.mp hnd
    have := ih hl
    simp only [List.map_cons, List.sum_cons, List.mem_cons]
    by_cases hxd : x = dst
    · subst hxd
      simp only [if_true, true_or] at this ⊢
      rw [if_neg hx] at this
      rw [if_neg hx] at this
      omega
    · have hdx : ¬ dst = x := fun h => hxd h.symm
      simp only [if_neg hxd, hdx, false_or]
      omega

theorem distSum_setDist (G : Graph) (data : NodeData) {dst : Nat} (nd : Nat)
    (hdst : dst < G.length) :
    distSum G (setDist data dst nd) + (data dst).dist = distSum G data + nd := by
  have h := sum_map_update (fun v => (data v).dist) dst nd (List.range G.length)
    (List.nodup_range _)
  rw [if_pos (List.mem_range.mpr hdst), if_pos (List.mem_range.mpr hdst)] at h
  unfold distSum
  simp only [setDist_dist]
  exact h

theorem sum_active_cons (pre post : List BfsTask) (t : BfsTask) :
    ((pre ++ t :: post).map (fun t => t.rest.length + 1)).sum =
      ((pre ++ post).map (fun t => t.rest.length + 1)).sum + (t.rest.length + 1) := by
  simp only [List.map_append, List.sum_append, List.map_cons, List.sum_cons]
  omega

theorem bfsStep_dist_le {G : Graph} {s t : BfsState} (h : BfsStep G s t) (m : Nat) :
    (t.data m).dist ≤ (s.data m).dist := by
  cases h with
  | dequeue pre post n hwl => exact Nat.le_refl _
  | relax pre post nd dst rest hact =>
    show ((relaxEdge nd (s.data, s.wl) dst).1 m).dist ≤ _
    rw [relaxEdge_dist]
    split
    · rename_i h; subst h; exact Nat.min_le_left _ _
    · exact Nat.le_refl _
  | finish pre post nd hact => exact Nat.le_refl _

theorem bfsStep_push {G : Graph} {s t : BfsState} (h : BfsStep G s t) (m : Nat)
    (hm : s.wl.count m < t.wl.count m) : (t.data m).dist < (s.data m).dist := by
  cases h with
  | dequeue pre post n hwl =>
    exfalso
    simp only [hwl, List.count_append, List.count_cons] at hm
    omega
  | relax pre post nd dst rest hact =>
    have hm' : s.wl.count m < ((relaxEdge nd (s.data, s.wl) dst).2).count m := hm
    show ((relaxEdge nd (s.data, s.wl) dst).1 m).dist < _
    rw [relaxEdge_pushed] at hm'
    rw [relaxEdge_dist]
    dsimp only at hm' ⊢
    by_cases hlt : nd < (s.data dst).dist
    · rw [if_pos hlt] at hm'
      simp only [List.count_append, List.count_cons, List.count_nil] at hm'
      have hmd : m = dst := by
        by_contra hne
        have : (dst == m) = false := by
          simp only [beq_eq_false_iff_ne, ne_eq]; exact fun h => hne h.symm
        rw [this] at hm'
        simp at hm'
      subst hmd
      rw [if_pos rfl, Nat.min_eq_right (by omega)]
      exact hlt
    · rw [if_neg hlt] at hm'
      omega
  | finish pre post nd hact => exact absurd hm (Nat.lt_irrefl _)

theorem bfsMeasure_step {G : Graph} (hwf : WF G) {source : Nat} {s t : BfsState}
    (hinv : BfsInv G source s) (h : BfsStep G s t) : bfsMeasure G t < bfsMeasure G s := by
  cases h with
  | dequeue pre post n hwl =>
    have hdeg := length_edges_le G n
    simp only [bfsMeasure, hwl, List.length_append, List.length_cons, List.map_cons,
      List.sum_cons]
    generalize distSum G s.data * (maxDeg G + 3) = A
    generalize ((s.active.map (fun t => t.rest.length + 1)).sum) = B
    rw [Nat.add_mul, Nat.add_mul, Nat.add_mul, Nat.one_mul]
    generalize pre.length * (maxDeg G + 2) = C
    generalize post.length * (maxDeg G + 2) = D
    omega
  | relax pre post nd dst rest hact =>
    have hsum := sum_active_cons pre post ⟨nd, dst :: rest⟩
    have hsum' := sum_active_cons pre post ⟨nd, rest⟩
    simp only [List.length_cons] at hsum
    simp only [bfsMeasure, hact, hsum, hsum']
    generalize (((pre ++ post).map (fun t => t.rest.length + 1)).sum) = B
    by_cases hlt : nd < (s.data dst).dist
    · have hdst : dst < G.length := by
        obtain ⟨u, k, _, _, hsub⟩ := hinv.task ⟨nd, dst :: rest⟩ (by rw [hact]; simp)
        exact edges_lt hwf (hsub dst (by simp))
      have h1 : relaxEdge nd (s.data, s.wl) dst = (setDist s.data dst nd, s.wl ++ [dst]) := by
        unfold relaxEdge; rw [if_neg (by simpa using hlt)]
      have h2 := distSum_setDist G s.data nd hdst
      simp only [h1, List.length_append, List.length_singleton]
      have h3 : distSum G (setDist s.data dst nd) + 1 ≤ distSum G s.data := by omega
      have h4 := Nat.mul_le_mul_right (maxDeg G + 3) h3
      rw [Nat.add_mul, Nat.one_mul] at h4
      rw [Nat.add_mul, Nat.one_mul]
      generalize distSum G (setDist s.data dst nd) * (maxDeg G + 3) = A' at h4 ⊢
      generalize distSum G s.data * (maxDeg G + 3) = A at h4 ⊢
      generalize s.wl.length * (maxDeg G + 2) = C
      omega
    · have h1 : relaxEdge nd (s.data, s.wl) dst = (s.data, s.wl) := by
        unfold relaxEdge; rw [if_pos (by simpa using hlt)]
      simp only [h1]
      omega
  | finish pre post nd hact =>
    have hsum := sum_active_cons pre post ⟨nd, []⟩
    simp only [bfsMeasure, hact, hsum, List.length_nil]
    omega

theorem bfsSteps_bound {G : Graph} (hwf : WF G) {source : Nat} :
    ∀ {k : Nat} {s t : BfsState}, BfsSteps G k s t → BfsInv G source s →
      k + bfsMeasure G t ≤ bfsMeasure G s := by
  intro k s t h
  induction h with
  | refl s => intro _; omega
  | step hst _ ih =>
    intro hinv
    have h1 := bfsMeasure_step hwf hinv hst
    have h2 := ih (bfsInv_step hinv hst)
    omega

theorem bfsStep_progress (G : Graph) (s : BfsState) (h : ¬ BfsDrained s) :
    ∃ t, BfsStep G s t := by
  cases hwl : s.wl with
  | cons n post => exact ⟨_, BfsStep.dequeue s [] post n (by simpa using hwl)⟩
  | nil =>
    cases hact : s.active with
    | nil => exact absurd ⟨hwl, hact⟩ h
    | cons t post =>
      obtain ⟨nd, rest⟩ := t
      cases rest with
      | nil => exact ⟨_, BfsStep.finish s [] post nd (by simpa using hact)⟩
      | cons dst rest => exact ⟨_, BfsStep.relax s [] post nd dst rest (by simpa using hact)⟩

theorem bfs_drains {G : Graph} (hwf : WF G) {source : Nat} :
    ∀ (k : Nat) (s : BfsState), bfsMeasure G s ≤ k → BfsInv G source s →
      ∃ t, Relation.ReflTransGen (BfsStep G) s t ∧ BfsDrained t := by
  intro k
  induction k with
  | zero =>
    intro s hk hinv
    by_cases hd : BfsDrained s
    · exact ⟨s, Relation.ReflTransGen.refl, hd⟩
    · obtain ⟨t, ht⟩ := bfsStep_progress G s hd
      have := bfsMeasure_step hwf hinv ht
      omega
  | succ k ih =>
    intro s hk hinv
    by_cases hd : BfsDrained s
    · exact ⟨s, Relation.ReflTransGen.refl, hd⟩
    · obtain ⟨t, ht⟩ := bfsStep_progress G s hd
      have hlt := bfsMeasure_step hwf hinv ht
      obtain ⟨u, hu, hdr⟩ := ih t (by omega) (bfsInv_step hinv ht)
      exact ⟨u, Relation.ReflTransGen.head ht hu, hdr⟩

/-- C16 (termination by monotone decrease). On every graph whose adjacency lists name
nodes of the graph, from every source: a call of `bfsFn::operator()` leaves no `dist`
larger than it was and pushes only nodes whose `dist` it has made smaller, and so does
every single step of the work-list loop, whatever the calls in flight; every execution
from the start, in whatever order nodes are dequeued, has at most `bfsMeasure` steps (so
finitely many pushes); a state that is not drained has a next step; and from every state
reached the loop can drain. -/
theorem bfs_terminates (G : Graph) (source : Nat) (hwf : WF G) :
    (∀ (n : Nat) (data : NodeData) (wl : List Nat),
      (∀ m, ((bfsFn_op G n (data, wl)).1 m).dist ≤ (data m).dist) ∧
      ∃ pushed, (bfsFn_op G n (data, wl)).2 = wl ++ pushed ∧
        ∀ m ∈ pushed, ((bfsFn_op G n (data, wl)).1 m).dist < (data m).dist) ∧
    (∀ s t, BfsStep G s t →
      (∀ m, (t.data m).dist ≤ (s.data m).dist) ∧
      ∀ m, s.wl.count m < t.wl.count m → (t.data m).dist < (s.data m).dist) ∧
    (∀ k s, BfsSteps G k (bfsInit G source) s → k ≤ bfsMeasure G (bfsInit G source)) ∧
    (∀ s, BfsReach G source s → ¬ BfsDrained s → ∃ t, BfsStep G s t) ∧
    (∀ s, BfsReach G source s →
      ∃ t, Relation.ReflTransGen (BfsStep G) s t ∧ BfsDrained t) := by
  refine ⟨?_, ?_, ?_, ?_, ?_⟩
  · intro n data wl
    obtain ⟨h1, _, pushed, h3, _, h5⟩ :=
      foldl_relaxEdge (newDistOf data n) (edges G n) (data, wl)
    refine ⟨?_, pushed, h3, ?_⟩
    · intro m
      show (((edges G n).foldl (relaxEdge (newDistOf data n)) (data, wl)).1 m).dist ≤ _
      rw [h1 m]
      split
      · exact Nat.min_le_left _ _
      · exact Nat.le_refl _
    · intro m hm
      obtain ⟨hme, hlt⟩ := (h5 m).mp hm
      show (((edges G n).foldl (relaxEdge (newDistOf data n)) (data, wl)).1 m).dist < _
      rw [h1 m, if_pos hme]
      exact Nat.lt_of_le_of_lt (Nat.min_le_right _ _) hlt
  · intro s t hst
    exact ⟨bfsStep_dist_le hst, bfsStep_push hst⟩
  · intro k s hsteps
    have := bfsSteps_bound hwf hsteps (bfsInv_init G source)
    omega
  · intro s _ hd
    exact bfsStep_progress G s hd
  · intro s hs
    exact bfs_drains hwf _ s (Nat.le_refl _) (bfsInv_reach hs)

theorem bfs_terminates_witness :
    (∀ (n : Nat) (data : NodeData) (wl : List Nat),
      (∀ m, ((bfsFn_op twoTriangles n (data, wl)).1 m).dist ≤ (data m).dist) ∧
      ∃ pushed, (bfsFn_op twoTriangles n (data, wl)).2 = wl ++ pushed ∧
        ∀ m ∈ pushed, ((bfsFn_op twoTriangles n (data, wl)).1 m).dist < (data m).dist) ∧
    (∀ s t, BfsStep twoTriangles s t →
      (∀ m, (t.data m).dist ≤ (s.data m).dist) ∧
      ∀ m, s.wl.count m < t.wl.count m → (t.data m).dist < (s.data m).dist) ∧
    (∀ k s, BfsSteps twoTriangles k (bfsInit twoTriangles 0) s →
      k ≤ bfsMeasure twoTriangles (bfsInit twoTriangles 0)) ∧
    (∀ s, BfsReach twoTriangles 0 s → ¬ BfsDrained s → ∃ t, BfsStep twoTriangles s t) ∧
    (∀ s, BfsReach twoTriangles 0 s →
      ∃ t, Relation.ReflTransGen (BfsStep twoTriangles) s t ∧ BfsDrained t) :=
  bfs_terminates twoTriangles 0 (by decide)

/-! ## `placeFn::operator()` step by step -/

section steps

variable {G : Graph} {srt : List Nat → List Nat} {T : Tables} {tot : Nat}

theorem placeStep_level_exit {n : Nat} {s : PlaceState} (h : ¬ n < wrap (T.max_dist + 1)) :
    placeStep G srt T tot (.level n, s) = .ok (.exit, s) := by
  simp only [placeStep, h, if_false]; rfl

theorem placeStep_level {n : Nat} {s : PlaceState} (h : n < wrap (T.max_dist + 1)) :
    placeStep G srt T tot (.level n, s) =
      (readAt T.read_offset n >>= fun start =>
        readAt s.write_offset (wrap (n + 1)) >>= fun t_wo =>
          readAt T.level_count n >>= fun todo =>
            pure (.todo n { start := start, t_wo := t_wo, todo := todo }, s)) := by
  simp only [placeStep, h, if_true]

theorem placeStep_todo_done {n : Nat} {l : Locals} {s : PlaceState} (h : l.todo = 0) :
    placeStep G srt T tot (.todo n l, s) = .ok (.level (wrap (n + tot)), s) := by
  simp only [placeStep, h, if_true]; rfl

theorem placeStep_todo {n : Nat} {l : Locals} {s : PlaceState} (h : ¬ l.todo = 0) :
    placeStep G srt T tot (.todo n l, s) =
      (readAt s.write_offset n >>= fun cend =>
        if l.start = cend then .error .spin else pure (.inner n cend l, s)) := by
  simp only [placeStep, h, if_false]

theorem placeStep_inner_done {n cend : Nat} {l : Locals} {s : PlaceState}
    (h : l.start = cend) :
    placeStep G srt T tot (.inner n cend l, s) = .ok (.todo n l, s) := by
  simp only [placeStep, h, if_true]; rfl

theorem placeStep_inner {n cend : Nat} {l : Locals} {s : PlaceState} (h : ¬ l.start = cend) :
    placeStep G srt T tot (.inner n cend l, s) =
      (consume G srt n l.start l.t_wo s >>= fun r =>
        pure (.inner n cend { start := wrap (l.start + 1), t_wo := r.2,
                              todo := wrap (l.todo + (UINT_MOD - 1)) }, r.1)) := by
  simp only [placeStep, h, if_false]

theorem placeReach_refl (c : Pc × PlaceState) : PlaceReach G srt T tot c c :=
  Relation.ReflTransGen.refl

theorem placeReach_head {a b c : Pc × PlaceState} (h : placeStep G srt T tot a = .ok b)
    (h2 : PlaceReach G srt T tot b c) : PlaceReach G srt T tot a c :=
  Relation.ReflTransGen.head h h2

theorem placeReach_append {a b c : Pc × PlaceState} (h : PlaceReach G srt T tot a b)
    (h2 : PlaceReach G srt T tot b c) : PlaceReach G srt T tot a c :=
  Relation.ReflTransGen.trans h h2

/-! ### The loops are runs of steps -/

theorem innerLoop_reach {n cend : Nat} :
    ∀ (k : Nat) (l : Locals) (s : PlaceState) (l' : Locals) (s' : PlaceState),
      innerLoop G srt n cend k l s = .ok (s', l') →
      PlaceReach G srt T tot (.inner n cend l, s) (.todo n l', s') := by
  intro k
  induction k with
  | zero =>
    intro l s l' s' h
    by_cases hd : l.start = cend
    · rw [innerLoop_done hd] at h
      cases h
      exact placeReach_head (placeStep_inner_done hd) (placeReach_refl _)
    · rw [innerLoop_zero hd] at h; cases h
  | succ k ih =>
    intro l s l' s' h
    by_cases hd : l.start = cend
    · rw [innerLoop_done hd] at h
      cases h
      exact placeReach_head (placeStep_inner_done hd) (placeReach_refl _)
    · rw [innerLoop_succ hd] at h
      obtain ⟨r, hr, h2⟩ := bind_eq_ok h
      refine placeReach_head ?_ (ih _ _ _ _ h2)
      rw [placeStep_inner hd, hr, bind_ok]; rfl

theorem todoLoop_reach {fuel n : Nat} :
    ∀ (k : Nat) (l : Locals) (s : PlaceState) (l' : Locals) (s' : PlaceState),
      todoLoop G srt fuel n k l s = .ok (s', l') →
      PlaceReach G srt T tot (.todo n l, s) (.level (wrap (n + tot)), s') := by
  intro k
  induction k with
  | zero =>
    intro l s l' s' h
    by_cases hd : l.todo = 0
    · rw [todoLoop_done hd] at h
      cases h
      exact placeReach_head (placeStep_todo_done hd) (placeReach_refl _)
    · rw [todoLoop_zero hd] at h; cases h
  | succ k ih =>
    intro l s l' s' h
    by_cases hd : l.todo = 0
    · rw [todoLoop_done hd] at h
      cases h
      exact placeReach_head (placeStep_todo_done hd) (placeReach_refl _)
    · rw [todoLoop_succ hd] at h
      obtain ⟨cend, hc, h2⟩ := bind_eq_ok h
      by_cases hsp : l.start = cend
      · rw [if_pos hsp] at h2; cases h2
      · rw [if_neg hsp] at h2
        obtain ⟨r, hr, h3⟩ := bind_eq_ok h2
        have h4 : placeStep G srt T tot (.todo n l, s) = .ok (.inner n cend l, s) := by
          rw [placeStep_todo hd, hc, bind_ok, if_neg hsp]; rfl
        exact placeReach_head h4
          (placeReach_append (innerLoop_reach fuel l s r.2 r.1 hr) (ih _ _ _ _ h3))

theorem levelLoop_reach {fuel : Nat} :
    ∀ (k n : Nat) (s p : PlaceState),
      levelLoop G srt T fuel tot k n s = .ok p →
      PlaceReach G srt T tot (.level n, s) (.exit, p) := by
  intro k
  induction k with
  | zero =>
    intro n s p h
    by_cases hn : n < wrap (T.max_dist + 1)
    · rw [levelLoop_zero hn] at h; cases h
    · rw [levelLoop_exit hn] at h
      cases h
      exact placeReach_head (placeStep_level_exit hn) (placeReach_refl _)
  | succ k ih =>
    intro n s p h
    by_cases hn : n < wrap (T.max_dist + 1)
    · rw [levelLoop_succ hn] at h
      obtain ⟨start, h1, h⟩ := bind_eq_ok h
      obtain ⟨t_wo, h2, h⟩ := bind_eq_ok h
      obtain ⟨todo, h3, h⟩ := bind_eq_ok h
      obtain ⟨r, h4, h⟩ := bind_eq_ok h
      have hstep : placeStep G srt T tot (.level n, s) =
          .ok (.todo n { start := start, t_wo := t_wo, todo := todo }, s) := by
        rw [placeStep_level hn, h1, bind_ok, h2, bind_ok, h3, bind_ok]; rfl
      exact placeReach_head hstep
        (placeReach_append (todoLoop_reach fuel _ s r.2 r.1 h4) (ih _ _ _ h))
    · rw [levelLoop_exit hn] at h
      cases h
      exact placeReach_head (placeStep_level_exit hn) (placeReach_refl _)

/-- A run of `placeFn::go` that returns is the seeding followed by steps of the worker
`(0, 1)` up to its return. -/
theorem placeFn_go_reach {fuel source : Nat} {data : NodeData} {perm : List Nat}
    {p : PlaceState} (h : placeFn_go G srt T fuel source data perm = .ok p) :
    ∃ s0, placeSeed T source data perm = .ok s0 ∧
      PlaceReach G srt T 1 (.level 0, s0) (.exit, p) := by
  have heq : placeFn_go G srt T fuel source data perm =
      (placeSeed T source data perm >>= fun s0 => placeFn_op G srt T fuel 0 1 s0) := by
    unfold placeFn_go placeSeed
    cases writeAt perm 0 source with
    | error e => rfl
    | ok a =>
      cases writeAt T.write_offset 0 1 with
      | error e => rfl
      | ok b => rfl
  rw [heq] at h
  obtain ⟨s0, hs0, h2⟩ := bind_eq_ok h
  exact ⟨s0, hs0, levelLoop_reach fuel 0 s0 p h2⟩

end steps

/-! ## The single worker at its loop tests -/

section inv

variable {G : Graph} {source : Nat} {data0 : NodeData}

theorem placeSeed_ok {T : Tables} {perm0 : List Nat} (hp : 0 < perm0.length)
    (hw : 0 < T.write_offset.length) :
    placeSeed T source data0 perm0 =
      .ok { data := data0, perm := perm0.set 0 source,
            write_offset := T.write_offset.set 0 1 } := by
  simp only [placeSeed, writeAt, hp, hw, if_true]; rfl

theorem atLevel_seed (hL : Levelled G source data0) {T : Tables} (hT : TablesOk G data0 T)
    {perm0 : List Nat} (hperm0 : perm0.length = G.length) :
    AtLevel G data0 T.max_dist 0
      { data := data0, perm := perm0.set 0 source, write_offset := T.write_offset.set 0 1 } := by
  have hone := cntLt_one hL
  have hzero := cntLt_zero G data0
  have hN := hL.src_lt
  have hp0 : 0 < perm0.length := by omega
  have hwlen : T.write_offset.length = T.max_dist + 2 := by
    rw [hT.write_offset, hT.read_offset_len]
  have htake : (perm0.set 0 source).take 1 = [source] := by
    have := take_succ_set perm0 source hp0
    simpa using this
  have hone' : cntLt G data0 (0 + 1) = 1 := hone
  have hcore : Core G data0 0 (cntLt G data0 0) (cntLt G data0 (0 + 1))
      { data := data0, perm := perm0.set 0 source, write_offset := T.write_offset.set 0 1 } := by
    rw [hzero]
    simp only [Nat.zero_add, hone]
    have hmem1 : ∀ v, v ∈ [source] ↔ v < G.length ∧ (data0 v).dist < 1 := by
      intro v
      simp only [List.mem_singleton]
      constructor
      · rintro rfl
        exact ⟨hN, by rw [(hL.zero_iff v).mpr rfl]; omega⟩
      · rintro ⟨_, h⟩
        exact (hL.zero_iff v).mp (by omega)
    refine ⟨fun _ => rfl, ?_, by omega, by omega, ?_, ?_, ?_, ?_, ?_, ?_, ?_, ?_⟩
    · simp only [List.length_set]; exact hperm0
    · simp only [htake]; exact List.nodup_singleton _
    · intro v
      simp only [htake, hmem1 v, hL.notdone v]
      constructor
      · rintro ⟨hv, h⟩; exact ⟨hv, Or.inl (by omega)⟩
      · rintro ⟨hv, h | ⟨_, h⟩⟩
        · exact ⟨hv, by omega⟩
        · cases h
    · intro k hk v
      by_cases hk0 : k = 0
      · subst hk0
        simp only [hzero, List.take_zero, List.not_mem_nil, false_iff]
        omega
      · have hk1 : k = 1 := by omega
        subst hk1
        simp only [hone, htake]
        exact hmem1 v
    · intro v _; exact hL.notdone v
    · intro j b _ h2; omega
    · intro i a h1 h2; omega
    · intro v _ h0 hv; omega
    · intro v _; exact hL.notdone v
  have hcuts : Cuts G (cntLt G data0 0) (fun _ => 1) (perm0.set 0 source) := by
    rw [hzero]
    exact ⟨rfl, fun _ _ _ _ => Nat.le_refl _, fun i j a hi => by omega,
      fun i j1 j2 a1 a2 hi => by omega⟩
  refine ⟨hcore, ⟨fun _ => 1, hcuts, hone'.symm⟩, ?_, ?_, ?_⟩
  · simp only [List.length_set]; exact hwlen
  · intro k hk1 hk2
    simp only
    rw [List.getElem?_set_ne (by omega), hT.write_offset]
    exact hT.read_offset k hk2
  · intro k hk _
    have hk0 : k = 0 := by omega
    subst hk0
    simp only [Nat.zero_add, hone]
    rw [List.getElem?_set_self (by omega)]

/-- Every step of the single worker returns and keeps the invariant: the worker neither
waits nor leaves a vector. -/
theorem placeInv_step (hL : Levelled G source data0) {srt : List Nat → List Nat}
    (hsrt : SortsBy (sortDegFn G) srt) {T : Tables} (hT : TablesOk G data0 T)
    (c : Pc × PlaceState) (hinv : PlaceInv G data0 T.max_dist c) :
    ∃ c', placeStep G srt T 1 c = .ok c' ∧ PlaceInv G data0 T.max_dist c' := by
  have hMlt := hL.max_lt hT
  have hsz := hL.size
  have hM : T.max_dist + 1 < UINT_MOD := by omega
  have hwM : wrap (T.max_dist + 1) = T.max_dist + 1 := wrap_of_lt hM
  obtain ⟨pc, s⟩ := c
  cases pc with
  | level n =>
    obtain ⟨hn, hat⟩ := hinv
    by_cases hlt : n < T.max_dist + 1
    · have hw1 : wrap (n + 1) = n + 1 := wrap_of_lt (by omega)
      have h1 : readAt T.read_offset n = .ok (cntLt G data0 n) :=
        readAt_eq (hT.read_offset n (by omega))
      have h2 : readAt s.write_offset (n + 1) = .ok (cntLt G data0 (n + 1)) :=
        readAt_eq (hat.above (n + 1) (by omega) (by omega))
      have h3 : readAt T.level_count n = .ok (cntEq G data0 n) := by
        apply readAt_eq
        rw [getElem?_of_getD (by rw [hT.level_count_len]; exact hlt), hT.level_count]
      refine ⟨(.todo n { start := cntLt G data0 n, t_wo := cntLt G data0 (n + 1),
                          todo := cntEq G data0 n }, s), ?_, by omega, ?_⟩
      · rw [placeStep_level (by rw [hwM]; exact hlt), h1, bind_ok, hw1, h2, bind_ok, h3,
          bind_ok]
        rfl
      · refine ⟨Nat.le_refl _, cntLt_mono G data0 (by omega), ?_, hat.core, hat.cuts, ?_,
          fun k hk => hat.below k hk (by omega)⟩
        · simp only [cntLt_succ]; omega
        · exact ⟨hat.len, fun k h1 h2 => hat.above k (by omega) h2,
            hat.below n (Nat.le_refl _) (by omega), hat.above (n + 1) (by omega) (by omega)⟩
    · have hn' : n = T.max_dist + 1 := by omega
      subst hn'
      exact ⟨(.exit, s), placeStep_level_exit (by rw [hwM]; omega), hat⟩
  | todo n l =>
    obtain ⟨hn, hmid⟩ := hinv
    by_cases hd : l.todo = 0
    · have hw1 : wrap (n + 1) = n + 1 := wrap_of_lt (by omega)
      have hstart : l.start = cntLt G data0 (n + 1) := by
        have h1 := hmid.todo
        have h2 := hmid.hi
        omega
      have hcore := hmid.core
      rw [hstart] at hcore
      obtain ⟨ht, hcore'⟩ := core_next_level hL hcore
      obtain ⟨cut, hcuts, hcut⟩ := hmid.cuts
      rw [hstart] at hcuts hcut
      refine ⟨(.level (n + 1), s), ?_, by omega, hcore', ⟨cut, hcuts, by rw [hcut, ht]⟩,
        hmid.wo.len, fun k h1 h2 => hmid.wo.above k h1 h2, ?_⟩
      · rw [placeStep_todo_done hd, hw1]
      · intro k hk _
        by_cases hkn : k ≤ n
        · exact hmid.below k hkn
        · have hk' : k = n + 1 := by omega
          subst hk'
          rw [hmid.wo.next, ht]
    · have hlt : l.start < cntLt G data0 (n + 1) := by
        have h1 := hmid.todo
        have h2 := hmid.hi
        omega
      refine ⟨(.inner n (cntLt G data0 (n + 1)) l, s), ?_, hn, rfl, hmid⟩
      rw [placeStep_todo hd, readAt_eq hmid.wo.here, bind_ok, if_neg (by omega)]
      rfl
  | inner n cend l =>
    obtain ⟨hn, hcend, hmid⟩ := hinv
    subst hcend
    by_cases hd : l.start = cntLt G data0 (n + 1)
    · exact ⟨(.todo n l, s), placeStep_inner_done hd, hn, hmid⟩
    · have hlt : l.start < cntLt G data0 (n + 1) := by
        have h2 := hmid.hi
        omega
      obtain ⟨cut, hcuts, hcut⟩ := hmid.cuts
      obtain ⟨s', t', hrun, hcore', hcuts', hwo'⟩ :=
        consume_inv hL hsrt (by omega : n + 1 < UINT_MOD) hmid.core hcuts hcut hlt
          (by rw [hmid.wo.len]; omega)
      have hN := cntLt_le G data0 (n + 1)
      have hws : wrap (l.start + 1) = l.start + 1 := wrap_of_lt (by omega)
      have htodo := hmid.todo
      have hwt : wrap (l.todo + (UINT_MOD - 1)) = l.todo - 1 := wrap_pred (by omega) (by omega)
      refine ⟨(.inner n (cntLt G data0 (n + 1))
          { start := l.start + 1, t_wo := t', todo := l.todo - 1 }, s'), ?_, hn, rfl, ?_⟩
      · rw [placeStep_inner hd, hrun, bind_ok, hws, hwt]
        rfl
      · have hlo := hmid.lo
        refine ⟨by simp only; omega, by simp only; omega, by simp only; omega, hcore',
          ⟨_, hcuts', by simp⟩, ?_, ?_⟩
        · refine ⟨by rw [hwo', List.length_set]; exact hmid.wo.len, ?_, ?_, ?_⟩
          · intro k h1 h2
            rw [hwo', List.getElem?_set_ne (by omega)]
            exact hmid.wo.above k h1 h2
          · rw [hwo', List.getElem?_set_ne (by omega)]
            exact hmid.wo.here
          · rw [hwo', List.getElem?_set_self (by rw [hmid.wo.len]; omega)]
        · intro k hk
          rw [hwo', List.getElem?_set_ne (by omega)]
          exact hmid.below k hk
  | exit => exact ⟨(.exit, s), rfl, hinv⟩

theorem placeInv_reach (hL : Levelled G source data0) {srt : List Nat → List Nat}
    (hsrt : SortsBy (sortDegFn G) srt) {T : Tables} (hT : TablesOk G data0 T)
    {c c' : Pc × PlaceState} (hinv : PlaceInv G data0 T.max_dist c)
    (h : PlaceReach G srt T 1 c c') : PlaceInv G data0 T.max_dist c' := by
  induction h with
  | refl => exact hinv
  | tail _ hstep ih =>
    obtain ⟨c2, h2, hinv2⟩ := placeInv_step hL hsrt hT _ ih
    rw [hstep] at h2
    cases h2
    exact hinv2

end inv

theorem tables_getD {G : Graph} {data0 : NodeData} {T : Tables} (hT : TablesOk G data0 T)
    {n : Nat} (hn : n ≤ T.max_dist + 1) :
    T.read_offset.getD n 0 = cntLt G data0 n := by
  rw [List.getD_eq_getElem?_getD, hT.read_offset n hn]; rfl

/-- C17 (the placement runs to completion). On a non-empty graph all of whose nodes are
reachable from the source, with one worker (`me = 0`, `tot = 1`): the seeding succeeds and
`placeFn::operator()` returns; step by step, no step of the worker faults; whenever the
worker tests the spin condition (it stands at `while (todo)` with `todo != 0`) the value
of `write_offset[n]` differs from `start`; inside level `n` the cursor satisfies
`read_offset[n] <= start` and `start + todo == read_offset[n] + level_count[n]`, so the
level is left (`todo == 0`) after exactly `level_count[n]` slots; and `todo` is not zero
when it is decremented. -/
theorem placement_completes (G : Graph) (srt : List Nat → List Nat) (source fuel : Nat)
    (s : BfsState) (hwf : WF G) (hs : source < G.length) (hsize : G.length < DIST_INFINITY)
    (hsrt : SortsBy (sortDegFn G) srt)
    (hreach : ∀ v, v < G.length → Reachable G source v)
    (hbfs : BfsFinal G source s) (hfuel : G.length ≤ fuel) :
    ∃ s0 p, placeSeed (count_levels_go G s.data) source s.data (permInit G) = .ok s0 ∧
      reorder G srt fuel source s.data (permInit G) = .ok p ∧
      PlaceReach G srt (count_levels_go G s.data) 1 (.level 0, s0) (.exit, p) ∧
      (∀ c, PlaceReach G srt (count_levels_go G s.data) 1 (.level 0, s0) c →
        ∃ c', placeStep G srt (count_levels_go G s.data) 1 c = .ok c') ∧
      (∀ n l st, PlaceReach G srt (count_levels_go G s.data) 1 (.level 0, s0) (.todo n l, st) →
        (l.todo ≠ 0 → ∃ cend, st.write_offset[n]? = some cend ∧ l.start ≠ cend) ∧
        (count_levels_go G s.data).read_offset.getD n 0 ≤ l.start ∧
        l.start + l.todo = (count_levels_go G s.data).read_offset.getD n 0 +
          (count_levels_go G s.data).level_count.getD n 0) ∧
      (∀ n cend l st,
        PlaceReach G srt (count_levels_go G s.data) 1 (.level 0, s0) (.inner n cend l, st) →
        (l.start ≠ cend → 0 < l.todo) ∧
        (count_levels_go G s.data).read_offset.getD n 0 ≤ l.start ∧
        l.start + l.todo = (count_levels_go G s.data).read_offset.getD n 0 +
          (count_levels_go G s.data).level_count.getD n 0) := by
  obtain ⟨p, hp, _, hL⟩ :=
    reorder_placed hwf hs hsize hsrt hreach hbfs hfuel (length_permInit G)
  have hpost := bfsPost_of_final hbfs
  have hT : TablesOk G s.data (count_levels_go G s.data) :=
    tablesOk_go (by omega) hL.size hpost.le_inf
  obtain ⟨s0, hs0, hrun⟩ := placeFn_go_reach hp
  have hseed : placeSeed (count_levels_go G s.data) source s.data (permInit G) =
      .ok { data := s.data, perm := (permInit G).set 0 source,
            write_offset := (count_levels_go G s.data).write_offset.set 0 1 } :=
    placeSeed_ok (by rw [length_permInit]; omega)
      (by rw [hT.write_offset, hT.read_offset_len]; omega)
  have hinv0 : PlaceInv G s.data (count_levels_go G s.data).max_dist (.level 0, s0) := by
    rw [hseed] at hs0
    cases hs0
    exact ⟨by omega, atLevel_seed hL hT (length_permInit G)⟩
  have hmid : ∀ {n : Nat} {l : Locals} {st : PlaceState},
      n ≤ (count_levels_go G s.data).max_dist →
      Mid G s.data (count_levels_go G s.data).max_dist n l st →
      (count_levels_go G s.data).read_offset.getD n 0 ≤ l.start ∧
      l.start + l.todo = (count_levels_go G s.data).read_offset.getD n 0 +
        (count_levels_go G s.data).level_count.getD n 0 := by
    intro n l st hn hm
    rw [tables_getD hT (by omega), hT.level_count n]
    have h1 := hm.lo
    have h2 := hm.hi
    have h3 := hm.todo
    have h4 := cntLt_succ G s.data n
    exact ⟨h1, by omega⟩
  refine ⟨s0, p, hs0, hp, hrun, ?_, ?_, ?_⟩
  · intro c hc
    obtain ⟨c', hc', _⟩ := placeInv_step hL hsrt hT c (placeInv_reach hL hsrt hT hinv0 hc)
    exact ⟨c', hc'⟩
  · intro n l st hc
    obtain ⟨hn, hm⟩ := placeInv_reach hL hsrt hT hinv0 hc
    refine ⟨?_, hmid hn hm⟩
    intro hne
    refine ⟨_, hm.wo.here, ?_⟩
    have h2 := hm.hi
    have h3 := hm.todo
    omega
  · intro n cend l st hc
    obtain ⟨hn, hcend, hm⟩ := placeInv_reach hL hsrt hT hinv0 hc
    refine ⟨?_, hmid hn hm⟩
    intro hne
    have h2 := hm.hi
    have h3 := hm.todo
    omega

theorem placement_completes_witness :
    ∃ s0 p, placeSeed (count_levels_go kiteGraph (bfsResult kiteGraph 4 0)) 0
        (bfsResult kiteGraph 4 0) (permInit kiteGraph) = .ok s0 ∧
      reorder kiteGraph (degSort kiteGraph) 4 0 (bfsResult kiteGraph 4 0)
        (permInit kiteGraph) = .ok p ∧
      PlaceReach kiteGraph (degSort kiteGraph)
        (count_levels_go kiteGraph (bfsResult kiteGraph 4 0)) 1 (.level 0, s0) (.exit, p) ∧
      (∀ c, PlaceReach kiteGraph (degSort kiteGraph)
          (count_levels_go kiteGraph (bfsResult kiteGraph 4 0)) 1 (.level 0, s0) c →
        ∃ c', placeStep kiteGraph (degSort kiteGraph)
          (count_levels_go kiteGraph (bfsResult kiteGraph 4 0)) 1 c = .ok c') ∧
      (∀ n l st, PlaceReach kiteGraph (degSort kiteGraph)
          (count_levels_go kiteGraph (bfsResult kiteGraph 4 0)) 1 (.level 0, s0)
          (.todo n l, st) →
        (l.todo ≠ 0 → ∃ cend, st.write_offset[n]? = some cend ∧ l.start ≠ cend) ∧
        (count_levels_go kiteGraph (bfsResult kiteGraph 4 0)).read_offset.getD n 0 ≤ l.start ∧
        l.start + l.todo =
          (count_levels_go kiteGraph (bfsResult kiteGraph 4 0)).read_offset.getD n 0 +
          (count_levels_go kiteGraph (bfsResult kiteGraph 4 0)).level_count.getD n 0) ∧
      (∀ n cend l st, PlaceReach kiteGraph (degSort kiteGraph)
          (count_levels_go kiteGraph (bfsResult kiteGraph 4 0)) 1 (.level 0, s0)
          (.inner n cend l, st) →
        (l.start ≠ cend → 0 < l.todo) ∧
        (count_levels_go kiteGraph (bfsResult kiteGraph 4 0)).read_offset.getD n 0 ≤ l.start ∧
        l.start + l.todo =
          (count_levels_go kiteGraph (bfsResult kiteGraph 4 0)).read_offset.getD n 0 +
          (count_levels_go kiteGraph (bfsResult kiteGraph 4 0)).level_count.getD n 0) :=
  placement_completes kiteGraph (degSort kiteGraph) 0 4 ⟨bfsResult kiteGraph 4 0, [], []⟩
    (by decide) (by decide) (by decide) (sortsBy_degSort _)
    (reachable_of_run kiteGraph 4 0 (by decide) (by decide)) (bfsFinal_of_run (by decide))
    (by decide)

/-! ## The write cursors of every worker -/

/-! ### Slices -/

theorem slots_congr {l l' : List Nat} {a b : Nat}
    (h : ∀ j, a ≤ j → j < b → l'[j]? = l[j]?) : slots l' a b = slots l a b := by
  unfold slots
  apply List.ext_getElem?
  intro i
  simp only [List.getElem?_take, List.getElem?_drop]
  split
  · exact h (a + i) (by omega) (by omega)
  · rfl

theorem length_slots {l : List Nat} {a b : Nat} (hb : b ≤ l.length) :
    (slots l a b).length = b - a := by
  unfold slots
  simp only [List.length_take, List.length_drop]
  omega

theorem slots_set_snoc {l : List Nat} {a t : Nat} (x : Nat) (hat : a ≤ t)
    (ht : t < l.length) : slots (l.set t x) a (t + 1) = slots l a t ++ [x] := by
  have h1 : slots (l.set t x) a t = slots l a t :=
    slots_congr (fun j _ hj => List.getElem?_set_ne (by omega))
  unfold slots at h1 ⊢
  have h2 : t + 1 - a = (t - a) + 1 := by omega
  rw [h2, List.take_succ, h1, List.getElem?_drop, Nat.add_sub_cancel' hat,
    List.getElem?_set_self ht]
  rfl

theorem take_eq_append_slots (l : List Nat) {a b : Nat} (hab : a ≤ b) :
    l.take b = l.take a ++ slots l a b := slice_split l hab

theorem sortSlice_getElem?_ge {srt : List Nat → List Nat} (hsrt : ∀ l, (srt l).Perm l)
    {l : List Nat} {a b : Nat} (hab : a ≤ b) (hb : b ≤ l.length) {j : Nat} (hj : b ≤ j) :
    (sortSlice srt l a b)[j]? = l[j]? := by
  have hlen : (l.take a ++ srt ((l.drop a).take (b - a))).length = b := by
    simp only [List.length_append, (hsrt _).length_eq, List.length_take, List.length_drop]
    omega
  unfold sortSlice
  rw [List.getElem?_append_right (by rw [hlen]; exact hj), hlen, List.getElem?_drop,
    Nat.add_sub_cancel' hj]

theorem sortSlice_slots_perm {srt : List Nat → List Nat} (hsrt : ∀ l, (srt l).Perm l)
    {l : List Nat} {r a b : Nat} (hra : r ≤ a) (hab : a ≤ b) (hb : b ≤ l.length) :
    (slots (sortSlice srt l a b) r b).Perm (slots l r b) := by
  have h1 := sortSlice_take_perm hsrt hab hb
  rw [take_eq_append_slots _ (by omega : r ≤ b), take_eq_append_slots l (by omega : r ≤ b),
    sortSlice_take_le (by omega : a ≤ l.length) hra] at h1
  exact (List.perm_append_left_iff _).mp h1

theorem nodup_length_le_cntEq {G : Graph} {data0 : NodeData} {l : List Nat} {k : Nat}
    (hnd : l.Nodup) (hmem : ∀ v ∈ l, v < G.length ∧ (data0 v).dist = k) :
    l.length ≤ cntEq G data0 k := by
  unfold cntEq
  rw [List.countP_eq_length_filter]
  apply List.Subperm.length_le
  apply List.subperm_of_subset hnd
  intro v hv
  obtain ⟨h1, h2⟩ := hmem v hv
  exact List.mem_filter.mpr ⟨List.mem_range.mpr h1, by simpa using h2⟩

theorem Slot.le_next {G : Graph} {data0 : NodeData} {k w : Nat} {s : PlaceState}
    (h : Slot G data0 k w s) (hlen : s.perm.length = G.length) :
    w ≤ cntLt G data0 (k + 1) := by
  have h1 := nodup_length_le_cntEq h.nodup (fun v hv => ⟨(h.mem v hv).1, (h.mem v hv).2.1⟩)
  rw [length_slots (by rw [hlen]; exact h.hi)] at h1
  have h2 := cntLt_succ G data0 k
  have h3 := h.lo
  omega

/-! ### The neighbour loop -/

theorem scanEdge_cases {n : Nat} {s s' : PlaceState} {t t' dst : Nat}
    (h : scanEdge n (s, t) dst = .ok (s', t')) :
    (s' = s ∧ t' = t) ∨
      ((s.data dst).done = false ∧ (s.data dst).dist = wrap (n + 1) ∧
        t < s.perm.length ∧ t' = wrap (t + 1) ∧
        s' = { s with data := setDone s.data dst, perm := s.perm.set t dst }) := by
  by_cases hc : ((!(s.data dst).done) && ((s.data dst).dist == wrap (n + 1))) = true
  · by_cases hlt : t < s.perm.length
    · rw [scanEdge_hit (s := (s, t)) hc hlt] at h
      simp only [Except.ok.injEq, Prod.mk.injEq] at h
      simp only [Bool.and_eq_true, Bool.not_eq_true', beq_iff_eq] at hc
      exact Or.inr ⟨hc.1, hc.2, hlt, h.2.symm, h.1.symm⟩
    · rw [scanEdge_oob (s := (s, t)) hc hlt] at h
      cases h
  · rw [scanEdge_miss (s := (s, t)) (by simpa using hc)] at h
    simp only [Except.ok.injEq, Prod.mk.injEq] at h
    exact Or.inl ⟨h.1.symm, h.2.symm⟩

section bound

variable {G : Graph} {data0 : NodeData} {M : Nat}

theorem scanEdge_bound (hsize : G.length < UINT_MOD) {n : Nat} (hn : n ≤ M)
    (hw : wrap (n + 1) = n + 1) {W : Nat → Nat} {s s' : PlaceState} {t t' dst : Nat}
    (hB : BoundW G data0 M W s) (hWt : W (n + 1) = t) (hdst : dst < G.length)
    (h : scanEdge n (s, t) dst = .ok (s', t')) :
    BoundW G data0 M (Function.update W (n + 1) t') s' ∧ t ≤ t' ∧
      s'.write_offset = s.write_offset := by
  rcases scanEdge_cases h with ⟨rfl, rfl⟩ | ⟨hdone, hdist, hlt, rfl, rfl⟩
  · rw [← hWt, Function.update_eq_self]
    exact ⟨hB, Nat.le_refl _, rfl⟩
  · have hslot := hB.slot (n + 1) (by omega) (by omega)
    rw [hWt] at hslot
    have hN : t < G.length := by rw [← hB.perm_len]; exact hlt
    have hwt : wrap (t + 1) = t + 1 := wrap_of_lt (by omega)
    rw [hwt]
    have hδ : (data0 dst).dist = n + 1 := by rw [← hB.dist_eq, hdist, hw]
    have hnew : Slot G data0 (n + 1) (t + 1)
        { s with data := setDone s.data dst, perm := s.perm.set t dst } := by
      refine ⟨by have := hslot.lo; omega, by omega, ?_, ?_⟩
      · simp only
        rw [slots_set_snoc dst hslot.lo hlt]
        apply List.Nodup.append hslot.nodup (List.nodup_singleton _)
        intro v hv hv'
        rw [List.mem_singleton] at hv'
        subst hv'
        have := (hslot.mem v hv).2.2
        rw [hdone] at this
        cases this
      · intro v hv
        simp only at hv
        rw [slots_set_snoc dst hslot.lo hlt, List.mem_append, List.mem_singleton] at hv
        simp only [setDone_done]
        rcases hv with hv | rfl
        · obtain ⟨h1, h2, h3⟩ := hslot.mem v hv
          exact ⟨h1, h2, by split <;> simp [h3]⟩
        · exact ⟨hdst, hδ, by simp⟩
    have hnext := hnew.le_next
      (by simp only [List.length_set]; exact hB.perm_len)
    refine ⟨⟨?_, ?_, ?_⟩, by omega, rfl⟩
    · intro v; simp only [setDone_dist]; exact hB.dist_eq v
    · simp only [List.length_set]; exact hB.perm_len
    · intro k hk1 hk2
      by_cases hk : k = n + 1
      · subst hk
        rw [Function.update_same]
        exact hnew
      · rw [Function.update_noteq hk]
        have hold := hB.slot k hk1 hk2
        have hold_next := hold.le_next hB.perm_len
        have hsame : slots (s.perm.set t dst) (cntLt G data0 k) (W k) =
            slots s.perm (cntLt G data0 k) (W k) := by
          apply slots_congr
          intro j hj1 hj2
          apply List.getElem?_set_ne
          by_cases hlt' : k < n + 1
          · have := cntLt_mono G data0 (by omega : k + 1 ≤ n + 1)
            have := hslot.lo
            omega
          · have := cntLt_mono G data0 (by omega : n + 1 + 1 ≤ k)
            omega
        refine ⟨hold.lo, hold.hi, ?_, ?_⟩
        · simp only; rw [hsame]; exact hold.nodup
        · intro v hv
          simp only at hv
          rw [hsame] at hv
          obtain ⟨h1, h2, h3⟩ := hold.mem v hv
          simp only [setDone_done]
          exact ⟨h1, h2, by split <;> simp [h3]⟩

theorem scanEdges_bound (hsize : G.length < UINT_MOD) {n : Nat} (hn : n ≤ M)
    (hw : wrap (n + 1) = n + 1) :
    ∀ (es : List Nat) {W : Nat → Nat} {s s' : PlaceState} {t t' : Nat},
      BoundW G data0 M W s → W (n + 1) = t → (∀ dst ∈ es, dst < G.length) →
      scanEdges n (s, t) es = .ok (s', t') →
      BoundW G data0 M (Function.update W (n + 1) t') s' ∧ t ≤ t' ∧
        s'.write_offset = s.write_offset := by
  intro es
  induction es with
  | nil =>
    intro W s s' t t' hB hWt _ h
    simp only [scanEdges, pure, Except.pure, Except.ok.injEq, Prod.mk.injEq] at h
    obtain ⟨rfl, rfl⟩ := h
    rw [← hWt, Function.update_eq_self]
    exact ⟨hB, Nat.le_refl _, rfl⟩
  | cons e es ih =>
    intro W s s' t t' hB hWt hes h
    rw [scanEdges_cons] at h
    obtain ⟨⟨s1, t1⟩, hr, h⟩ := bind_eq_ok h
    obtain ⟨hB1, hle1, hwo1⟩ :=
      scanEdge_bound hsize hn hw hB hWt (hes e (List.mem_cons_self _ _)) hr
    obtain ⟨hB2, hle2, hwo2⟩ :=
      ih hB1 (Function.update_same _ _ _) (fun d hd => hes d (List.mem_cons_of_mem _ hd)) h
    rw [Function.update_idem] at hB2
    exact ⟨hB2, by omega, by rw [hwo2, hwo1]⟩

/-- One pass of the consume loop keeps the slots of every level and publishes the cursor
of level `n + 1`. -/
theorem consume_bound (hwf : WF G) (hsize : G.length < UINT_MOD)
    {srt : List Nat → List Nat} (hsrt : ∀ l, (srt l).Perm l) {n : Nat} (hn : n ≤ M)
    (hw : wrap (n + 1) = n + 1) {W : Nat → Nat} {s s' : PlaceState} {start t t' : Nat}
    (hB : BoundW G data0 M W s) (hWt : W (n + 1) = t)
    (h : consume G srt n start t s = .ok (s', t')) :
    BoundW G data0 M (Function.update W (n + 1) t') s' ∧
      s'.write_offset = s.write_offset.set (n + 1) t' := by
  rw [consume_eq] at h
  obtain ⟨nxt, _, h⟩ := bind_eq_ok h
  obtain ⟨⟨s1, t1⟩, hr, h⟩ := bind_eq_ok h
  obtain ⟨wo, hwo, h⟩ := bind_eq_ok h
  obtain ⟨_, rfl⟩ := writeAt_ok hwo
  simp only [pure, Except.pure, Except.ok.injEq, Prod.mk.injEq] at h
  obtain ⟨rfl, rfl⟩ := h
  obtain ⟨hB1, hle, hwo1⟩ :=
    scanEdges_bound hsize hn hw (edges G nxt) hB hWt (fun d hd => edges_lt hwf hd) hr
  have hslot := hB1.slot (n + 1) (by omega) (by omega)
  rw [Function.update_same] at hslot
  have hnext := hslot.le_next hB1.perm_len
  have ht1 : t1 ≤ s1.perm.length := by rw [hB1.perm_len]; exact hslot.hi
  have hbase : cntLt G data0 (n + 1) ≤ t := by
    have := (hB.slot (n + 1) (by omega) (by omega)).lo
    rw [hWt] at this; exact this
  refine ⟨⟨hB1.dist_eq, ?_, ?_⟩, by simp only [hw, hwo1]⟩
  · simp only [length_sortSlice hsrt hle ht1]; exact hB1.perm_len
  · intro k hk1 hk2
    by_cases hk : k = n + 1
    · subst hk
      rw [Function.update_same]
      have hperm := sortSlice_slots_perm hsrt hbase hle ht1
      refine ⟨hslot.lo, hslot.hi, ?_, ?_⟩
      · simp only; exact (hperm.nodup_iff).mpr hslot.nodup
      · intro v hv
        simp only at hv
        exact hslot.mem v (hperm.mem_iff.mp hv)
    · have hold := hB1.slot k hk1 hk2
      rw [Function.update_noteq hk] at hold ⊢
      have hold_next := hold.le_next hB1.perm_len
      have hsame : slots (sortSlice srt s1.perm t t1) (cntLt G data0 k) (W k) =
          slots s1.perm (cntLt G data0 k) (W k) := by
        apply slots_congr
        intro j hj1 hj2
        by_cases hlt' : k < n + 1
        · have := cntLt_mono G data0 (by omega : k + 1 ≤ n + 1)
          exact sortSlice_getElem?_lt (by omega) (by omega)
        · have := cntLt_mono G data0 (by omega : n + 1 + 1 ≤ k)
          exact sortSlice_getElem?_ge hsrt hle ht1 (by omega)
      refine ⟨hold.lo, hold.hi, ?_, ?_⟩
      · simp only; rw [hsame]; exact hold.nodup
      · intro v hv
        simp only at hv
        rw [hsame] at hv
        exact hold.mem v hv

end bound

section bound

variable {G : Graph} {data0 : NodeData}

theorem boundAt_seed {source : Nat} {T : Tables} (hT : TablesOk G data0 T)
    {perm0 : List Nat} (hperm0 : perm0.length = G.length) :
    BoundAt G data0 T.max_dist (.level 0,
      { data := data0, perm := perm0.set 0 source, write_offset := T.write_offset.set 0 1 }) := by
  have hwlen : T.write_offset.length = T.max_dist + 2 := by
    rw [hT.write_offset, hT.read_offset_len]
  refine ⟨⟨fun k => cntLt G data0 k, ⟨fun _ => rfl, ?_, ?_⟩, ?_⟩, ?_, ?_, trivial⟩
  · simp only [List.length_set]; exact hperm0
  · intro k _ _
    refine ⟨Nat.le_refl _, cntLt_le G data0 k, ?_, ?_⟩
    · simp [slots]
    · intro v hv; simp [slots] at hv
  · intro k hk1 hk2
    simp only
    rw [List.getElem?_set_ne (by omega), hT.write_offset]
    exact hT.read_offset k hk2
  · simp only [List.length_set]; exact hwlen
  · simp only
    rw [List.getElem?_set_self (by omega)]

/-- A step of a worker, whatever its stride, keeps the write cursors within their
levels. -/
theorem boundAt_step (hwf : WF G) (hsize : G.length < UINT_MOD)
    {srt : List Nat → List Nat} (hsrt : ∀ l, (srt l).Perm l) {T : Tables}
    (hM : T.max_dist + 1 < UINT_MOD) {tot : Nat} {c c' : Pc × PlaceState}
    (hinv : BoundAt G data0 T.max_dist c) (h : placeStep G srt T tot c = .ok c') :
    BoundAt G data0 T.max_dist c' := by
  have hwM : wrap (T.max_dist + 1) = T.max_dist + 1 := wrap_of_lt hM
  obtain ⟨pc, s⟩ := c
  obtain ⟨hW, hlen, hzero, hloc⟩ := hinv
  cases pc with
  | level n =>
    by_cases hlt : n < wrap (T.max_dist + 1)
    · rw [placeStep_level hlt] at h
      obtain ⟨start, _, h⟩ := bind_eq_ok h
      obtain ⟨t_wo, h2, h⟩ := bind_eq_ok h
      obtain ⟨todo, _, h⟩ := bind_eq_ok h
      cases h
      rw [hwM] at hlt
      have hw1 : wrap (n + 1) = n + 1 := wrap_of_lt (by omega)
      rw [hw1] at h2
      exact ⟨hW, hlen, hzero, by omega, readAt_ok h2⟩
    · rw [placeStep_level_exit hlt] at h
      cases h
      exact ⟨hW, hlen, hzero, trivial⟩
  | todo n l =>
    by_cases hd : l.todo = 0
    · rw [placeStep_todo_done hd] at h
      cases h
      exact ⟨hW, hlen, hzero, trivial⟩
    · rw [placeStep_todo hd] at h
      obtain ⟨cend, _, h⟩ := bind_eq_ok h
      by_cases hsp : l.start = cend
      · rw [if_pos hsp] at h; cases h
      · rw [if_neg hsp] at h
        cases h
        exact ⟨hW, hlen, hzero, hloc⟩
  | inner n cend l =>
    by_cases hd : l.start = cend
    · rw [placeStep_inner_done hd] at h
      cases h
      exact ⟨hW, hlen, hzero, hloc⟩
    · rw [placeStep_inner hd] at h
      obtain ⟨⟨s1, t1⟩, hr, h⟩ := bind_eq_ok h
      cases h
      obtain ⟨hn, hnext⟩ := hloc
      obtain ⟨W, hB, hpub⟩ := hW
      have hw1 : wrap (n + 1) = n + 1 := wrap_of_lt (by omega)
      have hWt : W (n + 1) = l.t_wo := by
        have := hpub (n + 1) (by omega) (by omega)
        rw [hnext] at this
        exact (Option.some.inj this).symm
      obtain ⟨hB1, hwo1⟩ := consume_bound hwf hsize hsrt hn hw1 hB hWt hr
      have hself : (s.write_offset.set (n + 1) t1)[n + 1]? = some t1 :=
        List.getElem?_set_self (by rw [hlen]; omega)
      refine ⟨⟨_, hB1, ?_⟩, ?_, ?_, hn, ?_⟩
      · intro k hk1 hk2
        simp only [hwo1]
        by_cases hk : k = n + 1
        · subst hk
          rw [Function.update_same, hself]
        · rw [Function.update_noteq hk, List.getElem?_set_ne (fun e => hk e.symm)]
          exact hpub k hk1 hk2
      · simp only [hwo1, List.length_set]; exact hlen
      · simp only [hwo1]
        rw [List.getElem?_set_ne (by omega)]
        exact hzero
      · simp only [hwo1]; exact hself
  | exit =>
    cases h
    exact ⟨hW, hlen, hzero, trivial⟩

theorem boundAt_reach (hwf : WF G) (hsize : G.length < UINT_MOD)
    {srt : List Nat → List Nat} (hsrt : ∀ l, (srt l).Perm l) {T : Tables}
    (hM : T.max_dist + 1 < UINT_MOD) {tot : Nat} {c c' : Pc × PlaceState}
    (hinv : BoundAt G data0 T.max_dist c) (h : PlaceReach G srt T tot c c') :
    BoundAt G data0 T.max_dist c' := by
  induction h with
  | refl => exact hinv
  | tail _ hstep ih => exact boundAt_step hwf hsize hsrt hM ih hstep

theorem boundAt_le {T : Tables} {source : Nat} (hs : source < G.length)
    (hsrc : (data0 source).dist = 0) {c : Pc × PlaceState}
    (hinv : BoundAt G data0 T.max_dist c) {n : Nat} (hn : n ≤ T.max_dist) :
    c.2.write_offset.getD n 0 ≤ cntLt G data0 n + cntEq G data0 n := by
  obtain ⟨pc, s⟩ := c
  obtain ⟨⟨W, hB, hpub⟩, _, hzero, _⟩ := hinv
  rw [List.getD_eq_getElem?_getD]
  by_cases h0 : n = 0
  · subst h0
    simp only [hzero, Option.getD_some]
    have : 0 < cntEq G data0 (data0 source).dist := cntEq_pos hs
    rw [hsrc] at this
    omega
  · simp only [hpub n (by omega) (by omega), Option.getD_some]
    have := (hB.slot n (by omega) (by omega)).le_next hB.perm_len
    rw [cntLt_succ] at this
    exact this

end bound

/-! ### Equality once the level below has been consumed -/

theorem take_index_unique {l : List Nat} {t : Nat} (hnd : (l.take t).Nodup) {i j a : Nat}
    (hi : i < t) (hj : j < t) (hia : l[i]? = some a) (hja : l[j]? = some a) : i = j := by
  apply nodup_index_unique hnd (a := a)
  · rw [List.getElem?_take, if_pos hi]; exact hia
  · rw [List.getElem?_take, if_pos hj]; exact hja

section consumed

variable {G : Graph} {source : Nat} {data0 : NodeData}

theorem Levelled.level_node {T : Tables} (hL : Levelled G source data0)
    (hT : TablesOk G data0 T) {m : Nat} (hm : m ≤ T.max_dist) :
    ∃ v, v < G.length ∧ (data0 v).dist = m := by
  obtain ⟨v, hv, hd⟩ := hT.max_at
  exact hL.levels_populated _ v hv hd m hm

theorem mid_consumed (hL : Levelled G source data0) {T : Tables} (hT : TablesOk G data0 T)
    {m : Nat} {l : Locals} {s : PlaceState} (hmid : Mid G data0 T.max_dist m l s)
    {n : Nat} (hn : n ≤ T.max_dist)
    (hcons : ∀ v, v < G.length → (data0 v).dist + 1 = n →
      ∃ i, i < l.start ∧ s.perm[i]? = some v) :
    s.write_offset[n]? = some (cntLt G data0 (n + 1)) := by
  by_cases hnm : n ≤ m
  · exact hmid.below n hnm
  · have hcore := hmid.core
    by_cases hn1 : n = m + 1
    · subst hn1
      have hstart : l.start = cntLt G data0 (m + 1) := by
        by_contra hne
        have hlt : l.start < cntLt G data0 (m + 1) := by
          have := hmid.hi; omega
        have hbase := hcore.base_le
        have hlen : l.start < s.perm.length := by
          rw [hcore.perm_len]; have := hcore.t_wo_le; omega
        obtain ⟨a, ha⟩ := getElem?_of_lt_length hlen
        have ha1 : a ∈ s.perm.take (cntLt G data0 (m + 1)) :=
          mem_take_iff.mpr ⟨l.start, hlt, ha⟩
        obtain ⟨haN, hadist⟩ := (hcore.low (m + 1) (Nat.le_refl _) a).mp ha1
        have hge : m ≤ (data0 a).dist := by
          by_contra hc
          have ha2 : a ∈ s.perm.take (cntLt G data0 m) :=
            (hcore.low m (by omega) a).mpr ⟨haN, by omega⟩
          obtain ⟨j, hj, hja⟩ := mem_take_iff.mp ha2
          have hlo := hmid.lo
          have := take_index_unique hcore.nodup (by omega : j < l.t_wo)
            (by omega : l.start < l.t_wo) hja ha
          omega
        obtain ⟨i, hi, hia⟩ := hcons a haN (by omega)
        have := take_index_unique hcore.nodup (by omega : i < l.t_wo)
          (by omega : l.start < l.t_wo) hia ha
        omega
      rw [hstart] at hcore
      obtain ⟨ht, _⟩ := core_next_level hL hcore
      rw [hmid.wo.next, ht]
    · exfalso
      obtain ⟨v, hv, hd⟩ := hL.level_node hT (by omega : n - 1 ≤ T.max_dist)
      obtain ⟨i, hi, hiv⟩ := hcons v hv (by omega)
      have hv1 : v ∈ s.perm.take (cntLt G data0 (m + 1)) :=
        mem_take_iff.mpr ⟨i, by have := hmid.hi; omega, hiv⟩
      have := ((hcore.low (m + 1) (Nat.le_refl _) v).mp hv1).2
      omega

/-- On a graph all of whose nodes are reachable: once every node of level `n - 1` has
been consumed, `write_offset[n]` is `read_offset[n] + level_count[n]`. -/
theorem placeInv_consumed (hL : Levelled G source data0) {T : Tables}
    (hT : TablesOk G data0 T) {c : Pc × PlaceState} (hinv : PlaceInv G data0 T.max_dist c)
    {n : Nat} (hn : n ≤ T.max_dist)
    (hcons : ∀ v, v < G.length → (data0 v).dist + 1 = n →
      ∃ i, i < cursor T c.1 ∧ c.2.perm[i]? = some v) :
    c.2.write_offset[n]? = some (cntLt G data0 (n + 1)) := by
  obtain ⟨pc, s⟩ := c
  cases pc with
  | level m =>
    obtain ⟨hm, hat⟩ := hinv
    by_cases hnm : n ≤ m
    · exact hat.below n hnm (by omega)
    · exfalso
      obtain ⟨v, hv, hd⟩ := hL.level_node hT (by omega : n - 1 ≤ T.max_dist)
      obtain ⟨i, hi, hiv⟩ := hcons v hv (by omega)
      simp only [cursor] at hi
      rw [tables_getD hT hm] at hi
      have hv1 : v ∈ s.perm.take (cntLt G data0 m) := mem_take_iff.mpr ⟨i, hi, hiv⟩
      have := ((hat.core.low m (by omega) v).mp hv1).2
      omega
  | todo m l => exact mid_consumed hL hT hinv.2 hn hcons
  | inner m cend l => exact mid_consumed hL hT hinv.2.2 hn hcons
  | exit => exact hinv.below n (by omega) (by omega)

end consumed

theorem max_dist_lt {G : Graph} {data0 : NodeData} {T : Tables} (hT : TablesOk G data0 T)
    (hle : ∀ v, (data0 v).dist ≤ DIST_INFINITY) : T.max_dist + 1 < UINT_MOD := by
  obtain ⟨v, _, hd⟩ := hT.max_at
  have := hle v
  rw [dist_infinity_val] at this
  rw [uint_mod_val]
  omega

/-! ## The striping of levels over workers -/

theorem levelsVisited_spec {M tot : Nat} (htot : 0 < tot) (hM : M + tot < UINT_MOD) :
    ∀ (k n : Nat), M + 1 ≤ n + k → n ≤ M + tot →
      (∀ x, x ∈ levelsVisited M tot k n ↔ n ≤ x ∧ x ≤ M ∧ x % tot = n % tot) ∧
      (levelsVisited M tot k n).Pairwise (fun a b => a < b) := by
  have hwM : wrap (M + 1) = M + 1 := wrap_of_lt (by omega)
  intro k
  induction k with
  | zero =>
    intro n hk _
    refine ⟨fun x => ?_, List.Pairwise.nil⟩
    simp only [levelsVisited, List.not_mem_nil, false_iff]
    omega
  | succ k ih =>
    intro n hk hn
    by_cases hlt : n < M + 1
    · have hw : wrap (n + tot) = n + tot := wrap_of_lt (by omega)
      obtain ⟨h1, h2⟩ := ih (n + tot) (by omega) (by omega)
      have heq : levelsVisited M tot (k + 1) n = n :: levelsVisited M tot k (n + tot) := by
        simp only [levelsVisited, hwM, hlt, if_true, hw]
      rw [heq]
      constructor
      · intro x
        rw [List.mem_cons, h1 x, Nat.add_mod_right]
        constructor
        · rintro (rfl | ⟨h, h', h''⟩)
          · exact ⟨Nat.le_refl _, by omega, rfl⟩
          · exact ⟨by omega, h', h''⟩
        · rintro ⟨h, h', h''⟩
          by_cases hx : x = n
          · exact Or.inl hx
          · refine Or.inr ⟨?_, h', h''⟩
            have hdvd : tot ∣ x - n := Nat.dvd_of_mod_eq_zero (Nat.sub_mod_eq_zero_of_mod_eq h'')
            have := Nat.le_of_dvd (by omega) hdvd
            omega
      · rw [List.pairwise_cons]
        refine ⟨?_, h2⟩
        intro x hx
        have := ((h1 x).mp hx).1
        omega
    · have heq : levelsVisited M tot (k + 1) n = [] := by
        simp only [levelsVisited, hwM, hlt, if_false]
      rw [heq]
      refine ⟨fun x => ?_, List.Pairwise.nil⟩
      simp only [List.not_mem_nil, false_iff]
      omega

theorem scanEdges_write_offset {n : Nat} :
    ∀ (es : List Nat) {s s' : PlaceState} {t t' : Nat},
      scanEdges n (s, t) es = .ok (s', t') → s'.write_offset = s.write_offset := by
  intro es
  induction es with
  | nil =>
    intro s s' t t' h
    simp only [scanEdges, pure, Except.pure, Except.ok.injEq, Prod.mk.injEq] at h
    rw [← h.1]
  | cons e es ih =>
    intro s s' t t' h
    rw [scanEdges_cons] at h
    obtain ⟨⟨s1, t1⟩, hr, h⟩ := bind_eq_ok h
    have h1 : s1.write_offset = s.write_offset := by
      rcases scanEdge_cases hr with ⟨rfl, _⟩ | ⟨_, _, _, _, rfl⟩
      · rfl
      · rfl
    rw [ih h, h1]

/-- A pass of the consume loop writes `write_offset` at index `n + 1` only. -/
theorem consume_write_offset {G : Graph} {srt : List Nat → List Nat} {n start t t' : Nat}
    {s s' : PlaceState} (h : consume G srt n start t s = .ok (s', t')) :
    s'.write_offset = s.write_offset.set (wrap (n + 1)) t' := by
  rw [consume_eq] at h
  obtain ⟨nxt, _, h⟩ := bind_eq_ok h
  obtain ⟨⟨s1, t1⟩, hr, h⟩ := bind_eq_ok h
  obtain ⟨wo, hwo, h⟩ := bind_eq_ok h
  obtain ⟨_, rfl⟩ := writeAt_ok hwo
  simp only [pure, Except.pure, Except.ok.injEq, Prod.mk.injEq] at h
  obtain ⟨rfl, rfl⟩ := h
  simp only [scanEdges_write_offset _ hr]

section stripe

variable {G : Graph} {srt : List Nat → List Nat} {T : Tables} {me tot : Nat}

theorem striped_step (htot : 0 < tot) (hM : T.max_dist + tot < UINT_MOD)
    {c c' : Pc × PlaceState} (hinv : Striped T.max_dist me tot c.1)
    (h : placeStep G srt T tot c = .ok c') :
    Striped T.max_dist me tot c'.1 ∧
      ∀ k, c'.2.write_offset[k]? ≠ c.2.write_offset[k]? →
        ∃ n, levelOf c.1 = some n ∧ k = n + 1 := by
  have hwM : wrap (T.max_dist + 1) = T.max_dist + 1 := wrap_of_lt (by omega)
  obtain ⟨pc, s⟩ := c
  cases pc with
  | level n =>
    by_cases hlt : n < wrap (T.max_dist + 1)
    · rw [placeStep_level hlt] at h
      obtain ⟨start, _, h⟩ := bind_eq_ok h
      obtain ⟨t_wo, _, h⟩ := bind_eq_ok h
      obtain ⟨todo, _, h⟩ := bind_eq_ok h
      cases h
      rw [hwM] at hlt
      exact ⟨⟨hinv.1, by omega⟩, fun k hk => absurd rfl hk⟩
    · rw [placeStep_level_exit hlt] at h
      cases h
      exact ⟨trivial, fun k hk => absurd rfl hk⟩
  | todo n l =>
    by_cases hd : l.todo = 0
    · rw [placeStep_todo_done hd] at h
      cases h
      have hw : wrap (n + tot) = n + tot := wrap_of_lt (by have := hinv.2; omega)
      refine ⟨⟨?_, ?_⟩, fun k hk => absurd rfl hk⟩
      · show wrap (n + tot) % tot = me
        rw [hw, Nat.add_mod_right]; exact hinv.1
      · show wrap (n + tot) ≤ T.max_dist + tot
        rw [hw]; have := hinv.2; omega
    · rw [placeStep_todo hd] at h
      obtain ⟨cend, _, h⟩ := bind_eq_ok h
      by_cases hsp : l.start = cend
      · rw [if_pos hsp] at h; cases h
      · rw [if_neg hsp] at h
        cases h
        exact ⟨hinv, fun k hk => absurd rfl hk⟩
  | inner n cend l =>
    by_cases hd : l.start = cend
    · rw [placeStep_inner_done hd] at h
      cases h
      exact ⟨hinv, fun k hk => absurd rfl hk⟩
    · rw [placeStep_inner hd] at h
      obtain ⟨⟨s1, t1⟩, hr, h⟩ := bind_eq_ok h
      cases h
      refine ⟨hinv, ?_⟩
      intro k hk
      refine ⟨n, rfl, ?_⟩
      by_contra hne
      apply hk
      have hw : wrap (n + 1) = n + 1 := wrap_of_lt (by have := hinv.2; omega)
      show s1.write_offset[k]? = s.write_offset[k]?
      rw [consume_write_offset hr, hw, List.getElem?_set_ne (fun e => hne e.symm)]
  | exit =>
    cases h
    exact ⟨trivial, fun k hk => absurd rfl hk⟩

theorem striped_reach (htot : 0 < tot) (hM : T.max_dist + tot < UINT_MOD)
    {c c' : Pc × PlaceState} (hinv : Striped T.max_dist me tot c.1)
    (h : PlaceReach G srt T tot c c') : Striped T.max_dist me tot c'.1 := by
  induction h with
  | refl => exact hinv
  | tail _ hstep ih => exact (striped_step htot hM ih hstep).1

theorem striped_levelOf {M : Nat} {pc : Pc} (h : Striped M me tot pc) {n : Nat}
    (hn : levelOf pc = some n) : n % tot = me ∧ n ≤ M := by
  cases pc with
  | level m => cases hn
  | todo m l => cases hn; exact h
  | inner m cend l => cases hn; exact h
  | exit => cases hn

end stripe

/-- C20, as amended (single producer per level). For a worker `me` of `tot` workers (`me < tot`) and
every `max_dist` with `max_dist + tot` in the range of `unsigned`: the loop header of
`placeFn::operator()(me, tot)` enters the levels `n <= max_dist` with `n mod tot == me`,
each once and in increasing order, so a level `n` is visited by the worker `n mod tot` and
by no other; every state the worker reaches inside a level is inside one of its own
levels; and a step of the worker changes `write_offset` at index `n + 1` only, `n` being
the level it is consuming, so the cell `k >= 1` is written by the owner of level `k - 1`
only. -/
theorem single_producer (G : Graph) (srt : List Nat → List Nat) (T : Tables) (me tot : Nat)
    (hme : me < tot) (hM : T.max_dist + tot < UINT_MOD) :
    (∀ x, x ∈ levelsVisited T.max_dist tot (T.max_dist + 1) me ↔
      x ≤ T.max_dist ∧ x % tot = me) ∧
    (levelsVisited T.max_dist tot (T.max_dist + 1) me).Pairwise (fun a b => a < b) ∧
    (∀ n w, n ≤ T.max_dist → w < tot →
      (n ∈ levelsVisited T.max_dist tot (T.max_dist + 1) w ↔ w = n % tot)) ∧
    (∀ s0 c, PlaceReach G srt T tot (.level me, s0) c → ∀ n, levelOf c.1 = some n →
      n ∈ levelsVisited T.max_dist tot (T.max_dist + 1) me) ∧
    (∀ s0 c c', PlaceReach G srt T tot (.level me, s0) c →
      placeStep G srt T tot c = .ok c' →
      ∀ k, c'.2.write_offset[k]? ≠ c.2.write_offset[k]? →
        ∃ n, levelOf c.1 = some n ∧ k = n + 1 ∧ n ≤ T.max_dist ∧ n % tot = me) := by
  have htot : 0 < tot := by omega
  have hmem : ∀ w, w < tot → ∀ x, x ∈ levelsVisited T.max_dist tot (T.max_dist + 1) w ↔
      x ≤ T.max_dist ∧ x % tot = w := by
    intro w hw x
    rw [(levelsVisited_spec htot hM (T.max_dist + 1) w (by omega) (by omega)).1 x,
      Nat.mod_eq_of_lt hw]
    constructor
    · rintro ⟨_, h2, h3⟩; exact ⟨h2, h3⟩
    · rintro ⟨h2, h3⟩
      refine ⟨?_, h2, h3⟩
      rw [← h3]; exact Nat.mod_le _ _
  have hinit : ∀ s0 : PlaceState,
      Striped T.max_dist me tot (((.level me, s0) : Pc × PlaceState)).1 :=
    fun _ => ⟨Nat.mod_eq_of_lt hme, by omega⟩
  refine ⟨hmem me hme,
    (levelsVisited_spec htot hM (T.max_dist + 1) me (by omega) (by omega)).2, ?_, ?_, ?_⟩
  · intro n w hn hw
    rw [hmem w hw n]
    constructor
    · rintro ⟨_, h⟩; exact h.symm
    · intro h; exact ⟨hn, h.symm⟩
  · intro s0 c hc n hn
    have hs := striped_reach htot hM (hinit s0) hc
    obtain ⟨h1, h2⟩ := striped_levelOf hs hn
    exact (hmem me hme n).mpr ⟨h2, h1⟩
  · intro s0 c c' hc hstep k hk
    have hs := striped_reach htot hM (hinit s0) hc
    obtain ⟨n, hn, hkn⟩ := (striped_step htot hM hs hstep).2 k hk
    obtain ⟨h1, h2⟩ := striped_levelOf hs hn
    exact ⟨n, hn, hkn, h2, h1⟩

theorem single_producer_witness :
    (∀ x, x ∈ levelsVisited 5 2 (5 + 1) 1 ↔ x ≤ 5 ∧ x % 2 = 1) ∧
    (levelsVisited 5 2 (5 + 1) 1).Pairwise (fun a b => a < b) ∧
    (∀ n w, n ≤ 5 → w < 2 → (n ∈ levelsVisited 5 2 (5 + 1) w ↔ w = n % 2)) ∧
    (∀ s0 c, PlaceReach kiteGraph (degSort kiteGraph) ⟨5, [], [], []⟩ 2 (.level 1, s0) c →
      ∀ n, levelOf c.1 = some n → n ∈ levelsVisited 5 2 (5 + 1) 1) ∧
    (∀ s0 c c', PlaceReach kiteGraph (degSort kiteGraph) ⟨5, [], [], []⟩ 2 (.level 1, s0) c →
      placeStep kiteGraph (degSort kiteGraph) ⟨5, [], [], []⟩ 2 c = .ok c' →
      ∀ k, c'.2.write_offset[k]? ≠ c.2.write_offset[k]? →
        ∃ n, levelOf c.1 = some n ∧ k = n + 1 ∧ n ≤ 5 ∧ n % 2 = 1) :=
  single_producer kiteGraph (degSort kiteGraph) ⟨5, [], [], []⟩ 1 2 (by decide) (by decide)

/-- C20 as stated fails for `max_dist = 5` and `tot = 4294967295`: the sum `n += tot` wraps,
and the worker `3` enters the levels `3, 2, 1, 0`; with tables whose levels are empty it
steps from the test of the level loop with `n = 3` into level `2`, which is not one of
its own. -/
theorem single_producer_counterexample :
    levelsVisited 5 4294967295 (5 + 1) 3 = [3, 2, 1, 0] ∧
    3 < 4294967295 ∧ 2 ≤ 5 ∧ 2 % 4294967295 ≠ 3 ∧
    PlaceReach [] id ⟨5, List.replicate 6 0, List.replicate 7 0, List.replicate 7 0⟩ 4294967295
      (.level 3, ⟨fun _ => ⟨0, 0, false⟩, [], List.replicate 7 0, false⟩)
      (.todo 2 ⟨0, 0, 0⟩, ⟨fun _ => ⟨0, 0, false⟩, [], List.replicate 7 0, false⟩) := by
  refine ⟨by decide, by decide, by decide, by decide, ?_⟩
  refine placeReach_head (b := (.todo 3 ⟨0, 0, 0⟩, _)) rfl ?_
  refine placeReach_head (b := (.level 2, _)) rfl ?_
  exact placeReach_head (b := (.todo 2 ⟨0, 0, 0⟩, _)) rfl (placeReach_refl _)

/-! ## The `done` flags -/

theorem scanEdges_done_mono {n : Nat} :
    ∀ (es : List Nat) {s s' : PlaceState} {t t' : Nat},
      scanEdges n (s, t) es = .ok (s', t') →
      ∀ v, (s.data v).done = true → (s'.data v).done = true := by
  intro es
  induction es with
  | nil =>
    intro s s' t t' h v hv
    simp only [scanEdges, pure, Except.pure, Except.ok.injEq, Prod.mk.injEq] at h
    rw [← h.1]; exact hv
  | cons e es ih =>
    intro s s' t t' h v hv
    rw [scanEdges_cons] at h
    obtain ⟨⟨s1, t1⟩, hr, h⟩ := bind_eq_ok h
    apply ih h v
    rcases scanEdge_cases hr with ⟨rfl, _⟩ | ⟨_, _, _, _, rfl⟩
    · exact hv
    · simp only [setDone_done]
      split
      · rfl
      · exact hv

theorem consume_done_mono {G : Graph} {srt : List Nat → List Nat} {n start t t' : Nat}
    {s s' : PlaceState} (h : consume G srt n start t s = .ok (s', t')) :
    ∀ v, (s.data v).done = true → (s'.data v).done = true := by
  rw [consume_eq] at h
  obtain ⟨nxt, _, h⟩ := bind_eq_ok h
  obtain ⟨⟨s1, t1⟩, hr, h⟩ := bind_eq_ok h
  obtain ⟨wo, hwo, h⟩ := bind_eq_ok h
  simp only [pure, Except.pure, Except.ok.injEq, Prod.mk.injEq] at h
  obtain ⟨rfl, rfl⟩ := h
  intro v hv
  exact scanEdges_done_mono _ hr v hv

section flags

variable {G : Graph} {source : Nat} {data0 : NodeData}

/-- Inside the invariant of the placement a node other than the source is marked exactly
when it is in a written slot; the source is in slot `0` and is not marked. -/
theorem core_done_iff (hL : Levelled G source data0) {n start t_wo : Nat} {s : PlaceState}
    (hcore : Core G data0 n start t_wo s) {v : Nat} (hv : v < G.length) :
    (s.data v).done = true ↔ v ∈ s.perm.take t_wo ∧ v ≠ source := by
  constructor
  · intro hd
    have hne : v ≠ source := by
      intro h
      have := hcore.unmarked v ((hL.zero_iff v).mpr h)
      rw [hd] at this; cases this
    refine ⟨(hcore.mem v).mpr ⟨hv, ?_⟩, hne⟩
    by_cases hle : (data0 v).dist ≤ n
    · exact Or.inl hle
    · refine Or.inr ⟨?_, hd⟩
      by_contra hc
      have := hcore.fresh v (by omega)
      rw [hd] at this; cases this
  · rintro ⟨hmem, hne⟩
    rcases ((hcore.mem v).mp hmem).2 with h | ⟨_, h⟩
    · have h0 : (data0 v).dist ≠ 0 := fun h0 => hne ((hL.zero_iff v).mp h0)
      exact hcore.marked v hv (by omega) h
    · exact h

theorem placeInv_core {T : Tables} {c : Pc × PlaceState}
    (hinv : PlaceInv G data0 T.max_dist c) :
    ∃ n start, Core G data0 n start (written T c) c.2 := by
  obtain ⟨pc, s⟩ := c
  cases pc with
  | level n =>
    obtain ⟨hn, hat⟩ := hinv
    refine ⟨n, cntLt G data0 n, ?_⟩
    have : written T (.level n, s) = cntLt G data0 (n + 1) := by
      simp only [written]
      rw [List.getD_eq_getElem?_getD, hat.below n (Nat.le_refl _) hn]; rfl
    rw [this]; exact hat.core
  | todo n l => exact ⟨n, _, hinv.2.core⟩
  | inner n cend l => exact ⟨n, _, hinv.2.2.core⟩
  | exit =>
    refine ⟨T.max_dist + 1, cntLt G data0 (T.max_dist + 1), ?_⟩
    have : written T (.exit, s) = cntLt G data0 (T.max_dist + 1 + 1) := by
      simp only [written]
      rw [List.getD_eq_getElem?_getD, hinv.below _ (Nat.le_refl _) (Nat.le_refl _)]; rfl
    rw [this]; exact hinv.core

/-- A step of the single worker only adds written slots. -/
theorem written_step (hL : Levelled G source data0) {srt : List Nat → List Nat}
    (hsrt : SortsBy (sortDegFn G) srt) {T : Tables} (hT : TablesOk G data0 T)
    {c c' : Pc × PlaceState} (hinv : PlaceInv G data0 T.max_dist c)
    (h : placeStep G srt T 1 c = .ok c') :
    written T c ≤ written T c' ∧
      (∀ j, j < written T c → c'.2.perm[j]? = c.2.perm[j]?) ∧
      ∀ v, (c.2.data v).done = true → (c'.2.data v).done = true := by
  have hMlt := hL.max_lt hT
  have hsz := hL.size
  have hM : T.max_dist + 1 < UINT_MOD := by omega
  have hwM : wrap (T.max_dist + 1) = T.max_dist + 1 := wrap_of_lt hM
  obtain ⟨pc, s⟩ := c
  cases pc with
  | level n =>
    obtain ⟨hn, hat⟩ := hinv
    by_cases hlt : n < wrap (T.max_dist + 1)
    · rw [placeStep_level hlt] at h
      obtain ⟨start, _, h⟩ := bind_eq_ok h
      obtain ⟨t_wo, h2, h⟩ := bind_eq_ok h
      obtain ⟨todo, _, h⟩ := bind_eq_ok h
      cases h
      rw [hwM] at hlt
      have hw1 : wrap (n + 1) = n + 1 := wrap_of_lt (by omega)
      rw [hw1] at h2
      have h3 := readAt_ok h2
      rw [hat.above (n + 1) (by omega) (by omega)] at h3
      have h4 : written T (.level n, s) = cntLt G data0 (n + 1) := by
        simp only [written]
        rw [List.getD_eq_getElem?_getD, hat.below n (Nat.le_refl _) hn]; rfl
      refine ⟨?_, fun _ _ => rfl, fun _ hv => hv⟩
      rw [h4]
      simp only [written]
      exact Nat.le_of_eq (Option.some.inj h3)
    · rw [placeStep_level_exit hlt] at h
      cases h
      rw [hwM] at hlt
      have hn' : n = T.max_dist + 1 := by omega
      subst hn'
      exact ⟨Nat.le_refl _, fun _ _ => rfl, fun _ hv => hv⟩
  | todo n l =>
    obtain ⟨hn, hmid⟩ := hinv
    by_cases hd : l.todo = 0
    · rw [placeStep_todo_done hd] at h
      cases h
      have hw1 : wrap (n + 1) = n + 1 := wrap_of_lt (by omega)
      refine ⟨?_, fun _ _ => rfl, fun _ hv => hv⟩
      simp only [written, hw1]
      rw [List.getD_eq_getElem?_getD, hmid.wo.next]
      exact Nat.le_refl _
    · rw [placeStep_todo hd] at h
      obtain ⟨cend, _, h⟩ := bind_eq_ok h
      by_cases hsp : l.start = cend
      · rw [if_pos hsp] at h; cases h
      · rw [if_neg hsp] at h
        cases h
        exact ⟨Nat.le_refl _, fun _ _ => rfl, fun _ hv => hv⟩
  | inner n cend l =>
    obtain ⟨hn, hcend, hmid⟩ := hinv
    by_cases hd : l.start = cend
    · rw [placeStep_inner_done hd] at h
      cases h
      exact ⟨Nat.le_refl _, fun _ _ => rfl, fun _ hv => hv⟩
    · rw [placeStep_inner hd] at h
      obtain ⟨⟨s1, t1⟩, hr, h⟩ := bind_eq_ok h
      cases h
      have hlen : s.perm.length < UINT_MOD := by rw [hmid.core.perm_len]; exact hsz
      have hf := consume_frame (fun x => (hsrt x).1) hlen hr
      refine ⟨hf.le, ?_, consume_done_mono hr⟩
      intro j hj
      simp only [written] at hj
      exact hf.low j hj (by rw [hmid.core.perm_len]; have := hmid.core.t_wo_le; omega)
  | exit =>
    cases h
    exact ⟨Nat.le_refl _, fun _ _ => rfl, fun _ hv => hv⟩

end flags

/-! ## The placement computes the classical order -/

theorem cmScan_nil (vis : List Nat) : cmScan vis [] = ([], vis) := rfl

theorem cmScan_seen {vis : List Nat} {x : Nat} (rest : List Nat) (h : x ∈ vis) :
    cmScan vis (x :: rest) = cmScan vis rest := by
  simp only [cmScan, h, if_true]

theorem cmScan_new {vis : List Nat} {x : Nat} (rest : List Nat) (h : x ∉ vis) :
    cmScan vis (x :: rest) =
      (x :: (cmScan (x :: vis) rest).1, (cmScan (x :: vis) rest).2) := by
  simp only [cmScan, h, if_false]

theorem cmLoop_succ {G : Graph} {srt : List Nat → List Nat} {k i next : Nat}
    {out vis : List Nat} (h : out[i]? = some next) :
    cmLoop G srt (k + 1) i out vis =
      cmLoop G srt k (i + 1) (out ++ srt (cmScan vis (edges G next)).1)
        (cmScan vis (edges G next)).2 := by
  simp only [cmLoop, h]

section ref

variable {G : Graph} {source : Nat} {data0 : NodeData}

/-- The node in a slot of level `n`. -/
theorem core_slot_dist {n start t_wo next : Nat} {s : PlaceState}
    (hcore : Core G data0 n start t_wo s) (hlo : cntLt G data0 n ≤ start)
    (hstart : start < cntLt G data0 (n + 1)) (hnext : s.perm[start]? = some next) :
    next < G.length ∧ (data0 next).dist = n := by
  have hbase := hcore.base_le
  have h1 : next ∈ s.perm.take (cntLt G data0 (n + 1)) :=
    mem_take_iff.mpr ⟨start, hstart, hnext⟩
  obtain ⟨hN, hd⟩ := (hcore.low (n + 1) (Nat.le_refl _) next).mp h1
  refine ⟨hN, ?_⟩
  by_contra hne
  have h2 : next ∈ s.perm.take (cntLt G data0 n) :=
    (hcore.low n (by omega) next).mpr ⟨hN, by omega⟩
  obtain ⟨j, hj, hjn⟩ := mem_take_iff.mp h2
  have := take_index_unique hcore.nodup (by omega : j < t_wo) (by omega : start < t_wo)
    hjn hnext
  omega

/-- The test `!done && dist == n + 1` on an adjacency entry of a node of level `n` selects
the entries that are in no written slot. -/
theorem core_filter_iff (hL : Levelled G source data0) {n start t_wo next dst : Nat}
    {s : PlaceState} (hcore : Core G data0 n start t_wo s)
    (hδ : (data0 next).dist = n) (hdst : dst ∈ edges G next) :
    ((s.data dst).done = false ∧ (s.data dst).dist = n + 1) ↔ dst ∉ s.perm.take t_wo := by
  have hdN : dst < G.length := edges_lt hL.wf hdst
  have hrel := hL.relaxed next dst hdst
  rw [hcore.dist_eq]
  constructor
  · rintro ⟨hd, hdist⟩ hin
    rcases ((hcore.mem dst).mp hin).2 with h | ⟨_, h⟩
    · omega
    · rw [hd] at h; cases h
  · intro hnot
    have h1 : ¬ (data0 dst).dist ≤ n := fun h => hnot ((hcore.mem dst).mpr ⟨hdN, Or.inl h⟩)
    have h2 : (data0 dst).dist = n + 1 := by omega
    refine ⟨?_, h2⟩
    cases hdone : (s.data dst).done with
    | false => rfl
    | true => exact absurd ((hcore.mem dst).mpr ⟨hdN, Or.inr ⟨h2, hdone⟩⟩) hnot

/-- The neighbour loop appends what the classical scan appends. -/
theorem scanEdges_ref (hL : Levelled G source data0) {n start t_worig next : Nat}
    {cut : Nat → Nat} (hn : n + 1 < UINT_MOD)
    (hcut : cut start = t_worig) (hbase : cntLt G data0 (n + 1) ≤ t_worig)
    (hstart : start < cntLt G data0 (n + 1)) (hδ : (data0 next).dist = n) :
    ∀ (es : List Nat) (s : PlaceState) (t_wo : Nat) (vis : List Nat),
      (∀ e ∈ es, e ∈ edges G next) →
      Core G data0 n start t_wo s → Cuts G start cut s.perm →
      Prog G start t_worig t_wo next s.perm → s.perm[start]? = some next →
      (∀ v, v ∈ vis ↔ v ∈ s.perm.take t_wo) →
      ∀ (s' : PlaceState) (t' : Nat), scanEdges n (s, t_wo) es = .ok (s', t') →
        s'.perm.take t' = s.perm.take t_wo ++ (cmScan vis es).1 ∧
        ∀ v, v ∈ (cmScan vis es).2 ↔ v ∈ s'.perm.take t' := by
  have hw : wrap (n + 1) = n + 1 := wrap_of_lt hn
  intro es
  induction es with
  | nil =>
    intro s t_wo vis _ _ _ _ _ hvis s' t' h
    simp only [scanEdges, pure, Except.pure, Except.ok.injEq, Prod.mk.injEq] at h
    obtain ⟨rfl, rfl⟩ := h
    simp only [cmScan_nil, List.append_nil, true_and]
    exact hvis
  | cons e es ih =>
    intro s t_wo vis hes hcore hcuts hprog hnext hvis s' t' h
    have he : e ∈ edges G next := hes e (List.mem_cons_self _ _)
    obtain ⟨s1, t1, h1, hcore1, hcuts1, hprog1, hnext1, _, _, _⟩ :=
      scanEdge_inv hL hn hcore hcuts hprog hcut hbase hstart hnext he
    rw [scanEdges_cons, h1, bind_ok] at h
    have hfil := core_filter_iff hL hcore hδ he
    by_cases hin : e ∈ s.perm.take t_wo
    · have hcond : ((!(s.data e).done) && ((s.data e).dist == wrap (n + 1))) = false := by
        rw [hw]
        by_contra hc
        have hc' : (s.data e).done = false ∧ (s.data e).dist = n + 1 := by
          simpa using hc
        exact (hfil.mp hc') hin
      rw [scanEdge_miss (s := (s, t_wo)) hcond] at h1
      simp only [Except.ok.injEq, Prod.mk.injEq] at h1
      obtain ⟨rfl, rfl⟩ := h1
      rw [cmScan_seen es ((hvis e).mpr hin)]
      exact ih s t_wo vis (fun x hx => hes x (List.mem_cons_of_mem _ hx)) hcore hcuts hprog
        hnext hvis s' t' h
    · obtain ⟨hd, hdist⟩ := hfil.mpr hin
      have hcond : ((!(s.data e).done) && ((s.data e).dist == wrap (n + 1))) = true := by
        rw [hw]; simp [hd, hdist]
      have hlt : t_wo < s.perm.length := by
        by_contra hc
        rw [scanEdge_oob (s := (s, t_wo)) hcond hc] at h1
        cases h1
      rw [scanEdge_hit (s := (s, t_wo)) hcond hlt] at h1
      simp only [Except.ok.injEq, Prod.mk.injEq] at h1
      obtain ⟨rfl, rfl⟩ := h1
      have hsz := hL.size
      have hwt : wrap (t_wo + 1) = t_wo + 1 :=
        wrap_of_lt (by rw [hcore.perm_len] at hlt; omega)
      rw [hwt] at h hcore1 hprog1
      have htake : (s.perm.set t_wo e).take (t_wo + 1) = s.perm.take t_wo ++ [e] :=
        take_succ_set s.perm e hlt
      have hvis1 : ∀ v, v ∈ e :: vis ↔ v ∈ (s.perm.set t_wo e).take (t_wo + 1) := by
        intro v
        rw [htake, List.mem_append, List.mem_singleton, List.mem_cons, hvis v]
        constructor
        · rintro (h | h)
          · exact Or.inr h
          · exact Or.inl h
        · rintro (h | h)
          · exact Or.inr h
          · exact Or.inl h
      have hnv : e ∉ vis := fun hv => hin ((hvis e).mp hv)
      rw [cmScan_new es hnv]
      obtain ⟨h5, h6⟩ := ih _ (t_wo + 1) (e :: vis)
        (fun x hx => hes x (List.mem_cons_of_mem _ hx)) hcore1 hcuts1 hprog1 hnext1 hvis1 s' t' h
      refine ⟨?_, h6⟩
      rw [h5]
      simp only [htake, List.append_assoc, List.singleton_append]

/-- One pass of the consume loop appends the sorted batch of the classical algorithm. -/
theorem consume_ref (hL : Levelled G source data0) {srt : List Nat → List Nat}
    (hsrt : SortsBy (sortDegFn G) srt) {n start t_wo : Nat} {cut : Nat → Nat}
    {s : PlaceState} (hn : n + 1 < UINT_MOD)
    (hcore : Core G data0 n start t_wo s) (hcuts : Cuts G start cut s.perm)
    (hcut : cut start = t_wo) (hlo : cntLt G data0 n ≤ start)
    (hstart : start < cntLt G data0 (n + 1))
    {vis : List Nat} (hvis : ∀ v, v ∈ vis ↔ v ∈ s.perm.take t_wo)
    {s' : PlaceState} {t' : Nat} (h : consume G srt n start t_wo s = .ok (s', t')) :
    ∃ next, s.perm[start]? = some next ∧
      s'.perm.take t' = s.perm.take t_wo ++ srt (cmScan vis (edges G next)).1 ∧
      ∀ v, v ∈ (cmScan vis (edges G next)).2 ↔ v ∈ s'.perm.take t' := by
  have hperm : ∀ l, (srt l).Perm l := fun l => (hsrt l).1
  have hbase := hcore.base_le
  rw [consume_eq] at h
  obtain ⟨next, hnx, h⟩ := bind_eq_ok h
  have hnext := readAt_ok hnx
  obtain ⟨⟨s1, t1⟩, hr, h⟩ := bind_eq_ok h
  obtain ⟨wo, hwo, h⟩ := bind_eq_ok h
  simp only [pure, Except.pure, Except.ok.injEq, Prod.mk.injEq] at h
  obtain ⟨rfl, rfl⟩ := h
  obtain ⟨_, hδ⟩ := core_slot_dist hcore hlo hstart hnext
  have hprog0 : Prog G start t_wo t_wo next s.perm :=
    ⟨Nat.le_refl _, fun j a h1 h2 => by omega⟩
  obtain ⟨s1', t1', hscan, hcore1, _, hprog1, _, _, _, _⟩ :=
    scanEdges_inv hL hn hcut hbase hstart (edges G next) s t_wo (fun e he => he)
      hcore hcuts hprog0 hnext
  rw [hr] at hscan
  simp only [Except.ok.injEq, Prod.mk.injEq] at hscan
  obtain ⟨rfl, rfl⟩ := hscan
  obtain ⟨h5, h6⟩ := scanEdges_ref hL hn hcut hbase hstart hδ (edges G next) s t_wo vis
    (fun e he => he) hcore hcuts hprog0 hnext hvis s1 t1 hr
  have hle : t_wo ≤ t1 := hprog1.le
  have ht1 : t1 ≤ s1.perm.length := by rw [hcore1.perm_len]; exact hcore1.t_wo_le
  have hlen0 : (s.perm.take t_wo).length = t_wo :=
    length_take_of_le' (by rw [hcore.perm_len]; exact hcore.t_wo_le)
  have hsplit := slice_split s1.perm hle
  have hlow : s1.perm.take t_wo = s.perm.take t_wo := by
    have := congrArg (List.take t_wo) h5
    rw [List.take_take, Nat.min_eq_left hle, List.take_left' hlen0] at this
    exact this
  have hbatch : (s1.perm.drop t_wo).take (t1 - t_wo) = (cmScan vis (edges G next)).1 := by
    rw [hsplit, hlow] at h5
    exact List.append_cancel_left h5
  refine ⟨next, hnext, ?_, ?_⟩
  · simp only
    rw [sortSlice_take hperm hle ht1, hlow, hbatch]
  · intro v
    simp only
    rw [h6 v, (sortSlice_take_perm hperm hle ht1).mem_iff]

end ref

section ref

variable {G : Graph} {source : Nat} {data0 : NodeData}

theorem refAt_seed (srt : List Nat → List Nat) (hL : Levelled G source data0) {T : Tables}
    {perm0 : List Nat} (hperm0 : perm0.length = G.length) :
    RefAt G srt source data0 (.level 0,
      { data := data0, perm := perm0.set 0 source, write_offset := T.write_offset.set 0 1 }) := by
  have hN := hL.src_lt
  have htake : (perm0.set 0 source).take 1 = [source] := by
    have := take_succ_set perm0 source (by omega : 0 < perm0.length)
    simpa using this
  have hone : cntLt G data0 (0 + 1) = 1 := cntLt_one hL
  refine ⟨[source], ?_, ?_⟩
  · intro v; simp only [hone, htake]
  · simp only [hone, htake, cntLt_zero, Nat.sub_zero]
    rfl

/-- A step of the single worker keeps the simulation of the classical algorithm. -/
theorem refAt_step (hL : Levelled G source data0) {srt : List Nat → List Nat}
    (hsrt : SortsBy (sortDegFn G) srt) {T : Tables} (hT : TablesOk G data0 T)
    {c c' : Pc × PlaceState} (hinv : PlaceInv G data0 T.max_dist c)
    (href : RefAt G srt source data0 c) (h : placeStep G srt T 1 c = .ok c') :
    RefAt G srt source data0 c' := by
  have hMlt := hL.max_lt hT
  have hsz := hL.size
  have hM : T.max_dist + 1 < UINT_MOD := by omega
  have hwM : wrap (T.max_dist + 1) = T.max_dist + 1 := wrap_of_lt hM
  have hall : ∀ k, T.max_dist < k → cntLt G data0 k = G.length := by
    intro k hk
    apply cntLt_eq_length
    intro v hv
    have := hT.max_ge v hv
    omega
  obtain ⟨pc, s⟩ := c
  cases pc with
  | level n =>
    obtain ⟨hn, hat⟩ := hinv
    by_cases hlt : n < wrap (T.max_dist + 1)
    · rw [placeStep_level hlt] at h
      obtain ⟨start, h1, h⟩ := bind_eq_ok h
      obtain ⟨t_wo, h2, h⟩ := bind_eq_ok h
      obtain ⟨todo, _, h⟩ := bind_eq_ok h
      cases h
      rw [hwM] at hlt
      have hw1 : wrap (n + 1) = n + 1 := wrap_of_lt (by omega)
      rw [hw1] at h2
      have h3 := readAt_ok h2
      rw [hat.above (n + 1) (by omega) (by omega)] at h3
      have h4 := readAt_ok h1
      rw [hT.read_offset n (by omega)] at h4
      have e1 : start = cntLt G data0 n := (Option.some.inj h4).symm
      have e2 : t_wo = cntLt G data0 (n + 1) := (Option.some.inj h3).symm
      subst e1 e2
      exact href
    · rw [placeStep_level_exit hlt] at h
      cases h
      rw [hwM] at hlt
      have hn' : n = T.max_dist + 1 := by omega
      subst hn'
      have href' : Sim G srt source (cntLt G data0 (T.max_dist + 1))
          (cntLt G data0 (T.max_dist + 1 + 1)) s.perm := href
      rw [hall _ (by omega), hall _ (by omega)] at href'
      exact href'
  | todo n l =>
    obtain ⟨hn, hmid⟩ := hinv
    by_cases hd : l.todo = 0
    · rw [placeStep_todo_done hd] at h
      cases h
      have hw1 : wrap (n + 1) = n + 1 := wrap_of_lt (by omega)
      have hstart : l.start = cntLt G data0 (n + 1) := by
        have h1 := hmid.todo
        have h2 := hmid.hi
        omega
      have hcore := hmid.core
      rw [hstart] at hcore
      obtain ⟨ht, _⟩ := core_next_level hL hcore
      have href' : Sim G srt source l.start l.t_wo s.perm := href
      rw [hstart, ht] at href'
      show RefAt G srt source data0 (.level (wrap (n + 1)), s)
      rw [hw1]
      exact href'
    · rw [placeStep_todo hd] at h
      obtain ⟨cend, _, h⟩ := bind_eq_ok h
      by_cases hsp : l.start = cend
      · rw [if_pos hsp] at h; cases h
      · rw [if_neg hsp] at h
        cases h
        exact href
  | inner n cend l =>
    obtain ⟨hn, hcend, hmid⟩ := hinv
    by_cases hd : l.start = cend
    · rw [placeStep_inner_done hd] at h
      cases h
      exact href
    · rw [placeStep_inner hd] at h
      obtain ⟨⟨s1, t1⟩, hr, h⟩ := bind_eq_ok h
      cases h
      subst hcend
      have hlt : l.start < cntLt G data0 (n + 1) := by
        have h2 := hmid.hi
        omega
      obtain ⟨cut, hcuts, hcut⟩ := hmid.cuts
      obtain ⟨vis, hvis, hloop⟩ := href
      obtain ⟨next, hnext, h5, h6⟩ :=
        consume_ref hL hsrt (by omega : n + 1 < UINT_MOD) hmid.core hcuts hcut hmid.lo hlt
          hvis hr
      have hN := cntLt_le G data0 (n + 1)
      have hws : wrap (l.start + 1) = l.start + 1 := wrap_of_lt (by omega)
      have hbase := hmid.core.base_le
      have hout : (s.perm.take l.t_wo)[l.start]? = some next := by
        rw [List.getElem?_take, if_pos (by omega)]; exact hnext
      have hfuel : G.length - l.start = (G.length - (l.start + 1)) + 1 := by omega
      rw [hfuel, cmLoop_succ hout] at hloop
      refine ⟨(cmScan vis (edges G next)).2, h6, ?_⟩
      show cmLoop G srt (G.length - wrap (l.start + 1)) (wrap (l.start + 1))
        (s1.perm.take t1) _ = _
      rw [hws, h5]
      exact hloop
  | exit =>
    cases h
    exact href

theorem refAt_reach (hL : Levelled G source data0) {srt : List Nat → List Nat}
    (hsrt : SortsBy (sortDegFn G) srt) {T : Tables} (hT : TablesOk G data0 T)
    {c c' : Pc × PlaceState} (hinv : PlaceInv G data0 T.max_dist c)
    (href : RefAt G srt source data0 c) (h : PlaceReach G srt T 1 c c') :
    PlaceInv G data0 T.max_dist c' ∧ RefAt G srt source data0 c' := by
  induction h with
  | refl => exact ⟨hinv, href⟩
  | tail hreach hstep ih =>
    obtain ⟨c2, h2, hinv2⟩ := placeInv_step hL hsrt hT _ ih.1
    rw [hstep] at h2
    cases h2
    exact ⟨hinv2, refAt_step hL hsrt hT ih.1 ih.2 hstep⟩

end ref

/-- The classical order of `kiteGraph` from node `0`. -/
theorem cuthillMcKee_kite : cuthillMcKee kiteGraph (degSort kiteGraph) 0 = [0, 2, 1, 3] := by
  decide

/-! ## Slots that a pass of the consume loop leaves alone -/

theorem scanEdges_high {n : Nat} :
    ∀ (es : List Nat) {s s' : PlaceState} {t t' : Nat}, s.perm.length < UINT_MOD →
      scanEdges n (s, t) es = .ok (s', t') →
      ∀ j, t' ≤ j → s'.perm[j]? = s.perm[j]? := by
  intro es
  induction es with
  | nil =>
    intro s s' t t' _ h j _
    simp only [scanEdges, pure, Except.pure, Except.ok.injEq, Prod.mk.injEq] at h
    rw [← h.1]
  | cons e es ih =>
    intro s s' t t' hlen h j hj
    rw [scanEdges_cons] at h
    obtain ⟨⟨s1, t1⟩, hr, h⟩ := bind_eq_ok h
    have hf1 := scanEdge_frame hlen hr
    have hf2 := scanEdges_frame _ (by rw [hf1.len]; exact hlen) h
    rw [ih (by rw [hf1.len]; exact hlen) h j hj]
    rcases scanEdge_cases hr with ⟨rfl, _⟩ | ⟨_, _, hlt, ht1, rfl⟩
    · rfl
    · have hw : wrap (t + 1) = t + 1 := wrap_of_lt (by omega)
      rw [hw] at ht1
      have := hf2.le
      simp only
      rw [List.getElem?_set_ne (by omega)]

/-- A pass of the consume loop writes `perm` only at the indices `t .. t'-1`, between the
old and the new write cursor. -/
theorem consume_perm_frame {G : Graph} {srt : List Nat → List Nat}
    (hsrt : ∀ l, (srt l).Perm l) {n start t t' : Nat} {s s' : PlaceState}
    (hlen : s.perm.length < UINT_MOD) (ht : t ≤ s.perm.length)
    (h : consume G srt n start t s = .ok (s', t')) :
    t ≤ t' ∧ t' ≤ s.perm.length ∧ ∀ j, (j < t ∨ t' ≤ j) → s'.perm[j]? = s.perm[j]? := by
  have hf := consume_frame hsrt hlen h
  refine ⟨hf.le, hf.bound ht, ?_⟩
  rintro j (hj | hj)
  · by_cases hjl : j < s.perm.length
    · exact hf.low j hj hjl
    · rw [List.getElem?_eq_none (by rw [hf.len]; omega), List.getElem?_eq_none (by omega)]
  · rw [consume_eq] at h
    obtain ⟨nxt, _, h⟩ := bind_eq_ok h
    obtain ⟨⟨s1, t1⟩, hr, h⟩ := bind_eq_ok h
    obtain ⟨wo, hwo, h⟩ := bind_eq_ok h
    simp only [pure, Except.pure, Except.ok.injEq, Prod.mk.injEq] at h
    obtain ⟨rfl, rfl⟩ := h
    have hsf := scanEdges_frame _ hlen hr
    have hb : t1 ≤ s1.perm.length := by rw [hsf.len]; exact hsf.bound ht
    simp only
    rw [sortSlice_getElem?_ge hsrt hsf.le hb hj]
    exact scanEdges_high _ hlen hr j hj

theorem nodup_length_le_cntLt {G : Graph} {data0 : NodeData} {l : List Nat} {k : Nat}
    (hnd : l.Nodup) (hmem : ∀ v ∈ l, v < G.length ∧ (data0 v).dist < k) :
    l.length ≤ cntLt G data0 k := by
  unfold cntLt
  rw [List.countP_eq_length_filter]
  apply List.Subperm.length_le
  apply List.subperm_of_subset hnd
  intro v hv
  obtain ⟨h1, h2⟩ := hmem v hv
  exact List.mem_filter.mpr ⟨List.mem_range.mpr h1, by simpa using h2⟩

section safety

variable {G : Graph} {source : Nat} {data0 : NodeData}

/-- The write cursor of level `n + 1` stays within the slots of that level. -/
theorem core_t_wo_le {n start t_wo : Nat} {s : PlaceState}
    (hcore : Core G data0 n start t_wo s) : t_wo ≤ cntLt G data0 (n + 2) := by
  have hlen : (s.perm.take t_wo).length = t_wo :=
    length_take_of_le' (by rw [hcore.perm_len]; exact hcore.t_wo_le)
  have : (s.perm.take t_wo).length ≤ cntLt G data0 (n + 2) :=
    nodup_length_le_cntLt hcore.nodup (fun v hv => by
      obtain ⟨h1, h2⟩ := (hcore.mem v).mp hv
      refine ⟨h1, ?_⟩
      rcases h2 with h | ⟨h, _⟩ <;> omega)
  omega

theorem placeInv_lengths {T : Tables} {c : Pc × PlaceState}
    (hinv : PlaceInv G data0 T.max_dist c) :
    c.2.perm.length = G.length ∧ c.2.write_offset.length = T.max_dist + 2 := by
  obtain ⟨pc, s⟩ := c
  cases pc with
  | level n => exact ⟨hinv.2.core.perm_len, hinv.2.len⟩
  | todo n l => exact ⟨hinv.2.core.perm_len, hinv.2.wo.len⟩
  | inner n cend l => exact ⟨hinv.2.2.core.perm_len, hinv.2.2.wo.len⟩
  | exit => exact ⟨hinv.core.perm_len, hinv.len⟩

end safety

/-! ## The workers step by step -/

section wsteps

variable {G : Graph} {srt : List Nat → List Nat} {T : Tables} {tot : Nat}

theorem workerStep_level_exit {n : Nat} {s : PlaceState} (h : ¬ n < wrap (T.max_dist + 1)) :
    workerStep G srt T tot (.level n, s) = .ok (.exit, s) := by
  simp only [workerStep, h, if_false]; rfl

theorem workerStep_level {n : Nat} {s : PlaceState} (h : n < wrap (T.max_dist + 1)) :
    workerStep G srt T tot (.level n, s) =
      (readAt T.read_offset n >>= fun start =>
        readAt s.write_offset (wrap (n + 1)) >>= fun t_wo =>
          readAt T.level_count n >>= fun todo =>
            pure (.todo n { start := start, t_wo := t_wo, todo := todo }, s)) := by
  simp only [workerStep, h, if_true]

theorem workerStep_todo_done {n : Nat} {l : Locals} {s : PlaceState} (h : l.todo = 0) :
    workerStep G srt T tot (.todo n l, s) = .ok (.level (wrap (n + tot)), s) := by
  simp only [workerStep, h, if_true]; rfl

theorem workerStep_todo {n : Nat} {l : Locals} {s : PlaceState} (h : ¬ l.todo = 0) :
    workerStep G srt T tot (.todo n l, s) =
      (readAt s.write_offset n >>= fun cend =>
        if l.start = cend then pure (.todo n l, s) else pure (.inner n cend l, s)) := by
  simp only [workerStep, h, if_false]

theorem workerStep_inner_done {n cend : Nat} {l : Locals} {s : PlaceState}
    (h : l.start = cend) :
    workerStep G srt T tot (.inner n cend l, s) = .ok (.todo n l, s) := by
  simp only [workerStep, h, if_true]; rfl

theorem workerStep_inner {n cend : Nat} {l : Locals} {s : PlaceState} (h : ¬ l.start = cend) :
    workerStep G srt T tot (.inner n cend l, s) =
      (readAt s.perm l.start >>= fun next =>
        pure (.scan n cend l l.t_wo (edges G next), s)) := by
  simp only [workerStep, h, if_false]

theorem workerStep_scan {n cend : Nat} {l : Locals} {t_worig dst : Nat} {rest : List Nat}
    {s : PlaceState} :
    workerStep G srt T tot (.scan n cend l t_worig (dst :: rest), s) =
      (scanEdge n (s, l.t_wo) dst >>= fun r =>
        pure (.scan n cend { l with t_wo := r.2 } t_worig rest, r.1)) := by
  simp only [workerStep]

theorem workerStep_sort {n cend : Nat} {l : Locals} {t_worig : Nat} {s : PlaceState} :
    workerStep G srt T tot (.scan n cend l t_worig [], s) =
      .ok (.sorted n cend l,
        { s with perm := sortSlice srt s.perm t_worig l.t_wo,
                 past_end := s.past_end || sortPastEnd s.perm t_worig l.t_wo }) := by
  simp only [workerStep]; rfl

theorem workerStep_publish {n cend : Nat} {l : Locals} {s : PlaceState} :
    workerStep G srt T tot (.sorted n cend l, s) =
      (writeAt s.write_offset (wrap (n + 1)) l.t_wo >>= fun wo =>
        pure (.inner n cend { start := wrap (l.start + 1), t_wo := l.t_wo,
                              todo := wrap (l.todo + (UINT_MOD - 1)) },
              { s with write_offset := wo })) := by
  simp only [workerStep]

theorem workerStep_exit {s : PlaceState} :
    workerStep G srt T tot (.exit, s) = .ok (.exit, s) := by
  simp only [workerStep]; rfl

theorem parReach_refl (c : ParState) : ParReach G srt T tot c c :=
  Relation.ReflTransGen.refl

theorem parReach_tail {a b c : ParState} (h : ParReach G srt T tot a b)
    (h2 : ParStep G srt T tot b c) : ParReach G srt T tot a c :=
  Relation.ReflTransGen.tail h h2

theorem parReach_append {a b c : ParState} (h : ParReach G srt T tot a b)
    (h2 : ParReach G srt T tot b c) : ParReach G srt T tot a c :=
  Relation.ReflTransGen.trans h h2

end wsteps

/-! ## The run of one worker, level by level -/

section seq

variable {G : Graph} {source : Nat} {data0 : NodeData} {srt : List Nat → List Nat}
  {T : Tables} {s0 : PlaceState}

theorem seqAt_mid (hL : Levelled G source data0) (hsrt : SortsBy (sortDegFn G) srt)
    (hT : TablesOk G data0 T) (h0 : PlaceInv G data0 T.max_dist (.level 0, s0))
    {k : Nat} {l : Locals} {s : PlaceState} (h : SeqAt G srt T s0 k l s) :
    k ≤ T.max_dist ∧ Mid G data0 T.max_dist k l s := by
  obtain ⟨cend, hr⟩ := h
  have := placeInv_reach hL hsrt hT h0 hr
  exact ⟨this.1, this.2.2⟩

/-- The single worker reaches the test of the level loop with every `k <= max_dist + 1`. -/
theorem seq_level (hL : Levelled G source data0) (hsrt : SortsBy (sortDegFn G) srt)
    (hT : TablesOk G data0 T) (h0 : PlaceInv G data0 T.max_dist (.level 0, s0)) :
    ∀ k, k ≤ T.max_dist + 1 → ∃ s, PlaceReach G srt T 1 (.level 0, s0) (.level k, s) := by
  have hMlt := hL.max_lt hT
  have hsz := hL.size
  have hM : T.max_dist + 1 < UINT_MOD := by omega
  have hwM : wrap (T.max_dist + 1) = T.max_dist + 1 := wrap_of_lt hM
  intro k
  induction k with
  | zero => intro _; exact ⟨s0, placeReach_refl _⟩
  | succ k ih =>
    intro hk
    obtain ⟨s, hr⟩ := ih (by omega)
    obtain ⟨_, hat⟩ := placeInv_reach hL hsrt hT h0 hr
    have hlt : k < T.max_dist + 1 := by omega
    have hw1 : wrap (k + 1) = k + 1 := wrap_of_lt (by omega)
    have h1 : readAt T.read_offset k = .ok (cntLt G data0 k) :=
      readAt_eq (hT.read_offset k (by omega))
    have h2 : readAt s.write_offset (k + 1) = .ok (cntLt G data0 (k + 1)) :=
      readAt_eq (hat.above (k + 1) (by omega) (by omega))
    have h3 : readAt T.level_count k = .ok (cntEq G data0 k) := by
      apply readAt_eq
      rw [getElem?_of_getD (by rw [hT.level_count_len]; exact hlt), hT.level_count]
    have hstep : placeStep G srt T 1 (.level k, s) =
        .ok (.todo k { start := cntLt G data0 k, t_wo := cntLt G data0 (k + 1),
                       todo := cntEq G data0 k }, s) := by
      rw [placeStep_level (by rw [hwM]; exact hlt), h1, bind_ok, hw1, h2, bind_ok, h3,
        bind_ok]
      rfl
    obtain ⟨cut, hcuts, hcut⟩ := hat.cuts
    have hw : WInv G data0 T.max_dist k (cntLt G data0 (k + 1)) s :=
      ⟨hat.len, fun j h1 h2 => hat.above j (by omega) h2,
        hat.below k (Nat.le_refl _) (by omega), hat.above (k + 1) (by omega) (by omega)⟩
    obtain ⟨s', l', _, hrun, _⟩ :=
      @todoLoop_inv G source data0 hL srt hsrt T.max_dist k G.length 1
        (by omega : k ≤ T.max_dist) hM
        (Nat.le_refl _) (by omega) (hL.level_nonempty hT (by omega)) s cut hat.core hcuts hcut hw
    have hreach := @todoLoop_reach G srt T 1 G.length k 1 _ s l' s' hrun
    rw [hw1] at hreach
    exact ⟨s', placeReach_append hr (placeReach_head hstep hreach)⟩

/-- The single worker returns. -/
theorem seq_final (hL : Levelled G source data0) (hsrt : SortsBy (sortDegFn G) srt)
    (hT : TablesOk G data0 T) (h0 : PlaceInv G data0 T.max_dist (.level 0, s0)) :
    ∃ p, PlaceReach G srt T 1 (.level 0, s0) (.exit, p) := by
  have hMlt := hL.max_lt hT
  have hsz := hL.size
  have hM : T.max_dist + 1 < UINT_MOD := by omega
  have hwM : wrap (T.max_dist + 1) = T.max_dist + 1 := wrap_of_lt hM
  obtain ⟨s, hr⟩ := seq_level hL hsrt hT h0 (T.max_dist + 1) (Nat.le_refl _)
  exact ⟨s, placeReach_append hr
    (placeReach_head (placeStep_level_exit (by rw [hwM]; omega)) (placeReach_refl _))⟩

/-- The single worker enters every level `k <= max_dist` with no node of level `k + 1`
marked. -/
theorem seq_entry (hL : Levelled G source data0) (hsrt : SortsBy (sortDegFn G) srt)
    (hT : TablesOk G data0 T) (h0 : PlaceInv G data0 T.max_dist (.level 0, s0))
    {k : Nat} (hk : k ≤ T.max_dist) :
    ∃ s, SeqAt G srt T s0 k
        { start := cntLt G data0 k, t_wo := cntLt G data0 (k + 1), todo := cntEq G data0 k } s ∧
      ∀ v, v < G.length → (data0 v).dist = k + 1 → (s.data v).done = false := by
  have hMlt := hL.max_lt hT
  have hsz := hL.size
  have hM : T.max_dist + 1 < UINT_MOD := by omega
  have hwM : wrap (T.max_dist + 1) = T.max_dist + 1 := wrap_of_lt hM
  obtain ⟨s, hr⟩ := seq_level hL hsrt hT h0 k (by omega)
  obtain ⟨_, hat⟩ := placeInv_reach hL hsrt hT h0 hr
  have hlt : k < T.max_dist + 1 := by omega
  have hw1 : wrap (k + 1) = k + 1 := wrap_of_lt (by omega)
  have h1 : readAt T.read_offset k = .ok (cntLt G data0 k) :=
    readAt_eq (hT.read_offset k (by omega))
  have h2 : readAt s.write_offset (k + 1) = .ok (cntLt G data0 (k + 1)) :=
    readAt_eq (hat.above (k + 1) (by omega) (by omega))
  have h3 : readAt T.level_count k = .ok (cntEq G data0 k) := by
    apply readAt_eq
    rw [getElem?_of_getD (by rw [hT.level_count_len]; exact hlt), hT.level_count]
  have hstep : placeStep G srt T 1 (.level k, s) =
      .ok (.todo k { start := cntLt G data0 k, t_wo := cntLt G data0 (k + 1),
                     todo := cntEq G data0 k }, s) := by
    rw [placeStep_level (by rw [hwM]; exact hlt), h1, bind_ok, hw1, h2, bind_ok, h3,
      bind_ok]
    rfl
  have hpos := hL.level_nonempty hT hk
  have hsucc := cntLt_succ G data0 k
  have h4 : readAt s.write_offset k = .ok (cntLt G data0 (k + 1)) :=
    readAt_eq (hat.below k (Nat.le_refl _) (by omega))
  have hstep2 : placeStep G srt T 1
      (.todo k { start := cntLt G data0 k, t_wo := cntLt G data0 (k + 1),
                 todo := cntEq G data0 k }, s) =
      .ok (.inner k (cntLt G data0 (k + 1))
        { start := cntLt G data0 k, t_wo := cntLt G data0 (k + 1),
          todo := cntEq G data0 k }, s) := by
    rw [placeStep_todo (by simp only; omega), h4, bind_ok]
    have : ¬ cntLt G data0 k = cntLt G data0 (k + 1) := by omega
    simp only [this, if_false]
    rfl
  refine ⟨s, ⟨_, placeReach_append hr
    (placeReach_head hstep (placeReach_head hstep2 (placeReach_refl _)))⟩, ?_⟩
  intro v hvl hv
  cases hd : (s.data v).done with
  | false => rfl
  | true =>
    exfalso
    have hc := hat.core
    have hmem : v ∈ s.perm.take (cntLt G data0 (k + 1)) :=
      (hc.mem v).mpr ⟨hvl, Or.inr ⟨hv, hd⟩⟩
    have := (hc.low (k + 1) (Nat.le_refl _) v).mp hmem
    omega

/-- A pass of the consume loop of the single worker. -/
theorem seq_consume (hL : Levelled G source data0) (hsrt : SortsBy (sortDegFn G) srt)
    (hT : TablesOk G data0 T) (h0 : PlaceInv G data0 T.max_dist (.level 0, s0))
    {k : Nat} {l : Locals} {s : PlaceState} (h : SeqAt G srt T s0 k l s)
    (hlt : l.start < cntLt G data0 (k + 1)) :
    ∃ s' t', consume G srt k l.start l.t_wo s = .ok (s', t') ∧
      SeqAt G srt T s0 k { start := l.start + 1, t_wo := t', todo := l.todo - 1 } s' := by
  have hMlt := hL.max_lt hT
  have hsz := hL.size
  obtain ⟨cend, hr⟩ := h
  obtain ⟨hk, hcend, hmid⟩ := placeInv_reach hL hsrt hT h0 hr
  obtain ⟨cut, hcuts, hcut⟩ := hmid.cuts
  have hN := cntLt_le G data0 (k + 1)
  obtain ⟨s', t', hc, _⟩ := consume_inv hL hsrt (by omega : k + 1 < UINT_MOD) hmid.core hcuts
    hcut hlt (by rw [hmid.wo.len]; omega)
  refine ⟨s', t', hc, cend, ?_⟩
  have hd : ¬ l.start = cend := by omega
  have hw1 : wrap (l.start + 1) = l.start + 1 := wrap_of_lt (by omega)
  have htodo := hmid.todo
  have hw2 : wrap (l.todo + (UINT_MOD - 1)) = l.todo - 1 :=
    wrap_pred (by omega) (by omega)
  have hstep : placeStep G srt T 1 (.inner k cend l, s) =
      .ok (.inner k cend { start := l.start + 1, t_wo := t', todo := l.todo - 1 }, s') := by
    rw [placeStep_inner hd, hc, bind_ok, hw1, hw2]
    rfl
  exact Relation.ReflTransGen.tail hr hstep

/-- The slots written by the single worker keep their contents, and the marks stay. -/
theorem written_reach (hL : Levelled G source data0) (hsrt : SortsBy (sortDegFn G) srt)
    (hT : TablesOk G data0 T) {c c' : Pc × PlaceState}
    (hinv : PlaceInv G data0 T.max_dist c) (h : PlaceReach G srt T 1 c c') :
    written T c ≤ written T c' ∧
      (∀ j, j < written T c → c'.2.perm[j]? = c.2.perm[j]?) ∧
      ∀ v, (c.2.data v).done = true → (c'.2.data v).done = true := by
  induction h with
  | refl => exact ⟨Nat.le_refl _, fun _ _ => rfl, fun _ h => h⟩
  | tail hr hstep ih =>
    obtain ⟨h1, h2, h3⟩ := ih
    obtain ⟨h4, h5, h6⟩ := written_step hL hsrt hT (placeInv_reach hL hsrt hT hinv hr) hstep
    refine ⟨by omega, fun j hj => ?_, fun v hv => h6 v (h3 v hv)⟩
    rw [h5 j (by omega), h2 j hj]

theorem placeReach_exit {tot : Nat} {p : PlaceState} {c : Pc × PlaceState}
    (h : PlaceReach G srt T tot (.exit, p) c) : c = (.exit, p) := by
  induction h with
  | refl => rfl
  | tail _ hstep ih =>
    subst ih
    simp only [placeStep, pure, Except.pure, Except.ok.injEq] at hstep
    exact hstep.symm

/-- Every state of the single worker is on the way to its return. -/
theorem placeReach_final {tot : Nat} {c0 c : Pc × PlaceState} {p : PlaceState}
    (h : PlaceReach G srt T tot c0 c) (hp : PlaceReach G srt T tot c0 (.exit, p)) :
    PlaceReach G srt T tot c (.exit, p) := by
  have hu : Relator.RightUnique (fun a b => placeStep G srt T tot a = .ok b) := by
    intro a b c hb hc
    rw [hb] at hc
    exact Except.ok.inj hc
  rcases Relation.ReflTransGen.total_of_right_unique hu h hp with h1 | h1
  · exact h1
  · rw [placeReach_exit h1]
    exact placeReach_refl _

/-- The slots written by the single worker inside a level are those of the order it
returns. -/
theorem seqAt_stable (hL : Levelled G source data0) (hsrt : SortsBy (sortDegFn G) srt)
    (hT : TablesOk G data0 T) (h0 : PlaceInv G data0 T.max_dist (.level 0, s0))
    {p : PlaceState} (hp : PlaceReach G srt T 1 (.level 0, s0) (.exit, p))
    {k : Nat} {l : Locals} {s : PlaceState} (h : SeqAt G srt T s0 k l s) :
    ∀ j, j < l.t_wo → s.perm[j]? = p.perm[j]? := by
  obtain ⟨cend, hr⟩ := h
  have hinv := placeInv_reach hL hsrt hT h0 hr
  obtain ⟨_, h2, _⟩ := written_reach hL hsrt hT hinv (placeReach_final hr hp)
  intro j hj
  exact (h2 j hj).symm

end seq

/-! ## The levels do not disturb each other -/

section frame

variable {G : Graph} {source : Nat} {data0 : NodeData} {srt : List Nat → List Nat}
  {T : Tables} {s0 p : PlaceState}

theorem frame_refl (n : Nat) (S : PlaceState) : Frame G data0 n S S :=
  ⟨fun _ _ => rfl, fun _ _ _ => rfl, fun _ _ => rfl, fun w h => ⟨w, h, Nat.le_refl _⟩⟩

theorem agree_frame {k n t : Nat} {S S' s : PlaceState} (h : Agree G data0 k t S s)
    (hf : Frame G data0 n S S') (hkn : k ≠ n) (ht : t ≤ cntLt G data0 (k + 2)) :
    Agree G data0 k t S' s := by
  refine ⟨fun j h1 h2 => ?_, fun v hv hd => ?_⟩
  · rw [hf.perm j ?_]
    · exact h.perm j h1 h2
    · rcases Nat.lt_or_gt_of_ne hkn with hlt | hgt
      · left
        have := cntLt_mono G data0 (by omega : k + 2 ≤ n + 1)
        omega
      · right
        have := cntLt_mono G data0 (by omega : n + 2 ≤ k + 1)
        omega
  · rw [hf.done v hv (by omega)]
    exact h.done v hv hd

theorem frame_wo_le {n k : Nat} {S S' : PlaceState} (hf : Frame G data0 n S S')
    {w c : Nat} (h : S.write_offset[k]? = some w) (hc : c ≤ w) :
    ∃ w', S'.write_offset[k]? = some w' ∧ c ≤ w' := by
  by_cases hk : k = n + 1
  · subst hk
    obtain ⟨w', h1, h2⟩ := hf.wo_mono w h
    exact ⟨w', h1, by omega⟩
  · exact ⟨w, by rw [hf.wo k hk]; exact h, hc⟩

theorem seqAt_t_wo_le (hc : SeqCtx G srt source data0 T s0 p) {k : Nat} {l : Locals}
    {s : PlaceState} (h : SeqAt G srt T s0 k l s) : l.t_wo ≤ cntLt G data0 (k + 2) :=
  core_t_wo_le (seqAt_mid hc.lev hc.sorts hc.tab hc.init h).2.core

/-- A step of the consumer of level `n` leaves every other level as it is. -/
theorem levelOk_frame (hc : SeqCtx G srt source data0 T s0 p) {k n : Nat} {S S' : PlaceState}
    {st : Stage} (h : LevelOk G srt T s0 data0 k S st) (hf : Frame G data0 n S S')
    (hkn : k ≠ n) : LevelOk G srt T s0 data0 k S' st := by
  have hk1 : k + 1 ≠ n + 1 := by omega
  cases st with
  | idle fin =>
    obtain ⟨l, s, h1, h2, h3, h4⟩ := h
    exact ⟨l, s, h1, h2, by rw [hf.wo _ hk1]; exact h3,
      agree_frame h4 hf hkn (seqAt_t_wo_le hc h1)⟩
  | todo l =>
    obtain ⟨s, h1, h3, h4, w, h5, h6⟩ := h
    exact ⟨s, h1, by rw [hf.wo _ hk1]; exact h3, agree_frame h4 hf hkn (seqAt_t_wo_le hc h1),
      frame_wo_le hf h5 h6⟩
  | inner cend l =>
    obtain ⟨s, h1, h3, h4, h5, w, h6, h7⟩ := h
    exact ⟨s, h1, by rw [hf.wo _ hk1]; exact h3, agree_frame h4 hf hkn (seqAt_t_wo_le hc h1),
      h5, frame_wo_le hf h6 h7⟩
  | scan cend l tw rest =>
    obtain ⟨s, s1, pre, next, h1, h2, h3, ⟨w, h4, h5⟩, h6, h7, h8, h9, h10, h11, h12⟩ := h
    exact ⟨s, s1, pre, next, h1, h2, h3, frame_wo_le hf h4 h5, h6, h7, h8,
      by rw [hf.wo _ hk1]; exact h9, h10, h11, agree_frame h12 hf hkn h11⟩
  | sorted cend l =>
    obtain ⟨s, s1, tw, h1, h2, h3, ⟨w, h4, h5⟩, h6, h9, h10, h11, h12⟩ := h
    exact ⟨s, s1, tw, h1, h2, h3, frame_wo_le hf h4 h5, h6,
      by rw [hf.wo _ hk1]; exact h9, h10, h11, agree_frame h12 hf hkn h11⟩

end frame

/-! ## Lists and the neighbour loop -/

theorem getElem?_slots {l : List Nat} {a b j : Nat} (h1 : a ≤ j) (h2 : j < b) :
    (slots l a b)[j - a]? = l[j]? := by
  unfold slots
  rw [List.getElem?_take, if_pos (by omega), List.getElem?_drop, Nat.add_sub_cancel' h1]

theorem sortSlice_congr {srt : List Nat → List Nat} (hsrt : ∀ l, (srt l).Perm l)
    {l l' : List Nat} {a b : Nat} (hab : a ≤ b) (hb : b ≤ l.length) (hb' : b ≤ l'.length)
    (h : ∀ j, a ≤ j → j < b → l'[j]? = l[j]?) :
    ∀ j, a ≤ j → j < b → (sortSlice srt l' a b)[j]? = (sortSlice srt l a b)[j]? := by
  intro j h1 h2
  have e1 : slots (sortSlice srt l' a b) a b = srt (slots l' a b) :=
    sortSlice_drop_take hsrt hab hb'
  have e2 : slots (sortSlice srt l a b) a b = srt (slots l a b) :=
    sortSlice_drop_take hsrt hab hb
  rw [← getElem?_slots h1 h2, ← getElem?_slots (l := sortSlice srt l a b) h1 h2, e1, e2,
    slots_congr h]

theorem scanEdges_append {n : Nat} :
    ∀ (pre rest : List Nat) (s : PlaceState × Nat),
      scanEdges n s (pre ++ rest) = (scanEdges n s pre >>= fun r => scanEdges n r rest) := by
  intro pre
  induction pre with
  | nil => intro rest s; rfl
  | cons e es ih =>
    intro rest s
    rw [List.cons_append, scanEdges_cons, scanEdges_cons]
    cases h : scanEdge n s e with
    | error e => rfl
    | ok r =>
      simp only [bind_ok]
      exact ih rest r

theorem scanEdges_dist {n : Nat} :
    ∀ (es : List Nat) {s s' : PlaceState} {t t' : Nat},
      scanEdges n (s, t) es = .ok (s', t') → ∀ v, (s'.data v).dist = (s.data v).dist := by
  intro es
  induction es with
  | nil =>
    intro s s' t t' h v
    simp only [scanEdges, pure, Except.pure, Except.ok.injEq, Prod.mk.injEq] at h
    rw [← h.1]
  | cons e es ih =>
    intro s s' t t' h v
    rw [scanEdges_cons] at h
    obtain ⟨⟨s1, t1⟩, hr, h⟩ := bind_eq_ok h
    rw [ih h v]
    rcases scanEdge_cases hr with ⟨rfl, _⟩ | ⟨_, _, _, _, rfl⟩
    · rfl
    · simp only [setDone_dist]

/-- The body of the neighbour loop does the same to two states that agree on the slots and
marks of level `k + 1`. -/
theorem scanEdge_agree {G : Graph} {data0 : NodeData} {k t t' dst : Nat}
    {S s1 s1' : PlaceState} (hk : wrap (k + 1) = k + 1) (hdst : dst < G.length)
    (hdS : ∀ v, (S.data v).dist = (data0 v).dist)
    (hds : ∀ v, (s1.data v).dist = (data0 v).dist)
    (hlen : S.perm.length = s1.perm.length) (hsz : s1.perm.length < UINT_MOD)
    (hag : Agree G data0 k t S s1)
    (h : scanEdge k (s1, t) dst = .ok (s1', t')) :
    ∃ S', scanEdge k (S, t) dst = .ok (S', t') ∧ Agree G data0 k t' S' s1' ∧
      t ≤ t' ∧ t' ≤ t + 1 ∧ (t ≤ S.perm.length → t' ≤ S.perm.length) ∧
      S'.perm.length = S.perm.length ∧ S'.write_offset = S.write_offset ∧
      (∀ v, (S'.data v).dist = (S.data v).dist) ∧
      (∀ j, j ≠ t → S'.perm[j]? = S.perm[j]?) ∧ (t' = t → S'.perm = S.perm) ∧
      (∀ v, (data0 v).dist ≠ k + 1 → (S'.data v).done = (S.data v).done) ∧
      (∀ v, (S.data v).done = true → (S'.data v).done = true) := by
  have hcond : ((!(S.data dst).done) && ((S.data dst).dist == wrap (k + 1))) =
      ((!(s1.data dst).done) && ((s1.data dst).dist == wrap (k + 1))) := by
    by_cases hd : (data0 dst).dist = k + 1
    · rw [hag.done dst hdst hd, hdS, hds]
    · have e1 : ((S.data dst).dist == wrap (k + 1)) = false := by
        rw [hdS, hk]; exact beq_eq_false_iff_ne.mpr hd
      have e2 : ((s1.data dst).dist == wrap (k + 1)) = false := by
        rw [hds, hk]; exact beq_eq_false_iff_ne.mpr hd
      rw [e1, e2, Bool.and_false, Bool.and_false]
  by_cases hc : ((!(s1.data dst).done) && ((s1.data dst).dist == wrap (k + 1))) = true
  · have hlt1 : t < s1.perm.length := by
      by_contra hlt
      rw [scanEdge_oob (s := (s1, t)) hc hlt] at h
      cases h
    rw [scanEdge_hit (s := (s1, t)) hc hlt1] at h
    simp only [Except.ok.injEq, Prod.mk.injEq] at h
    obtain ⟨e1, e2⟩ := h
    have hw : wrap (t + 1) = t + 1 := wrap_of_lt (by omega)
    rw [hw] at e2
    have hlt : t < S.perm.length := by omega
    have hcS := hcond.trans hc
    have hdd : (data0 dst).dist = k + 1 := by
      simp only [Bool.and_eq_true, beq_iff_eq] at hc
      rw [← hds, hc.2, hk]
    refine ⟨{ S with data := setDone S.data dst, perm := S.perm.set t dst }, ?_, ?_,
      by omega, by omega, fun _ => by omega, by simp, rfl,
      fun v => by simp only [setDone_dist], fun j hj => ?_, fun e => by omega,
      fun v hv => ?_, fun v hv => ?_⟩
    · rw [scanEdge_hit (s := (S, t)) hcS hlt, hw, ← e2]
    · rw [← e1, ← e2]
      refine ⟨fun j hj1 hj2 => ?_, fun v hv hdv => ?_⟩
      · simp only
        by_cases hjt : j = t
        · subst hjt
          rw [List.getElem?_set_self hlt, List.getElem?_set_self hlt1]
        · rw [List.getElem?_set_ne (fun e => hjt e.symm),
            List.getElem?_set_ne (fun e => hjt e.symm)]
          exact hag.perm j hj1 (by omega)
      · simp only [setDone_done]
        by_cases hv' : v = dst
        · simp only [hv', if_true]
        · simp only [hv', if_false]
          exact hag.done v hv hdv
    · simp only
      rw [List.getElem?_set_ne (fun e => hj e.symm)]
    · simp only [setDone_done]
      have : v ≠ dst := fun e => hv (e ▸ hdd)
      simp only [this, if_false]
    · simp only [setDone_done]
      by_cases hv' : v = dst
      · simp only [hv', if_true]
      · simp only [hv', if_false]; exact hv
  · have hc0 : ((!(s1.data dst).done) && ((s1.data dst).dist == wrap (k + 1))) = false := by
      simpa using hc
    rw [scanEdge_miss (s := (s1, t)) hc0] at h
    simp only [Except.ok.injEq, Prod.mk.injEq] at h
    obtain ⟨e1, e2⟩ := h
    rw [← e1, ← e2]
    exact ⟨S, scanEdge_miss (s := (S, t)) (hcond.trans hc0), hag, Nat.le_refl _, by omega,
      fun h => h, rfl, rfl, fun _ => rfl, fun _ _ => rfl, fun _ => rfl, fun _ _ => rfl,
      fun _ h => h⟩

/-! ## What each level offers to the next -/

section pub

variable {G : Graph} {source : Nat} {data0 : NodeData} {srt : List Nat → List Nat}
  {T : Tables} {s0 p : PlaceState}

theorem seqCtx_first (hc : SeqCtx G srt source data0 T s0 p) : p.perm[0]? = some source := by
  have hL := hc.lev
  obtain ⟨_, hat⟩ := hc.init
  obtain ⟨_, h2, _⟩ := written_reach hL hc.sorts hc.tab hc.init hc.fin
  have hone := cntLt_one hL
  have hw : written T (Pc.level 0, s0) = 1 := by
    simp only [written]
    rw [List.getD_eq_getElem?_getD, hat.below 0 (Nat.le_refl _) (by omega)]
    exact hone
  rw [h2 0 (by rw [hw]; omega)]
  have hmem : source ∈ s0.perm.take (cntLt G data0 1) :=
    (hat.core.low 1 (by omega) source).mpr ⟨hL.src_lt, by rw [(hL.zero_iff source).mpr rfl]; omega⟩
  rw [hone] at hmem
  obtain ⟨j, hj, h⟩ := mem_take_iff.mp hmem
  have : j = 0 := by omega
  subst this
  exact h

theorem seqAt_perm_len (hc : SeqCtx G srt source data0 T s0 p) {k : Nat} {l : Locals}
    {s : PlaceState} (h : SeqAt G srt T s0 k l s) : s.perm.length = G.length :=
  (seqAt_mid hc.lev hc.sorts hc.tab hc.init h).2.core.perm_len

/-- Whatever the stage of level `k`, the slots of level `k + 1` below the published
cursor are final. -/
theorem levelOk_pub (hc : SeqCtx G srt source data0 T s0 p) {k : Nat} {S : PlaceState}
    {st : Stage} (h : LevelOk G srt T s0 data0 k S st) : PubOk G data0 p (k + 1) S := by
  have hsz := hc.lev.size
  have hq : ∀ {l : Locals} {s : PlaceState}, SeqAt G srt T s0 k l s →
      S.write_offset[k + 1]? = some l.t_wo → Agree G data0 k l.t_wo S s →
      PubOk G data0 p (k + 1) S := by
    intro l s h1 h3 h4
    have hmid := (seqAt_mid hc.lev hc.sorts hc.tab hc.init h1).2
    refine ⟨l.t_wo, h3, hmid.core.base_le, seqAt_t_wo_le hc h1, fun j hj1 hj2 => ?_⟩
    rw [h4.perm j hj1 hj2]
    exact seqAt_stable hc.lev hc.sorts hc.tab hc.init hc.fin h1 j hj2
  cases st with
  | idle fin =>
    obtain ⟨l, s, h1, _, h3, h4⟩ := h
    exact hq h1 h3 h4
  | todo l =>
    obtain ⟨s, h1, h3, h4, _⟩ := h
    exact hq h1 h3 h4
  | inner cend l =>
    obtain ⟨s, h1, h3, h4, _⟩ := h
    exact hq h1 h3 h4
  | scan cend l tw rest =>
    obtain ⟨s, s1, pre, next, h1, h2, h3, _, h6, h7, h8, h9, h10, h11, h12⟩ := h
    have hmid := (seqAt_mid hc.lev hc.sorts hc.tab hc.init h1).2
    have hlen := seqAt_perm_len hc h1
    have hf := scanEdges_frame pre (by rw [hlen]; exact hsz) h8
    refine ⟨tw, h9, hmid.core.base_le, seqAt_t_wo_le hc h1, fun j hj1 hj2 => ?_⟩
    rw [h12.perm j hj1 (by omega), hf.low j hj2]
    exact seqAt_stable hc.lev hc.sorts hc.tab hc.init hc.fin h1 j hj2
  | sorted cend l =>
    obtain ⟨s, s1, tw, h1, h2, h3, _, h6, h9, h10, h11, h12⟩ := h
    have hmid := (seqAt_mid hc.lev hc.sorts hc.tab hc.init h1).2
    have hlen := seqAt_perm_len hc h1
    have hf := consume_frame (fun l => (hc.sorts l).1) (by rw [hlen]; exact hsz) h6
    have htw := seqAt_t_wo_le hc h1
    have hN := cntLt_le G data0 (k + 2)
    refine ⟨tw, h9, hmid.core.base_le, htw, fun j hj1 hj2 => ?_⟩
    simp only at htw hj2
    rw [h12.perm j hj1 (by omega), hf.low j hj2 (by rw [hlen]; omega)]
    exact seqAt_stable hc.lev hc.sorts hc.tab hc.init hc.fin h1 j hj2

end pub

/-! ## A step of the owner of a level -/

section own

variable {G : Graph} {source : Nat} {data0 : NodeData} {srt : List Nat → List Nat}
  {T : Tables} {s0 p : PlaceState}

theorem locals_eta (l : Locals) : { start := l.start, t_wo := l.t_wo, todo := l.todo } = l :=
  rfl

/-- Entering level `n`. -/
theorem own_level (tot : Nat) (hc : SeqCtx G srt source data0 T s0 p) {n : Nat} (hn : n ≤ T.max_dist)
    {S : PlaceState} (h : LevelOk G srt T s0 data0 n S (.idle false))
    (hpub : PubOk G data0 p n S) :
    ∃ l, workerStep G srt T tot (.level n, S) = .ok (.todo n l, S) ∧
      LevelOk G srt T s0 data0 n S (.todo l) := by
  have hL := hc.lev
  have hT := hc.tab
  have hMlt := hL.max_lt hT
  have hsz := hL.size
  have hM : T.max_dist + 1 < UINT_MOD := by omega
  have hwM : wrap (T.max_dist + 1) = T.max_dist + 1 := wrap_of_lt hM
  have hw1 : wrap (n + 1) = n + 1 := wrap_of_lt (by omega)
  obtain ⟨l, s, hseq, hstart, hwo, hag⟩ := h
  simp only [Bool.false_eq_true, if_false] at hstart
  have hmid := (seqAt_mid hL hc.sorts hT hc.init hseq).2
  have h1 : readAt T.read_offset n = .ok (cntLt G data0 n) :=
    readAt_eq (hT.read_offset n (by omega))
  have h2 : readAt S.write_offset (n + 1) = .ok l.t_wo := readAt_eq hwo
  have h3 : readAt T.level_count n = .ok (cntEq G data0 n) := by
    apply readAt_eq
    rw [getElem?_of_getD (by rw [hT.level_count_len]; omega), hT.level_count]
  have hl : ({ start := cntLt G data0 n, t_wo := l.t_wo, todo := cntEq G data0 n } : Locals)
      = l := by
    have h4 := hmid.todo
    have h5 := cntLt_succ G data0 n
    cases l with
    | mk a b c =>
      simp only at hstart h4 ⊢
      subst hstart
      have : c = cntEq G data0 n := by omega
      rw [this]
  obtain ⟨w, hw, hlo, _, _⟩ := hpub
  refine ⟨l, ?_, s, hseq, hwo, hag, w, hw, by omega⟩
  rw [workerStep_level (by rw [hwM]; omega), h1, bind_ok, hw1, h2, bind_ok, h3, bind_ok, hl]
  rfl

/-- The test of `while (todo)` and of the busy-wait. -/
theorem own_todo (tot : Nat) (hc : SeqCtx G srt source data0 T s0 p) (hM : T.max_dist + tot < UINT_MOD)
    {n : Nat} (hn : n ≤ T.max_dist) {S : PlaceState} {l : Locals}
    (h : LevelOk G srt T s0 data0 n S (.todo l)) :
    (workerStep G srt T tot (.todo n l, S) = .ok (.level (n + tot), S) ∧
        LevelOk G srt T s0 data0 n S (.idle true)) ∨
      workerStep G srt T tot (.todo n l, S) = .ok (.todo n l, S) ∨
      ∃ cend, workerStep G srt T tot (.todo n l, S) = .ok (.inner n cend l, S) ∧
        LevelOk G srt T s0 data0 n S (.inner cend l) := by
  obtain ⟨s, hseq, hwo, hag, w, hw, hle⟩ := h
  have hmid := (seqAt_mid hc.lev hc.sorts hc.tab hc.init hseq).2
  by_cases htodo : l.todo = 0
  · left
    refine ⟨?_, l, s, hseq, ?_, hwo, hag⟩
    · rw [workerStep_todo_done htodo, wrap_of_lt (by omega)]
    · simp only [if_true]
      have h1 := hmid.todo
      have h2 := hmid.hi
      omega
  · right
    have hr : readAt S.write_offset n = .ok w := readAt_eq hw
    by_cases hs : l.start = w
    · left
      rw [workerStep_todo htodo, hr, bind_ok]
      simp only [hs, if_true]
      rfl
    · right
      refine ⟨w, ?_, s, hseq, hwo, hag, hle, w, hw, Nat.le_refl _⟩
      rw [workerStep_todo htodo, hr, bind_ok]
      simp only [hs, if_false]
      rfl

/-- The test of `while (start != cend)` and the read of `next`. -/
theorem own_inner (tot : Nat) (hc : SeqCtx G srt source data0 T s0 p) {n : Nat} {S : PlaceState}
    (hlen : S.perm.length = G.length) {cend : Nat} {l : Locals}
    (h : LevelOk G srt T s0 data0 n S (.inner cend l)) (hpub : PubOk G data0 p n S) :
    (workerStep G srt T tot (.inner n cend l, S) = .ok (.todo n l, S) ∧
        LevelOk G srt T s0 data0 n S (.todo l)) ∨
      ∃ rest, workerStep G srt T tot (.inner n cend l, S) =
          .ok (.scan n cend l l.t_wo rest, S) ∧
        LevelOk G srt T s0 data0 n S (.scan cend l l.t_wo rest) := by
  obtain ⟨s, hseq, hwo, hag, hle, w, hw, hcw⟩ := h
  have hmid := (seqAt_mid hc.lev hc.sorts hc.tab hc.init hseq).2
  by_cases hs : l.start = cend
  · left
    exact ⟨workerStep_inner_done hs, s, hseq, hwo, hag, w, hw, by omega⟩
  · right
    obtain ⟨w', hw', hlo, hhi, hslots⟩ := hpub
    rw [hw] at hw'
    cases hw'
    have hN := cntLt_le G data0 (n + 1)
    have hb := hmid.core.base_le
    have hlt : l.start < S.perm.length := by omega
    obtain ⟨next, hnext⟩ := getElem?_of_lt_length hlt
    have hnext' : s.perm[l.start]? = some next := by
      rw [seqAt_stable hc.lev hc.sorts hc.tab hc.init hc.fin hseq l.start (by omega),
        ← hslots l.start hmid.lo (by omega)]
      exact hnext
    refine ⟨edges G next, ?_, s, s, [], next, hseq, by omega, by omega, ⟨w, hw, hcw⟩, hnext',
      rfl, rfl, hwo, Nat.le_refl _, seqAt_t_wo_le hc hseq, hag⟩
    rw [workerStep_inner hs, readAt_eq hnext, bind_ok]
    rfl

end own

/-! ## A pass of the consume loop by the owner of a level -/

section pass

variable {G : Graph} {source : Nat} {data0 : NodeData} {srt : List Nat → List Nat}
  {T : Tables} {s0 p : PlaceState}

/-- The neighbour loop of the single worker over the edges of the slot it consumes. -/
theorem seq_scan (hc : SeqCtx G srt source data0 T s0 p) {k : Nat} {l : Locals}
    {s : PlaceState} (hseq : SeqAt G srt T s0 k l s) (hlt : l.start < cntLt G data0 (k + 1))
    {next : Nat} (hnext : s.perm[l.start]? = some next) :
    ∃ s2 t2 wo, scanEdges k (s, l.t_wo) (edges G next) = .ok (s2, t2) ∧
      writeAt s2.write_offset (wrap (k + 1)) t2 = .ok wo ∧
      consume G srt k l.start l.t_wo s =
        .ok ({ s2 with perm := sortSlice srt s2.perm l.t_wo t2, write_offset := wo,
                       past_end := s2.past_end || sortPastEnd s2.perm l.t_wo t2 }, t2) ∧
      SeqAt G srt T s0 k { start := l.start + 1, t_wo := t2, todo := l.todo - 1 }
        { s2 with perm := sortSlice srt s2.perm l.t_wo t2, write_offset := wo,
                  past_end := s2.past_end || sortPastEnd s2.perm l.t_wo t2 } := by
  obtain ⟨s', tf, hcons, hseq'⟩ := seq_consume hc.lev hc.sorts hc.tab hc.init hseq hlt
  have h := hcons
  rw [consume_eq] at h
  obtain ⟨nxt, hn, h⟩ := bind_eq_ok h
  have := readAt_ok hn
  rw [hnext] at this
  cases this
  obtain ⟨⟨s2, t2⟩, hr, h⟩ := bind_eq_ok h
  obtain ⟨wo, hwo, h⟩ := bind_eq_ok h
  simp only [pure, Except.pure, Except.ok.injEq, Prod.mk.injEq] at h
  obtain ⟨e1, e2⟩ := h
  subst e2
  subst e1
  exact ⟨s2, t2, wo, hr, hwo, hcons, hseq'⟩

/-- The body of the neighbour loop for one edge. -/
theorem own_scan (tot : Nat) (hc : SeqCtx G srt source data0 T s0 p) {n : Nat} (hn : n ≤ T.max_dist)
    {S : PlaceState} (hlen : S.perm.length = G.length)
    (hdist : ∀ v, (S.data v).dist = (data0 v).dist)
    {cend tw dst : Nat} {l : Locals} {rest : List Nat}
    (h : LevelOk G srt T s0 data0 n S (.scan cend l tw (dst :: rest))) :
    ∃ S' t', workerStep G srt T tot (.scan n cend l tw (dst :: rest), S) =
        .ok (.scan n cend { l with t_wo := t' } tw rest, S') ∧
      LevelOk G srt T s0 data0 n S' (.scan cend { l with t_wo := t' } tw rest) ∧
      Frame G data0 n S S' ∧ S'.perm.length = S.perm.length ∧
      S'.write_offset = S.write_offset ∧ (∀ v, (S'.data v).dist = (S.data v).dist) ∧
      (∀ v, (S.data v).done = true → (S'.data v).done = true) := by
  have hL := hc.lev
  have hT := hc.tab
  have hMlt := hL.max_lt hT
  have hsz := hL.size
  have hw1 : wrap (n + 1) = n + 1 := wrap_of_lt (by omega)
  obtain ⟨s, s1, pre, next, hseq, hlt, hltc, hw, hnext, hedges, hscan, hwo, hle1, hle2, hag⟩ := h
  have hmid := (seqAt_mid hL hc.sorts hT hc.init hseq).2
  have hslen := seqAt_perm_len hc hseq
  obtain ⟨s2, t2, wo, hr, _, _, hseq'⟩ := seq_scan hc hseq hlt hnext
  have ht2 := seqAt_t_wo_le hc hseq'
  simp only at ht2 hr
  rw [hedges, scanEdges_append, hscan, bind_ok, scanEdges_cons] at hr
  obtain ⟨⟨s1', t'⟩, hr1, hr2⟩ := bind_eq_ok hr
  have hf1 := scanEdges_frame pre (by rw [hslen]; exact hsz) hscan
  have hs1len : s1.perm.length = G.length := by rw [hf1.len, hslen]
  have hf2 := scanEdge_frame (by rw [hs1len]; exact hsz) hr1
  have hf3 := scanEdges_frame rest (by rw [hf2.len, hs1len]; exact hsz) hr2
  have hdst : dst < G.length :=
    edges_lt hL.wf (by rw [hedges]; simp : dst ∈ edges G next)
  have hds1 : ∀ v, (s1.data v).dist = (data0 v).dist := by
    intro v
    rw [scanEdges_dist pre hscan v]
    exact hmid.core.dist_eq v
  obtain ⟨S', hS, hag', hle3, hle4, _, hlen', hwo', hdist', hperm', hsame, hdone', hmono⟩ :=
    scanEdge_agree hw1 hdst hdist hds1 (by rw [hlen, hs1len]) (by rw [hs1len]; exact hsz)
      hag hr1
  have hbase := hmid.core.base_le
  simp only at hbase
  have hle5 := hf3.le
  refine ⟨S', t', ?_, ?_, ?_, hlen', hwo', hdist', hmono⟩
  · rw [workerStep_scan, hS, bind_ok]
    rfl
  · refine ⟨s, s1', pre ++ [dst], next, hseq, hlt, hltc, ?_, hnext, ?_, ?_, ?_, by
      simp only; omega, by simp only; omega, hag'⟩
    · rw [hwo']; exact hw
    · rw [hedges]; simp
    · rw [scanEdges_append, hscan, bind_ok, scanEdges_cons, hr1, bind_ok]
      rfl
    · rw [hwo']; exact hwo
  · refine ⟨fun j hj => ?_, fun v _ hv => hdone' v hv, fun j _ => by rw [hwo'],
      fun w hw => ⟨w, by rw [hwo']; exact hw, Nat.le_refl _⟩⟩
    by_cases ht : t' = l.t_wo
    · rw [hsame ht]
    · exact hperm' j (by omega)

/-- `std::sort` of the appended slice. -/
theorem own_sort (tot : Nat) (hc : SeqCtx G srt source data0 T s0 p) {n : Nat}
    {S : PlaceState} (hlen : S.perm.length = G.length)
    {cend tw : Nat} {l : Locals}
    (h : LevelOk G srt T s0 data0 n S (.scan cend l tw [])) :
    ∃ S', workerStep G srt T tot (.scan n cend l tw [], S) = .ok (.sorted n cend l, S') ∧
      LevelOk G srt T s0 data0 n S' (.sorted cend l) ∧
      Frame G data0 n S S' ∧ S'.perm.length = S.perm.length ∧
      S'.write_offset = S.write_offset ∧ S'.data = S.data := by
  have hL := hc.lev
  have hsz := hL.size
  have hsrt : ∀ l, (srt l).Perm l := fun l => (hc.sorts l).1
  obtain ⟨s, s1, pre, next, hseq, hlt, hltc, hw, hnext, hedges, hscan, hwo, hle1, hle2, hag⟩ := h
  have hmid := (seqAt_mid hL hc.sorts hc.tab hc.init hseq).2
  have hslen := seqAt_perm_len hc hseq
  obtain ⟨s2, t2, wo, hr, _, hcons, _⟩ := seq_scan hc hseq hlt hnext
  simp only [List.append_nil] at hedges
  simp only at hr hcons
  rw [hedges, hscan] at hr
  simp only [Except.ok.injEq, Prod.mk.injEq] at hr
  obtain ⟨e1, e2⟩ := hr
  subst e1
  subst e2
  have hf1 := scanEdges_frame pre (by rw [hslen]; exact hsz) hscan
  have hs1len : s1.perm.length = G.length := by rw [hf1.len, hslen]
  have hN := cntLt_le G data0 (n + 2)
  have hbase := hmid.core.base_le
  simp only at hbase
  refine ⟨{ S with perm := sortSlice srt S.perm tw l.t_wo,
                   past_end := S.past_end || sortPastEnd S.perm tw l.t_wo },
    workerStep_sort, ?_, ?_, ?_, rfl, rfl⟩
  · refine ⟨s, _, tw, hseq, hlt, hltc, hw, hcons, hwo, hle1, hle2, ?_, fun v hv hd => ?_⟩
    · intro j hj1 hj2
      simp only
      by_cases hj : j < tw
      · rw [sortSlice_getElem?_lt (by omega) hj, sortSlice_getElem?_lt (by omega) hj]
        exact hag.perm j hj1 hj2
      · exact sortSlice_congr hsrt hle1 (by omega) (by omega)
          (fun i hi1 hi2 => hag.perm i (by omega) hi2) j (by omega) hj2
    · exact hag.done v hv hd
  · refine ⟨fun j hj => ?_, fun _ _ _ => rfl, fun _ _ => rfl,
      fun w hw => ⟨w, hw, Nat.le_refl _⟩⟩
    simp only
    rcases hj with hj | hj
    · exact sortSlice_getElem?_lt (by omega) (by omega)
    · exact sortSlice_getElem?_ge hsrt hle1 (by omega) (by omega)
  · simp only
    exact length_sortSlice hsrt hle1 (by omega)

/-- The publication `write_offset[n+1].data = t_wo; ++start; --todo`. -/
theorem own_publish (tot : Nat) (hc : SeqCtx G srt source data0 T s0 p) {n : Nat} (hn : n ≤ T.max_dist)
    {S : PlaceState} (hwl : S.write_offset.length = T.max_dist + 2)
    {cend : Nat} {l : Locals}
    (h : LevelOk G srt T s0 data0 n S (.sorted cend l)) :
    ∃ S', workerStep G srt T tot (.sorted n cend l, S) =
        .ok (.inner n cend { start := l.start + 1, t_wo := l.t_wo, todo := l.todo - 1 }, S') ∧
      LevelOk G srt T s0 data0 n S'
        (.inner cend { start := l.start + 1, t_wo := l.t_wo, todo := l.todo - 1 }) ∧
      Frame G data0 n S S' ∧ S'.perm = S.perm ∧
      S'.write_offset.length = S.write_offset.length ∧ S'.data = S.data := by
  have hL := hc.lev
  have hT := hc.tab
  have hMlt := hL.max_lt hT
  have hsz := hL.size
  have hw1 : wrap (n + 1) = n + 1 := wrap_of_lt (by omega)
  obtain ⟨s, s1, tw, hseq, hlt, hltc, ⟨w, hw, hcw⟩, hcons, hwo, hle1, hle2, hag⟩ := h
  have hmid := (seqAt_mid hL hc.sorts hT hc.init hseq).2
  obtain ⟨s', tf, hcons', hseq'⟩ := seq_consume hL hc.sorts hT hc.init hseq hlt
  simp only at hcons'
  rw [hcons] at hcons'
  simp only [Except.ok.injEq, Prod.mk.injEq] at hcons'
  obtain ⟨e1, e2⟩ := hcons'
  subst e1
  subst e2
  have hN := cntLt_le G data0 (n + 1)
  have htodo := hmid.todo
  simp only at htodo hseq'
  have hws : wrap (l.start + 1) = l.start + 1 := wrap_of_lt (by omega)
  have hwt : wrap (l.todo + (UINT_MOD - 1)) = l.todo - 1 := wrap_pred (by omega) (by omega)
  have hi : n + 1 < S.write_offset.length := by omega
  refine ⟨{ S with write_offset := S.write_offset.set (n + 1) l.t_wo }, ?_, ?_, ?_, rfl,
    by simp, rfl⟩
  · rw [workerStep_publish, hw1, hws, hwt]
    simp only [writeAt, hi, if_true]
    rfl
  · refine ⟨s1, hseq', ?_, ⟨hag.perm, hag.done⟩, by simp only; omega, w, ?_, hcw⟩
    · simp only
      rw [List.getElem?_set_self hi]
    · simp only
      rw [List.getElem?_set_ne (by omega)]
      exact hw
  · refine ⟨fun _ _ => rfl, fun _ _ _ => rfl, fun j hj => ?_, fun w' hw' => ?_⟩
    · simp only
      rw [List.getElem?_set_ne (fun e => hj e.symm)]
    · rw [hwo] at hw'
      cases hw'
      exact ⟨l.t_wo, by simp only; rw [List.getElem?_set_self hi], hle1⟩

end pass

/-! ## The invariant of the workers holds in every state -/

section parinv

variable {G : Graph} {source : Nat} {data0 : NodeData} {srt : List Nat → List Nat}
  {T : Tables} {s0 p : PlaceState} {tot : Nat}

theorem stageOf_level (k n : Nat) : stageOf k (.level n) = .idle (decide (k < n)) := rfl

theorem stageOf_exit (k : Nat) : stageOf k .exit = .idle true := rfl

theorem mod_class {tot k n : Nat} (h : k % tot = n % tot) (hkn : k ≠ n) :
    (k < n ↔ k < n + tot) := by
  constructor
  · intro h1; omega
  · intro h1
    by_contra h2
    have h3 : n < k := by omega
    have h4 : (k - n) % tot = 0 := Nat.sub_mod_eq_zero_of_mod_eq h
    have h5 : tot ∣ k - n := Nat.dvd_of_mod_eq_zero h4
    have h6 := Nat.le_of_dvd (by omega) h5
    omega

/-- The published slots of every level, level `0` included. -/
theorem parInv_pub (hc : SeqCtx G srt source data0 T s0 p) (htot : 0 < tot) {c : ParState}
    (hinv : ParInv G srt source data0 T s0 tot c) :
    ∀ k, k ≤ T.max_dist + 1 → PubOk G data0 p k c.mem := by
  intro k hk
  cases k with
  | zero =>
    refine ⟨1, hinv.wo_zero, by rw [cntLt_zero]; omega, by rw [cntLt_one hc.lev],
      fun j _ hj => ?_⟩
    have : j = 0 := by omega
    subst this
    rw [hinv.first, seqCtx_first hc]
  | succ k =>
    have hlt : k % tot < c.pcs.length := by rw [hinv.pcs_len]; exact Nat.mod_lt _ htot
    exact levelOk_pub hc (hinv.levels k (by omega) _ (List.getElem?_eq_getElem hlt))

/-- Putting the invariant together after a step of worker `me` in level `n`. -/
theorem parInv_update (hc : SeqCtx G srt source data0 T s0 p) {c : ParState}
    (hinv : ParInv G srt source data0 T s0 tot c) {me : Nat} {pc pc' : WPc}
    (hpc : c.pcs[me]? = some pc) {S' : PlaceState} {n : Nat} (hnme : n % tot = me)
    (hf : Frame G data0 n c.mem S') (hlen : S'.perm.length = G.length)
    (hwl : S'.write_offset.length = T.max_dist + 2)
    (hdist : ∀ v, (S'.data v).dist = (data0 v).dist)
    (hown : Owned T.max_dist tot me pc')
    (hst : ∀ k, k ≤ T.max_dist → k ≠ n → k % tot = me → stageOf k pc' = stageOf k pc)
    (hcur : n ≤ T.max_dist → LevelOk G srt T s0 data0 n S' (stageOf n pc')) :
    ParInv G srt source data0 T s0 tot { pcs := c.pcs.set me pc', mem := S' } := by
  have hL := hc.lev
  have hone := cntLt_one hL
  have hme : me < c.pcs.length := by
    by_contra h
    rw [List.getElem?_eq_none (by omega)] at hpc
    cases hpc
  have hR1 : 1 ≤ cntLt G data0 (n + 1) := by
    have := cntLt_mono G data0 (by omega : 1 ≤ n + 1)
    omega
  refine ⟨by simp only [List.length_set]; exact hinv.pcs_len, hlen, hwl, hdist, ?_, ?_, ?_,
    ?_, ?_⟩
  · simp only
    rw [hf.wo 0 (by omega)]; exact hinv.wo_zero
  · simp only
    rw [hf.perm 0 (Or.inl (by omega))]; exact hinv.first
  · simp only
    rw [hf.done source hL.src_lt (by rw [(hL.zero_iff source).mpr rfl]; omega)]
    exact hinv.unmarked
  · intro w q hq
    simp only at hq
    by_cases hw : w = me
    · subst hw
      rw [List.getElem?_set_self hme] at hq
      cases hq
      exact hown
    · rw [List.getElem?_set_ne (fun e => hw e.symm)] at hq
      exact hinv.owned w q hq
  · intro k hk q hq
    simp only at hq ⊢
    by_cases hw : k % tot = me
    · rw [hw, List.getElem?_set_self hme] at hq
      cases hq
      by_cases hkn : k = n
      · subst hkn
        exact hcur hk
      · rw [hst k hk hkn hw]
        exact levelOk_frame hc (hinv.levels k hk pc (by rw [hw]; exact hpc)) hf hkn
    · rw [List.getElem?_set_ne (fun e => hw e.symm)] at hq
      have hkn : k ≠ n := fun e => hw (by rw [e]; exact hnme)
      exact levelOk_frame hc (hinv.levels k hk q hq) hf hkn

/-- A step of any worker keeps the invariant. -/
theorem parInv_step (hc : SeqCtx G srt source data0 T s0 p) (htot : 0 < tot)
    (hM : T.max_dist + tot < UINT_MOD) {c c' : ParState}
    (hinv : ParInv G srt source data0 T s0 tot c) (hstep : ParStep G srt T tot c c') :
    ParInv G srt source data0 T s0 tot c' := by
  have hL := hc.lev
  have hT := hc.tab
  have hMlt := hL.max_lt hT
  have hsz := hL.size
  have hwM : wrap (T.max_dist + 1) = T.max_dist + 1 := wrap_of_lt (by omega)
  cases hstep with
  | step me pc pc1 s1 hpc hw =>
    have hme : me < tot := by
      by_contra h
      rw [List.getElem?_eq_none (by rw [hinv.pcs_len]; omega)] at hpc
      cases hpc
    have hmm : me % tot = me := Nat.mod_eq_of_lt hme
    have hown := hinv.owned me pc hpc
    have hpub := parInv_pub hc htot hinv
    have hlev : ∀ k, k ≤ T.max_dist → k % tot = me →
        LevelOk G srt T s0 data0 k c.mem (stageOf k pc) :=
      fun k hk hkm => hinv.levels k hk pc (by rw [hkm]; exact hpc)
    cases pc with
    | level n =>
      obtain ⟨hnm, hnb⟩ := hown
      by_cases hn : n ≤ T.max_dist
      · have h0 := hlev n hn hnm
        rw [stageOf_level] at h0
        simp only [Nat.lt_irrefl, decide_False] at h0
        obtain ⟨l, hs, hl⟩ := own_level tot hc hn h0 (hpub n (by omega))
        rw [hs] at hw
        simp only [Except.ok.injEq, Prod.mk.injEq] at hw
        obtain ⟨e1, e2⟩ := hw
        subst e1
        subst e2
        refine parInv_update hc hinv hpc hnm (frame_refl n _) hinv.perm_len hinv.wo_len
          hinv.dist_eq ⟨hnm, hn⟩ (fun k _ hkn _ => ?_) (fun _ => ?_)
        · simp only [stageOf, Ne.symm hkn, if_false]
        · simp only [stageOf, if_true]
          exact hl
      · rw [workerStep_level_exit (by rw [hwM]; omega)] at hw
        simp only [Except.ok.injEq, Prod.mk.injEq] at hw
        obtain ⟨e1, e2⟩ := hw
        subst e1
        subst e2
        refine parInv_update hc hinv hpc hnm (frame_refl n _) hinv.perm_len hinv.wo_len
          hinv.dist_eq trivial (fun k hk hkn _ => ?_) (fun h => absurd h hn)
        simp only [stageOf]
        congr 1
        simp only [decide_eq_true_eq, true_eq_decide_iff]
        omega
    | todo n l =>
      obtain ⟨hnm, hn⟩ := hown
      have h0 := hlev n hn hnm
      simp only [stageOf, if_true] at h0
      rcases own_todo tot hc hM hn h0 with ⟨hs, hl⟩ | hs | ⟨cend, hs, hl⟩
      · rw [hs] at hw
        simp only [Except.ok.injEq, Prod.mk.injEq] at hw
        obtain ⟨e1, e2⟩ := hw
        subst e1
        subst e2
        refine parInv_update hc hinv hpc hnm (frame_refl n _) hinv.perm_len hinv.wo_len
          hinv.dist_eq ⟨by rw [Nat.add_mod_right]; exact hnm, by omega⟩
          (fun k _ hkn hkm => ?_) (fun _ => ?_)
        · simp only [stageOf, Ne.symm hkn, if_false]
          congr 1
          have := mod_class (hkm.trans hnm.symm) hkn
          simp only [decide_eq_decide]
          exact this.symm
        · simp only [stageOf]
          have : decide (n < n + tot) = true := by simp only [decide_eq_true_eq]; omega
          rw [this]
          exact hl
      · rw [hs] at hw
        simp only [Except.ok.injEq, Prod.mk.injEq] at hw
        obtain ⟨e1, e2⟩ := hw
        subst e1
        subst e2
        refine parInv_update hc hinv hpc hnm (frame_refl n _) hinv.perm_len hinv.wo_len
          hinv.dist_eq ⟨hnm, hn⟩ (fun k _ _ _ => rfl) (fun _ => ?_)
        simp only [stageOf, if_true]
        exact h0
      · rw [hs] at hw
        simp only [Except.ok.injEq, Prod.mk.injEq] at hw
        obtain ⟨e1, e2⟩ := hw
        subst e1
        subst e2
        refine parInv_update hc hinv hpc hnm (frame_refl n _) hinv.perm_len hinv.wo_len
          hinv.dist_eq ⟨hnm, hn⟩ (fun k _ hkn _ => ?_) (fun _ => ?_)
        · simp only [stageOf, Ne.symm hkn, if_false]
        · simp only [stageOf, if_true]
          exact hl
    | inner n cend l =>
      obtain ⟨hnm, hn⟩ := hown
      have h0 := hlev n hn hnm
      simp only [stageOf, if_true] at h0
      rcases own_inner tot hc hinv.perm_len h0 (hpub n (by omega)) with
        ⟨hs, hl⟩ | ⟨rest, hs, hl⟩
      · rw [hs] at hw
        simp only [Except.ok.injEq, Prod.mk.injEq] at hw
        obtain ⟨e1, e2⟩ := hw
        subst e1
        subst e2
        refine parInv_update hc hinv hpc hnm (frame_refl n _) hinv.perm_len hinv.wo_len
          hinv.dist_eq ⟨hnm, hn⟩ (fun k _ hkn _ => ?_) (fun _ => ?_)
        · simp only [stageOf, Ne.symm hkn, if_false]
        · simp only [stageOf, if_true]
          exact hl
      · rw [hs] at hw
        simp only [Except.ok.injEq, Prod.mk.injEq] at hw
        obtain ⟨e1, e2⟩ := hw
        subst e1
        subst e2
        refine parInv_update hc hinv hpc hnm (frame_refl n _) hinv.perm_len hinv.wo_len
          hinv.dist_eq ⟨hnm, hn⟩ (fun k _ hkn _ => ?_) (fun _ => ?_)
        · simp only [stageOf, Ne.symm hkn, if_false]
        · simp only [stageOf, if_true]
          exact hl
    | scan n cend l tw rest =>
      obtain ⟨hnm, hn⟩ := hown
      have h0 := hlev n hn hnm
      simp only [stageOf, if_true] at h0
      cases rest with
      | nil =>
        obtain ⟨S', hs, hl, hf, h1, h2, h3⟩ := own_sort tot hc hinv.perm_len h0
        rw [hs] at hw
        simp only [Except.ok.injEq, Prod.mk.injEq] at hw
        obtain ⟨e1, e2⟩ := hw
        subst e1
        subst e2
        refine parInv_update hc hinv hpc hnm hf (by rw [h1]; exact hinv.perm_len)
          (by rw [h2]; exact hinv.wo_len) (fun v => by rw [h3]; exact hinv.dist_eq v)
          ⟨hnm, hn⟩ (fun k _ hkn _ => ?_) (fun _ => ?_)
        · simp only [stageOf, Ne.symm hkn, if_false]
        · simp only [stageOf, if_true]
          exact hl
      | cons dst rest =>
        obtain ⟨S', t', hs, hl, hf, h1, h2, h3, _⟩ :=
          own_scan tot hc hn hinv.perm_len hinv.dist_eq h0
        rw [hs] at hw
        simp only [Except.ok.injEq, Prod.mk.injEq] at hw
        obtain ⟨e1, e2⟩ := hw
        subst e1
        subst e2
        refine parInv_update hc hinv hpc hnm hf (by rw [h1]; exact hinv.perm_len)
          (by rw [h2]; exact hinv.wo_len) (fun v => by rw [h3]; exact hinv.dist_eq v)
          ⟨hnm, hn⟩ (fun k _ hkn _ => ?_) (fun _ => ?_)
        · simp only [stageOf, Ne.symm hkn, if_false]
        · simp only [stageOf, if_true]
          exact hl
    | sorted n cend l =>
      obtain ⟨hnm, hn⟩ := hown
      have h0 := hlev n hn hnm
      simp only [stageOf, if_true] at h0
      obtain ⟨S', hs, hl, hf, h1, h2, h3⟩ := own_publish tot hc hn hinv.wo_len h0
      rw [hs] at hw
      simp only [Except.ok.injEq, Prod.mk.injEq] at hw
      obtain ⟨e1, e2⟩ := hw
      subst e1
      subst e2
      refine parInv_update hc hinv hpc hnm hf (by rw [h1]; exact hinv.perm_len)
        (by rw [h2]; exact hinv.wo_len) (fun v => by rw [h3]; exact hinv.dist_eq v)
        ⟨hnm, hn⟩ (fun k _ hkn _ => ?_) (fun _ => ?_)
      · simp only [stageOf, Ne.symm hkn, if_false]
      · simp only [stageOf, if_true]
        exact hl
    | exit =>
      rw [workerStep_exit] at hw
      simp only [Except.ok.injEq, Prod.mk.injEq] at hw
      obtain ⟨e1, e2⟩ := hw
      subst e1
      subst e2
      exact parInv_update hc hinv hpc hmm (frame_refl me _) hinv.perm_len hinv.wo_len
        hinv.dist_eq trivial (fun k _ _ _ => rfl)
        (fun h => hinv.levels me h _ (by rw [hmm]; exact hpc))

end parinv

/-! ## From the start of the workers to their return -/

section parrun

variable {G : Graph} {source : Nat} {data0 : NodeData} {srt : List Nat → List Nat}
  {T : Tables} {s0 p : PlaceState} {tot : Nat}

theorem parInit_pc {tot me : Nat} {s : PlaceState} {pc : WPc}
    (h : (parInit tot s).pcs[me]? = some pc) : me < tot ∧ pc = .level me := by
  simp only [parInit, List.getElem?_map, Option.map_eq_some'] at h
  obtain ⟨a, ha, rfl⟩ := h
  have hlt : me < tot := by
    by_contra hc
    rw [List.getElem?_eq_none (by simp only [List.length_range]; omega)] at ha
    cases ha
  rw [List.getElem?_range hlt] at ha
  cases ha
  exact ⟨hlt, rfl⟩

/-- The invariant holds when the workers start. -/
theorem parInv_init (hc : SeqCtx G srt source data0 T s0 p) (tot : Nat) :
    ParInv G srt source data0 T s0 tot (parInit tot s0) := by
  have hL := hc.lev
  have hT := hc.tab
  have hMlt := hL.max_lt hT
  have hone := cntLt_one hL
  obtain ⟨_, hat⟩ := hc.init
  have hfirst : s0.perm[0]? = some source := by
    have hmem : source ∈ s0.perm.take (cntLt G data0 1) :=
      (hat.core.low 1 (by omega) source).mpr
        ⟨hL.src_lt, by rw [(hL.zero_iff source).mpr rfl]; omega⟩
    rw [hone] at hmem
    obtain ⟨j, hj, h⟩ := mem_take_iff.mp hmem
    have : j = 0 := by omega
    subst this
    exact h
  refine ⟨by simp [parInit], hat.core.perm_len, hat.len, hat.core.dist_eq, ?_, hfirst,
    hat.core.unmarked source ((hL.zero_iff source).mpr rfl), ?_, ?_⟩
  · have := hat.below 0 (Nat.le_refl _) (by omega)
    rw [hone] at this
    exact this
  · intro me pc h
    obtain ⟨hlt, rfl⟩ := parInit_pc h
    exact ⟨Nat.mod_eq_of_lt hlt, by omega⟩
  · intro k hk pc h
    obtain ⟨hlt, rfl⟩ := parInit_pc h
    rw [stageOf_level]
    have hle : ¬ k < k % tot := by
      have := Nat.mod_le k tot
      omega
    simp only [hle, decide_False]
    obtain ⟨s, hseq, hfl⟩ := seq_entry hL hc.sorts hT hc.init hk
    refine ⟨_, s, hseq, by simp, ?_, fun j h1 h2 => by simp only at h2; omega,
      fun v hv hd => ?_⟩
    · exact hat.above (k + 1) (by omega) (by omega)
    · rw [hfl v hv hd]
      show (s0.data v).done = false
      cases hdn : (s0.data v).done with
      | false => rfl
      | true =>
        exfalso
        by_cases hk0 : k = 0
        · subst hk0
          have hmem : v ∈ s0.perm.take (cntLt G data0 (0 + 1)) :=
            (hat.core.mem v).mpr ⟨hv, Or.inr ⟨hd, hdn⟩⟩
          have := (hat.core.low (0 + 1) (Nat.le_refl _) v).mp hmem
          omega
        · have := hat.core.fresh v (by omega)
          rw [this] at hdn
          cases hdn

/-- The invariant holds in every state the workers reach. -/
theorem parInv_reach (hc : SeqCtx G srt source data0 T s0 p) (htot : 0 < tot)
    (hM : T.max_dist + tot < UINT_MOD) {c c' : ParState}
    (hinv : ParInv G srt source data0 T s0 tot c) (h : ParReach G srt T tot c c') :
    ParInv G srt source data0 T s0 tot c' := by
  induction h with
  | refl => exact hinv
  | tail _ hstep ih => exact parInv_step hc htot hM ih hstep

theorem index_level (G : Graph) (data0 : NodeData) (j : Nat) :
    ∀ m, cntLt G data0 1 ≤ j → j < cntLt G data0 (m + 1) →
      ∃ k, k < m ∧ cntLt G data0 (k + 1) ≤ j ∧ j < cntLt G data0 (k + 2) := by
  intro m
  induction m with
  | zero => intro h1 h2; simp only [Nat.zero_add] at h2; omega
  | succ m ih =>
    intro h1 h2
    by_cases h : j < cntLt G data0 (m + 1)
    · obtain ⟨k, hk, h3, h4⟩ := ih h1 h
      exact ⟨k, by omega, h3, h4⟩
    · exact ⟨m, by omega, by omega, h2⟩

/-- When every worker has returned, the shared state is the state in which the single
worker returns: the same `perm`, the same `write_offset`, the same marks. -/
theorem parInv_final (hc : SeqCtx G srt source data0 T s0 p) (htot : 0 < tot) {c : ParState}
    (hinv : ParInv G srt source data0 T s0 tot c) (hfin : ParFinal c) :
    c.mem.perm = p.perm ∧ c.mem.write_offset = p.write_offset ∧
      ∀ v, v < G.length → (c.mem.data v).done = (p.data v).done := by
  have hL := hc.lev
  have hT := hc.tab
  have hMlt := hL.max_lt hT
  have hone := cntLt_one hL
  have hexit : PlaceInv G data0 T.max_dist (.exit, p) :=
    placeInv_reach hL hc.sorts hT hc.init hc.fin
  have hat : AtLevel G data0 T.max_dist (T.max_dist + 1) p := hexit
  have hfinished : ∀ k, k ≤ T.max_dist → ∃ l s, SeqAt G srt T s0 k l s ∧
      l.start = cntLt G data0 (k + 1) ∧ c.mem.write_offset[k + 1]? = some l.t_wo ∧
      Agree G data0 k l.t_wo c.mem s := by
    intro k hk
    have hlt : k % tot < c.pcs.length := by rw [hinv.pcs_len]; exact Nat.mod_lt _ htot
    have hpc := List.getElem?_eq_getElem hlt
    have hex : c.pcs[k % tot] = .exit := hfin _ (List.getElem_mem _)
    have := hinv.levels k hk _ hpc
    rw [hex, stageOf_exit] at this
    obtain ⟨l, s, h1, h2, h3, h4⟩ := this
    exact ⟨l, s, h1, by simpa using h2, h3, h4⟩
  have hcur : ∀ k, k ≤ T.max_dist → ∃ l s, SeqAt G srt T s0 k l s ∧
      l.t_wo = cntLt G data0 (k + 2) ∧ c.mem.write_offset[k + 1]? = some l.t_wo ∧
      Agree G data0 k l.t_wo c.mem s ∧
      Core G data0 (k + 1) (cntLt G data0 (k + 1)) (cntLt G data0 (k + 2)) s := by
    intro k hk
    obtain ⟨l, s, h1, h2, h3, h4⟩ := hfinished k hk
    have hmid := (seqAt_mid hL hc.sorts hT hc.init h1).2
    have hcore := hmid.core
    rw [h2] at hcore
    obtain ⟨h5, h6⟩ := core_next_level hL hcore
    exact ⟨l, s, h1, h5, h3, h4, h6⟩
  have hNall : cntLt G data0 (T.max_dist + 1 + 1) = G.length :=
    cntLt_eq_length (fun v hv => by have := hT.max_ge v hv; omega)
  refine ⟨?_, ?_, ?_⟩
  · apply List.ext_getElem?
    intro j
    by_cases hj : j < G.length
    · by_cases hj0 : j = 0
      · subst hj0
        rw [hinv.first, seqCtx_first hc]
      · obtain ⟨k, hk, h1, h2⟩ := index_level G data0 j (T.max_dist + 1)
          (by rw [hone]; omega) (by rw [hNall]; exact hj)
        obtain ⟨l, s, hseq, ht, _, hag, _⟩ := hcur k (by omega)
        rw [hag.perm j h1 (by omega)]
        exact seqAt_stable hL hc.sorts hT hc.init hc.fin hseq j (by omega)
    · rw [List.getElem?_eq_none (by rw [hinv.perm_len]; omega),
        List.getElem?_eq_none (by rw [hat.core.perm_len]; omega)]
  · apply List.ext_getElem?
    intro j
    by_cases hj : j < T.max_dist + 2
    · have hp := hat.below j (by omega) (by omega)
      rw [hp]
      cases j with
      | zero => rw [hinv.wo_zero, hone]
      | succ k =>
        obtain ⟨l, s, _, ht, hwo, _⟩ := hcur k (by omega)
        rw [hwo, ht]
    · rw [List.getElem?_eq_none (by rw [hinv.wo_len]; omega),
        List.getElem?_eq_none (by rw [hat.len]; omega)]
  · intro v hv
    by_cases hd : (data0 v).dist = 0
    · have hvs := (hL.zero_iff v).mp hd
      subst hvs
      rw [hinv.unmarked, hat.core.unmarked _ hd]
    · have hle := hT.max_ge v hv
      obtain ⟨l, s, _, _, _, hag, hcore⟩ := hcur ((data0 v).dist - 1) (by omega)
      rw [hag.done v hv (by omega), hcore.marked v hv (by omega) (by omega),
        hat.core.marked v hv (by omega) (by omega)]

end parrun

/-! ## The workers return -/

section progress

variable {G : Graph} {source : Nat} {data0 : NodeData} {srt : List Nat → List Nat}
  {T : Tables} {s0 p : PlaceState} {tot : Nat}

theorem sum_map_set (f : WPc → Nat) :
    ∀ (l : List WPc) (i : Nat) (a b : WPc), l[i]? = some a →
      ((l.set i b).map f).sum + f a = (l.map f).sum + f b := by
  intro l
  induction l with
  | nil => intro i a b h; cases h
  | cons x l ih =>
    intro i a b h
    cases i with
    | zero =>
      simp only [List.getElem?_cons_zero, Option.some.injEq] at h
      subst h
      simp only [List.set_cons_zero, List.map_cons, List.sum_cons]
      omega
    | succ i =>
      simp only [List.getElem?_cons_succ] at h
      have := ih i a b h
      simp only [List.set_cons_succ, List.map_cons, List.sum_cons]
      omega

theorem set_same {l : List WPc} {i : Nat} {a : WPc} (h : l[i]? = some a) : l.set i a = l := by
  apply List.ext_getElem?
  intro j
  by_cases hj : j = i
  · subst hj
    have hlt : j < l.length := by
      by_contra hc
      rw [List.getElem?_eq_none (by omega)] at h
      cases h
    rw [List.getElem?_set_self hlt, h]
  · rw [List.getElem?_set_ne (fun e => hj e.symm)]

theorem seqAt_todo (hc : SeqCtx G srt source data0 T s0 p) {k : Nat} {l : Locals}
    {s : PlaceState} (h : SeqAt G srt T s0 k l s) :
    l.todo = cntLt G data0 (k + 1) - l.start ∧ l.todo ≤ G.length := by
  have hmid := (seqAt_mid hc.lev hc.sorts hc.tab hc.init h).2
  have := cntLt_le G data0 (k + 1)
  have := hmid.todo
  exact ⟨hmid.todo, by omega⟩

/-- Every worker can take its next step, and the step either is an evaluation of the
busy-wait that finds nothing published (or the worker has returned), or brings the worker
closer to its return. -/
theorem worker_step_ok (hc : SeqCtx G srt source data0 T s0 p) (htot : 0 < tot)
    (hM : T.max_dist + tot < UINT_MOD) {c : ParState}
    (hinv : ParInv G srt source data0 T s0 tot c) {me : Nat} {pc : WPc}
    (hpc : c.pcs[me]? = some pc) :
    ∃ pc' S', workerStep G srt T tot (pc, c.mem) = .ok (pc', S') ∧
      ((pc' = pc ∧ S' = c.mem ∧
          (pc = .exit ∨ ∃ n l, pc = .todo n l ∧ l.todo ≠ 0 ∧
            c.mem.write_offset[n]? = some l.start)) ∨
        wMeasure G T pc' < wMeasure G T pc) := by
  have hL := hc.lev
  have hT := hc.tab
  have hMlt := hL.max_lt hT
  have hsz := hL.size
  have hwM : wrap (T.max_dist + 1) = T.max_dist + 1 := wrap_of_lt (by omega)
  have hme : me < tot := by
    by_contra h
    rw [List.getElem?_eq_none (by rw [hinv.pcs_len]; omega)] at hpc
    cases hpc
  have hown := hinv.owned me pc hpc
  have hpub := parInv_pub hc htot hinv
  have hlev : ∀ k, k ≤ T.max_dist → k % tot = me →
      LevelOk G srt T s0 data0 k c.mem (stageOf k pc) :=
    fun k hk hkm => hinv.levels k hk pc (by rw [hkm]; exact hpc)
  cases pc with
  | level n =>
    obtain ⟨hnm, hnb⟩ := hown
    by_cases hn : n ≤ T.max_dist
    · have h0 := hlev n hn hnm
      rw [stageOf_level] at h0
      simp only [Nat.lt_irrefl, decide_False] at h0
      obtain ⟨l, hs, hl⟩ := own_level tot hc hn h0 (hpub n (by omega))
      obtain ⟨s, hseq, _⟩ := hl
      obtain ⟨_, htodo⟩ := seqAt_todo hc hseq
      refine ⟨_, _, hs, Or.inr ?_⟩
      simp only [wMeasure]
      have e1 : T.max_dist + 2 - n = (T.max_dist + 1 - n) + 1 := by omega
      have e2 := Nat.mul_le_mul_right (maxDeg G + 6) htodo
      rw [e1, Nat.add_mul, Nat.one_mul]
      omega
    · refine ⟨_, _, workerStep_level_exit (by rw [hwM]; omega), Or.inr ?_⟩
      simp only [wMeasure]
      omega
  | todo n l =>
    obtain ⟨hnm, hn⟩ := hown
    have h0 := hlev n hn hnm
    simp only [stageOf, if_true] at h0
    obtain ⟨s, hseq, _, _, w, hw, _⟩ := h0
    obtain ⟨htodo, _⟩ := seqAt_todo hc hseq
    by_cases ht0 : l.todo = 0
    · refine ⟨_, _, workerStep_todo_done ht0, Or.inr ?_⟩
      rw [wrap_of_lt (by omega)]
      simp only [wMeasure, ht0, Nat.zero_mul]
      have e1 : T.max_dist + 2 - (n + tot) ≤ T.max_dist + 1 - n := by omega
      have e2 := Nat.mul_le_mul_right (G.length * (maxDeg G + 6) + 4) e1
      omega
    · have hr : readAt c.mem.write_offset n = .ok w := readAt_eq hw
      by_cases hs : l.start = w
      · refine ⟨.todo n l, c.mem, ?_, Or.inl ⟨rfl, rfl, Or.inr ⟨n, l, rfl, ht0, ?_⟩⟩⟩
        · rw [workerStep_todo ht0, hr, bind_ok]
          simp only [hs, if_true]
          rfl
        · rw [hs]; exact hw
      · refine ⟨.inner n w l, c.mem, ?_, Or.inr ?_⟩
        · rw [workerStep_todo ht0, hr, bind_ok]
          simp only [hs, if_false]
          rfl
        · simp only [wMeasure, hs, if_false]
          omega
  | inner n cend l =>
    obtain ⟨hnm, hn⟩ := hown
    have h0 := hlev n hn hnm
    simp only [stageOf, if_true] at h0
    rcases own_inner tot hc hinv.perm_len h0 (hpub n (by omega)) with
      ⟨hs, hl⟩ | ⟨rest, hs, hl⟩
    · refine ⟨_, _, hs, Or.inr ?_⟩
      by_cases hd : l.start = cend
      · simp only [wMeasure, hd, if_true]
        omega
      · rw [workerStep_inner hd] at hs
        obtain ⟨_, _, hs⟩ := bind_eq_ok hs
        cases hs
    · refine ⟨_, _, hs, Or.inr ?_⟩
      obtain ⟨s, s1, pre, next, hseq, hlt, hltc, _, _, hedges, _⟩ := hl
      obtain ⟨htodo, _⟩ := seqAt_todo hc hseq
      simp only at htodo
      have hd : ¬ l.start = cend := by omega
      have hlen : rest.length ≤ maxDeg G := by
        have := length_edges_le G next
        rw [hedges, List.length_append] at this
        omega
      simp only [wMeasure, hd, if_false]
      have e1 : l.todo = (l.todo - 1) + 1 := by omega
      have e2 : l.todo * (maxDeg G + 6) = (l.todo - 1) * (maxDeg G + 6) + (maxDeg G + 6) := by
        conv_lhs => rw [e1]
        rw [Nat.add_mul, Nat.one_mul]
      omega
  | scan n cend l tw rest =>
    obtain ⟨hnm, hn⟩ := hown
    have h0 := hlev n hn hnm
    simp only [stageOf, if_true] at h0
    cases rest with
    | nil =>
      obtain ⟨S', hs, _⟩ := own_sort tot hc hinv.perm_len h0
      refine ⟨_, _, hs, Or.inr ?_⟩
      simp only [wMeasure, List.length_nil]
      omega
    | cons dst rest =>
      obtain ⟨S', t', hs, _⟩ := own_scan tot hc hn hinv.perm_len hinv.dist_eq h0
      refine ⟨_, _, hs, Or.inr ?_⟩
      simp only [wMeasure, List.length_cons]
      omega
  | sorted n cend l =>
    obtain ⟨hnm, hn⟩ := hown
    have h0 := hlev n hn hnm
    simp only [stageOf, if_true] at h0
    obtain ⟨S', hs, _⟩ := own_publish tot hc hn hinv.wo_len h0
    refine ⟨_, _, hs, Or.inr ?_⟩
    simp only [wMeasure]
    split <;> omega
  | exit =>
    exact ⟨.exit, c.mem, workerStep_exit, Or.inl ⟨rfl, rfl, Or.inl rfl⟩⟩

end progress

section returns

variable {G : Graph} {source : Nat} {data0 : NodeData} {srt : List Nat → List Nat}
  {T : Tables} {s0 p : PlaceState} {tot : Nat}

/-- A step of the workers changes nothing (a busy-wait that finds nothing published, or a
worker that has returned) or lowers the bound. -/
theorem par_step_measure (hc : SeqCtx G srt source data0 T s0 p) (htot : 0 < tot)
    (hM : T.max_dist + tot < UINT_MOD) {c c' : ParState}
    (hinv : ParInv G srt source data0 T s0 tot c) (hstep : ParStep G srt T tot c c') :
    c' = c ∨ parMeasure G T c' < parMeasure G T c := by
  cases hstep with
  | step me pc pc1 s1 hpc hw =>
    obtain ⟨pc', S', hs, h⟩ := worker_step_ok hc htot hM hinv hpc
    rw [hs] at hw
    simp only [Except.ok.injEq, Prod.mk.injEq] at hw
    obtain ⟨e1, e2⟩ := hw
    subst e1
    subst e2
    rcases h with ⟨e1, e2, _⟩ | h
    · left
      rw [e1, e2, set_same hpc]
    · right
      have := sum_map_set (wMeasure G T) c.pcs me pc pc' hpc
      simp only [parMeasure]
      omega

theorem wlevel_none {pc : WPc} (h : wlevel pc = none) : pc = .exit := by
  cases pc <;> simp only [wlevel] at h <;> first | rfl | cases h

theorem stageOf_passed {k n : Nat} {pc : WPc} (h : wlevel pc = some n) (hk : k < n) :
    stageOf k pc = .idle true := by
  have hne : ¬ n = k := by omega
  cases pc <;> simp only [wlevel, Option.some.injEq] at h <;>
    first
    | (subst h; simp only [stageOf, hne, if_false, hk, decide_True])
    | cases h

/-- Among the workers that have not returned, one stands in the lowest level. -/
theorem lowest_worker {c : ParState} :
    ∀ n : Nat, (∃ (me : Nat) (pc : WPc), c.pcs[me]? = some pc ∧ wlevel pc = some n) →
      ∃ (n' me : Nat) (pc : WPc), c.pcs[me]? = some pc ∧ wlevel pc = some n' ∧
        ∀ (me2 : Nat) (pc2 : WPc) (n2 : Nat),
          c.pcs[me2]? = some pc2 → wlevel pc2 = some n2 → n' ≤ n2 := by
  intro n
  induction n using Nat.strong_induction_on with
  | _ n ih =>
    rintro ⟨me, pc, hpc, hl⟩
    by_cases h : ∃ (me2 : Nat) (pc2 : WPc) (n2 : Nat),
        c.pcs[me2]? = some pc2 ∧ wlevel pc2 = some n2 ∧ n2 < n
    · obtain ⟨me2, pc2, n2, h1, h2, h3⟩ := h
      exact ih n2 h3 ⟨me2, pc2, h1, h2⟩
    · refine ⟨n, me, pc, hpc, hl, fun me2 pc2 n2 h1 h2 => ?_⟩
      by_contra hlt
      exact h ⟨me2, pc2, n2, h1, h2, by omega⟩

/-- While some worker has not returned, some worker can take a step that lowers the
bound: the workers cannot all wait for each other. -/
theorem par_progress (hc : SeqCtx G srt source data0 T s0 p) (htot : 0 < tot)
    (hM : T.max_dist + tot < UINT_MOD) {c : ParState}
    (hinv : ParInv G srt source data0 T s0 tot c) (hnf : ¬ ParFinal c) :
    ∃ c', ParStep G srt T tot c c' ∧ parMeasure G T c' < parMeasure G T c := by
  have hL := hc.lev
  have hT := hc.tab
  have hone := cntLt_one hL
  have hex : ∃ (n me : Nat) (pc : WPc), c.pcs[me]? = some pc ∧ wlevel pc = some n := by
    by_contra hcon
    apply hnf
    intro pc hmem
    obtain ⟨i, hi, rfl⟩ := List.getElem_of_mem hmem
    cases hl : wlevel c.pcs[i] with
    | none => exact wlevel_none hl
    | some n => exact absurd ⟨n, i, _, List.getElem?_eq_getElem hi, hl⟩ hcon
  obtain ⟨n0, hex⟩ := hex
  obtain ⟨n, me, pc, hpc, hl, hmin⟩ := lowest_worker n0 hex
  obtain ⟨pc', S', hs, h⟩ := worker_step_ok hc htot hM hinv hpc
  have hstep : ParStep G srt T tot c { pcs := c.pcs.set me pc', mem := S' } :=
    ParStep.step c me pc pc' S' hpc hs
  rcases h with ⟨_, _, h⟩ | h
  · exfalso
    rcases h with rfl | ⟨n', l, rfl, ht0, hwo⟩
    · simp only [wlevel] at hl
      cases hl
    · simp only [wlevel, Option.some.injEq] at hl
      subst hl
      obtain ⟨hnm, hn⟩ := hinv.owned me _ hpc
      have h0 := hinv.levels n' hn _ (by rw [hnm]; exact hpc)
      simp only [stageOf, if_true] at h0
      obtain ⟨s, hseq, _⟩ := h0
      obtain ⟨htodo, _⟩ := seqAt_todo hc hseq
      cases n' with
      | zero =>
        rw [hinv.wo_zero] at hwo
        simp only [Option.some.injEq] at hwo
        simp only [Nat.zero_add] at htodo
        omega
      | succ m =>
        have hlt : m % tot < c.pcs.length := by rw [hinv.pcs_len]; exact Nat.mod_lt _ htot
        have hq := List.getElem?_eq_getElem hlt
        have hst : stageOf m c.pcs[m % tot] = .idle true := by
          cases hlq : wlevel c.pcs[m % tot] with
          | none => rw [wlevel_none hlq]; rfl
          | some n2 =>
            have := hmin _ _ n2 hq hlq
            exact stageOf_passed hlq (by omega)
        have h1 := hinv.levels m (by omega) _ hq
        rw [hst] at h1
        obtain ⟨l', s', hseq', hstart, hwo', _⟩ := h1
        simp only [if_true] at hstart
        have hmid := (seqAt_mid hL hc.sorts hT hc.init hseq').2
        have hcore := hmid.core
        rw [hstart] at hcore
        obtain ⟨h5, _⟩ := core_next_level hL hcore
        rw [hwo'] at hwo
        simp only [Option.some.injEq] at hwo
        have e : m + 1 + 1 = m + 2 := rfl
        rw [e] at htodo
        omega
  · refine ⟨_, hstep, ?_⟩
    have := sum_map_set (wMeasure G T) c.pcs me pc pc' hpc
    simp only [parMeasure]
    omega

/-- From every state they reach, the workers can all return. -/
theorem par_returns (hc : SeqCtx G srt source data0 T s0 p) (htot : 0 < tot)
    (hM : T.max_dist + tot < UINT_MOD) :
    ∀ (m : Nat) (c : ParState), parMeasure G T c ≤ m →
      ParInv G srt source data0 T s0 tot c →
      ∃ c', ParReach G srt T tot c c' ∧ ParFinal c' := by
  intro m
  induction m with
  | zero =>
    intro c hm hinv
    by_cases hf : ParFinal c
    · exact ⟨c, parReach_refl c, hf⟩
    · obtain ⟨c', _, hlt⟩ := par_progress hc htot hM hinv hf
      omega
  | succ m ih =>
    intro c hm hinv
    by_cases hf : ParFinal c
    · exact ⟨c, parReach_refl c, hf⟩
    · obtain ⟨c', hstep, hlt⟩ := par_progress hc htot hM hinv hf
      obtain ⟨c'', hr, hfin⟩ := ih c' (by omega) (parInv_step hc htot hM hinv hstep)
      exact ⟨c'', Relation.ReflTransGen.head hstep hr, hfin⟩

end returns

/-! ## Every graph, every number of workers -/

section general

variable {G : Graph} {source : Nat} {data0 : NodeData}

theorem countP_lt_of {p q : Nat → Bool} :
    ∀ (l : List Nat), l.Nodup → ∀ x, x ∈ l → p x = false → q x = true →
      (∀ y, p y = true → q y = true) → l.countP p < l.countP q := by
  intro l
  induction l with
  | nil => intro _ x hx; cases hx
  | cons a l ih =>
    intro hnd x hx hp hq hpq
    obtain ⟨ha, hl⟩ := List.nodup_cons.mp hnd
    have hmono : l.countP p ≤ l.countP q :=
      List.countP_mono_left (fun y _ h => hpq y h)
    rcases List.mem_cons.mp hx with rfl | hx'
    · rw [List.countP_cons_of_neg _ _ (by rw [hp]; simp), List.countP_cons_of_pos _ _ hq]
      omega
    · have := ih hl x hx' hp hq hpq
      by_cases hpa : p a = true
      · rw [List.countP_cons_of_pos _ _ hpa, List.countP_cons_of_pos _ _ (hpq a hpa)]
        omega
      · rw [List.countP_cons_of_neg _ _ hpa]
        by_cases hqa : q a = true
        · rw [List.countP_cons_of_pos _ _ hqa]; omega
        · rw [List.countP_cons_of_neg _ _ hqa]; exact this

theorem doneCnt_le {data : NodeData} (hd : ∀ v, (data v).dist = (data0 v).dist) (k : Nat) :
    doneCnt G data k ≤ cntEq G data0 k := by
  unfold doneCnt cntEq
  apply List.countP_mono_left
  intro v _ h
  simp only [Bool.and_eq_true, decide_eq_true_eq] at h ⊢
  rw [← hd v]; exact h.1

theorem doneCnt_mono {data data' : NodeData}
    (hd : ∀ v, (data' v).dist = (data v).dist)
    (hm : ∀ v, (data v).done = true → (data' v).done = true) (k : Nat) :
    doneCnt G data k ≤ doneCnt G data' k := by
  unfold doneCnt
  apply List.countP_mono_left
  intro v _ h
  simp only [Bool.and_eq_true, decide_eq_true_eq] at h ⊢
  exact ⟨by rw [hd v]; exact h.1, hm v h.2⟩

theorem doneCnt_hit {data : NodeData} {dst k : Nat} (hdst : dst < G.length)
    (hk : (data dst).dist = k) (hf : (data dst).done = false) :
    doneCnt G data k < doneCnt G (setDone data dst) k := by
  unfold doneCnt
  refine countP_lt_of _ (List.nodup_range _) dst (List.mem_range.mpr hdst) ?_ ?_ ?_
  · simp only [hf, Bool.and_false]
  · simp only [setDone_dist, setDone_done, hk, decide_True, if_true, Bool.and_self]
  · intro y hy
    simp only [Bool.and_eq_true, decide_eq_true_eq, setDone_dist, setDone_done] at hy ⊢
    refine ⟨hy.1, ?_⟩
    by_cases hyd : y = dst
    · simp only [hyd, if_true]
    · simp only [hyd, if_false]; exact hy.2

theorem localOk_mono {M : Nat} {S S' : PlaceState} {pc : WPc}
    (hm : ∀ k, doneCnt G S.data k ≤ doneCnt G S'.data k)
    (h : LocalOk G data0 M S pc) : LocalOk G data0 M S' pc := by
  cases pc with
  | level n => trivial
  | todo n l =>
    obtain ⟨h1, h2, h3⟩ := h
    have := hm (n + 1)
    exact ⟨h1, h2, by omega⟩
  | inner n cend l =>
    obtain ⟨h1, h2, h3⟩ := h
    have := hm (n + 1)
    exact ⟨h1, h2, by omega⟩
  | scan n cend l tw rest =>
    obtain ⟨h1, h2, h3, h4, h5⟩ := h
    have := hm (n + 1)
    exact ⟨h1, h2, h3, by omega, h5⟩
  | sorted n cend l =>
    obtain ⟨h1, h2, h3⟩ := h
    have := hm (n + 1)
    exact ⟨h1, h2, by omega⟩
  | exit => trivial

/-- Putting the invariant together after a step of a worker. -/
theorem genInv_update {M : Nat} {c : ParState} (hinv : GenInv G source data0 M c)
    {me : Nat} {pc' : WPc} {S' : PlaceState}
    (hlen : S'.perm.length = G.length) (hwl : S'.write_offset.length = M + 2)
    (hdist : ∀ v, (S'.data v).dist = (c.mem.data v).dist)
    (hmono : ∀ v, (c.mem.data v).done = true → (S'.data v).done = true)
    (hfirst : S'.perm[0]? = some source) (hzero : S'.write_offset[0]? = some 1)
    (hcur : ∀ k w, 1 ≤ k → S'.write_offset[k]? = some w →
      c.mem.write_offset[k]? = some w ∨
        (1 ≤ w ∧ w ≤ cntLt G data0 k + doneCnt G S'.data k))
    (hloc : LocalOk G data0 M S' pc') :
    GenInv G source data0 M { pcs := c.pcs.set me pc', mem := S' } := by
  have hm : ∀ k, doneCnt G c.mem.data k ≤ doneCnt G S'.data k :=
    fun k => doneCnt_mono hdist hmono k
  refine ⟨hlen, hwl, fun v => by rw [hdist v]; exact hinv.dist_eq v, hfirst, hzero, ?_, ?_⟩
  · intro k w hk hw
    rcases hcur k w hk hw with h | h
    · obtain ⟨h1, h2⟩ := hinv.cursors k w hk h
      have := hm k
      exact ⟨h1, by simp only; omega⟩
    · exact h
  · intro pc hpc
    simp only at hpc
    rcases List.mem_or_eq_of_mem_set hpc with h | h
    · exact localOk_mono hm (hinv.locals pc h)
    · rw [h]; exact hloc

/-- A step of any worker keeps the invariant of all graphs. -/
theorem genInv_step (hwf : WF G) (hsize : G.length < UINT_MOD)
    {srt : List Nat → List Nat} (hsrt : ∀ l, (srt l).Perm l) {T : Tables}
    (hM : T.max_dist + 1 < UINT_MOD) {tot : Nat} {c c' : ParState}
    (hinv : GenInv G source data0 T.max_dist c) (hstep : ParStep G srt T tot c c') :
    GenInv G source data0 T.max_dist c' := by
  have hwM : wrap (T.max_dist + 1) = T.max_dist + 1 := wrap_of_lt hM
  cases hstep with
  | step me pc pc1 s1 hpc hw =>
    have hmem : pc ∈ c.pcs := by
      have hlt : me < c.pcs.length := by
        by_contra h
        rw [List.getElem?_eq_none (by omega)] at hpc
        cases hpc
      rw [List.getElem?_eq_getElem hlt, Option.some.injEq] at hpc
      rw [← hpc]
      exact List.getElem_mem hlt
    have hloc := hinv.locals pc hmem
    have hsame : ∀ pc', LocalOk G data0 T.max_dist c.mem pc' →
        GenInv G source data0 T.max_dist { pcs := c.pcs.set me pc', mem := c.mem } :=
      fun pc' h => genInv_update hinv hinv.perm_len hinv.wo_len (fun _ => rfl)
        (fun _ h => h) hinv.first hinv.wo_zero (fun _ _ _ h => Or.inl h) h
    cases pc with
    | level n =>
      by_cases hlt : n < wrap (T.max_dist + 1)
      · rw [workerStep_level hlt] at hw
        obtain ⟨start, _, hw⟩ := bind_eq_ok hw
        obtain ⟨t_wo, h2, hw⟩ := bind_eq_ok hw
        obtain ⟨todo, _, hw⟩ := bind_eq_ok hw
        simp only [pure, Except.pure, Except.ok.injEq, Prod.mk.injEq] at hw
        obtain ⟨e1, e2⟩ := hw
        subst e1
        subst e2
        rw [hwM] at hlt
        have hw1 : wrap (n + 1) = n + 1 := wrap_of_lt (by omega)
        rw [hw1] at h2
        obtain ⟨h3, h4⟩ := hinv.cursors (n + 1) t_wo (by omega) (readAt_ok h2)
        exact hsame _ ⟨by omega, h3, h4⟩
      · rw [workerStep_level_exit hlt] at hw
        simp only [Except.ok.injEq, Prod.mk.injEq] at hw
        obtain ⟨e1, e2⟩ := hw
        subst e1
        subst e2
        exact hsame _ trivial
    | todo n l =>
      by_cases hd : l.todo = 0
      · rw [workerStep_todo_done hd] at hw
        simp only [Except.ok.injEq, Prod.mk.injEq] at hw
        obtain ⟨e1, e2⟩ := hw
        subst e1
        subst e2
        exact hsame _ trivial
      · rw [workerStep_todo hd] at hw
        obtain ⟨cend, _, hw⟩ := bind_eq_ok hw
        by_cases hsp : l.start = cend
        · rw [if_pos hsp] at hw
          simp only [pure, Except.pure, Except.ok.injEq, Prod.mk.injEq] at hw
          obtain ⟨e1, e2⟩ := hw
          subst e1
          subst e2
          exact hsame _ hloc
        · rw [if_neg hsp] at hw
          simp only [pure, Except.pure, Except.ok.injEq, Prod.mk.injEq] at hw
          obtain ⟨e1, e2⟩ := hw
          subst e1
          subst e2
          exact hsame _ hloc
    | inner n cend l =>
      by_cases hd : l.start = cend
      · rw [workerStep_inner_done hd] at hw
        simp only [Except.ok.injEq, Prod.mk.injEq] at hw
        obtain ⟨e1, e2⟩ := hw
        subst e1
        subst e2
        exact hsame _ hloc
      · rw [workerStep_inner hd] at hw
        obtain ⟨next, _, hw⟩ := bind_eq_ok hw
        simp only [pure, Except.pure, Except.ok.injEq, Prod.mk.injEq] at hw
        obtain ⟨e1, e2⟩ := hw
        subst e1
        subst e2
        obtain ⟨h1, h2, h3⟩ := hloc
        exact hsame _ ⟨h1, h2, Nat.le_refl _, h3, fun d hd => edges_lt hwf hd⟩
    | scan n cend l tw rest =>
      obtain ⟨h1, h2, h3, h4, h5⟩ := hloc
      have hw1 : wrap (n + 1) = n + 1 := wrap_of_lt (by omega)
      cases rest with
      | nil =>
        rw [workerStep_sort] at hw
        simp only [Except.ok.injEq, Prod.mk.injEq] at hw
        obtain ⟨e1, e2⟩ := hw
        subst e1
        subst e2
        have hb : l.t_wo ≤ c.mem.perm.length := by
          have e1 := doneCnt_le (G := G) hinv.dist_eq (n + 1)
          have e2 := cntLt_succ G data0 (n + 1)
          have e3 := cntLt_le G data0 (n + 1 + 1)
          rw [hinv.perm_len]
          omega
        refine genInv_update hinv ?_ hinv.wo_len (fun _ => rfl) (fun _ h => h) ?_
          hinv.wo_zero (fun _ _ _ h => Or.inl h) ⟨h1, by omega, h4⟩
        · simp only
          rw [length_sortSlice hsrt h3 hb]
          exact hinv.perm_len
        · simp only
          rw [sortSlice_getElem?_lt (by omega) (by omega)]
          exact hinv.first
      | cons dst rest =>
        rw [workerStep_scan] at hw
        obtain ⟨⟨S', t'⟩, hr, hw⟩ := bind_eq_ok hw
        simp only [pure, Except.pure, Except.ok.injEq, Prod.mk.injEq] at hw
        obtain ⟨e1, e2⟩ := hw
        subst e1
        subst e2
        have hrest : ∀ d ∈ rest, d < G.length :=
          fun d hd => h5 d (List.mem_cons_of_mem _ hd)
        rcases scanEdge_cases hr with ⟨e1, e2⟩ | ⟨f1, f2, f3, f4, f5⟩
        · subst e1
          subst e2
          exact hsame _ ⟨h1, h2, h3, h4, hrest⟩
        · have hwt : wrap (l.t_wo + 1) = l.t_wo + 1 := by
            apply wrap_of_lt
            rw [hinv.perm_len] at f3
            omega
          rw [hwt] at f4
          subst f4
          subst f5
          rw [hw1] at f2
          have hdd : (c.mem.data dst).dist = n + 1 := f2
          have hhit := doneCnt_hit (G := G) (h5 dst (List.mem_cons_self _ _)) hdd f1
          refine genInv_update hinv (by simp only [List.length_set]; exact hinv.perm_len)
            hinv.wo_len (fun v => by simp only [setDone_dist]) ?_ ?_ hinv.wo_zero
            (fun _ _ _ h => Or.inl h) ⟨h1, h2, by simp only; omega, by simp only; omega, hrest⟩
          · intro v hv
            simp only [setDone_done]
            by_cases hvd : v = dst
            · simp only [hvd, if_true]
            · simp only [hvd, if_false]; exact hv
          · simp only
            rw [List.getElem?_set_ne (by omega)]
            exact hinv.first
    | sorted n cend l =>
      obtain ⟨h1, h2, h3⟩ := hloc
      have hw1 : wrap (n + 1) = n + 1 := wrap_of_lt (by omega)
      rw [workerStep_publish] at hw
      obtain ⟨wo, hwo, hw⟩ := bind_eq_ok hw
      obtain ⟨hi, e0⟩ := writeAt_ok hwo
      subst e0
      simp only [pure, Except.pure, Except.ok.injEq, Prod.mk.injEq] at hw
      obtain ⟨e1, e2⟩ := hw
      subst e1
      subst e2
      rw [hw1] at hi
      refine genInv_update hinv hinv.perm_len (by simp only [List.length_set]; exact hinv.wo_len)
        (fun _ => rfl) (fun _ h => h) hinv.first ?_ ?_ ⟨h1, h2, h3⟩
      · simp only [hw1]
        rw [List.getElem?_set_ne (by omega)]
        exact hinv.wo_zero
      · intro k w hk hkw
        simp only [hw1] at hkw
        by_cases hkn : k = n + 1
        · subst hkn
          rw [List.getElem?_set_self hi] at hkw
          cases hkw
          exact Or.inr ⟨h2, h3⟩
        · rw [List.getElem?_set_ne (fun e => hkn e.symm)] at hkw
          exact Or.inl hkw
    | exit =>
      rw [workerStep_exit] at hw
      simp only [Except.ok.injEq, Prod.mk.injEq] at hw
      obtain ⟨e1, e2⟩ := hw
      subst e1
      subst e2
      exact hsame _ trivial

theorem genInv_reach (hwf : WF G) (hsize : G.length < UINT_MOD)
    {srt : List Nat → List Nat} (hsrt : ∀ l, (srt l).Perm l) {T : Tables}
    (hM : T.max_dist + 1 < UINT_MOD) {tot : Nat} {c c' : ParState}
    (hinv : GenInv G source data0 T.max_dist c) (h : ParReach G srt T tot c c') :
    GenInv G source data0 T.max_dist c' := by
  induction h with
  | refl => exact hinv
  | tail _ hstep ih => exact genInv_step hwf hsize hsrt hM ih hstep

/-- The invariant of all graphs holds when the workers start. -/
theorem genInv_init (hs : source < G.length) (hsrc : (data0 source).dist = 0)
    {T : Tables} (hT : TablesOk G data0 T) {perm0 : List Nat}
    (hperm0 : perm0.length = G.length) (tot : Nat) :
    GenInv G source data0 T.max_dist (parInit tot
      { data := data0, perm := perm0.set 0 source, write_offset := T.write_offset.set 0 1 }) := by
  have hwlen : T.write_offset.length = T.max_dist + 2 := by
    rw [hT.write_offset, hT.read_offset_len]
  have hpos : 1 ≤ cntLt G data0 1 := by
    have h1 : 0 < cntEq G data0 (data0 source).dist := cntEq_pos hs
    rw [hsrc] at h1
    have h2 := cntLt_succ G data0 0
    simp only [Nat.zero_add] at h2
    omega
  refine ⟨by simp only [parInit, List.length_set]; exact hperm0,
    by simp only [parInit, List.length_set]; exact hwlen, fun _ => rfl, ?_, ?_, ?_, ?_⟩
  · simp only [parInit]
    rw [List.getElem?_set_self (by omega)]
  · simp only [parInit]
    rw [List.getElem?_set_self (by omega)]
  · intro k w hk hw
    simp only [parInit] at hw
    rw [List.getElem?_set_ne (by omega), hT.write_offset] at hw
    have hk2 : k ≤ T.max_dist + 1 := by
      have := lt_length_of_getElem? hw
      rw [hT.read_offset_len] at this
      omega
    rw [hT.read_offset k hk2] at hw
    cases hw
    have := cntLt_mono G data0 hk
    exact ⟨by omega, by simp only [parInit]; omega⟩
  · intro pc hpc
    simp only [parInit, List.mem_map] at hpc
    obtain ⟨a, _, rfl⟩ := hpc
    trivial

/-- No write cursor leaves the slots of its level. -/
theorem genInv_bound {M : Nat} {c : ParState} (hs : source < G.length)
    (hsrc : (data0 source).dist = 0) (hinv : GenInv G source data0 M c) {n : Nat}
    (hn : n ≤ M) :
    c.mem.write_offset.getD n 0 ≤ cntLt G data0 n + cntEq G data0 n := by
  rw [List.getD_eq_getElem?_getD]
  by_cases h0 : n = 0
  · subst h0
    simp only [hinv.wo_zero, Option.getD_some]
    have : 0 < cntEq G data0 (data0 source).dist := cntEq_pos hs
    rw [hsrc] at this
    omega
  · have hlt : n < c.mem.write_offset.length := by rw [hinv.wo_len]; omega
    rw [List.getElem?_eq_getElem hlt]
    simp only [Option.getD_some]
    have h1 := (hinv.cursors n _ (by omega) (List.getElem?_eq_getElem hlt)).2
    have h2 := doneCnt_le (G := G) hinv.dist_eq n
    omega

end general

/-! ## The marks and the cursors in every state of the workers -/

section marks

variable {G : Graph} {source : Nat} {data0 : NodeData} {srt : List Nat → List Nat}
  {T : Tables} {s0 p : PlaceState} {tot : Nat}

/-- Each level, at every stage, is in a state of the invariant of the single worker. -/
theorem levelOk_core (hc : SeqCtx G srt source data0 T s0 p) {k : Nat} {S : PlaceState}
    {st : Stage} (h : LevelOk G srt T s0 data0 k S st) :
    ∃ s' start, Core G data0 k start (stageCursor k S st) s' ∧
      Agree G data0 k (stageCursor k S st) S s' ∧
      S.write_offset.getD (k + 1) 0 ≤ stageCursor k S st := by
  have hL := hc.lev
  have hT := hc.tab
  have hMlt := hL.max_lt hT
  have hsz := hL.size
  have hq : ∀ {l : Locals} {s : PlaceState}, SeqAt G srt T s0 k l s →
      S.write_offset[k + 1]? = some l.t_wo → Agree G data0 k l.t_wo S s →
      S.write_offset.getD (k + 1) 0 = l.t_wo ∧ Core G data0 k l.start l.t_wo s := by
    intro l s h1 h3 h4
    refine ⟨by rw [List.getD_eq_getElem?_getD, h3]; rfl,
      (seqAt_mid hL hc.sorts hT hc.init h1).2.core⟩
  cases st with
  | idle fin =>
    obtain ⟨l, s, h1, _, h3, h4⟩ := h
    obtain ⟨e, hcore⟩ := hq h1 h3 h4
    simp only [stageCursor, e]
    exact ⟨s, _, hcore, h4, Nat.le_refl _⟩
  | todo l =>
    obtain ⟨s, h1, h3, h4, _⟩ := h
    obtain ⟨e, hcore⟩ := hq h1 h3 h4
    simp only [stageCursor, e]
    exact ⟨s, _, hcore, h4, Nat.le_refl _⟩
  | inner cend l =>
    obtain ⟨s, h1, h3, h4, _⟩ := h
    obtain ⟨e, hcore⟩ := hq h1 h3 h4
    simp only [stageCursor, e]
    exact ⟨s, _, hcore, h4, Nat.le_refl _⟩
  | scan cend l tw rest =>
    obtain ⟨s, s1, pre, next, h1, h2, _, _, h6, h7, h8, h9, h10, _, h12⟩ := h
    obtain ⟨hk, hmid⟩ := seqAt_mid hL hc.sorts hT hc.init h1
    obtain ⟨cut, hcuts, hcut⟩ := hmid.cuts
    have hprog0 : Prog G l.start tw tw next s.perm :=
      ⟨Nat.le_refl _, fun j a h1 h2 => by omega⟩
    obtain ⟨s', t', hs', hcore', _⟩ :=
      scanEdges_inv hL (by omega : k + 1 < UINT_MOD) hcut hmid.core.base_le h2 pre s tw
        (fun e he => by rw [h7]; exact List.mem_append_left _ he) hmid.core hcuts hprog0 h6
    rw [h8] at hs'
    simp only [Except.ok.injEq, Prod.mk.injEq] at hs'
    obtain ⟨e1, e2⟩ := hs'
    subst e1
    subst e2
    simp only [stageCursor]
    refine ⟨s1, _, hcore', h12, ?_⟩
    rw [List.getD_eq_getElem?_getD, h9]
    exact h10
  | sorted cend l =>
    obtain ⟨s, s1, tw, h1, h2, _, _, h6, h9, h10, _, h12⟩ := h
    obtain ⟨s', tf, hcons, hseq'⟩ := seq_consume hL hc.sorts hT hc.init h1 h2
    simp only at hcons
    rw [h6] at hcons
    simp only [Except.ok.injEq, Prod.mk.injEq] at hcons
    obtain ⟨e1, e2⟩ := hcons
    subst e1
    subst e2
    simp only [stageCursor]
    refine ⟨s1, _, (seqAt_mid hL hc.sorts hT hc.init hseq').2.core, h12, ?_⟩
    rw [List.getD_eq_getElem?_getD, h9]
    exact h10

theorem stageCursor_written {c : ParState} {k i j : Nat} {pc : WPc}
    (hpc : c.pcs[i]? = some pc) (hj : j < stageCursor k c.mem (stageOf k pc)) :
    j < c.mem.write_offset.getD (k + 1) 0 ∨
      ∃ q t, q ∈ c.pcs ∧ wcursor q = some (k + 1, t) ∧ j < t := by
  have hmem : pc ∈ c.pcs := by
    have hlt : i < c.pcs.length := by
      by_contra h
      rw [List.getElem?_eq_none (by omega)] at hpc
      cases hpc
    rw [List.getElem?_eq_getElem hlt, Option.some.injEq] at hpc
    rw [← hpc]
    exact List.getElem_mem hlt
  cases pc with
  | level n => exact Or.inl hj
  | exit => exact Or.inl hj
  | todo n l =>
    by_cases hn : n = k
    · subst hn
      simp only [stageOf, if_true, stageCursor] at hj
      exact Or.inr ⟨_, l.t_wo, hmem, rfl, hj⟩
    · simp only [stageOf, hn, if_false, stageCursor] at hj
      exact Or.inl hj
  | inner n cend l =>
    by_cases hn : n = k
    · subst hn
      simp only [stageOf, if_true, stageCursor] at hj
      exact Or.inr ⟨_, l.t_wo, hmem, rfl, hj⟩
    · simp only [stageOf, hn, if_false, stageCursor] at hj
      exact Or.inl hj
  | scan n cend l tw rest =>
    by_cases hn : n = k
    · subst hn
      simp only [stageOf, if_true, stageCursor] at hj
      exact Or.inr ⟨_, l.t_wo, hmem, rfl, hj⟩
    · simp only [stageOf, hn, if_false, stageCursor] at hj
      exact Or.inl hj
  | sorted n cend l =>
    by_cases hn : n = k
    · subst hn
      simp only [stageOf, if_true, stageCursor] at hj
      exact Or.inr ⟨_, l.t_wo, hmem, rfl, hj⟩
    · simp only [stageOf, hn, if_false, stageCursor] at hj
      exact Or.inl hj

theorem wcursor_stage {k t : Nat} {pc : WPc} (h : wcursor pc = some (k + 1, t)) :
    wlevel pc = some k ∧ ∀ S, stageCursor k S (stageOf k pc) = t := by
  cases pc with
  | level n => cases h
  | exit => cases h
  | todo n l =>
    simp only [wcursor, Option.some.injEq, Prod.mk.injEq] at h
    obtain ⟨e1, e2⟩ := h
    have : n = k := by omega
    subst this
    exact ⟨rfl, fun S => by simp only [stageOf, if_true, stageCursor]; exact e2⟩
  | inner n cend l =>
    simp only [wcursor, Option.some.injEq, Prod.mk.injEq] at h
    obtain ⟨e1, e2⟩ := h
    have : n = k := by omega
    subst this
    exact ⟨rfl, fun S => by simp only [stageOf, if_true, stageCursor]; exact e2⟩
  | scan n cend l tw rest =>
    simp only [wcursor, Option.some.injEq, Prod.mk.injEq] at h
    obtain ⟨e1, e2⟩ := h
    have : n = k := by omega
    subst this
    exact ⟨rfl, fun S => by simp only [stageOf, if_true, stageCursor]; exact e2⟩
  | sorted n cend l =>
    simp only [wcursor, Option.some.injEq, Prod.mk.injEq] at h
    obtain ⟨e1, e2⟩ := h
    have : n = k := by omega
    subst this
    exact ⟨rfl, fun S => by simp only [stageOf, if_true, stageCursor]; exact e2⟩

theorem owned_level {M tot me k : Nat} {pc : WPc} (h : Owned M tot me pc)
    (hl : wlevel pc = some k) : k % tot = me ∧ k ≤ M + tot ∧ (pc ≠ .level k → k ≤ M) := by
  cases pc with
  | level n =>
    simp only [wlevel, Option.some.injEq] at hl
    subst hl
    exact ⟨h.1, h.2, fun hne => absurd rfl hne⟩
  | exit => cases hl
  | todo n l =>
    simp only [wlevel, Option.some.injEq] at hl
    subst hl
    exact ⟨h.1, by have := h.2; omega, fun _ => h.2⟩
  | inner n cend l =>
    simp only [wlevel, Option.some.injEq] at hl
    subst hl
    exact ⟨h.1, by have := h.2; omega, fun _ => h.2⟩
  | scan n cend l tw rest =>
    simp only [wlevel, Option.some.injEq] at hl
    subst hl
    exact ⟨h.1, by have := h.2; omega, fun _ => h.2⟩
  | sorted n cend l =>
    simp only [wlevel, Option.some.injEq] at hl
    subst hl
    exact ⟨h.1, by have := h.2; omega, fun _ => h.2⟩

/-- In every state of the workers a node other than the source is marked exactly when it
is in a written slot. -/
theorem par_done_iff (hc : SeqCtx G srt source data0 T s0 p) (htot : 0 < tot) {c : ParState}
    (hinv : ParInv G srt source data0 T s0 tot c) {v : Nat} (hv : v < G.length) :
    (c.mem.data v).done = true ↔
      v ≠ source ∧ ∃ j, ParWritten T c j ∧ c.mem.perm[j]? = some v := by
  have hL := hc.lev
  have hT := hc.tab
  have hMlt := hL.max_lt hT
  have hone := cntLt_one hL
  have howner : ∀ k, ∃ pc, c.pcs[k % tot]? = some pc := fun k =>
    ⟨_, List.getElem?_eq_getElem (by rw [hinv.pcs_len]; exact Nat.mod_lt _ htot)⟩
  constructor
  · intro hd
    have hne : v ≠ source := by
      rintro rfl
      rw [hinv.unmarked] at hd
      cases hd
    refine ⟨hne, ?_⟩
    have hd0 : (data0 v).dist ≠ 0 := fun h => hne ((hL.zero_iff v).mp h)
    have hle := hT.max_ge v hv
    obtain ⟨pc, hpc⟩ := howner ((data0 v).dist - 1)
    have hlev := hinv.levels ((data0 v).dist - 1) (by omega) pc hpc
    obtain ⟨s', start, hcore, hag, _⟩ := levelOk_core hc hlev
    have hk1 : (data0 v).dist = (data0 v).dist - 1 + 1 := by omega
    have hd' : (s'.data v).done = true := by rw [← hag.done v hv hk1]; exact hd
    obtain ⟨hmem, _⟩ := (core_done_iff hL hcore hv).mp hd'
    obtain ⟨j, hj, hjv⟩ := mem_take_iff.mp hmem
    have hjlo : cntLt G data0 ((data0 v).dist - 1 + 1) ≤ j := by
      by_contra hlt
      have hm : v ∈ s'.perm.take (cntLt G data0 ((data0 v).dist - 1 + 1)) :=
        mem_take_iff.mpr ⟨j, by omega, hjv⟩
      have := ((hcore.low _ (Nat.le_refl _) v).mp hm).2
      omega
    refine ⟨j, ⟨(data0 v).dist - 1 + 1, ?_, stageCursor_written hpc hj⟩, ?_⟩
    · rw [tables_getD hT (by omega)]; exact hjlo
    · rw [hag.perm j hjlo hj]; exact hjv
  · rintro ⟨hne, j, ⟨k', hlo, hw⟩, hjv⟩
    cases k' with
    | zero =>
      exfalso
      rcases hw with hw | ⟨q, t, _, hq, _⟩
      · rw [List.getD_eq_getElem?_getD, hinv.wo_zero] at hw
        simp only [Option.getD_some] at hw
        have : j = 0 := by omega
        subst this
        rw [hinv.first] at hjv
        cases hjv
        exact hne rfl
      · cases q with
        | level n => cases hq
        | exit => cases hq
        | todo n l => simp only [wcursor, Option.some.injEq, Prod.mk.injEq] at hq; omega
        | inner n cend l => simp only [wcursor, Option.some.injEq, Prod.mk.injEq] at hq; omega
        | scan n cend l tw rest =>
          simp only [wcursor, Option.some.injEq, Prod.mk.injEq] at hq; omega
        | sorted n cend l => simp only [wcursor, Option.some.injEq, Prod.mk.injEq] at hq; omega
    | succ k =>
      have hex : k ≤ T.max_dist ∧ ∃ pc, c.pcs[k % tot]? = some pc ∧
          j < stageCursor k c.mem (stageOf k pc) := by
        rcases hw with hw | ⟨q, t, hqm, hq, hjt⟩
        · have hk : k ≤ T.max_dist := by
            by_contra hcon
            rw [List.getD_eq_getElem?_getD,
              List.getElem?_eq_none (by rw [hinv.wo_len]; omega)] at hw
            simp at hw
          obtain ⟨pc, hpc⟩ := howner k
          obtain ⟨_, _, _, _, hle⟩ := levelOk_core hc (hinv.levels k hk pc hpc)
          exact ⟨hk, pc, hpc, by omega⟩
        · obtain ⟨hl, hst⟩ := wcursor_stage hq
          obtain ⟨i, hi, rfl⟩ := List.getElem_of_mem hqm
          have hown := hinv.owned i _ (List.getElem?_eq_getElem hi)
          obtain ⟨h1, _, h3⟩ := owned_level hown hl
          have hk : k ≤ T.max_dist := by
            apply h3
            intro hcon
            rw [hcon] at hq
            cases hq
          refine ⟨hk, _, by rw [h1]; exact List.getElem?_eq_getElem hi, ?_⟩
          rw [hst]; exact hjt
      obtain ⟨hk, pc, hpc, hjt⟩ := hex
      rw [tables_getD hT (by omega)] at hlo
      obtain ⟨s', start, hcore, hag, _⟩ := levelOk_core hc (hinv.levels k hk pc hpc)
      have hjv' : s'.perm[j]? = some v := by rw [← hag.perm j hlo hjt]; exact hjv
      have hmem : v ∈ s'.perm.take (stageCursor k c.mem (stageOf k pc)) :=
        mem_take_iff.mpr ⟨j, hjt, hjv'⟩
      rcases ((hcore.mem v).mp hmem).2 with hlow | ⟨hdk, hdn⟩
      · exfalso
        have hm2 : v ∈ s'.perm.take (cntLt G data0 (k + 1)) :=
          (hcore.low (k + 1) (Nat.le_refl _) v).mpr ⟨hv, by omega⟩
        obtain ⟨j', hj', hj'v⟩ := mem_take_iff.mp hm2
        have := take_index_unique hcore.nodup (by omega : j' < _) hjt hj'v hjv'
        omega
      · rw [hag.done v hv hdk]; exact hdn

end marks

section consumed2

variable {G : Graph} {source : Nat} {data0 : NodeData} {srt : List Nat → List Nat}
  {T : Tables} {s0 p : PlaceState} {tot : Nat}

/-- What a step of a worker does to the marks: nothing, or it marks the node it writes to
the slot `t_wo`, whose mark was not set. -/
theorem workerStep_data {pc pc' : WPc} {S S' : PlaceState}
    (h : workerStep G srt T tot (pc, S) = .ok (pc', S')) :
    S'.data = S.data ∨
      ∃ n cend l tw dst rest, pc = .scan n cend l tw (dst :: rest) ∧
        (S.data dst).done = false ∧ (S.data dst).dist = wrap (n + 1) ∧
        l.t_wo < S.perm.length ∧
        S' = { S with data := setDone S.data dst, perm := S.perm.set l.t_wo dst } := by
  cases pc with
  | level n =>
    left
    by_cases hlt : n < wrap (T.max_dist + 1)
    · rw [workerStep_level hlt] at h
      obtain ⟨_, _, h⟩ := bind_eq_ok h
      obtain ⟨_, _, h⟩ := bind_eq_ok h
      obtain ⟨_, _, h⟩ := bind_eq_ok h
      simp only [pure, Except.pure, Except.ok.injEq, Prod.mk.injEq] at h
      rw [← h.2]
    · rw [workerStep_level_exit hlt] at h
      simp only [Except.ok.injEq, Prod.mk.injEq] at h
      rw [← h.2]
  | todo n l =>
    left
    by_cases hd : l.todo = 0
    · rw [workerStep_todo_done hd] at h
      simp only [Except.ok.injEq, Prod.mk.injEq] at h
      rw [← h.2]
    · rw [workerStep_todo hd] at h
      obtain ⟨cend, _, h⟩ := bind_eq_ok h
      by_cases hsp : l.start = cend
      · rw [if_pos hsp] at h
        simp only [pure, Except.pure, Except.ok.injEq, Prod.mk.injEq] at h
        rw [← h.2]
      · rw [if_neg hsp] at h
        simp only [pure, Except.pure, Except.ok.injEq, Prod.mk.injEq] at h
        rw [← h.2]
  | inner n cend l =>
    left
    by_cases hd : l.start = cend
    · rw [workerStep_inner_done hd] at h
      simp only [Except.ok.injEq, Prod.mk.injEq] at h
      rw [← h.2]
    · rw [workerStep_inner hd] at h
      obtain ⟨_, _, h⟩ := bind_eq_ok h
      simp only [pure, Except.pure, Except.ok.injEq, Prod.mk.injEq] at h
      rw [← h.2]
  | scan n cend l tw rest =>
    cases rest with
    | nil =>
      left
      rw [workerStep_sort] at h
      simp only [Except.ok.injEq, Prod.mk.injEq] at h
      rw [← h.2]
    | cons dst rest =>
      rw [workerStep_scan] at h
      obtain ⟨⟨S1, t1⟩, hr, h⟩ := bind_eq_ok h
      simp only [pure, Except.pure, Except.ok.injEq, Prod.mk.injEq] at h
      obtain ⟨_, e2⟩ := h
      subst e2
      rcases scanEdge_cases hr with ⟨e1, _⟩ | ⟨f1, f2, f3, _, f5⟩
      · left; rw [e1]
      · right
        exact ⟨n, cend, l, tw, dst, rest, rfl, f1, f2, f3, f5⟩
  | sorted n cend l =>
    left
    rw [workerStep_publish] at h
    obtain ⟨_, _, h⟩ := bind_eq_ok h
    simp only [pure, Except.pure, Except.ok.injEq, Prod.mk.injEq] at h
    rw [← h.2]
  | exit =>
    left
    rw [workerStep_exit] at h
    simp only [Except.ok.injEq, Prod.mk.injEq] at h
    rw [← h.2]

/-- Once every node of level `n - 1` is in a consumed slot of that level, the cursor
`write_offset[n]` has reached the end of level `n`. -/
theorem par_consumed (hc : SeqCtx G srt source data0 T s0 p)
    (hplaced : Placed G source data0 p) (htot : 0 < tot) {c : ParState}
    (hinv : ParInv G srt source data0 T s0 tot c) {n : Nat} (hn : n ≤ T.max_dist)
    (hcons : ∀ v, v < G.length → (data0 v).dist + 1 = n →
      ∃ pc i, c.pcs[(n - 1) % tot]? = some pc ∧ T.read_offset.getD (n - 1) 0 ≤ i ∧
        i < levelCursor T (n - 1) pc ∧ c.mem.perm[i]? = some v) :
    c.mem.write_offset[n]? = some (cntLt G data0 (n + 1)) := by
  have hL := hc.lev
  have hT := hc.tab
  have hMlt := hL.max_lt hT
  have hone := cntLt_one hL
  cases n with
  | zero => rw [hinv.wo_zero, hone]
  | succ k =>
    simp only [Nat.add_sub_cancel] at hcons
    have hlt : k % tot < c.pcs.length := by rw [hinv.pcs_len]; exact Nat.mod_lt _ htot
    have hpc := List.getElem?_eq_getElem hlt
    have hlev := hinv.levels k (by omega) _ hpc
    obtain ⟨w, hw, hwlo, hwhi, hslots⟩ := parInv_pub hc htot hinv k (by omega)
    have hRk := tables_getD hT (by omega : k ≤ T.max_dist + 1)
    have hRk1 := tables_getD hT (by omega : k + 1 ≤ T.max_dist + 1)
    have hsucc := cntLt_succ G data0 k
    have hN := cntLt_le G data0 (k + 1)
    have hdone : ∀ {l : Locals} {s : PlaceState}, SeqAt G srt T s0 k l s →
        c.mem.write_offset[k + 1]? = some l.t_wo → l.start = cntLt G data0 (k + 1) →
        c.mem.write_offset[k + 1]? = some (cntLt G data0 (k + 1 + 1)) := by
      intro l s h1 h3 hs
      have hcore := (seqAt_mid hL hc.sorts hT hc.init h1).2.core
      rw [hs] at hcore
      obtain ⟨h5, _⟩ := core_next_level hL hcore
      rw [h3, h5]
    have hfacts : (levelCursor T k c.pcs[k % tot] < cntLt G data0 (k + 1) ∧
          cntLt G data0 k ≤ levelCursor T k c.pcs[k % tot] ∧
          levelCursor T k c.pcs[k % tot] ≤ w) ∨
        c.mem.write_offset[k + 1]? = some (cntLt G data0 (k + 1 + 1)) := by
      cases hst : stageOf k c.pcs[k % tot] with
      | idle fin =>
        rw [hst] at hlev
        obtain ⟨l, s, h1, h2, h3, _⟩ := hlev
        cases fin with
        | false =>
          simp only [Bool.false_eq_true, if_false] at h2
          have hcur : levelCursor T k c.pcs[k % tot] = cntLt G data0 k := by
            simp only [levelCursor, hst, hRk]
          rw [hcur]
          by_cases heq : cntLt G data0 k < cntLt G data0 (k + 1)
          · exact Or.inl ⟨heq, Nat.le_refl _, hwlo⟩
          · exact Or.inr (hdone h1 h3 (by omega))
        | true =>
          simp only [if_true] at h2
          exact Or.inr (hdone h1 h3 h2)
      | todo l =>
        rw [hst] at hlev
        obtain ⟨s, h1, h3, _, w', hw', hle⟩ := hlev
        rw [hw] at hw'
        cases hw'
        have hmid := (seqAt_mid hL hc.sorts hT hc.init h1).2
        have hcur : levelCursor T k c.pcs[k % tot] = l.start := by
          simp only [levelCursor, hst]
        rw [hcur]
        by_cases heq : l.start < cntLt G data0 (k + 1)
        · exact Or.inl ⟨heq, hmid.lo, hle⟩
        · exact Or.inr (hdone h1 h3 (by have := hmid.hi; omega))
      | inner cend l =>
        rw [hst] at hlev
        obtain ⟨s, h1, h3, _, hle, w', hw', hcw⟩ := hlev
        rw [hw] at hw'
        cases hw'
        have hmid := (seqAt_mid hL hc.sorts hT hc.init h1).2
        have hcur : levelCursor T k c.pcs[k % tot] = l.start := by
          simp only [levelCursor, hst]
        rw [hcur]
        by_cases heq : l.start < cntLt G data0 (k + 1)
        · exact Or.inl ⟨heq, hmid.lo, by omega⟩
        · exact Or.inr (hdone h1 h3 (by have := hmid.hi; omega))
      | scan cend l tw rest =>
        rw [hst] at hlev
        obtain ⟨s, s1, pre, next, h1, h2, h3, ⟨w', hw', hcw⟩, _⟩ := hlev
        rw [hw] at hw'
        cases hw'
        have hmid := (seqAt_mid hL hc.sorts hT hc.init h1).2
        have hcur : levelCursor T k c.pcs[k % tot] = l.start := by
          simp only [levelCursor, hst]
        rw [hcur]
        exact Or.inl ⟨h2, hmid.lo, by omega⟩
      | sorted cend l =>
        rw [hst] at hlev
        obtain ⟨s, s1, tw, h1, h2, h3, ⟨w', hw', hcw⟩, _⟩ := hlev
        rw [hw] at hw'
        cases hw'
        have hmid := (seqAt_mid hL hc.sorts hT hc.init h1).2
        have hcur : levelCursor T k c.pcs[k % tot] = l.start := by
          simp only [levelCursor, hst]
        rw [hcur]
        exact Or.inl ⟨h2, hmid.lo, by omega⟩
    rcases hfacts with ⟨hcur, hlo, hle⟩ | hfin
    · exfalso
      have hcl : levelCursor T k c.pcs[k % tot] < p.perm.length := by
        rw [hplaced.perm_len]; omega
      obtain ⟨a, ha⟩ := getElem?_of_lt_length hcl
      have haN : a < G.length := (hplaced.mem a).mp (mem_of_getElem? ha)
      have had := ((placed_slice hplaced k).2.2 _ a ha).mpr ⟨hlo, by omega⟩
      obtain ⟨pc2, i2, hpc2, hi21, hi22, hi2v⟩ := hcons a haN (by omega)
      rw [hpc] at hpc2
      cases hpc2
      rw [hRk] at hi21
      rw [hslots i2 hi21 (by omega)] at hi2v
      have := nodup_index_unique hplaced.nodup hi2v ha
      omega
    · exact hfin

end consumed2

/-! ## The test of the neighbour loop and the classical algorithm -/

section filter

variable {G : Graph} {source : Nat} {data0 : NodeData} {srt : List Nat → List Nat}
  {T : Tables} {s0 p : PlaceState}

/-- When a worker is about to test an adjacency entry `dst` of the node `next` that it
consumes at slot `start`, that node is the node of slot `start` in the final order, and
the test `!done && dist == n + 1` holds exactly when `dst` is neither among the first
`t_worig` nodes of the final order nor in the batch appended so far. -/
theorem scan_filter (hc : SeqCtx G srt source data0 T s0 p) {k : Nat} {S : PlaceState}
    (hdist : ∀ v, (S.data v).dist = (data0 v).dist)
    {cend tw dst : Nat} {l : Locals} {rest : List Nat}
    (h : LevelOk G srt T s0 data0 k S (.scan cend l tw (dst :: rest))) :
    ∃ next, p.perm[l.start]? = some next ∧ dst ∈ edges G next ∧ l.start < tw ∧
      (((S.data dst).done = false ∧ (S.data dst).dist = k + 1) ↔
        (dst ∉ p.perm.take tw ∧ dst ∉ slots S.perm tw l.t_wo)) := by
  have hL := hc.lev
  have hT := hc.tab
  have hsz := hL.size
  obtain ⟨s', start, hcore, hag, _⟩ := levelOk_core hc h
  simp only [stageCursor] at hcore hag
  obtain ⟨s, s1, pre, next, hseq, hlt, _, _, hnext, hedges, hscan, _, hle1, _, hag1⟩ := h
  obtain ⟨_, hmid⟩ := seqAt_mid hL hc.sorts hT hc.init hseq
  have hslen := seqAt_perm_len hc hseq
  have hf := scanEdges_frame pre (by rw [hslen]; exact hsz) hscan
  obtain ⟨_, hδ⟩ := core_slot_dist hmid.core hmid.lo hlt hnext
  have hdst : dst ∈ edges G next := by rw [hedges]; simp
  have hdN : dst < G.length := edges_lt hL.wf hdst
  -- the same facts for the state `s1` of the single worker
  obtain ⟨cut, hcuts, hcut⟩ := hmid.cuts
  have hMlt := hL.max_lt hT
  have hk : k ≤ T.max_dist := (seqAt_mid hL hc.sorts hT hc.init hseq).1
  have hprog0 : Prog G l.start tw tw next s.perm :=
    ⟨Nat.le_refl _, fun j a h1 h2 => by omega⟩
  obtain ⟨s2, t2, hs2, hcore1, _⟩ :=
    scanEdges_inv hL (by omega : k + 1 < UINT_MOD) hcut hmid.core.base_le hlt pre s tw
      (fun e he => by rw [hedges]; exact List.mem_append_left _ he) hmid.core hcuts hprog0
      hnext
  rw [hscan] at hs2
  simp only [Except.ok.injEq, Prod.mk.injEq] at hs2
  obtain ⟨e1, e2⟩ := hs2
  subst e1
  subst e2
  have hfilter := core_filter_iff hL hcore1 hδ hdst
  have hbase := hmid.core.base_le
  simp only at hbase
  have htake : s1.perm.take tw = p.perm.take tw := by
    apply List.ext_getElem?
    intro j
    rw [List.getElem?_take, List.getElem?_take]
    by_cases hj : j < tw
    · rw [if_pos hj, if_pos hj, hf.low j hj]
      exact seqAt_stable hL hc.sorts hT hc.init hc.fin hseq j hj
    · rw [if_neg hj, if_neg hj]
  have hslots : slots S.perm tw l.t_wo = slots s1.perm tw l.t_wo :=
    slots_congr (fun j h1 h2 => hag1.perm j (by omega) h2)
  have hsplit : s1.perm.take l.t_wo = p.perm.take tw ++ slots S.perm tw l.t_wo := by
    rw [take_eq_append_slots s1.perm hle1, htake, hslots]
  rw [hsplit] at hfilter
  have hcond : ((S.data dst).done = false ∧ (S.data dst).dist = k + 1) ↔
      ((s1.data dst).done = false ∧ (s1.data dst).dist = k + 1) := by
    rw [hdist, hcore1.dist_eq]
    constructor
    · rintro ⟨h1, h2⟩
      exact ⟨by rw [← hag1.done dst hdN h2]; exact h1, h2⟩
    · rintro ⟨h1, h2⟩
      exact ⟨by rw [hag1.done dst hdN h2]; exact h1, h2⟩
  refine ⟨next, ?_, hdst, by omega, ?_⟩
  · rw [← seqAt_stable hL hc.sorts hT hc.init hc.fin hseq l.start
      (by show l.start < tw; omega)]
    exact hnext
  · rw [hcond, hfilter, List.mem_append, not_or]

end filter

/-! ## From the distance assignment to the workers -/

section go

variable {G : Graph} {srt : List Nat → List Nat} {source : Nat} {s : BfsState}

/-- On a graph all of whose nodes are reachable: the run of the single worker with which
the workers are compared. -/
theorem go_ctx (hwf : WF G) (hs : source < G.length) (hsize : G.length < DIST_INFINITY)
    (hsrt : SortsBy (sortDegFn G) srt)
    (hreach : ∀ v, v < G.length → Reachable G source v) (hbfs : BfsFinal G source s) :
    ∃ p, Placed G source s.data p ∧ Levelled G source s.data ∧
      TablesOk G s.data (count_levels_go G s.data) ∧
      p.perm = cuthillMcKee G srt source ∧
      placeSeed (count_levels_go G s.data) source s.data (permInit G) =
        .ok { data := s.data, perm := (permInit G).set 0 source,
              write_offset := (count_levels_go G s.data).write_offset.set 0 1 } ∧
      SeqCtx G srt source s.data (count_levels_go G s.data)
        { data := s.data, perm := (permInit G).set 0 source,
          write_offset := (count_levels_go G s.data).write_offset.set 0 1 } p := by
  obtain ⟨p, hp, hplaced, hL⟩ :=
    reorder_placed hwf hs hsize hsrt hreach hbfs (Nat.le_refl _) (length_permInit G)
  have hpost := bfsPost_of_final hbfs
  have hT : TablesOk G s.data (count_levels_go G s.data) :=
    tablesOk_go (by omega) hL.size hpost.le_inf
  obtain ⟨s0, hs0, hrun⟩ := placeFn_go_reach hp
  have hseed : placeSeed (count_levels_go G s.data) source s.data (permInit G) =
      .ok { data := s.data, perm := (permInit G).set 0 source,
            write_offset := (count_levels_go G s.data).write_offset.set 0 1 } :=
    placeSeed_ok (by rw [length_permInit]; omega)
      (by rw [hT.write_offset, hT.read_offset_len]; omega)
  rw [hseed] at hs0
  cases hs0
  have hinv0 : PlaceInv G s.data (count_levels_go G s.data).max_dist (.level 0,
      { data := s.data, perm := (permInit G).set 0 source,
        write_offset := (count_levels_go G s.data).write_offset.set 0 1 }) :=
    ⟨by omega, atLevel_seed hL hT (length_permInit G)⟩
  have href0 : RefAt G srt source s.data (.level 0,
      { data := s.data, perm := (permInit G).set 0 source,
        write_offset := (count_levels_go G s.data).write_offset.set 0 1 }) :=
    refAt_seed srt hL (length_permInit G)
  refine ⟨p, hplaced, hL, hT, ?_, hseed, ⟨hL, hsrt, hT, hinv0, hrun⟩⟩
  obtain ⟨_, vis, _, hloop⟩ := refAt_reach hL hsrt hT hinv0 href0 hrun
  have hfull : p.perm.take G.length = p.perm :=
    List.take_of_length_le (Nat.le_of_eq hplaced.perm_len)
  rw [Nat.sub_self, hfull] at hloop
  exact hloop

theorem goReach_of_seed {tot : Nat} {data : NodeData} {perm : List Nat} {s0 : PlaceState}
    (hseed : placeSeed (count_levels_go G data) source data perm = .ok s0) {c : ParState} :
    GoReach G srt tot source data perm c ↔
      ParReach G srt (count_levels_go G data) tot (parInit tot s0) c := by
  constructor
  · rintro ⟨s1, h1, h2⟩
    rw [hseed] at h1
    cases h1
    exact h2
  · intro h
    exact ⟨s0, hseed, h⟩

/-- On every non-empty graph, whatever the number of workers: the invariant of all graphs
holds in every state of `placeFn::go`. -/
theorem go_gen (hwf : WF G) (hs : source < G.length) (hsize : G.length < DIST_INFINITY)
    (hsrt : ∀ l, (srt l).Perm l) (hbfs : BfsFinal G source s) {tot : Nat} {c : ParState}
    (h : GoReach G srt tot source s.data (permInit G) c) :
    GenInv G source s.data (count_levels_go G s.data).max_dist c := by
  have hpost := bfsPost_of_final hbfs
  have hN : G.length < UINT_MOD := by
    rw [dist_infinity_val] at hsize; rw [uint_mod_val]; omega
  have hT : TablesOk G s.data (count_levels_go G s.data) :=
    tablesOk_go (by omega) hN hpost.le_inf
  have hM := max_dist_lt hT hpost.le_inf
  have hseed : placeSeed (count_levels_go G s.data) source s.data (permInit G) =
      .ok { data := s.data, perm := (permInit G).set 0 source,
            write_offset := (count_levels_go G s.data).write_offset.set 0 1 } :=
    placeSeed_ok (by rw [length_permInit]; omega)
      (by rw [hT.write_offset, hT.read_offset_len]; omega)
  exact genInv_reach hwf hN hsrt hM
    (genInv_init hs hpost.src hT (length_permInit G) tot) ((goReach_of_seed hseed).mp h)

end go

/-! ## Every interleaving of the workers ends in the state of the single worker -/

section ends

variable {G : Graph} {srt : List Nat → List Nat} {source : Nat} {s : BfsState}

theorem goEnds_mono {tot : Nat} {data : NodeData} {perm : List Nat}
    {P Q : PlaceState → Prop} (h : GoEnds G srt tot source data perm P)
    (hPQ : ∀ m, P m → Q m) : GoEnds G srt tot source data perm Q :=
  ⟨h.1, h.2.1, fun c hc hf => hPQ _ (h.2.2 c hc hf)⟩

theorem goEnds_and {tot : Nat} {data : NodeData} {perm : List Nat}
    {P Q : PlaceState → Prop} (h : GoEnds G srt tot source data perm P)
    (hQ : ∀ c, GoReach G srt tot source data perm c → ParFinal c → Q c.mem) :
    GoEnds G srt tot source data perm (fun m => P m ∧ Q m) :=
  ⟨h.1, h.2.1, fun c hc hf => ⟨h.2.2 c hc hf, hQ c hc hf⟩⟩

/-- On a graph all of whose nodes are reachable, for every number of workers within the
range of the level counter: the invariant of the workers holds in every state of
`placeFn::go`. -/
theorem go_inv {tot : Nat} {s0 p : PlaceState}
    (hc : SeqCtx G srt source s.data (count_levels_go G s.data) s0 p)
    (hseed : placeSeed (count_levels_go G s.data) source s.data (permInit G) = .ok s0)
    (htot : 0 < tot) (hM : (count_levels_go G s.data).max_dist + tot < UINT_MOD)
    {c : ParState} (h : GoReach G srt tot source s.data (permInit G) c) :
    ParInv G srt source s.data (count_levels_go G s.data) s0 tot c :=
  parInv_reach hc htot hM (parInv_init hc tot) ((goReach_of_seed hseed).mp h)

/-- On a graph all of whose nodes are reachable, for every number of workers within the
range of the level counter, every interleaving of the workers ends, and ends with the
`perm`, the `write_offset` and the marks with which the single worker ends. -/
theorem go_ends {tot : Nat} {s0 p : PlaceState}
    (hc : SeqCtx G srt source s.data (count_levels_go G s.data) s0 p)
    (hseed : placeSeed (count_levels_go G s.data) source s.data (permInit G) = .ok s0)
    (htot : 0 < tot) (hM : (count_levels_go G s.data).max_dist + tot < UINT_MOD) :
    GoEnds G srt tot source s.data (permInit G) (fun m =>
      m.perm = p.perm ∧ m.write_offset = p.write_offset ∧
        ∀ v, v < G.length → (m.data v).done = (p.data v).done) := by
  have hret : ∀ c, GoReach G srt tot source s.data (permInit G) c →
      ∃ c', ParReach G srt (count_levels_go G s.data) tot c c' ∧ ParFinal c' := fun c h =>
    par_returns hc htot hM _ c (Nat.le_refl _) (go_inv hc hseed htot hM h)
  have h0 : GoReach G srt tot source s.data (permInit G) (parInit tot s0) :=
    (goReach_of_seed hseed).mpr (parReach_refl _)
  refine ⟨?_, fun c h => ⟨?_, ?_, ?_, hret c h⟩, fun c h hf => ?_⟩
  · obtain ⟨c', hr, hf⟩ := hret _ h0
    exact ⟨c', (goReach_of_seed hseed).mpr hr, hf⟩
  · intro me pc hpc
    obtain ⟨pc', S', hstep, _⟩ :=
      worker_step_ok hc htot hM (go_inv hc hseed htot hM h) hpc
    exact ⟨_, hstep⟩
  · intro c' hstep
    exact par_step_measure hc htot hM (go_inv hc hseed htot hM h) hstep
  · intro hnf
    exact par_progress hc htot hM (go_inv hc hseed htot hM h) hnf
  · exact parInv_final hc htot (go_inv hc hseed htot hM h) hf

/-- The finished `perm` of every interleaving has the properties of the placement by the
single worker. -/
theorem go_placed (hwf : WF G) (hs : source < G.length) (hsize : G.length < DIST_INFINITY)
    (hsrt : SortsBy (sortDegFn G) srt)
    (hreach : ∀ v, v < G.length → Reachable G source v) (hbfs : BfsFinal G source s)
    {tot : Nat} (htot : 0 < tot)
    (hM : (count_levels_go G s.data).max_dist + tot < UINT_MOD) :
    ∃ p, Placed G source s.data p ∧ Levelled G source s.data ∧
      TablesOk G s.data (count_levels_go G s.data) ∧
      p.perm = cuthillMcKee G srt source ∧
      GoEnds G srt tot source s.data (permInit G) (fun m =>
        m.perm = p.perm ∧ m.write_offset = p.write_offset ∧
          ∀ v, v < G.length → (m.data v).done = (p.data v).done) := by
  obtain ⟨p, hplaced, hL, hT, hcm, hseed, hc⟩ := go_ctx hwf hs hsize hsrt hreach hbfs
  exact ⟨p, hplaced, hL, hT, hcm, go_ends hc hseed htot hM⟩

end ends

/-! ## The call of `std::sort` in the last level -/

section past

variable {G : Graph} {source : Nat} {data0 : NodeData} {srt : List Nat → List Nat}
  {T : Tables} {s0 p : PlaceState} {tot : Nat}

/-- No step of a worker clears the record `past_end`. -/
theorem workerStep_past {pc pc' : WPc} {S S' : PlaceState}
    (h : workerStep G srt T tot (pc, S) = .ok (pc', S')) (hp : S.past_end = true) :
    S'.past_end = true := by
  cases pc with
  | level n =>
    by_cases hlt : n < wrap (T.max_dist + 1)
    · rw [workerStep_level hlt] at h
      obtain ⟨_, _, h⟩ := bind_eq_ok h
      obtain ⟨_, _, h⟩ := bind_eq_ok h
      obtain ⟨_, _, h⟩ := bind_eq_ok h
      simp only [pure, Except.pure, Except.ok.injEq, Prod.mk.injEq] at h
      rw [← h.2]; exact hp
    · rw [workerStep_level_exit hlt] at h
      simp only [Except.ok.injEq, Prod.mk.injEq] at h
      rw [← h.2]; exact hp
  | todo n l =>
    by_cases hd : l.todo = 0
    · rw [workerStep_todo_done hd] at h
      simp only [Except.ok.injEq, Prod.mk.injEq] at h
      rw [← h.2]; exact hp
    · rw [workerStep_todo hd] at h
      obtain ⟨cend, _, h⟩ := bind_eq_ok h
      by_cases hsp : l.start = cend
      · rw [if_pos hsp] at h
        simp only [pure, Except.pure, Except.ok.injEq, Prod.mk.injEq] at h
        rw [← h.2]; exact hp
      · rw [if_neg hsp] at h
        simp only [pure, Except.pure, Except.ok.injEq, Prod.mk.injEq] at h
        rw [← h.2]; exact hp
  | inner n cend l =>
    by_cases hd : l.start = cend
    · rw [workerStep_inner_done hd] at h
      simp only [Except.ok.injEq, Prod.mk.injEq] at h
      rw [← h.2]; exact hp
    · rw [workerStep_inner hd] at h
      obtain ⟨_, _, h⟩ := bind_eq_ok h
      simp only [pure, Except.pure, Except.ok.injEq, Prod.mk.injEq] at h
      rw [← h.2]; exact hp
  | scan n cend l tw rest =>
    cases rest with
    | nil =>
      rw [workerStep_sort] at h
      simp only [Except.ok.injEq, Prod.mk.injEq] at h
      rw [← h.2]
      simp only [hp, Bool.true_or]
    | cons dst rest =>
      rw [workerStep_scan] at h
      obtain ⟨⟨S1, t1⟩, hr, h⟩ := bind_eq_ok h
      simp only [pure, Except.pure, Except.ok.injEq, Prod.mk.injEq] at h
      obtain ⟨_, e2⟩ := h
      subst e2
      rcases scanEdge_cases hr with ⟨e1, _⟩ | ⟨_, _, _, _, f5⟩
      · rw [e1]; exact hp
      · rw [f5]; exact hp
  | sorted n cend l =>
    rw [workerStep_publish] at h
    obtain ⟨_, _, h⟩ := bind_eq_ok h
    simp only [pure, Except.pure, Except.ok.injEq, Prod.mk.injEq] at h
    rw [← h.2]; exact hp
  | exit =>
    rw [workerStep_exit] at h
    simp only [Except.ok.injEq, Prod.mk.injEq] at h
    rw [← h.2]; exact hp

theorem pastDue_mono {M R : Nat} {S S' : PlaceState} {pc : WPc}
    (h : PastDue M R S pc) (hp : S.past_end = true → S'.past_end = true) :
    PastDue M R S' pc := by
  cases pc with
  | level n => exact h.imp id hp
  | todo n l => exact h.imp id (Or.imp id hp)
  | inner n cend l => exact h.imp id (Or.imp id hp)
  | scan n cend l tw rest => trivial
  | sorted n cend l => exact h.imp id hp
  | exit => exact hp h

/-- An index at or past the size of `perm` makes `sortPastEnd` true. -/
theorem sortPastEnd_of_le {perm : List Nat} {a b : Nat} (h : perm.length ≤ a) :
    sortPastEnd perm a b = true := by
  have : readAt perm a = .error Fault.oob := by
    unfold readAt
    rw [List.getElem?_eq_none h]
  simp only [sortPastEnd, sortArgs, this]
  rfl

/-- In the call of `std::sort` of a worker in the last level both index expressions,
`perm[t_worig]` and `perm[t_wo]`, have the index `perm.size()`. -/
theorem last_sort_args (hc : SeqCtx G srt source data0 T s0 p) {c : ParState}
    (hinv : ParInv G srt source data0 T s0 tot c) {me cend tw : Nat} {l : Locals}
    {rest : List Nat} (hpc : c.pcs[me]? = some (.scan T.max_dist cend l tw rest)) :
    tw = c.mem.perm.length ∧ l.t_wo = c.mem.perm.length := by
  have hL := hc.lev
  have hT := hc.tab
  have hown := hinv.owned me _ hpc
  simp only [Owned] at hown
  have hpc2 : c.pcs[T.max_dist % tot]? = some (.scan T.max_dist cend l tw rest) := by
    rw [hown.1]; exact hpc
  have hlev := hinv.levels T.max_dist (Nat.le_refl _) _ hpc2
  simp only [stageOf, if_true] at hlev
  obtain ⟨s, s1, pre, next, hseq, _, _, _, _, _, _, _, hle1, hle2, _⟩ := hlev
  obtain ⟨_, hmid⟩ := seqAt_mid hL hc.sorts hT hc.init hseq
  have h1 := hmid.core.base_le
  simp only at h1
  have hN : cntLt G data0 (T.max_dist + 1) = G.length :=
    cntLt_eq_length (fun v hv => by have := hT.max_ge v hv; omega)
  have h2 := cntLt_le G data0 (T.max_dist + 2)
  rw [hinv.perm_len]
  omega

/-- A step of the workers keeps `PastDue` for the worker that consumes the last level. -/
theorem pastDue_step (hc : SeqCtx G srt source data0 T s0 p) (htot : 0 < tot)
    (hM : T.max_dist + tot < UINT_MOD) {c c' : ParState}
    (hinv : ParInv G srt source data0 T s0 tot c)
    (hdue : ∀ pc, c.pcs[T.max_dist % tot]? = some pc →
      PastDue T.max_dist (cntLt G data0 T.max_dist) c.mem pc)
    (hstep : ParStep G srt T tot c c') :
    ∀ pc, c'.pcs[T.max_dist % tot]? = some pc →
      PastDue T.max_dist (cntLt G data0 T.max_dist) c'.mem pc := by
  have hL := hc.lev
  have hT := hc.tab
  have hwM : wrap (T.max_dist + 1) = T.max_dist + 1 := wrap_of_lt (by omega)
  cases hstep with
  | step me pc pc1 S1 hpc hw =>
    intro q hq
    simp only at hq ⊢
    have hmono := workerStep_past hw
    by_cases hme : me = T.max_dist % tot
    · subst hme
      have hlt : T.max_dist % tot < c.pcs.length := by
        rw [hinv.pcs_len]; exact Nat.mod_lt _ htot
      rw [List.getElem?_set_self hlt] at hq
      cases hq
      have hd := hdue pc hpc
      have hown := hinv.owned _ pc hpc
      have hlev := hinv.levels T.max_dist (Nat.le_refl _) pc hpc
      cases pc with
      | level n =>
        by_cases hn : n < wrap (T.max_dist + 1)
        · rw [workerStep_level hn] at hw
          obtain ⟨st, hst, hw⟩ := bind_eq_ok hw
          obtain ⟨_, _, hw⟩ := bind_eq_ok hw
          obtain ⟨_, _, hw⟩ := bind_eq_ok hw
          simp only [pure, Except.pure, Except.ok.injEq, Prod.mk.injEq] at hw
          obtain ⟨e1, e2⟩ := hw
          subst e1
          rw [hwM] at hn
          simp only [PastDue]
          by_cases hnM : n = T.max_dist
          · right; left
            refine ⟨hnM, ?_⟩
            have := readAt_ok hst
            rw [hnM, hT.read_offset _ (by omega)] at this
            exact (Option.some.inj this).symm
          · left; omega
        · rw [workerStep_level_exit hn] at hw
          simp only [Except.ok.injEq, Prod.mk.injEq] at hw
          obtain ⟨e1, e2⟩ := hw
          subst e1
          subst e2
          rw [hwM] at hn
          simp only [PastDue] at hd ⊢
          rcases hd with h | h
          · omega
          · exact h
      | todo n l =>
        simp only [Owned] at hown
        simp only [PastDue] at hd
        by_cases hz : l.todo = 0
        · rw [workerStep_todo_done hz] at hw
          simp only [Except.ok.injEq, Prod.mk.injEq] at hw
          obtain ⟨e1, e2⟩ := hw
          subst e1
          subst e2
          simp only [PastDue]
          rw [wrap_of_lt (by omega)]
          rcases hd with h | ⟨h1, h2⟩ | h
          · left
            by_contra hcon
            have := (@mod_class tot T.max_dist n hown.1.symm
              (by omega)).mpr (by omega)
            omega
          · exfalso
            subst h1
            simp only [stageOf, if_true] at hlev
            obtain ⟨s, hseq, _⟩ := hlev
            have h3 := (seqAt_todo hc hseq).1
            obtain ⟨v, hv, hvd⟩ := hT.max_at
            have h4 : 0 < cntEq G data0 (data0 v).dist := cntEq_pos hv
            rw [hvd] at h4
            have h5 := cntLt_succ G data0 T.max_dist
            omega
          · right; exact h
        · rw [workerStep_todo hz] at hw
          obtain ⟨cend, _, hw⟩ := bind_eq_ok hw
          by_cases hsp : l.start = cend
          · rw [if_pos hsp] at hw
            simp only [pure, Except.pure, Except.ok.injEq, Prod.mk.injEq] at hw
            obtain ⟨e1, e2⟩ := hw
            subst e1
            subst e2
            exact hd
          · rw [if_neg hsp] at hw
            simp only [pure, Except.pure, Except.ok.injEq, Prod.mk.injEq] at hw
            obtain ⟨e1, e2⟩ := hw
            subst e1
            subst e2
            exact hd
      | inner n cend l =>
        simp only [PastDue] at hd
        by_cases hsp : l.start = cend
        · rw [workerStep_inner_done hsp] at hw
          simp only [Except.ok.injEq, Prod.mk.injEq] at hw
          obtain ⟨e1, e2⟩ := hw
          subst e1
          subst e2
          exact hd
        · rw [workerStep_inner hsp] at hw
          obtain ⟨_, _, hw⟩ := bind_eq_ok hw
          simp only [pure, Except.pure, Except.ok.injEq, Prod.mk.injEq] at hw
          obtain ⟨e1, e2⟩ := hw
          subst e1
          trivial
      | scan n cend l tw rest =>
        cases rest with
        | nil =>
          rw [workerStep_sort] at hw
          simp only [Except.ok.injEq, Prod.mk.injEq] at hw
          obtain ⟨e1, e2⟩ := hw
          subst e1
          subst e2
          simp only [Owned] at hown
          simp only [PastDue]
          by_cases hnM : n = T.max_dist
          · right
            subst hnM
            have := (last_sort_args hc hinv hpc).1
            rw [sortPastEnd_of_le (Nat.le_of_eq this.symm)]
            simp
          · left; omega
        | cons dst rest =>
          rw [workerStep_scan] at hw
          obtain ⟨_, _, hw⟩ := bind_eq_ok hw
          simp only [pure, Except.pure, Except.ok.injEq, Prod.mk.injEq] at hw
          obtain ⟨e1, e2⟩ := hw
          subst e1
          trivial
      | sorted n cend l =>
        simp only [PastDue] at hd
        rw [workerStep_publish] at hw
        obtain ⟨_, _, hw⟩ := bind_eq_ok hw
        simp only [pure, Except.pure, Except.ok.injEq, Prod.mk.injEq] at hw
        obtain ⟨e1, e2⟩ := hw
        subst e1
        subst e2
        simp only [PastDue]
        rcases hd with h | h
        · left; exact h
        · right; right; exact h
      | exit =>
        rw [workerStep_exit] at hw
        simp only [Except.ok.injEq, Prod.mk.injEq] at hw
        obtain ⟨e1, e2⟩ := hw
        subst e1
        subst e2
        exact hd
    · rw [List.getElem?_set_ne hme] at hq
      exact pastDue_mono (hdue q hq) hmono

theorem pastDue_reach (hc : SeqCtx G srt source data0 T s0 p) (htot : 0 < tot)
    (hM : T.max_dist + tot < UINT_MOD) {c : ParState}
    (hr : ParReach G srt T tot (parInit tot s0) c) :
    ParInv G srt source data0 T s0 tot c ∧
      ∀ pc, c.pcs[T.max_dist % tot]? = some pc →
        PastDue T.max_dist (cntLt G data0 T.max_dist) c.mem pc := by
  induction hr with
  | refl =>
    refine ⟨parInv_init hc tot, fun pc hpc => ?_⟩
    obtain ⟨_, rfl⟩ := parInit_pc hpc
    simp only [PastDue]
    left
    exact Nat.mod_le _ _
  | tail _ hstep ih =>
    exact ⟨parInv_step hc htot hM ih.1 hstep, pastDue_step hc htot hM ih.1 ih.2 hstep⟩

/-- When every worker has returned, `std::sort` has been called with an index expression
past the last element of `perm`. -/
theorem pastDue_final (hc : SeqCtx G srt source data0 T s0 p) (htot : 0 < tot)
    (hM : T.max_dist + tot < UINT_MOD) {c : ParState}
    (hr : ParReach G srt T tot (parInit tot s0) c) (hf : ParFinal c) :
    c.mem.past_end = true := by
  have hboth := pastDue_reach hc htot hM hr
  have hlt : T.max_dist % tot < c.pcs.length := by
    rw [hboth.1.pcs_len]; exact Nat.mod_lt _ htot
  have hpc := List.getElem?_eq_getElem hlt
  have hex : c.pcs[T.max_dist % tot] = .exit := hf _ (List.getElem_mem _)
  have := hboth.2 _ hpc
  rw [hex] at this
  exact this

end past

/-! ## The finished permutation, for every number of workers -/

/-- C1 (bijection). On a non-empty graph of fewer than `DIST_INFINITY` nodes, all reachable
from the source, whatever the schedule of the distance assignment, whatever `std::sort`
does within its contract, for every number `tot >= 1` of workers with
`max_dist + tot < 2^32` and however their steps interleave: `placeFn::go` after
`count_levels::go` ends, and whenever all workers have returned `perm` holds every node of
the graph exactly once. -/
theorem perm_bijection (G : Graph) (srt : List Nat → List Nat) (source tot : Nat)
    (s : BfsState) (hwf : WF G) (hs : source < G.length) (hsize : G.length < DIST_INFINITY)
    (hsrt : SortsBy (sortDegFn G) srt)
    (hreach : ∀ v, v < G.length → Reachable G source v)
    (hbfs : BfsFinal G source s) (htot : 0 < tot)
    (hM : (count_levels_go G s.data).max_dist + tot < UINT_MOD) :
    GoEnds G srt tot source s.data (permInit G) (fun m =>
      m.perm.Perm (List.range G.length) ∧ m.perm.Nodup ∧
        ∀ v, v ∈ m.perm ↔ v < G.length) := by
  obtain ⟨p, hplaced, _, _, _, hends⟩ := go_placed hwf hs hsize hsrt hreach hbfs htot hM
  refine goEnds_mono hends ?_
  rintro m ⟨hperm, _, _⟩
  rw [hperm]
  exact ⟨nodup_perm_range hplaced.nodup hplaced.mem, hplaced.nodup, hplaced.mem⟩

theorem perm_bijection_witness :
    GoEnds kiteGraph (degSort kiteGraph) 2 0 (bfsResult kiteGraph 4 0) (permInit kiteGraph)
      (fun m => m.perm.Perm (List.range 4) ∧ m.perm.Nodup ∧ ∀ v, v ∈ m.perm ↔ v < 4) :=
  perm_bijection kiteGraph (degSort kiteGraph) 0 2 ⟨bfsResult kiteGraph 4 0, [], []⟩
    (by decide) (by decide) (by decide) (sortsBy_degSort _)
    (reachable_of_run kiteGraph 4 0 (by decide) (by decide)) (bfsFinal_of_run (by decide))
    (by decide) (by decide)

/-- C3 (monotone levels). On a graph all of whose nodes are reachable, for every number
`tot >= 1` of workers with `max_dist + tot < 2^32` and every interleaving of their
steps: the placement ends, and in the finished `perm` the distances assigned by `bfsFn` do
not decrease along the slots. -/
theorem monotone_levels (G : Graph) (srt : List Nat → List Nat) (source tot : Nat)
    (s : BfsState) (hwf : WF G) (hs : source < G.length) (hsize : G.length < DIST_INFINITY)
    (hsrt : SortsBy (sortDegFn G) srt)
    (hreach : ∀ v, v < G.length → Reachable G source v)
    (hbfs : BfsFinal G source s) (htot : 0 < tot)
    (hM : (count_levels_go G s.data).max_dist + tot < UINT_MOD) :
    GoEnds G srt tot source s.data (permInit G) (fun m =>
      ∀ (i j a b : Nat), i ≤ j → m.perm[i]? = some a → m.perm[j]? = some b →
        (s.data a).dist ≤ (s.data b).dist) := by
  obtain ⟨p, hplaced, _, _, _, hends⟩ := go_placed hwf hs hsize hsrt hreach hbfs htot hM
  refine goEnds_mono hends ?_
  rintro m ⟨hperm, _, _⟩ i j a b hij hia hjb
  rw [hperm] at hia hjb
  exact placed_monotone hplaced hij hia hjb

theorem monotone_levels_witness :
    GoEnds kiteGraph (degSort kiteGraph) 2 0 (bfsResult kiteGraph 4 0) (permInit kiteGraph)
      (fun m => ∀ (i j a b : Nat), i ≤ j → m.perm[i]? = some a → m.perm[j]? = some b →
        (bfsResult kiteGraph 4 0 a).dist ≤ (bfsResult kiteGraph 4 0 b).dist) :=
  monotone_levels kiteGraph (degSort kiteGraph) 0 2 ⟨bfsResult kiteGraph 4 0, [], []⟩
    (by decide) (by decide) (by decide) (sortsBy_degSort _)
    (reachable_of_run kiteGraph 4 0 (by decide) (by decide)) (bfsFinal_of_run (by decide))
    (by decide) (by decide)

/-- C4 (parent before child). On a graph all of whose nodes are reachable, for every
number `tot >= 1` of workers with `max_dist + tot < 2^32` and every interleaving of
their steps: the placement ends, and every slot `i > 0` of the finished `perm` holds a node
that is in the adjacency list of the node of an earlier slot; in a symmetric graph that
earlier node is a neighbour of `perm[i]`. -/
theorem parent_before_child (G : Graph) (srt : List Nat → List Nat) (source tot : Nat)
    (s : BfsState) (hwf : WF G) (hs : source < G.length) (hsize : G.length < DIST_INFINITY)
    (hsrt : SortsBy (sortDegFn G) srt)
    (hreach : ∀ v, v < G.length → Reachable G source v)
    (hbfs : BfsFinal G source s) (htot : 0 < tot)
    (hM : (count_levels_go G s.data).max_dist + tot < UINT_MOD) :
    GoEnds G srt tot source s.data (permInit G) (fun m =>
      (∀ (i a : Nat), 0 < i → m.perm[i]? = some a →
        ∃ j b, j < i ∧ m.perm[j]? = some b ∧ a ∈ edges G b) ∧
      ((∀ u v, v ∈ edges G u → u ∈ edges G v) →
        ∀ (i a : Nat), 0 < i → m.perm[i]? = some a →
          ∃ j b, j < i ∧ m.perm[j]? = some b ∧ b ∈ edges G a)) := by
  obtain ⟨p, hplaced, _, _, _, hends⟩ := go_placed hwf hs hsize hsrt hreach hbfs htot hM
  refine goEnds_mono hends ?_
  rintro m ⟨hperm, _, _⟩
  rw [hperm]
  refine ⟨hplaced.parent, ?_⟩
  intro hsym i a hi hia
  obtain ⟨j, b, hj, hjb, he⟩ := hplaced.parent i a hi hia
  exact ⟨j, b, hj, hjb, hsym b a he⟩

theorem parent_before_child_witness :
    GoEnds kiteGraph (degSort kiteGraph) 2 0 (bfsResult kiteGraph 4 0) (permInit kiteGraph)
      (fun m =>
        (∀ (i a : Nat), 0 < i → m.perm[i]? = some a →
          ∃ j b, j < i ∧ m.perm[j]? = some b ∧ a ∈ edges kiteGraph b) ∧
        ((∀ u v, v ∈ edges kiteGraph u → u ∈ edges kiteGraph v) →
          ∀ (i a : Nat), 0 < i → m.perm[i]? = some a →
            ∃ j b, j < i ∧ m.perm[j]? = some b ∧ b ∈ edges kiteGraph a)) :=
  parent_before_child kiteGraph (degSort kiteGraph) 0 2 ⟨bfsResult kiteGraph 4 0, [], []⟩
    (by decide) (by decide) (by decide) (sortsBy_degSort _)
    (reachable_of_run kiteGraph 4 0 (by decide) (by decide)) (bfsFinal_of_run (by decide))
    (by decide) (by decide)

/-- C10, as amended (source without outgoing edges). On a graph whose source has an empty
adjacency list and all of whose nodes are reachable from the source — the source is then
the only node — for every number `tot >= 1` of workers with `max_dist + tot < 2^32` and
every interleaving of their steps: the placement ends and the finished `perm` is
`[source]`. -/
theorem isolated_source (G : Graph) (srt : List Nat → List Nat) (source tot : Nat)
    (s : BfsState) (hwf : WF G) (hs : source < G.length) (hsize : G.length < DIST_INFINITY)
    (hsrt : SortsBy (sortDegFn G) srt)
    (hreach : ∀ v, v < G.length → Reachable G source v)
    (hbfs : BfsFinal G source s) (htot : 0 < tot)
    (hM : (count_levels_go G s.data).max_dist + tot < UINT_MOD)
    (hiso : edges G source = []) :
    GoEnds G srt tot source s.data (permInit G) (fun m => m.perm = [source]) := by
  obtain ⟨p, hplaced, _, _, _, hends⟩ := go_placed hwf hs hsize hsrt hreach hbfs htot hM
  refine goEnds_mono hends ?_
  rintro m ⟨hperm, _, _⟩
  rw [hperm]
  have hall : ∀ v, v < G.length → v = source := by
    intro v hv
    obtain ⟨k, hw⟩ := hreach v hv
    exact walk_of_no_edges hiso hw
  have hone : G.length = 1 := by
    by_contra hne
    have h0 := hall 0 (by omega)
    have h1 := hall 1 (by omega)
    omega
  have hsrc : source = 0 := by omega
  have hp := nodup_perm_range hplaced.nodup hplaced.mem
  rw [hone] at hp
  have : p.perm = [0] := by
    have h : List.range 1 = [0] := rfl
    rw [h] at hp
    exact List.perm_singleton.mp hp
  rw [this, hsrc]

theorem isolated_source_witness :
    GoEnds singleNode (degSort singleNode) 2 0 (bfsResult singleNode 1 0)
      (permInit singleNode) (fun m => m.perm = [0]) :=
  isolated_source singleNode (degSort singleNode) 0 2 ⟨bfsResult singleNode 1 0, [], []⟩
    (by decide) (by decide) (by decide) (sortsBy_degSort _)
    (reachable_of_run singleNode 1 0 (by decide) (by decide)) (bfsFinal_of_run (by decide))
    (by decide) (by decide) (by decide)

/-- C15 (level slices). On a graph all of whose nodes are reachable from the source, for
every number `tot >= 1` of workers with `max_dist + tot < 2^32` and every interleaving
of their steps: the placement ends and, for every level `n` in `0..max_dist`, the slice
`perm[read_offset[n] .. read_offset[n] + level_count[n])` of the finished `perm` holds
exactly the nodes with `dist == n`, each once; a slot holds a node of level `n` exactly
when its index lies in that range, so `read_offset[n]` is the first index of level `n`. -/
theorem level_slices (G : Graph) (srt : List Nat → List Nat) (source tot : Nat)
    (s : BfsState) (hwf : WF G) (hs : source < G.length) (hsize : G.length < DIST_INFINITY)
    (hsrt : SortsBy (sortDegFn G) srt)
    (hreach : ∀ v, v < G.length → Reachable G source v)
    (hbfs : BfsFinal G source s) (htot : 0 < tot)
    (hM : (count_levels_go G s.data).max_dist + tot < UINT_MOD) :
    GoEnds G srt tot source s.data (permInit G) (fun m =>
      ∀ n, n ≤ (count_levels_go G s.data).max_dist →
        ((m.perm.drop ((count_levels_go G s.data).read_offset.getD n 0)).take
          ((count_levels_go G s.data).level_count.getD n 0)).Nodup ∧
        (∀ v, v ∈ (m.perm.drop ((count_levels_go G s.data).read_offset.getD n 0)).take
            ((count_levels_go G s.data).level_count.getD n 0) ↔
          v < G.length ∧ (s.data v).dist = n) ∧
        (∀ (i a : Nat), m.perm[i]? = some a →
          ((s.data a).dist = n ↔
            (count_levels_go G s.data).read_offset.getD n 0 ≤ i ∧
            i < (count_levels_go G s.data).read_offset.getD n 0 +
              (count_levels_go G s.data).level_count.getD n 0))) := by
  obtain ⟨p, hplaced, _, hT, _, hends⟩ := go_placed hwf hs hsize hsrt hreach hbfs htot hM
  refine goEnds_mono hends ?_
  rintro m ⟨hperm, _, _⟩ n hn
  rw [hperm, tables_getD hT (by omega), hT.level_count n]
  exact placed_slice hplaced n

theorem level_slices_witness :
    GoEnds starGraph (degSort starGraph) 2 0 (bfsResult starGraph 4 0) (permInit starGraph)
      (fun m =>
        ∀ n, n ≤ (count_levels_go starGraph (bfsResult starGraph 4 0)).max_dist →
          ((m.perm.drop ((count_levels_go starGraph
              (bfsResult starGraph 4 0)).read_offset.getD n 0)).take
            ((count_levels_go starGraph
              (bfsResult starGraph 4 0)).level_count.getD n 0)).Nodup ∧
          (∀ v, v ∈ (m.perm.drop ((count_levels_go starGraph
                (bfsResult starGraph 4 0)).read_offset.getD n 0)).take
              ((count_levels_go starGraph (bfsResult starGraph 4 0)).level_count.getD n 0) ↔
            v < starGraph.length ∧ (bfsResult starGraph 4 0 v).dist = n) ∧
          (∀ (i a : Nat), m.perm[i]? = some a →
            ((bfsResult starGraph 4 0 a).dist = n ↔
              (count_levels_go starGraph (bfsResult starGraph 4 0)).read_offset.getD n 0 ≤ i ∧
              i < (count_levels_go starGraph (bfsResult starGraph 4 0)).read_offset.getD n 0 +
                (count_levels_go starGraph
                  (bfsResult starGraph 4 0)).level_count.getD n 0))) :=
  level_slices starGraph (degSort starGraph) 0 2 ⟨bfsResult starGraph 4 0, [], []⟩
    (by decide) (by decide) (by decide) (sortsBy_degSort _)
    (reachable_of_run starGraph 4 0 (by decide) (by decide)) (bfsFinal_of_run (by decide))
    (by decide) (by decide)

/-- C11 (path graph). For every `k >= 1` below `DIST_INFINITY`, on the symmetric path graph
with the nodes `0 .. k-1` and source `0`: every schedule of the distance assignment ends
with `dist(i) = i` for every node; and for every number `tot >= 1` of workers with
`max_dist + tot < 2^32` and every interleaving of their steps the placement ends with
`perm[i] = i` for every `i`, whatever `std::sort` does within its contract. -/
theorem path_graph_identity (k : Nat) (srt : List Nat → List Nat) (tot : Nat) (s : BfsState)
    (hk : 1 ≤ k) (hsize : k < DIST_INFINITY) (hsrt : SortsBy (sortDegFn (pathGraph k)) srt)
    (hbfs : BfsFinal (pathGraph k) 0 s) (htot : 0 < tot)
    (hM : (count_levels_go (pathGraph k) s.data).max_dist + tot < UINT_MOD) :
    (∀ i, i < k → (s.data i).dist = i) ∧
    GoEnds (pathGraph k) srt tot 0 s.data (permInit (pathGraph k)) (fun m =>
      m.perm = List.range k ∧ ∀ i, i < k → m.perm[i]? = some i) := by
  have hlen := length_pathGraph k
  have hwf := wf_pathGraph k
  have hpost := bfsPost_of_final hbfs
  have hdist : ∀ i, i < k → (s.data i).dist = i := by
    intro i hi
    have h1 := hpost.isHopCount hwf (by omega) (by omega) ⟨i, walk_pathGraph k i hi⟩
    exact isHopCount_unique h1 (isHopCount_pathGraph hi)
  obtain ⟨p, hplaced, _, _, _, hends⟩ :=
    go_placed hwf (by omega : 0 < (pathGraph k).length) (by omega) hsrt
      (fun v hv => ⟨v, walk_pathGraph k v (by omega)⟩) hbfs htot hM
  have hperm : p.perm = List.range k := by
    apply sorted_perm_range
    · have := nodup_perm_range hplaced.nodup hplaced.mem
      rwa [hlen] at this
    · intro i j a b hij hia hjb
      have ha : a < k := by
        have := (hplaced.mem a).mp (mem_of_getElem? hia); omega
      have hb : b < k := by
        have := (hplaced.mem b).mp (mem_of_getElem? hjb); omega
      have := placed_monotone hplaced hij hia hjb
      rw [hdist a ha, hdist b hb] at this
      exact this
  refine ⟨hdist, goEnds_mono hends ?_⟩
  rintro m ⟨hm, _, _⟩
  rw [hm, hperm]
  exact ⟨rfl, fun i hi => List.getElem?_range hi⟩

theorem path_graph_identity_witness :
    (∀ i, i < 4 → (bfsResult (pathGraph 4) 4 0 i).dist = i) ∧
    GoEnds (pathGraph 4) (degSort (pathGraph 4)) 2 0 (bfsResult (pathGraph 4) 4 0)
      (permInit (pathGraph 4))
      (fun m => m.perm = List.range 4 ∧ ∀ i, i < 4 → m.perm[i]? = some i) :=
  path_graph_identity 4 (degSort (pathGraph 4)) 2 ⟨bfsResult (pathGraph 4) 4 0, [], []⟩
    (by decide) (by decide) (sortsBy_degSort _) (bfsFinal_of_run (by decide)) (by decide)
    (by decide)

/-! ## Every graph and every number of workers -/

/-- C2 (source first). On every non-empty graph of fewer than `DIST_INFINITY` nodes and for
every schedule of the distance assignment: `placeFn::go` seeds `perm[0] = source` and
`write_offset[0] = 1` before the workers start; in every state the workers reach, whatever
their number and however their steps interleave, `perm[0]` is the source and
`write_offset[0]` is `1`, and a worker in the neighbour loop or at `std::sort` has
`1 <= t_worig <= t_wo`, so that neither the write `perm[t_wo] = dst` nor the sort of
`perm[t_worig .. t_wo)` reaches slot `0`; and when every node is reachable, for every
number `tot >= 1` of workers with `max_dist + tot < 2^32`, the placement ends with
`perm[0] == source`. -/
theorem source_first (G : Graph) (srt : List Nat → List Nat) (source : Nat)
    (s : BfsState) (hwf : WF G) (hs : source < G.length) (hsize : G.length < DIST_INFINITY)
    (hsrt : SortsBy (sortDegFn G) srt) (hbfs : BfsFinal G source s) :
    placeSeed (count_levels_go G s.data) source s.data (permInit G) =
      .ok { data := s.data, perm := (permInit G).set 0 source,
            write_offset := (count_levels_go G s.data).write_offset.set 0 1 } ∧
    (∀ tot c, GoReach G srt tot source s.data (permInit G) c →
      c.mem.perm[0]? = some source ∧ c.mem.write_offset[0]? = some 1 ∧
      ∀ n cend l tw rest, WPc.scan n cend l tw rest ∈ c.pcs → 1 ≤ tw ∧ tw ≤ l.t_wo) ∧
    ((∀ v, v < G.length → Reachable G source v) →
      ∀ tot, 0 < tot → (count_levels_go G s.data).max_dist + tot < UINT_MOD →
        GoEnds G srt tot source s.data (permInit G) (fun m => m.perm[0]? = some source)) := by
  have hpost := bfsPost_of_final hbfs
  have hN : G.length < UINT_MOD := by
    rw [dist_infinity_val] at hsize; rw [uint_mod_val]; omega
  have hT : TablesOk G s.data (count_levels_go G s.data) :=
    tablesOk_go (by omega) hN hpost.le_inf
  have hseed : placeSeed (count_levels_go G s.data) source s.data (permInit G) =
      .ok { data := s.data, perm := (permInit G).set 0 source,
            write_offset := (count_levels_go G s.data).write_offset.set 0 1 } :=
    placeSeed_ok (by rw [length_permInit]; omega)
      (by rw [hT.write_offset, hT.read_offset_len]; omega)
  refine ⟨hseed, ?_, ?_⟩
  · intro tot c hc
    have hinv := go_gen hwf hs hsize (fun l => (hsrt l).1) hbfs hc
    refine ⟨hinv.first, hinv.wo_zero, ?_⟩
    intro n cend l tw rest hmem
    have := hinv.locals _ hmem
    simp only [LocalOk] at this
    exact ⟨this.2.1, this.2.2.1⟩
  · intro hreach tot htot hM
    obtain ⟨p, hplaced, hL, _, _, hends⟩ :=
      go_placed hwf hs hsize hsrt hreach hbfs htot hM
    refine goEnds_mono hends ?_
    rintro m ⟨hperm, _, _⟩
    rw [hperm]
    exact placed_first hL hplaced

theorem source_first_witness :
    placeSeed (count_levels_go kiteGraph (bfsResult kiteGraph 4 0)) 0
        (bfsResult kiteGraph 4 0) (permInit kiteGraph) =
      .ok { data := bfsResult kiteGraph 4 0, perm := (permInit kiteGraph).set 0 0,
            write_offset :=
              (count_levels_go kiteGraph (bfsResult kiteGraph 4 0)).write_offset.set 0 1 } ∧
    (∀ tot c, GoReach kiteGraph (degSort kiteGraph) tot 0 (bfsResult kiteGraph 4 0)
        (permInit kiteGraph) c →
      c.mem.perm[0]? = some 0 ∧ c.mem.write_offset[0]? = some 1 ∧
      ∀ n cend l tw rest, WPc.scan n cend l tw rest ∈ c.pcs → 1 ≤ tw ∧ tw ≤ l.t_wo) ∧
    GoEnds kiteGraph (degSort kiteGraph) 2 0 (bfsResult kiteGraph 4 0)
      (permInit kiteGraph) (fun m => m.perm[0]? = some 0) :=
  have h := source_first kiteGraph (degSort kiteGraph) 0 ⟨bfsResult kiteGraph 4 0, [], []⟩
    (by decide) (by decide) (by decide) (sortsBy_degSort _) (bfsFinal_of_run (by decide))
  ⟨h.1, h.2.1, h.2.2 (reachable_of_run kiteGraph 4 0 (by decide) (by decide)) 2
    (by decide) (by decide)⟩

/-- C7, as amended (length of the permutation). On every non-empty graph of fewer than
`DIST_INFINITY` nodes and for every schedule of the distance assignment: the nodes with a
finite `dist` are the reachable ones; `placeFn::go` starts from the `perm` that `main`
resized to the node count and, in every state the workers reach, whatever their number,
`perm` has that length; and when every node is reachable, for every number `tot >= 1` of
workers with `max_dist + tot < 2^32` and every interleaving, the placement ends, the
length of `perm` is the number of reachable nodes and `perm` holds every node, reachable
nodes only. -/
theorem perm_covers_nodes (G : Graph) (srt : List Nat → List Nat) (source : Nat)
    (s : BfsState) (hwf : WF G) (hs : source < G.length) (hsize : G.length < DIST_INFINITY)
    (hsrt : SortsBy (sortDegFn G) srt) (hbfs : BfsFinal G source s) :
    (∀ v, v < G.length → (Reachable G source v ↔ (s.data v).dist < DIST_INFINITY)) ∧
    (∃ s0, placeSeed (count_levels_go G s.data) source s.data (permInit G) = .ok s0) ∧
    (∀ tot c, GoReach G srt tot source s.data (permInit G) c →
      c.mem.perm.length = G.length) ∧
    ((∀ v, v < G.length → Reachable G source v) →
      ∀ tot, 0 < tot → (count_levels_go G s.data).max_dist + tot < UINT_MOD →
        GoEnds G srt tot source s.data (permInit G) (fun m =>
          m.perm.length = cntLt G s.data DIST_INFINITY ∧
          (∀ v, v ∈ m.perm ↔ v < G.length) ∧ ∀ v, v ∈ m.perm → Reachable G source v)) := by
  have hpost := bfsPost_of_final hbfs
  have hN : G.length < UINT_MOD := by
    rw [dist_infinity_val] at hsize; rw [uint_mod_val]; omega
  have hT : TablesOk G s.data (count_levels_go G s.data) :=
    tablesOk_go (by omega) hN hpost.le_inf
  have hiff : ∀ v, v < G.length →
      (Reachable G source v ↔ (s.data v).dist < DIST_INFINITY) := by
    intro v _
    constructor
    · rintro ⟨k, hw⟩
      exact hpost.finite_of_walk hwf hs hsize hw
    · intro h
      exact ⟨_, hpost.walk v h⟩
  refine ⟨hiff, ⟨_, placeSeed_ok (by rw [length_permInit]; omega)
    (by rw [hT.write_offset, hT.read_offset_len]; omega)⟩, ?_, ?_⟩
  · intro tot c hc
    exact (go_gen hwf hs hsize (fun l => (hsrt l).1) hbfs hc).perm_len
  · intro hreach tot htot hM
    obtain ⟨p, hplaced, _, _, _, hends⟩ :=
      go_placed hwf hs hsize hsrt hreach hbfs htot hM
    refine goEnds_mono hends ?_
    rintro m ⟨hperm, _, _⟩
    rw [hperm]
    refine ⟨?_, hplaced.mem, fun v hv => hreach v ((hplaced.mem v).mp hv)⟩
    rw [hplaced.perm_len]
    exact (cntLt_eq_length (fun v hv => (hiff v hv).mp (hreach v hv))).symm

theorem perm_covers_nodes_witness :
    (∀ v, v < kiteGraph.length → (Reachable kiteGraph 0 v ↔
      (bfsResult kiteGraph 4 0 v).dist < DIST_INFINITY)) ∧
    (∃ s0, placeSeed (count_levels_go kiteGraph (bfsResult kiteGraph 4 0)) 0
      (bfsResult kiteGraph 4 0) (permInit kiteGraph) = .ok s0) ∧
    (∀ tot c, GoReach kiteGraph (degSort kiteGraph) tot 0 (bfsResult kiteGraph 4 0)
        (permInit kiteGraph) c → c.mem.perm.length = kiteGraph.length) ∧
    GoEnds kiteGraph (degSort kiteGraph) 2 0 (bfsResult kiteGraph 4 0)
      (permInit kiteGraph) (fun m =>
        m.perm.length = cntLt kiteGraph (bfsResult kiteGraph 4 0) DIST_INFINITY ∧
        (∀ v, v ∈ m.perm ↔ v < kiteGraph.length) ∧
        ∀ v, v ∈ m.perm → Reachable kiteGraph 0 v) :=
  have h := perm_covers_nodes kiteGraph (degSort kiteGraph) 0
    ⟨bfsResult kiteGraph 4 0, [], []⟩
    (by decide) (by decide) (by decide) (sortsBy_degSort _) (bfsFinal_of_run (by decide))
  ⟨h.1, h.2.1, h.2.2.1, h.2.2.2 (reachable_of_run kiteGraph 4 0 (by decide) (by decide)) 2
    (by decide) (by decide)⟩

/-- C14, as amended (bound on the write cursors). On every non-empty graph of fewer than
`DIST_INFINITY` nodes, after any schedule of the distance assignment, `placeFn::go` seeds
the vectors and, in every state the workers reach from the seeded state, whatever their
number and however their steps interleave (so after every publication
`write_offset[n+1].data = t_wo` of any worker),
`write_offset[n] <= read_offset[n] + level_count[n]` for every level `n` in
`0..max_dist`. When every node is reachable from the source, for every number `tot >= 1`
of workers with `max_dist + tot < 2^32`, in every state the workers reach,
`write_offset[n] == read_offset[n] + level_count[n]` as soon as every node of level
`n - 1` is in a slot of that level which the worker that owns the level has consumed (no
condition for `n = 0`). -/
theorem write_offset_bound (G : Graph) (srt : List Nat → List Nat) (source : Nat)
    (s : BfsState) (hwf : WF G) (hs : source < G.length) (hsize : G.length < DIST_INFINITY)
    (hsrt : SortsBy (sortDegFn G) srt) (hbfs : BfsFinal G source s) :
    (∃ s0, placeSeed (count_levels_go G s.data) source s.data (permInit G) = .ok s0) ∧
    (∀ tot c, GoReach G srt tot source s.data (permInit G) c →
      ∀ n, n ≤ (count_levels_go G s.data).max_dist →
        c.mem.write_offset.getD n 0 ≤
          (count_levels_go G s.data).read_offset.getD n 0 +
            (count_levels_go G s.data).level_count.getD n 0) ∧
    ((∀ v, v < G.length → Reachable G source v) →
      ∀ tot, 0 < tot → (count_levels_go G s.data).max_dist + tot < UINT_MOD →
        ∀ c, GoReach G srt tot source s.data (permInit G) c →
          ∀ n, n ≤ (count_levels_go G s.data).max_dist →
            (∀ v, v < G.length → (s.data v).dist + 1 = n →
              ∃ pc i, c.pcs[(n - 1) % tot]? = some pc ∧
                (count_levels_go G s.data).read_offset.getD (n - 1) 0 ≤ i ∧
                i < levelCursor (count_levels_go G s.data) (n - 1) pc ∧
                c.mem.perm[i]? = some v) →
            c.mem.write_offset.getD n 0 =
              (count_levels_go G s.data).read_offset.getD n 0 +
                (count_levels_go G s.data).level_count.getD n 0) := by
  have hpost := bfsPost_of_final hbfs
  have hN : G.length < UINT_MOD := by
    rw [dist_infinity_val] at hsize; rw [uint_mod_val]; omega
  have hT : TablesOk G s.data (count_levels_go G s.data) :=
    tablesOk_go (by omega) hN hpost.le_inf
  refine ⟨⟨_, placeSeed_ok (by rw [length_permInit]; omega)
    (by rw [hT.write_offset, hT.read_offset_len]; omega)⟩, ?_, ?_⟩
  · intro tot c hc n hn
    have hinv := go_gen hwf hs hsize (fun l => (hsrt l).1) hbfs hc
    rw [tables_getD hT (by omega), hT.level_count n]
    exact genInv_bound hs hpost.src hinv hn
  · intro hreach tot htot hM c hc n hn hcons
    obtain ⟨p, hplaced, _, _, _, hseed, hctx⟩ := go_ctx hwf hs hsize hsrt hreach hbfs
    have hinv := go_inv hctx hseed htot hM hc
    have h := par_consumed hctx hplaced htot hinv hn hcons
    rw [tables_getD hT (by omega), hT.level_count n, List.getD_eq_getElem?_getD, h,
      cntLt_succ]
    rfl

theorem write_offset_bound_witness :
    (∃ s0, placeSeed (count_levels_go kiteGraph (bfsResult kiteGraph 4 0)) 0
      (bfsResult kiteGraph 4 0) (permInit kiteGraph) = .ok s0) ∧
    (∀ tot c, GoReach kiteGraph (degSort kiteGraph) tot 0 (bfsResult kiteGraph 4 0)
        (permInit kiteGraph) c →
      ∀ n, n ≤ (count_levels_go kiteGraph (bfsResult kiteGraph 4 0)).max_dist →
        c.mem.write_offset.getD n 0 ≤
          (count_levels_go kiteGraph (bfsResult kiteGraph 4 0)).read_offset.getD n 0 +
            (count_levels_go kiteGraph (bfsResult kiteGraph 4 0)).level_count.getD n 0) ∧
    (∀ c, GoReach kiteGraph (degSort kiteGraph) 2 0 (bfsResult kiteGraph 4 0)
        (permInit kiteGraph) c →
      ∀ n, n ≤ (count_levels_go kiteGraph (bfsResult kiteGraph 4 0)).max_dist →
        (∀ v, v < kiteGraph.length → (bfsResult kiteGraph 4 0 v).dist + 1 = n →
          ∃ pc i, c.pcs[(n - 1) % 2]? = some pc ∧
            (count_levels_go kiteGraph
              (bfsResult kiteGraph 4 0)).read_offset.getD (n - 1) 0 ≤ i ∧
            i < levelCursor (count_levels_go kiteGraph (bfsResult kiteGraph 4 0))
              (n - 1) pc ∧
            c.mem.perm[i]? = some v) →
        c.mem.write_offset.getD n 0 =
          (count_levels_go kiteGraph (bfsResult kiteGraph 4 0)).read_offset.getD n 0 +
            (count_levels_go kiteGraph (bfsResult kiteGraph 4 0)).level_count.getD n 0) :=
  have h := write_offset_bound kiteGraph (degSort kiteGraph) 0
    ⟨bfsResult kiteGraph 4 0, [], []⟩
    (by decide) (by decide) (by decide) (sortsBy_degSort _) (bfsFinal_of_run (by decide))
  ⟨h.1, h.2.1, h.2.2 (reachable_of_run kiteGraph 4 0 (by decide) (by decide)) 2
    (by decide) (by decide)⟩

/-! ## Batches, marks and the classical order, for every number of workers -/

theorem goEnds_inter {G : Graph} {srt : List Nat → List Nat} {tot source : Nat}
    {data : NodeData} {perm : List Nat} {P Q : PlaceState → Prop}
    (h : GoEnds G srt tot source data perm P) (hQ : GoEnds G srt tot source data perm Q) :
    GoEnds G srt tot source data perm (fun m => P m ∧ Q m) :=
  ⟨h.1, h.2.1, fun c hc hf => ⟨h.2.2 c hc hf, hQ.2.2 c hc hf⟩⟩

/-- The call `std::sort(&perm[t_worig], &perm[t_wo], sortDegFn())` leaves the slice
`perm[t_worig .. t_wo)` in non-decreasing order of the number of outgoing edges, with the
same nodes, and leaves the other slots alone. -/
theorem sort_step_sorted {G : Graph} {srt : List Nat → List Nat}
    (hsrt : SortsBy (sortDegFn G) srt) {perm : List Nat} {a b : Nat} (hab : a ≤ b)
    (hb : b ≤ perm.length) :
    (slots (sortSlice srt perm a b) a b).Pairwise
        (fun x y => (edges G x).length ≤ (edges G y).length) ∧
      (slots (sortSlice srt perm a b) a b).Perm (slots perm a b) ∧
      ∀ j, j < a ∨ b ≤ j → (sortSlice srt perm a b)[j]? = perm[j]? := by
  have hp : ∀ l, (srt l).Perm l := fun l => (hsrt l).1
  have e : slots (sortSlice srt perm a b) a b = srt (slots perm a b) :=
    sortSlice_drop_take hp hab hb
  refine ⟨?_, ?_, ?_⟩
  · rw [e]
    refine List.Pairwise.imp ?_ (hsrt _).2
    intro x y hxy
    simpa [sortDegFn] using hxy
  · rw [e]
    exact hp _
  · rintro j (hj | hj)
    · exact sortSlice_getElem?_lt (by omega) hj
    · exact sortSlice_getElem?_ge hp hab hb hj

/-- C5 (degree tie-break within a batch). For every `std::sort` within its contract, on
every non-empty graph of fewer than `DIST_INFINITY` nodes: (1) whatever the number of
workers and however their steps interleave, when a worker that has finished the neighbour
loop of the node `perm[start]` calls `std::sort`, the step returns and leaves the slice
`perm[t_worig .. t_wo)` it appended in non-decreasing order of the number of outgoing
edges, with the nodes it held, the other slots of `perm` unchanged; (2) when every node
is reachable, for every number `tot >= 1` of workers with `max_dist + tot < 2^32`, the
placement ends and the finished `perm` is cut into such batches, the batch of slot `i`
holding exactly the nodes first reached from `perm[i]`; (3) hence of two nodes `x`, `y`
first reached from the same `perm[i]`, the one with fewer outgoing edges comes first. -/
theorem degree_tie_break (G : Graph) (srt : List Nat → List Nat) (source : Nat)
    (s : BfsState) (hwf : WF G) (hs : source < G.length) (hsize : G.length < DIST_INFINITY)
    (hsrt : SortsBy (sortDegFn G) srt) (hbfs : BfsFinal G source s) :
    (∀ tot c, GoReach G srt tot source s.data (permInit G) c →
      ∀ n cend l tw, WPc.scan n cend l tw [] ∈ c.pcs →
        ∃ S, workerStep G srt (count_levels_go G s.data) tot (.scan n cend l tw [], c.mem) =
            .ok (.sorted n cend l, S) ∧
          (slots S.perm tw l.t_wo).Pairwise
            (fun x y => (edges G x).length ≤ (edges G y).length) ∧
          (slots S.perm tw l.t_wo).Perm (slots c.mem.perm tw l.t_wo) ∧
          ∀ j, j < tw ∨ l.t_wo ≤ j → S.perm[j]? = c.mem.perm[j]?) ∧
    ((∀ v, v < G.length → Reachable G source v) →
      ∀ tot, 0 < tot → (count_levels_go G s.data).max_dist + tot < UINT_MOD →
        GoEnds G srt tot source s.data (permInit G) (fun m =>
          (∃ cut, Cuts G G.length cut m.perm ∧ cut G.length = G.length) ∧
          (∀ (i b x y jx jy : Nat), m.perm[i]? = some b → x ∈ edges G b → y ∈ edges G b →
            (∀ i' b', i' < i → m.perm[i']? = some b' → x ∉ edges G b' ∧ y ∉ edges G b') →
            0 < jx → m.perm[jx]? = some x → m.perm[jy]? = some y →
            (edges G y).length < (edges G x).length → jy < jx))) := by
  refine ⟨?_, ?_⟩
  · intro tot c hc n cend l tw hmem
    have hinv := go_gen hwf hs hsize (fun l => (hsrt l).1) hbfs hc
    have hloc := hinv.locals _ hmem
    simp only [LocalOk] at hloc
    obtain ⟨_, _, h3, h4, _⟩ := hloc
    have h5 := doneCnt_le (G := G) hinv.dist_eq (n + 1)
    have h6 := cntLt_succ G s.data (n + 1)
    have h7 := cntLt_le G s.data (n + 1 + 1)
    have hb : l.t_wo ≤ c.mem.perm.length := by rw [hinv.perm_len]; omega
    exact ⟨_, workerStep_sort, sort_step_sorted hsrt h3 hb⟩
  · intro hreach tot htot hM
    obtain ⟨p, hplaced, _, _, _, hends⟩ :=
      go_placed hwf hs hsize hsrt hreach hbfs htot hM
    refine goEnds_mono hends ?_
    rintro m ⟨hperm, _, _⟩
    rw [hperm]
    refine ⟨hplaced.cuts, ?_⟩
    intro i b x y jx jy hib hx hy hfirst hjx0 hjx hjy hdeg
    exact placed_tie_break hplaced hib hx hy hfirst hjx0 hjx hjy hdeg

/-- In `degreeGraph` the source has the neighbours `1` (five edges) and `2` (two edges):
with two workers every interleaving ends with node `2` before node `1`. -/
theorem degree_tie_break_witness :
    GoEnds degreeGraph (degSort degreeGraph) 2 0 (bfsResult degreeGraph 7 0)
      (permInit degreeGraph)
      (fun m => ∃ jx jy : Nat, m.perm[jx]? = some 1 ∧ m.perm[jy]? = some 2 ∧ jy < jx) := by
  have hwf : WF degreeGraph := by decide
  have hrun : (bfsFn_go degreeGraph 7 0).isSome = true := by decide
  have hbfs := bfsFinal_of_run hrun
  have hreach := reachable_of_run degreeGraph 7 0 hrun (by decide)
  have htie := (degree_tie_break degreeGraph (degSort degreeGraph) 0
    ⟨bfsResult degreeGraph 7 0, [], []⟩ hwf (by decide) (by decide) (sortsBy_degSort _)
    hbfs).2 hreach 2 (by decide) (by decide)
  obtain ⟨p, hplaced, hL, _, _, hends⟩ :=
    go_placed (s := ⟨bfsResult degreeGraph 7 0, [], []⟩) hwf (by decide : 0 < degreeGraph.length)
      (by decide) (sortsBy_degSort degreeGraph) hreach hbfs (by decide : 0 < 2) (by decide)
  refine goEnds_mono (goEnds_inter htie hends) ?_
  rintro m ⟨⟨_, htb⟩, hperm, _, _⟩
  have hfirst : m.perm[0]? = some 0 := by rw [hperm]; exact placed_first hL hplaced
  obtain ⟨jx, hjx⟩ := getElem?_of_mem ((hplaced.mem 1).mpr (by decide))
  obtain ⟨jy, hjy⟩ := getElem?_of_mem ((hplaced.mem 2).mpr (by decide))
  rw [← hperm] at hjx hjy
  have hjx0 : 0 < jx := by
    rcases Nat.eq_zero_or_pos jx with h | h
    · subst h
      rw [hfirst] at hjx
      cases hjx
    · exact h
  exact ⟨jx, jy, hjx, hjy,
    htb 0 0 1 2 jx jy hfirst (by decide) (by decide) (fun i' b' h _ => absurd h (by omega))
      hjx0 hjx hjy (by decide)⟩

/-- C21, as amended (the `done` flag and the placement). On a non-empty graph all of
whose nodes are reachable from the source, for every number `tot >= 1` of workers with
`max_dist + tot < 2^32` and every interleaving of their steps: the placement ends, the
finished `perm` holds every node, and a node is marked `done` exactly when it is not the
source; the source sits in `perm` (slot `0`, written by `placeFn::go`) with its flag still
`false`. In every state the workers reach, a node other than the source is marked exactly
when it is in a written slot. No step of a worker clears a flag, and a step that changes a
flag is a pass of the neighbour loop that sets the flag of one node, which was `false`,
and writes that node to a slot of `perm` in the same step. -/
theorem visited_tracks_placement (G : Graph) (srt : List Nat → List Nat) (source tot : Nat)
    (s : BfsState) (hwf : WF G) (hs : source < G.length) (hsize : G.length < DIST_INFINITY)
    (hsrt : SortsBy (sortDegFn G) srt)
    (hreach : ∀ v, v < G.length → Reachable G source v)
    (hbfs : BfsFinal G source s) (htot : 0 < tot)
    (hM : (count_levels_go G s.data).max_dist + tot < UINT_MOD) :
    GoEnds G srt tot source s.data (permInit G) (fun m =>
      (∀ v, v < G.length → v ∈ m.perm) ∧
      (∀ v, v < G.length → ((m.data v).done = true ↔ v ≠ source)) ∧
      m.perm[0]? = some source ∧ (m.data source).done = false) ∧
    (∀ c, GoReach G srt tot source s.data (permInit G) c →
      ∀ v, v < G.length →
        ((c.mem.data v).done = true ↔
          v ≠ source ∧
            ∃ j, ParWritten (count_levels_go G s.data) c j ∧ c.mem.perm[j]? = some v)) ∧
    (∀ c c', ParStep G srt (count_levels_go G s.data) tot c c' →
      (∀ v, (c.mem.data v).done = true → (c'.mem.data v).done = true) ∧
      ((∀ v, (c'.mem.data v).done = (c.mem.data v).done) ∨
        ∃ dst t, (c.mem.data dst).done = false ∧ (c'.mem.data dst).done = true ∧
          t < c.mem.perm.length ∧ c'.mem.perm = c.mem.perm.set t dst ∧
          ∀ v, v ≠ dst → (c'.mem.data v).done = (c.mem.data v).done)) := by
  obtain ⟨p, hplaced, hL, _, _, hseed, hctx⟩ := go_ctx hwf hs hsize hsrt hreach hbfs
  refine ⟨goEnds_mono (go_ends hctx hseed htot hM) ?_, ?_, ?_⟩
  · rintro m ⟨hperm, _, hdone⟩
    rw [hperm]
    refine ⟨fun v hv => (hplaced.mem v).mpr hv, ?_, placed_first hL hplaced, ?_⟩
    · intro v hv
      rw [hdone v hv]
      constructor
      · intro hd hvs
        rw [hvs, hplaced.unmarked] at hd
        cases hd
      · exact hplaced.marked v hv
    · rw [hdone source hs]
      exact hplaced.unmarked
  · intro c hc v hv
    exact par_done_iff hctx htot (go_inv hctx hseed htot hM hc) hv
  · intro c c' hstep
    cases hstep with
    | step me pc pc1 S1 hpc hw =>
      simp only
      rcases workerStep_data hw with h | ⟨n, cend, l, tw, dst, rest, _, h1, _, h3, h5⟩
      · rw [h]
        exact ⟨fun _ h => h, Or.inl fun _ => rfl⟩
      · subst h5
        refine ⟨?_, Or.inr ⟨dst, l.t_wo, h1, ?_, h3, rfl, ?_⟩⟩
        · intro v hv
          simp only [setDone]
          by_cases hvd : v = dst
          · rw [if_pos hvd]
          · rw [if_neg hvd]; exact hv
        · simp [setDone]
        · intro v hv
          simp [setDone, hv]

theorem visited_tracks_placement_witness :
    GoEnds kiteGraph (degSort kiteGraph) 2 0 (bfsResult kiteGraph 4 0) (permInit kiteGraph)
      (fun m =>
        (∀ v, v < kiteGraph.length → v ∈ m.perm) ∧
        (∀ v, v < kiteGraph.length → ((m.data v).done = true ↔ v ≠ 0)) ∧
        m.perm[0]? = some 0 ∧ (m.data 0).done = false) ∧
    (∀ c, GoReach kiteGraph (degSort kiteGraph) 2 0 (bfsResult kiteGraph 4 0)
        (permInit kiteGraph) c →
      ∀ v, v < kiteGraph.length →
        ((c.mem.data v).done = true ↔
          v ≠ 0 ∧
            ∃ j, ParWritten (count_levels_go kiteGraph (bfsResult kiteGraph 4 0)) c j ∧
              c.mem.perm[j]? = some v)) ∧
    (∀ c c', ParStep kiteGraph (degSort kiteGraph)
        (count_levels_go kiteGraph (bfsResult kiteGraph 4 0)) 2 c c' →
      (∀ v, (c.mem.data v).done = true → (c'.mem.data v).done = true) ∧
      ((∀ v, (c'.mem.data v).done = (c.mem.data v).done) ∨
        ∃ dst t, (c.mem.data dst).done = false ∧ (c'.mem.data dst).done = true ∧
          t < c.mem.perm.length ∧ c'.mem.perm = c.mem.perm.set t dst ∧
          ∀ v, v ≠ dst → (c'.mem.data v).done = (c.mem.data v).done)) :=
  visited_tracks_placement kiteGraph (degSort kiteGraph) 0 2 ⟨bfsResult kiteGraph 4 0, [], []⟩
    (by decide) (by decide) (by decide) (sortsBy_degSort _)
    (reachable_of_run kiteGraph 4 0 (by decide) (by decide)) (bfsFinal_of_run (by decide))
    (by decide) (by decide)

/-- C22 (equivalence with sequential Cuthill-McKee). On a non-empty graph all of whose
nodes are reachable from the source, for every schedule of the distance assignment, every
sort function within the contract of `std::sort` with `sortDegFn`, used by both sides,
every number `tot >= 1` of workers with `max_dist + tot < 2^32` and every interleaving
of their steps: the placement ends and the finished `perm` is the order of the classical
single-queue algorithm. Whenever a worker in level `n` is about to test an adjacency
entry `dst` of the node it consumes at slot `start`, that node is the node the classical
algorithm takes at index `start`, and the test `!done && dist == n + 1` is true exactly
when `dst` is not yet visited by the classical algorithm at that point: it is neither
among the first `t_worig` nodes of the classical order (the output before this batch) nor
in the part of the batch appended so far. -/
theorem cuthill_mckee_refinement (G : Graph) (srt : List Nat → List Nat) (source tot : Nat)
    (s : BfsState) (hwf : WF G) (hs : source < G.length) (hsize : G.length < DIST_INFINITY)
    (hsrt : SortsBy (sortDegFn G) srt)
    (hreach : ∀ v, v < G.length → Reachable G source v)
    (hbfs : BfsFinal G source s) (htot : 0 < tot)
    (hM : (count_levels_go G s.data).max_dist + tot < UINT_MOD) :
    GoEnds G srt tot source s.data (permInit G)
      (fun m => m.perm = cuthillMcKee G srt source) ∧
    (∀ c, GoReach G srt tot source s.data (permInit G) c →
      ∀ (me n cend : Nat) (l : Locals) (tw dst : Nat) (rest : List Nat),
        c.pcs[me]? = some (.scan n cend l tw (dst :: rest)) →
        ∃ next, (cuthillMcKee G srt source)[l.start]? = some next ∧ dst ∈ edges G next ∧
          l.start < tw ∧
          (((c.mem.data dst).done = false ∧ (c.mem.data dst).dist = n + 1) ↔
            (dst ∉ (cuthillMcKee G srt source).take tw ∧
              dst ∉ slots c.mem.perm tw l.t_wo))) := by
  obtain ⟨p, hplaced, hL, _, hcm, hseed, hctx⟩ := go_ctx hwf hs hsize hsrt hreach hbfs
  refine ⟨goEnds_mono (go_ends hctx hseed htot hM) ?_, ?_⟩
  · rintro m ⟨hperm, _, _⟩
    rw [hperm, hcm]
  · intro c hc me n cend l tw dst rest hpc
    have hinv := go_inv hctx hseed htot hM hc
    have hown := hinv.owned me _ hpc
    simp only [Owned] at hown
    have hpc2 : c.pcs[n % tot]? = some (.scan n cend l tw (dst :: rest)) := by
      rw [hown.1]; exact hpc
    have hlev := hinv.levels n hown.2 _ hpc2
    simp only [stageOf, if_true] at hlev
    rw [← hcm]
    exact scan_filter hctx hinv.dist_eq hlev

/-- On `kiteGraph` with two workers every interleaving ends with the classical order
`[0, 2, 1, 3]`. -/
theorem cuthill_mckee_refinement_witness :
    GoEnds kiteGraph (degSort kiteGraph) 2 0 (bfsResult kiteGraph 4 0) (permInit kiteGraph)
      (fun m => m.perm = [0, 2, 1, 3]) := by
  have h := (cuthill_mckee_refinement kiteGraph (degSort kiteGraph) 0 2
    ⟨bfsResult kiteGraph 4 0, [], []⟩
    (by decide) (by decide) (by decide) (sortsBy_degSort _)
    (reachable_of_run kiteGraph 4 0 (by decide) (by decide)) (bfsFinal_of_run (by decide))
    (by decide) (by decide)).1
  refine goEnds_mono h ?_
  intro m hm
  rw [hm]
  exact cuthillMcKee_kite

/-- C23 (index safety of the placement phase), the call of `std::sort`. On a non-empty
graph all of whose nodes are reachable from the source, for every number `tot >= 1` of
workers with `max_dist + tot < 2^32` and every interleaving of their steps: the run
starts with no index past the end evaluated; every step of every worker returns, so every
indexed access to `read_offset`, `level_count`, `write_offset` and `perm` that the step
makes is inside its vector; but whenever a worker stands in the neighbour loop or at
`std::sort` in the last level `max_dist`, `t_worig` and `t_wo` both equal `perm.size()`,
and once all workers have returned the call
`std::sort(&perm[t_worig], &perm[t_wo], sortDegFn())` has evaluated `perm[i]` with
`i == perm.size()`. -/
theorem sort_index_past_end (G : Graph) (srt : List Nat → List Nat) (source tot : Nat)
    (s : BfsState) (hwf : WF G) (hs : source < G.length) (hsize : G.length < DIST_INFINITY)
    (hsrt : SortsBy (sortDegFn G) srt)
    (hreach : ∀ v, v < G.length → Reachable G source v)
    (hbfs : BfsFinal G source s) (htot : 0 < tot)
    (hM : (count_levels_go G s.data).max_dist + tot < UINT_MOD) :
    (∃ s0, placeSeed (count_levels_go G s.data) source s.data (permInit G) = .ok s0 ∧
      s0.past_end = false) ∧
    (∀ c, GoReach G srt tot source s.data (permInit G) c →
      ∀ (me cend : Nat) (l : Locals) (tw : Nat) (rest : List Nat),
        c.pcs[me]? = some (.scan (count_levels_go G s.data).max_dist cend l tw rest) →
        tw = c.mem.perm.length ∧ l.t_wo = c.mem.perm.length) ∧
    GoEnds G srt tot source s.data (permInit G) (fun m => m.past_end = true) := by
  obtain ⟨p, hplaced, hL, _, hcm, hseed, hctx⟩ := go_ctx hwf hs hsize hsrt hreach hbfs
  refine ⟨⟨_, hseed, rfl⟩, ?_, ?_⟩
  · intro c hc me cend l tw rest hpc
    exact last_sort_args hctx (go_inv hctx hseed htot hM hc) hpc
  · refine goEnds_mono (goEnds_and (go_ends hctx hseed htot hM) ?_) (fun m h => h.2)
    intro c hc hf
    exact pastDue_final hctx htot hM ((goReach_of_seed hseed).mp hc) hf

/-- The single node without edges, two workers: every interleaving ends, and ends with an
index past the end of `perm` evaluated. -/
theorem sort_index_past_end_witness :
    GoEnds singleNode (degSort singleNode) 2 0 (bfsResult singleNode 1 0)
      (permInit singleNode) (fun m => m.past_end = true) :=
  (sort_index_past_end singleNode (degSort singleNode) 0 2 ⟨bfsResult singleNode 1 0, [], []⟩
    (by decide) (by decide) (by decide) (sortsBy_degSort _)
    (reachable_of_run singleNode 1 0 (by decide) (by decide)) (bfsFinal_of_run (by decide))
    (by decide) (by decide)).2.2

/-! ## A node out of reach: the workers never all return -/

section hang

variable {G : Graph} {srt : List Nat → List Nat} {T : Tables} {tot : Nat}

/-- A step of a worker changes `write_offset` only in the publication, at the index
`n + 1`. -/
theorem workerStep_wo {pc pc' : WPc} {S S' : PlaceState}
    (h : workerStep G srt T tot (pc, S) = .ok (pc', S')) :
    S'.write_offset = S.write_offset ∨
      ∃ n cend l, pc = .sorted n cend l ∧
        S'.write_offset = S.write_offset.set (wrap (n + 1)) l.t_wo := by
  cases pc with
  | level n =>
    left
    by_cases hlt : n < wrap (T.max_dist + 1)
    · rw [workerStep_level hlt] at h
      obtain ⟨_, _, h⟩ := bind_eq_ok h
      obtain ⟨_, _, h⟩ := bind_eq_ok h
      obtain ⟨_, _, h⟩ := bind_eq_ok h
      simp only [pure, Except.pure, Except.ok.injEq, Prod.mk.injEq] at h
      rw [← h.2]
    · rw [workerStep_level_exit hlt] at h
      simp only [Except.ok.injEq, Prod.mk.injEq] at h
      rw [← h.2]
  | todo n l =>
    left
    by_cases hd : l.todo = 0
    · rw [workerStep_todo_done hd] at h
      simp only [Except.ok.injEq, Prod.mk.injEq] at h
      rw [← h.2]
    · rw [workerStep_todo hd] at h
      obtain ⟨cend, _, h⟩ := bind_eq_ok h
      by_cases hsp : l.start = cend
      · rw [if_pos hsp] at h
        simp only [pure, Except.pure, Except.ok.injEq, Prod.mk.injEq] at h
        rw [← h.2]
      · rw [if_neg hsp] at h
        simp only [pure, Except.pure, Except.ok.injEq, Prod.mk.injEq] at h
        rw [← h.2]
  | inner n cend l =>
    left
    by_cases hd : l.start = cend
    · rw [workerStep_inner_done hd] at h
      simp only [Except.ok.injEq, Prod.mk.injEq] at h
      rw [← h.2]
    · rw [workerStep_inner hd] at h
      obtain ⟨_, _, h⟩ := bind_eq_ok h
      simp only [pure, Except.pure, Except.ok.injEq, Prod.mk.injEq] at h
      rw [← h.2]
  | scan n cend l tw rest =>
    left
    cases rest with
    | nil =>
      rw [workerStep_sort] at h
      simp only [Except.ok.injEq, Prod.mk.injEq] at h
      rw [← h.2]
    | cons dst rest =>
      rw [workerStep_scan] at h
      obtain ⟨⟨S1, t1⟩, hr, h⟩ := bind_eq_ok h
      simp only [pure, Except.pure, Except.ok.injEq, Prod.mk.injEq] at h
      obtain ⟨_, e2⟩ := h
      subst e2
      rcases scanEdge_cases hr with ⟨e1, _⟩ | ⟨_, _, _, _, f5⟩
      · rw [e1]
      · rw [f5]
  | sorted n cend l =>
    right
    rw [workerStep_publish] at h
    obtain ⟨wo, hwo, h⟩ := bind_eq_ok h
    simp only [pure, Except.pure, Except.ok.injEq, Prod.mk.injEq] at h
    obtain ⟨_, rfl⟩ := writeAt_ok hwo
    exact ⟨n, cend, l, rfl, by rw [← h.2]⟩
  | exit =>
    left
    rw [workerStep_exit] at h
    simp only [Except.ok.injEq, Prod.mk.injEq] at h
    rw [← h.2]

/-- What the step of a worker at `pc` keeps of `NoPublish` and `Stuck`, given the tables
around level `D`: nothing to do in level `D - 1`, something to do in level `D`, whose
first slot is `R`, and `D` the last level. -/
theorem hang_worker {D R : Nat} (hD : D + 1 < UINT_MOD) (hmax : T.max_dist = D)
    (hgap : ∀ n todo, n + 1 = D → readAt T.level_count n = .ok todo → todo = 0)
    (hpos : ∀ todo, readAt T.level_count D = .ok todo → todo ≠ 0)
    (hR : ∀ st, readAt T.read_offset D = .ok st → st = R)
    {pc pc' : WPc} {S S' : PlaceState} (hcur : S.write_offset[D]? = some R)
    (hnp : NoPublish D pc) (h : workerStep G srt T tot (pc, S) = .ok (pc', S')) :
    NoPublish D pc' ∧ (Stuck D R tot pc → Stuck D R tot pc') := by
  have hwM : wrap (T.max_dist + 1) = D + 1 := by rw [hmax]; exact wrap_of_lt hD
  cases pc with
  | level n =>
    by_cases hlt : n < wrap (T.max_dist + 1)
    · rw [workerStep_level hlt] at h
      obtain ⟨st, hst, h⟩ := bind_eq_ok h
      obtain ⟨_, _, h⟩ := bind_eq_ok h
      obtain ⟨td, htd, h⟩ := bind_eq_ok h
      simp only [pure, Except.pure, Except.ok.injEq, Prod.mk.injEq] at h
      obtain ⟨e1, _⟩ := h
      subst e1
      rw [hwM] at hlt
      refine ⟨⟨by omega, fun hn => hgap n td hn htd⟩, ?_⟩
      rintro ⟨h1, h2⟩
      refine ⟨h2, ?_⟩
      by_cases hnD : n = D
      · right
        subst hnD
        exact ⟨rfl, hR _ hst, hpos _ htd⟩
      · left; omega
    · rw [workerStep_level_exit hlt] at h
      simp only [Except.ok.injEq, Prod.mk.injEq] at h
      obtain ⟨e1, _⟩ := h
      subst e1
      rw [hwM] at hlt
      refine ⟨trivial, ?_⟩
      rintro ⟨h1, _⟩
      omega
  | todo n l =>
    simp only [NoPublish] at hnp
    by_cases hd : l.todo = 0
    · rw [workerStep_todo_done hd] at h
      simp only [Except.ok.injEq, Prod.mk.injEq] at h
      obtain ⟨e1, _⟩ := h
      subst e1
      refine ⟨trivial, ?_⟩
      rintro ⟨h1, h2⟩
      rcases h2 with h2 | ⟨_, _, h3⟩
      · have hle : n + tot ≤ D := by
          by_contra hcon
          have := (@mod_class tot D n h1.symm (by omega)).mpr
            (by omega)
          omega
        simp only [Stuck]
        rw [wrap_of_lt (by omega)]
        exact ⟨hle, by rw [Nat.add_mod_right]; exact h1⟩
      · exact absurd hd h3
    · rw [workerStep_todo hd] at h
      obtain ⟨cend, hce, h⟩ := bind_eq_ok h
      by_cases hsp : l.start = cend
      · rw [if_pos hsp] at h
        simp only [pure, Except.pure, Except.ok.injEq, Prod.mk.injEq] at h
        obtain ⟨e1, _⟩ := h
        subst e1
        exact ⟨hnp, id⟩
      · rw [if_neg hsp] at h
        simp only [pure, Except.pure, Except.ok.injEq, Prod.mk.injEq] at h
        obtain ⟨e1, e2⟩ := h
        subst e1
        refine ⟨⟨hnp.1, fun hn => hd (hnp.2 hn)⟩, ?_⟩
        rintro ⟨h1, h2⟩
        rcases h2 with h2 | ⟨h2, h3, _⟩
        · exact ⟨h1, h2⟩
        · exfalso
          subst h2
          have := readAt_ok hce
          rw [hcur] at this
          have := Option.some.inj this
          omega
  | inner n cend l =>
    simp only [NoPublish] at hnp
    by_cases hd : l.start = cend
    · rw [workerStep_inner_done hd] at h
      simp only [Except.ok.injEq, Prod.mk.injEq] at h
      obtain ⟨e1, _⟩ := h
      subst e1
      refine ⟨⟨hnp.1, fun hn => absurd hn hnp.2⟩, ?_⟩
      rintro ⟨h1, h2⟩
      exact ⟨h1, Or.inl h2⟩
    · rw [workerStep_inner hd] at h
      obtain ⟨_, _, h⟩ := bind_eq_ok h
      simp only [pure, Except.pure, Except.ok.injEq, Prod.mk.injEq] at h
      obtain ⟨e1, _⟩ := h
      subst e1
      exact ⟨hnp, id⟩
  | scan n cend l tw rest =>
    cases rest with
    | nil =>
      rw [workerStep_sort] at h
      simp only [Except.ok.injEq, Prod.mk.injEq] at h
      obtain ⟨e1, _⟩ := h
      subst e1
      exact ⟨hnp, id⟩
    | cons dst rest =>
      rw [workerStep_scan] at h
      obtain ⟨_, _, h⟩ := bind_eq_ok h
      simp only [pure, Except.pure, Except.ok.injEq, Prod.mk.injEq] at h
      obtain ⟨e1, _⟩ := h
      subst e1
      exact ⟨hnp, id⟩
  | sorted n cend l =>
    rw [workerStep_publish] at h
    obtain ⟨_, _, h⟩ := bind_eq_ok h
    simp only [pure, Except.pure, Except.ok.injEq, Prod.mk.injEq] at h
    obtain ⟨e1, _⟩ := h
    subst e1
    exact ⟨hnp, id⟩
  | exit =>
    rw [workerStep_exit] at h
    simp only [Except.ok.injEq, Prod.mk.injEq] at h
    obtain ⟨e1, _⟩ := h
    subst e1
    exact ⟨trivial, id⟩

theorem hang_step {D R : Nat} (hD : D + 1 < UINT_MOD) (hmax : T.max_dist = D)
    (hgap : ∀ n todo, n + 1 = D → readAt T.level_count n = .ok todo → todo = 0)
    (hpos : ∀ todo, readAt T.level_count D = .ok todo → todo ≠ 0)
    (hR : ∀ st, readAt T.read_offset D = .ok st → st = R)
    {c c' : ParState} (hinv : HangAt D R tot c) (hstep : ParStep G srt T tot c c') :
    HangAt D R tot c' := by
  cases hstep with
  | step me pc pc1 S1 hpc hw =>
    have hmem : pc ∈ c.pcs := by
      have hlt : me < c.pcs.length := by
        by_contra hcon
        rw [List.getElem?_eq_none (by omega)] at hpc
        cases hpc
      rw [List.getElem?_eq_getElem hlt] at hpc
      cases hpc
      exact List.getElem_mem _
    have hboth := hang_worker hD hmax hgap hpos hR hinv.cursor (hinv.nopub pc hmem) hw
    refine ⟨by simp only [List.length_set]; exact hinv.pcs_len, ?_, ?_, ?_⟩
    · simp only
      rcases workerStep_wo hw with h | ⟨n, cend, l, rfl, h⟩
      · rw [h]; exact hinv.cursor
      · rw [h]
        have hnp := hinv.nopub _ hmem
        simp only [NoPublish] at hnp
        rw [wrap_of_lt (by omega), List.getElem?_set_ne (by omega)]
        exact hinv.cursor
    · intro q hq
      simp only at hq
      rcases List.mem_or_eq_of_mem_set hq with h | h
      · exact hinv.nopub q h
      · rw [h]; exact hboth.1
    · intro q hq
      simp only at hq
      by_cases hme : me = D % tot
      · subst hme
        have hlt : D % tot < c.pcs.length := by
          by_contra hcon
          rw [List.getElem?_eq_none (by omega)] at hpc
          cases hpc
        rw [List.getElem?_set_self hlt] at hq
        cases hq
        exact hboth.2 (hinv.stuck pc hpc)
      · rw [List.getElem?_set_ne hme] at hq
        exact hinv.stuck q hq

/-- On a graph with a node that the source does not reach, whatever the number of
workers and however their steps interleave, the workers never all return from the
placement: the worker that owns level `DIST_INFINITY` waits for a publication that no
worker makes. -/
theorem go_hang {source : Nat} {s : BfsState}
    (hs : source < G.length) (hsize : G.length < DIST_INFINITY)
    (hbfs : BfsFinal G source s) {u : Nat} (hu : u < G.length)
    (hinf : (s.data u).dist = DIST_INFINITY) (htot : 0 < tot) :
    ¬ ∃ c, GoReach G srt tot source s.data (permInit G) c ∧ ParFinal c := by
  have hpost := bfsPost_of_final hbfs
  have hN : G.length < UINT_MOD := by
    rw [dist_infinity_val] at hsize; rw [uint_mod_val]; omega
  have hT : TablesOk G s.data (count_levels_go G s.data) :=
    tablesOk_go (by omega) hN hpost.le_inf
  have hmax : (count_levels_go G s.data).max_dist = DIST_INFINITY := by
    obtain ⟨v, hv, hvd⟩ := hT.max_at
    have h1 := hT.max_ge u hu
    have h2 := hpost.le_inf v
    omega
  have hgap : cntEq G s.data (DIST_INFINITY - 1) = 0 := by
    apply cntEq_eq_zero
    intro v hv hd
    have hfin : (s.data v).dist < DIST_INFINITY := by
      rw [hd, dist_infinity_val]; omega
    have := hpost.finite_lt_length hs hv hfin
    omega
  have hpos : 0 < cntEq G s.data DIST_INFINITY := by
    rw [← hinf]; exact cntEq_pos hu
  have hDv := dist_infinity_val
  have hUv := uint_mod_val
  have hcount : ∀ n todo, readAt (count_levels_go G s.data).level_count n = .ok todo →
      todo = cntEq G s.data n := by
    intro n todo h
    have h1 := readAt_ok h
    have h2 := hT.level_count n
    rw [List.getD_eq_getElem?_getD, h1] at h2
    exact h2
  have hseed : placeSeed (count_levels_go G s.data) source s.data (permInit G) =
      .ok { data := s.data, perm := (permInit G).set 0 source,
            write_offset := (count_levels_go G s.data).write_offset.set 0 1 } :=
    placeSeed_ok (by rw [length_permInit]; omega)
      (by rw [hT.write_offset, hT.read_offset_len]; omega)
  have hRD : (count_levels_go G s.data).read_offset[DIST_INFINITY]? =
      some (cntLt G s.data DIST_INFINITY) := hT.read_offset _ (by rw [hmax]; omega)
  have hstepinv : ∀ c c', HangAt DIST_INFINITY (cntLt G s.data DIST_INFINITY) tot c →
      ParStep G srt (count_levels_go G s.data) tot c c' →
      HangAt DIST_INFINITY (cntLt G s.data DIST_INFINITY) tot c' := by
    intro c c' hinv hstep
    refine hang_step (by omega) hmax ?_ ?_ ?_ hinv hstep
    · intro n todo hn h
      rw [hcount n todo h]
      have : n = DIST_INFINITY - 1 := by omega
      rw [this]; exact hgap
    · intro todo h
      rw [hcount _ todo h]
      omega
    · intro st h
      have := readAt_ok h
      rw [hRD] at this
      exact (Option.some.inj this).symm
  rintro ⟨c, hc, hf⟩
  have hr := (goReach_of_seed hseed).mp hc
  have hinit : HangAt DIST_INFINITY (cntLt G s.data DIST_INFINITY) tot
      (parInit tot
        { data := s.data, perm := (permInit G).set 0 source,
          write_offset := (count_levels_go G s.data).write_offset.set 0 1 }) := by
    refine ⟨by simp [parInit], ?_, ?_, ?_⟩
    · simp only [parInit]
      rw [List.getElem?_set_ne (by omega), hT.write_offset]
      exact hRD
    · intro pc hpc
      simp only [parInit, List.mem_map] at hpc
      obtain ⟨a, _, rfl⟩ := hpc
      trivial
    · intro pc hpc
      obtain ⟨_, rfl⟩ := parInit_pc hpc
      exact ⟨Nat.mod_le _ _, Nat.mod_mod _ _⟩
  have hfinal : HangAt DIST_INFINITY (cntLt G s.data DIST_INFINITY) tot c := by
    clear hf hc
    induction hr with
    | refl => exact hinit
    | tail _ hstep ih => exact hstepinv _ _ ih hstep
  have hlt : DIST_INFINITY % tot < c.pcs.length := by
    rw [hfinal.pcs_len]; exact Nat.mod_lt _ htot
  have hpc := List.getElem?_eq_getElem hlt
  have hex : c.pcs[DIST_INFINITY % tot] = .exit := hf _ (List.getElem_mem _)
  have := hfinal.stuck _ hpc
  rw [hex] at this
  exact this

end hang

/-! ## Where the claims as stated fail -/

/-- C7 as stated fails on two disjoint triangles with the source in the first: `main` sizes
`perm` to six slots, and `perm` has six slots in every state the workers reach, whatever
their number; node `3` is out of reach; and the run never returns — the worker that owns
level `DIST_INFINITY` waits, alone (`main`) as with any number of workers — so no
permutation of length three is produced. -/
theorem perm_covers_nodes_counterexample :
    (permInit twoTriangles).length = 6 ∧ ¬ Reachable twoTriangles 0 3 ∧
    (¬ ∃ fuel p, main twoTriangles (degSort twoTriangles) fuel = .ok p) ∧
    (∀ tot c, GoReach twoTriangles (degSort twoTriangles) tot 0 (bfsResult twoTriangles 6 0)
        (permInit twoTriangles) c → c.mem.perm.length = 6) ∧
    ∀ tot, 0 < tot →
      ¬ ∃ c, GoReach twoTriangles (degSort twoTriangles) tot 0 (bfsResult twoTriangles 6 0)
        (permInit twoTriangles) c ∧ ParFinal c := by
  have hrun : (bfsFn_go twoTriangles 6 0).isSome = true := by decide
  have hbfs := bfsFinal_of_run hrun
  have hinf := infinite_of_run twoTriangles 6 0 3
    (by decide) (by decide) (by decide) hrun (by decide)
  refine ⟨by decide, hinf.1,
    main_hang (by decide) (by decide) (sortsBy_degSort _) (u := 3) (by decide) hinf.2, ?_, ?_⟩
  · intro tot c hc
    exact (go_gen (s := ⟨bfsResult twoTriangles 6 0, [], []⟩) (by decide) (by decide)
      (by decide) (fun l => (sortsBy_degSort twoTriangles l).1) hbfs hc).perm_len
  · intro tot htot
    exact go_hang (s := ⟨bfsResult twoTriangles 6 0, [], []⟩) (u := 3) (by decide)
      (by decide) hbfs (by decide) (by decide) htot

/-- C10 as stated fails on two isolated nodes with source `0`: the source has no outgoing
edge, yet the run never returns (node `1` is out of reach and the worker that owns level
`DIST_INFINITY` waits, alone as with any number of workers), so no permutation `[source]`
is produced. -/
theorem isolated_source_counterexample :
    edges twoIsolated 0 = [] ∧
    (¬ ∃ fuel p, main twoIsolated (degSort twoIsolated) fuel = .ok p) ∧
    ∀ tot, 0 < tot →
      ¬ ∃ c, GoReach twoIsolated (degSort twoIsolated) tot 0 (bfsResult twoIsolated 2 0)
        (permInit twoIsolated) c ∧ ParFinal c := by
  have hrun : (bfsFn_go twoIsolated 2 0).isSome = true := by decide
  have hbfs := bfsFinal_of_run hrun
  have hinf := infinite_of_run twoIsolated 2 0 1
    (by decide) (by decide) (by decide) hrun (by decide)
  refine ⟨by decide,
    main_hang (by decide) (by decide) (sortsBy_degSort _) (u := 1) (by decide) hinf.2, ?_⟩
  intro tot htot
  exact go_hang (s := ⟨bfsResult twoIsolated 2 0, [], []⟩) (u := 1) (by decide)
    (by decide) hbfs (by decide) (by decide) htot

/-- C14 as stated fails on two isolated nodes with source `0`: node `1` is out of reach and
counted at level `DIST_INFINITY`, which is at most `max_dist`. In the seeded state, from
which the workers start whatever their number, no node has `dist == DIST_INFINITY - 1`,
so every node of that level has been consumed, yet `write_offset[DIST_INFINITY]` is `1`
and `read_offset[DIST_INFINITY] + level_count[DIST_INFINITY]` is `2`. -/
theorem write_offset_counterexample :
    ¬ Reachable twoIsolated 0 1 ∧
    ∃ s0, placeSeed (count_levels_go twoIsolated (bfsResult twoIsolated 2 0)) 0
        (bfsResult twoIsolated 2 0) (permInit twoIsolated) = .ok s0 ∧
      PlaceReach twoIsolated (degSort twoIsolated)
        (count_levels_go twoIsolated (bfsResult twoIsolated 2 0)) 1
        (.level 0, s0) (.level 0, s0) ∧
      DIST_INFINITY ≤ (count_levels_go twoIsolated (bfsResult twoIsolated 2 0)).max_dist ∧
      (∀ v, v < twoIsolated.length →
        (bfsResult twoIsolated 2 0 v).dist + 1 = DIST_INFINITY →
        ∃ i, i < cursor (count_levels_go twoIsolated (bfsResult twoIsolated 2 0)) (.level 0) ∧
          s0.perm[i]? = some v) ∧
      s0.write_offset.getD DIST_INFINITY 0 = 1 ∧
      (count_levels_go twoIsolated (bfsResult twoIsolated 2 0)).read_offset.getD
          DIST_INFINITY 0 +
        (count_levels_go twoIsolated (bfsResult twoIsolated 2 0)).level_count.getD
          DIST_INFINITY 0 = 2 ∧
      ∀ tot, GoReach twoIsolated (degSort twoIsolated) tot 0 (bfsResult twoIsolated 2 0)
          (permInit twoIsolated) (parInit tot s0) ∧
        (∀ v, v < twoIsolated.length →
          (bfsResult twoIsolated 2 0 v).dist + 1 = DIST_INFINITY →
          ∃ pc i, (parInit tot s0).pcs[(DIST_INFINITY - 1) % tot]? = some pc ∧
            (count_levels_go twoIsolated (bfsResult twoIsolated 2 0)).read_offset.getD
              (DIST_INFINITY - 1) 0 ≤ i ∧
            i < levelCursor (count_levels_go twoIsolated (bfsResult twoIsolated 2 0))
              (DIST_INFINITY - 1) pc ∧
            (parInit tot s0).mem.perm[i]? = some v) ∧
        (parInit tot s0).mem.write_offset.getD DIST_INFINITY 0 = 1 := by
  have hrun : (bfsFn_go twoIsolated 2 0).isSome = true := by decide
  have hinf := infinite_of_run twoIsolated 2 0 1
    (by decide) (by decide) (by decide) hrun (by decide)
  have hpost := bfsPost_of_final (bfsFinal_of_run hrun)
  have hT : TablesOk twoIsolated (bfsResult twoIsolated 2 0)
      (count_levels_go twoIsolated (bfsResult twoIsolated 2 0)) :=
    tablesOk_go (by decide) (by decide) hpost.le_inf
  have hd0 : (bfsResult twoIsolated 2 0 0).dist = 0 := by decide
  have hd1 : (bfsResult twoIsolated 2 0 1).dist = DIST_INFINITY := by decide
  have hmax : DIST_INFINITY ≤
      (count_levels_go twoIsolated (bfsResult twoIsolated 2 0)).max_dist := by
    have h1 := hT.max_ge 1 (by decide)
    rw [hd1] at h1
    exact h1
  have hlt : cntLt twoIsolated (bfsResult twoIsolated 2 0) DIST_INFINITY = 1 := by decide
  have heq : cntEq twoIsolated (bfsResult twoIsolated 2 0) DIST_INFINITY = 1 := by decide
  have hseed : placeSeed (count_levels_go twoIsolated (bfsResult twoIsolated 2 0)) 0
      (bfsResult twoIsolated 2 0) (permInit twoIsolated) =
      .ok { data := bfsResult twoIsolated 2 0, perm := (permInit twoIsolated).set 0 0,
            write_offset :=
              (count_levels_go twoIsolated (bfsResult twoIsolated 2 0)).write_offset.set 0 1 } :=
    placeSeed_ok (by decide) (by rw [hT.write_offset, hT.read_offset_len]; omega)
  have hnone : ∀ v, v < twoIsolated.length →
      (bfsResult twoIsolated 2 0 v).dist + 1 = DIST_INFINITY → False := by
    intro v hv hd
    have hv2 : v < 2 := hv
    rw [dist_infinity_val] at hd
    interval_cases v
    · rw [hd0] at hd; omega
    · rw [hd1, dist_infinity_val] at hd; omega
  have hwo : (List.set (count_levels_go twoIsolated (bfsResult twoIsolated 2 0)).write_offset
      0 1).getD DIST_INFINITY 0 = 1 := by
    rw [List.getD_eq_getElem?_getD,
      List.getElem?_set_ne (by rw [dist_infinity_val]; omega), hT.write_offset,
      hT.read_offset DIST_INFINITY (by omega), hlt]
    rfl
  refine ⟨hinf.1, _, hseed, placeReach_refl _, hmax, fun v hv hd => (hnone v hv hd).elim,
    hwo, ?_, ?_⟩
  · rw [tables_getD hT (by omega), hT.level_count, hlt, heq]
  · intro tot
    exact ⟨⟨_, hseed, parReach_refl _⟩, fun v hv hd => (hnone v hv hd).elim, hwo⟩

/-- C21 as stated fails for the source: on the graph `kiteGraph` with source `0` the
placement returns, run by one worker (`reorder`) or by two in any interleaving, node `0`
is in `perm` (slot `0`) and its `done` flag is `false`, as `initNode` left it. -/
theorem visited_flag_counterexample :
    (∃ p, reorder kiteGraph (degSort kiteGraph) 4 0 (bfsResult kiteGraph 4 0)
        (permInit kiteGraph) = .ok p ∧
      0 ∈ p.perm ∧ p.perm[0]? = some 0 ∧ (p.data 0).done = false ∧
      (initGraph kiteGraph 0).done = false) ∧
    GoEnds kiteGraph (degSort kiteGraph) 2 0 (bfsResult kiteGraph 4 0) (permInit kiteGraph)
      (fun m => 0 ∈ m.perm ∧ m.perm[0]? = some 0 ∧ (m.data 0).done = false) := by
  have hbfs : BfsFinal kiteGraph 0 ⟨bfsResult kiteGraph 4 0, [], []⟩ :=
    bfsFinal_of_run (by decide)
  have hreach := reachable_of_run kiteGraph 4 0 (by decide) (by decide)
  constructor
  · obtain ⟨p, hp, hplaced, hL⟩ :=
      reorder_placed (by decide : WF kiteGraph) (by decide : 0 < kiteGraph.length) (by decide)
        (sortsBy_degSort kiteGraph) hreach
        hbfs (by decide : kiteGraph.length ≤ 4) (length_permInit kiteGraph)
    exact ⟨p, hp, (hplaced.mem 0).mpr (by decide), placed_first hL hplaced, hplaced.unmarked,
      rfl⟩
  · obtain ⟨p, hplaced, hL, _, _, hends⟩ :=
      go_placed (s := ⟨bfsResult kiteGraph 4 0, [], []⟩) (by decide : WF kiteGraph)
        (by decide : 0 < kiteGraph.length) (by decide) (sortsBy_degSort kiteGraph) hreach
        hbfs (by decide : 0 < 2) (by decide)
    refine goEnds_mono hends ?_
    rintro m ⟨hperm, _, hdone⟩
    rw [hperm, hdone 0 (by decide)]
    exact ⟨(hplaced.mem 0).mpr (by decide), placed_first hL hplaced, hplaced.unmarked⟩

end Cuthill
